import Mathlib

/-!
Verification of the QuantumC arithmetic-circuit backend, quantum-safe
translator and constraint-enforcement pass.

The arithmetic backend (`q_arithmetics.py`, `q_arithmetics_controlled.py`)
builds Qiskit circuits out of X/CX/SWAP/MCX gates and QFT-sandwiched
(multi-)controlled phase rotations.  We embed circuits as explicit gate
lists.  A phase gate stores the exact fraction `angle / (2*pi)` as a
rational number, so `qc.cp(2*pi / 2**(i-j+1), c, t)` becomes
`Gate.cp (1 / 2^(i-j+1)) c t`.

Registers are referenced by their allocation index (the Python code
allocates registers with generated unique names such as `sum0`, `rem1`;
only freshness matters for the semantics, so the embedding identifies a
register by its position in the circuit's register list).

Semantics: a register is either in the computational basis (a list of
bits, least-significant first, as prepared by `initialize_variable`) or
in Fourier mode between its `QFT` and inverse-`QFT` gates.  In Fourier
mode qubit `i` carries an accumulated phase `2*pi * t i / 2^(i+1)`; a
phase rotation contributes to that accumulator, and the inverse QFT
recovers a basis state exactly when the accumulated phases are coherent
(they agree on a single integer value), which is the standard semantics
of the QFT adder on basis states.  Gate patterns outside this discipline
(for example a bit-flip on a Fourier-mode register) make the simulator
return `none`.
-/

namespace QuantumC

/-- A qubit reference: index of the register in the circuit, and the bit
position inside that register (bit 0 = least-significant). -/
structure Qubit where
  reg : Nat
  idx : Nat
deriving DecidableEq, Repr

/-- A dyadic fraction `num / 2^exp`.  Every phase angle appearing in
`q_arithmetics.py` is `2*pi` times such a fraction, and the circuits
store it exactly in this form. -/
structure Dy where
  num : ℤ
  exp : ℕ
deriving DecidableEq, Repr

/-- The gate alphabet used by `q_arithmetics.py`.  `frac` is the phase
angle divided by `2*pi`. -/
inductive Gate where
  | x (t : Qubit)
  | cx (c t : Qubit)
  | swap (a b : Qubit)
  | mcx (cs : List Qubit) (t : Qubit)
  | p (frac : Dy) (t : Qubit)
  | cp (frac : Dy) (c t : Qubit)
  | ccp (frac : Dy) (c1 c2 t : Qubit)
  | qft (r : Nat)
  | iqft (r : Nat)
deriving DecidableEq, Repr

/-- Value of a bit list, least-significant bit first. -/
def bitsVal (bits : List Bool) : ℕ :=
  bits.foldr (fun b acc => 2 * acc + b.toNat) 0

/-- The `n` low bits of `v`, least-significant first. -/
def natToBits (n v : ℕ) : List Bool :=
  (List.range n).map v.testBit

/-- State of one register. -/
inductive RegSt where
  | basis (bits : List Bool)
  | fourier (bits : List Bool) (t : ℕ → ℤ)

/-- State of the whole circuit: one entry per allocated register. -/
abbrev QState := List RegSt

/-- Read a bit; fails on a Fourier-mode register or an out-of-range
reference. -/
def QState.getBit (st : QState) (q : Qubit) : Option Bool :=
  match st.get? q.reg with
  | some (RegSt.basis bits) => bits.get? q.idx
  | _ => none

/-- Write a bit; fails on a Fourier-mode register or an out-of-range
reference. -/
def QState.setBit (st : QState) (q : Qubit) (b : Bool) : Option QState :=
  match st.get? q.reg with
  | some (RegSt.basis bits) =>
      if q.idx < bits.length then
        some (st.set q.reg (RegSt.basis (bits.set q.idx b)))
      else none
  | _ => none

/-- Flip a bit (the X gate). -/
def QState.flipBit (st : QState) (q : Qubit) : Option QState := do
  let b ← st.getBit q
  st.setBit q (!b)

/-- Integer numerator contributed by a phase gate of angle `2*pi*frac`
to the accumulator of Fourier-mode qubit `i` (whose unit is
`2*pi / 2^(i+1)`), that is `frac * 2^(i+1)`; fails if that is not an
integer. -/
def phaseContrib (frac : Dy) (i : ℕ) : Option ℤ :=
  if frac.exp ≤ i + 1 then some (frac.num * 2 ^ (i + 1 - frac.exp))
  else
    let p : ℤ := 2 ^ (frac.exp - (i + 1))
    if frac.num % p = 0 then some (frac.num / p) else none

/-- Apply a phase rotation of angle `2*pi*frac` to qubit `q`.  On a
Fourier-mode register it adds to the per-qubit accumulator; on a basis
register it is only a global phase, hence the identity. -/
def QState.phase (st : QState) (frac : Dy) (q : Qubit) : Option QState :=
  match st.get? q.reg with
  | some (RegSt.fourier bits t) =>
      if q.idx < bits.length then do
        let c ← phaseContrib frac q.idx
        some (st.set q.reg
          (RegSt.fourier bits (fun m => if m = q.idx then t m + c else t m)))
      else none
  | some (RegSt.basis bits) => if q.idx < bits.length then some st else none
  | none => none

/-- The inverse QFT recovers a basis value `v` exactly when all per-qubit
phases agree with it: `v ≡ x + t i (mod 2^(i+1))` for every qubit `i`. -/
def iqftResult (bits : List Bool) (t : ℕ → ℤ) : Option (List Bool) :=
  let n := bits.length
  let x : ℤ := bitsVal bits
  let v : ℤ := (x + t (n - 1)) % 2 ^ n
  if (List.range n).all (fun i => (x + t i) % 2 ^ (i + 1) = v % 2 ^ (i + 1)) then
    some (natToBits n v.toNat)
  else none

/-- One-gate semantics. -/
def applyGate (st : QState) : Gate → Option QState
  | Gate.x t => st.flipBit t
  | Gate.cx c t => do
      let b ← st.getBit c
      if b then st.flipBit t else some st
  | Gate.swap a b => do
      let ba ← st.getBit a
      let bb ← st.getBit b
      let st' ← st.setBit a bb
      st'.setBit b ba
  | Gate.mcx cs t => do
      let bs ← cs.mapM st.getBit
      if bs.all id then st.flipBit t else some st
  | Gate.p frac t => st.phase frac t
  | Gate.cp frac c t => do
      let b ← st.getBit c
      if b then st.phase frac t else some st
  | Gate.ccp frac c1 c2 t => do
      let b1 ← st.getBit c1
      let b2 ← st.getBit c2
      if b1 && b2 then st.phase frac t else some st
  | Gate.qft r =>
      match st.get? r with
      | some (RegSt.basis bits) =>
          some (st.set r (RegSt.fourier bits (fun _ => 0)))
      | _ => none
  | Gate.iqft r =>
      match st.get? r with
      | some (RegSt.fourier bits t) => do
          let bits' ← iqftResult bits t
          some (st.set r (RegSt.basis bits'))
      | _ => none

/-- Run a gate list. -/
def run (gates : List Gate) (st : QState) : Option QState :=
  gates.foldlM applyGate st

/-- Two's-complement decoding used by `simulate` in `q_arithmetics.py`:
a register whose most-significant bit is set decodes as negative, except
that 1-bit registers always decode as unsigned. -/
def decode_twos_complement (bits : List Bool) : ℤ :=
  let unsigned : ℤ := bitsVal bits
  if bits.getLast?.getD false ∧ 1 < bits.length then
    unsigned - 2 ^ bits.length
  else unsigned

/-- Decode register `r` of a final state. -/
def QState.decodeReg (st : QState) (r : ℕ) : Option ℤ :=
  match st.get? r with
  | some (RegSt.basis bits) => some (decode_twos_complement bits)
  | _ => none

/-- A circuit under construction: the widths of the allocated registers,
and the gates appended so far. -/
structure Circuit where
  regs : List ℕ
  gates : List Gate

/-- The empty circuit (`QuantumCircuit()`). -/
def Circuit.empty : Circuit := ⟨[], []⟩

/-- Width of register `r`, i.e. `len(reg)`. -/
def Circuit.width (qc : Circuit) (r : ℕ) : ℕ := qc.regs.getD r 0

/-- The all-zero initial state of a circuit's registers. -/
def Circuit.initState (qc : Circuit) : QState :=
  qc.regs.map (fun sz => RegSt.basis (List.replicate sz false))

/-- Run a completed circuit from the all-|0> state. -/
def Circuit.exec (qc : Circuit) : Option QState :=
  run qc.gates qc.initState

/-! ## The arithmetic backend: `q_arithmetics.py`

Each function mirrors the Python source of the same name.  The global
`NUMBER_OF_BITS` is passed explicitly as the parameter `n` to the
functions that read it; functions that use `len(a_reg)` read the width
from the circuit. -/

/-- `set_number_of_bits` raises `ValueError` unless `n` is positive. -/
def set_number_of_bits (n : ℤ) : Option ℕ :=
  if n ≤ 0 then none else some n.toNat

/-- `int_to_twos_complement`: bits of the two's-complement encoding,
least-significant first. -/
def int_to_twos_complement (n : ℕ) (value : ℤ) : List Bool :=
  let v : ℤ := if value < 0 then 2 ^ n + value else value
  (List.range n).map v.toNat.testBit

/-- `initialize_variable`: range-check the literal, append a fresh
`n`-qubit register and X the bits that are set.  Returns the register. -/
def initialize_variable (n : ℕ) (qc : Circuit) (value : ℤ) :
    Option (Circuit × ℕ) :=
  let MIN_VAL : ℤ := -2 ^ (n - 1)
  let MAX_VAL : ℤ := 2 ^ (n - 1) - 1
  if value < MIN_VAL ∨ value > MAX_VAL then none
  else
    let r := qc.regs.length
    let bits := int_to_twos_complement n value
    let xs := ((List.range n).filter (fun i => bits.getD i false)).map
      (fun i => Gate.x ⟨r, i⟩)
    some (⟨qc.regs ++ [n], qc.gates ++ xs⟩, r)

/-- `add`: allocate a fresh sum register, QFT it, rotate in both source
registers, inverse QFT.  Returns the sum register. -/
def add (qc : Circuit) (a_reg b_reg : ℕ) : Circuit × ℕ :=
  let n := qc.width a_reg
  let s_reg := qc.regs.length
  let ph := (List.range n).flatMap (fun i => (List.range n).flatMap (fun j =>
    if j ≤ i then
      [Gate.cp ⟨1, i - j + 1⟩ ⟨a_reg, j⟩ ⟨s_reg, i⟩,
       Gate.cp ⟨1, i - j + 1⟩ ⟨b_reg, j⟩ ⟨s_reg, i⟩]
    else []))
  (⟨qc.regs ++ [n], qc.gates ++ (Gate.qft s_reg :: (ph ++ [Gate.iqft s_reg]))⟩,
   s_reg)

/-- `addi_in_place`: add the classical integer `b` into `qreg` via
unconditional phase rotations (uses the configured width `n`). -/
def addi_in_place (n : ℕ) (qc : Circuit) (qreg : ℕ) (b : ℤ) : Circuit :=
  let b_bin := int_to_twos_complement n b
  let b_int : ℤ := bitsVal b_bin
  let b_val : ℤ := if 0 ≤ b then b_int else b_int - 2 ^ n
  let ph := (List.range n).map
    (fun j => Gate.p ⟨b_val, j + 1⟩ ⟨qreg, j⟩)
  ⟨qc.regs, qc.gates ++ (Gate.qft qreg :: (ph ++ [Gate.iqft qreg]))⟩

/-- `invert`: two's-complement negation, bitwise NOT then add 1. -/
def invert (n : ℕ) (qc : Circuit) (qreg : ℕ) : Circuit :=
  let qc1 : Circuit :=
    ⟨qc.regs, qc.gates ++ (List.range (qc.width qreg)).map
      (fun i => Gate.x ⟨qreg, i⟩)⟩
  addi_in_place n qc1 qreg 1

/-- `sub`: `a - b = a + (-b)`; negates `b_reg`, adds, restores `b_reg`. -/
def sub (n : ℕ) (qc : Circuit) (a_reg b_reg : ℕ) : Circuit × ℕ :=
  let qc1 := invert n qc b_reg
  let p := add qc1 a_reg b_reg
  (invert n p.1 b_reg, p.2)

/-- `_controlled_addi_in_place`: the phase rotations of `addi_in_place`,
each additionally controlled; rotations with zero angle are skipped. -/
def _controlled_addi_in_place (n : ℕ) (qc : Circuit) (qreg : ℕ) (value : ℤ)
    (control : Qubit) : Circuit :=
  let nn := qc.width qreg
  let b_bin := int_to_twos_complement n value
  let b_int : ℤ := bitsVal b_bin
  let b_val : ℤ := if 0 ≤ value then b_int else b_int - 2 ^ nn
  let ph := (List.range nn).flatMap (fun j =>
    -- the angle `2*pi*b_val / 2^(j+1)` is zero exactly when `b_val` is
    if b_val ≠ 0 then [Gate.cp ⟨b_val, j + 1⟩ control ⟨qreg, j⟩]
    else [])
  ⟨qc.regs, qc.gates ++ (Gate.qft qreg :: (ph ++ [Gate.iqft qreg]))⟩

/-- `_controlled_invert_in_place`: negate `qreg` conditioned on `control`. -/
def _controlled_invert_in_place (n : ℕ) (qc : Circuit) (qreg : ℕ)
    (control : Qubit) : Circuit :=
  let qc1 : Circuit :=
    ⟨qc.regs, qc.gates ++ (List.range (qc.width qreg)).map
      (fun i => Gate.cx control ⟨qreg, i⟩)⟩
  _controlled_addi_in_place n qc1 qreg 1 control

/-- `twos_to_sign_magnitude`: append a 1-qubit sign register, copy the
most-significant bit into it, conditionally negate the magnitude.
Returns the sign register. -/
def twos_to_sign_magnitude (n : ℕ) (qc : Circuit) (qreg : ℕ) : Circuit × ℕ :=
  let nn := qc.width qreg
  let sign := qc.regs.length
  let qc1 : Circuit :=
    ⟨qc.regs ++ [1], qc.gates ++ [Gate.cx ⟨qreg, nn - 1⟩ ⟨sign, 0⟩]⟩
  (_controlled_invert_in_place n qc1 qreg ⟨sign, 0⟩, sign)

/-- `sign_magnitude_to_twos`: conditionally negate the magnitude back. -/
def sign_magnitude_to_twos (n : ℕ) (qc : Circuit) (mag_reg sign_reg : ℕ) :
    Circuit :=
  _controlled_invert_in_place n qc mag_reg ⟨sign_reg, 0⟩

/-- `mul`: fresh product register; doubly controlled phase rotations over
three index loops, truncated to `n` output bits.  The source guard
`lam != 0` is always true (the angle is an exact power of two times
`2*pi`) and is therefore omitted. -/
def mul (qc : Circuit) (a_reg b_reg : ℕ) : Circuit × ℕ :=
  let n := qc.width a_reg
  let out_reg := qc.regs.length
  let ph := (List.range' 1 n).flatMap (fun (j : ℕ) =>
    (List.range' 1 n).flatMap (fun (i : ℕ) => (List.range' 1 n).map (fun (k : ℕ) =>
      -- lam / (2*pi) = 2^(2n-i-j-k) = 2^(2n-i-j) / 2^k with i, j ≤ n
      Gate.ccp ⟨2 ^ (2 * n - i - j), k⟩
        ⟨a_reg, n - j⟩ ⟨b_reg, n - i⟩ ⟨out_reg, k - 1⟩)))
  (⟨qc.regs ++ [n],
    qc.gates ++ (Gate.qft out_reg :: (ph ++ [Gate.iqft out_reg]))⟩, out_reg)

/-- `_sub_in_place`: subtract `b_reg` from `a_reg` in place (negated
phase angles). -/
def _sub_in_place (qc : Circuit) (a_reg b_reg : ℕ) : Circuit :=
  let n := qc.width a_reg
  let ph := (List.range n).flatMap (fun i => (List.range n).flatMap (fun j =>
    if j ≤ i then [Gate.cp ⟨-1, i - j + 1⟩ ⟨b_reg, j⟩ ⟨a_reg, i⟩]
    else []))
  ⟨qc.regs, qc.gates ++ (Gate.qft a_reg :: (ph ++ [Gate.iqft a_reg]))⟩

/-- `_controlled_add_in_place`: add `b_reg` into `a_reg`, each rotation
additionally controlled by `control`. -/
def _controlled_add_in_place (qc : Circuit) (a_reg b_reg : ℕ)
    (control : Qubit) : Circuit :=
  let n := qc.width a_reg
  let ph := (List.range n).flatMap (fun i => (List.range n).flatMap (fun j =>
    if j ≤ i then
      [Gate.ccp ⟨1, i - j + 1⟩ control ⟨b_reg, j⟩ ⟨a_reg, i⟩]
    else []))
  ⟨qc.regs, qc.gates ++ (Gate.qft a_reg :: (ph ++ [Gate.iqft a_reg]))⟩

/-- The restoring-division loop body shared by `divu` (and, verbatim,
by `divu_controlled`, which ignores its control): shift the remainder
left, bring in dividend bit `i`, subtract the divisor, conditionally
restore, record the quotient bit, uncompute the sign flag. -/
def divuIter (n a_reg b_reg qout rem sign : ℕ) (qcc : Circuit) (i : ℕ) :
    Circuit :=
  let qc1 : Circuit := ⟨qcc.regs, qcc.gates ++
    ((List.range' 1 (n - 1)).reverse.map
      (fun j => Gate.swap ⟨rem, j⟩ ⟨rem, j - 1⟩)) ++
    (if i < n then [Gate.swap ⟨rem, 0⟩ ⟨a_reg, i⟩] else [])⟩
  let qc2 := _sub_in_place qc1 rem b_reg
  let qc3 : Circuit :=
    ⟨qc2.regs, qc2.gates ++ [Gate.cx ⟨rem, n - 1⟩ ⟨sign, 0⟩]⟩
  let qc4 := _controlled_add_in_place qc3 rem b_reg ⟨sign, 0⟩
  ⟨qc4.regs, qc4.gates ++
    [Gate.x ⟨qout, i⟩, Gate.cx ⟨sign, 0⟩ ⟨qout, i⟩,
     Gate.cx ⟨qout, i⟩ ⟨sign, 0⟩, Gate.x ⟨sign, 0⟩]⟩

/-- `divu`: unsigned restoring division.  Allocates quotient, remainder
and sign-ancilla registers and runs the restoring loop from the highest
quotient bit down.  Returns (circuit, quotient, remainder). -/
def divu (qc : Circuit) (a_reg b_reg : ℕ) (n_output_bits : Option ℕ) :
    Circuit × ℕ × ℕ :=
  let n := qc.width a_reg
  let nOut := n_output_bits.getD n
  let qout := qc.regs.length
  let rem := qc.regs.length + 1
  let sign := qc.regs.length + 2
  let qc0 : Circuit := ⟨qc.regs ++ [nOut, n, 1], qc.gates⟩
  ((List.range nOut).reverse.foldl (divuIter n a_reg b_reg qout rem sign) qc0,
   qout, rem)

/-- The loop body of `divui`: like `divuIter` but with a classical
divisor, using `addi_in_place`/`_controlled_addi_in_place`. -/
def divuiIter (n nn a_reg qout rem sign : ℕ) (divisor : ℤ) (qcc : Circuit)
    (i : ℕ) : Circuit :=
  let qc1 : Circuit := ⟨qcc.regs, qcc.gates ++
    ((List.range' 1 (nn - 1)).reverse.map
      (fun j => Gate.swap ⟨rem, j⟩ ⟨rem, j - 1⟩)) ++
    (if i < nn then [Gate.swap ⟨rem, 0⟩ ⟨a_reg, i⟩] else [])⟩
  let qc2 := addi_in_place n qc1 rem (-divisor)
  let qc3 : Circuit :=
    ⟨qc2.regs, qc2.gates ++ [Gate.cx ⟨rem, nn - 1⟩ ⟨sign, 0⟩]⟩
  let qc4 := _controlled_addi_in_place n qc3 rem divisor ⟨sign, 0⟩
  ⟨qc4.regs, qc4.gates ++
    [Gate.x ⟨qout, i⟩, Gate.cx ⟨sign, 0⟩ ⟨qout, i⟩,
     Gate.cx ⟨qout, i⟩ ⟨sign, 0⟩, Gate.x ⟨sign, 0⟩]⟩

/-- `divui`: restoring division by a classical divisor; raises
(`none`) on a zero divisor. -/
def divui (n : ℕ) (qc : Circuit) (a_reg : ℕ) (divisor : ℤ)
    (n_output_bits : Option ℕ) : Option (Circuit × ℕ × ℕ) :=
  if divisor = 0 then none
  else
    let nn := qc.width a_reg
    let nOut := n_output_bits.getD nn
    let qout := qc.regs.length
    let rem := qc.regs.length + 1
    let sign := qc.regs.length + 2
    let qc0 : Circuit := ⟨qc.regs ++ [nOut, nn, 1], qc.gates⟩
    some ((List.range nOut).reverse.foldl
      (divuiIter n nn a_reg qout rem sign divisor) qc0, qout, rem)

/-- `div`: signed division.  Convert both operands to sign+magnitude,
divide the magnitudes with `divu`, recombine the signs (quotient sign =
XOR of input signs, remainder sign = dividend sign) and convert the
outputs and inputs back to two's complement. -/
def div (n : ℕ) (qc : Circuit) (a_reg b_reg : ℕ) (n_output_bits : Option ℕ) :
    Circuit × ℕ × ℕ :=
  let nn := qc.width a_reg
  let nOut := n_output_bits.getD nn
  let p1 := twos_to_sign_magnitude n qc a_reg
  let sign_a := p1.2
  let p2 := twos_to_sign_magnitude n p1.1 b_reg
  let sign_b := p2.2
  let p3 := divu p2.1 a_reg b_reg n_output_bits
  let qout := p3.2.1
  let rem := p3.2.2
  let sign_q := p3.1.regs.length
  let qc4 : Circuit := ⟨p3.1.regs ++ [1], p3.1.gates ++
    [Gate.cx ⟨sign_a, 0⟩ ⟨sign_q, 0⟩, Gate.cx ⟨sign_b, 0⟩ ⟨sign_q, 0⟩]⟩
  let qc5 := sign_magnitude_to_twos n qc4 qout sign_q
  let qc6 : Circuit :=
    ⟨qc5.regs, qc5.gates ++ [Gate.cx ⟨qout, nOut - 1⟩ ⟨sign_q, 0⟩]⟩
  let qc7 := sign_magnitude_to_twos n qc6 rem sign_a
  let qc8 := sign_magnitude_to_twos n qc7 a_reg sign_a
  let qc9 : Circuit :=
    ⟨qc8.regs, qc8.gates ++ [Gate.cx ⟨a_reg, nn - 1⟩ ⟨sign_a, 0⟩]⟩
  let qc10 := sign_magnitude_to_twos n qc9 b_reg sign_b
  (⟨qc10.regs, qc10.gates ++ [Gate.cx ⟨b_reg, nn - 1⟩ ⟨sign_b, 0⟩]⟩,
   qout, rem)

/-- `divi`: signed division by a classical divisor; raises (`none`) on
a zero divisor before building any gate. -/
def divi (n : ℕ) (qc : Circuit) (a_reg : ℕ) (divisor : ℤ)
    (n_output_bits : Option ℕ) : Option (Circuit × ℕ × ℕ) :=
  if divisor = 0 then none
  else
    let nn := qc.width a_reg
    let nOut := n_output_bits.getD nn
    let p1 := twos_to_sign_magnitude n qc a_reg
    let sign_a := p1.2
    match divui n p1.1 a_reg |divisor| n_output_bits with
    | none => none
    | some (qc2, qout, rem) =>
      let sign_q := qc2.regs.length
      let qc3 : Circuit := ⟨qc2.regs ++ [1], qc2.gates ++
        (if divisor < 0 then [Gate.x ⟨sign_q, 0⟩] else []) ++
        [Gate.cx ⟨sign_a, 0⟩ ⟨sign_q, 0⟩]⟩
      let qc4 := sign_magnitude_to_twos n qc3 qout sign_q
      let qc5 : Circuit :=
        ⟨qc4.regs, qc4.gates ++ [Gate.cx ⟨qout, nOut - 1⟩ ⟨sign_q, 0⟩]⟩
      let qc6 := sign_magnitude_to_twos n qc5 rem sign_a
      let qc7 := sign_magnitude_to_twos n qc6 a_reg sign_a
      some (⟨qc7.regs, qc7.gates ++ [Gate.cx ⟨a_reg, nn - 1⟩ ⟨sign_a, 0⟩]⟩,
        qout, rem)

/-- `equal`: XOR the operands into a fresh register, then a
multi-controlled X detects the all-zero pattern.  Returns the result
qubit. -/
def equal (qc : Circuit) (a_reg b_reg : ℕ) : Circuit × Qubit :=
  let n := qc.width a_reg
  let xor_reg := qc.regs.length
  let out := qc.regs.length + 1
  let g1 := (List.range n).flatMap (fun i =>
    [Gate.cx ⟨a_reg, i⟩ ⟨xor_reg, i⟩, Gate.cx ⟨b_reg, i⟩ ⟨xor_reg, i⟩])
  let notAll := (List.range n).map (fun i => Gate.x ⟨xor_reg, i⟩)
  (⟨qc.regs ++ [n, 1], qc.gates ++ g1 ++ notAll ++
    [Gate.x ⟨out, 0⟩,
     Gate.mcx ((List.range n).map (fun i => ⟨xor_reg, i⟩)) ⟨out, 0⟩,
     Gate.x ⟨out, 0⟩] ++ notAll⟩, ⟨out, 0⟩)

/-- `not_equal`: `¬(a == b)` via an X-then-CX on a fresh qubit. -/
def not_equal (qc : Circuit) (a_reg b_reg : ℕ) : Circuit × Qubit :=
  let p := equal qc a_reg b_reg
  let neq := p.1.regs.length
  (⟨p.1.regs ++ [1],
    p.1.gates ++ [Gate.x ⟨neq, 0⟩, Gate.cx p.2 ⟨neq, 0⟩]⟩, ⟨neq, 0⟩)

/-- `less_than`: copy `b`, negate the copy, add it to `a`; the
most-significant bit of the sum is the result.  Restores the copy. -/
def less_than (n : ℕ) (qc : Circuit) (a_reg b_reg : ℕ) : Circuit × Qubit :=
  let nn := qc.width a_reg
  let tmp_b := qc.regs.length
  let qc1 : Circuit := ⟨qc.regs ++ [nn],
    qc.gates ++ (List.range nn).map (fun i => Gate.cx ⟨b_reg, i⟩ ⟨tmp_b, i⟩)⟩
  let qc2 := invert n qc1 tmp_b
  let p := add qc2 a_reg tmp_b
  let diff := p.2
  let out := p.1.regs.length
  let qc4 : Circuit := ⟨p.1.regs ++ [1],
    p.1.gates ++ [Gate.cx ⟨diff, nn - 1⟩ ⟨out, 0⟩]⟩
  (invert n qc4 tmp_b, ⟨out, 0⟩)

/-- `greater_than`: `a > b` is `b < a`. -/
def greater_than (n : ℕ) (qc : Circuit) (a_reg b_reg : ℕ) : Circuit × Qubit :=
  less_than n qc b_reg a_reg

/-- `less_equal`: `a ≤ b ⇔ ¬(a > b)`. -/
def less_equal (n : ℕ) (qc : Circuit) (a_reg b_reg : ℕ) : Circuit × Qubit :=
  let p := greater_than n qc a_reg b_reg
  let le := p.1.regs.length
  (⟨p.1.regs ++ [1],
    p.1.gates ++ [Gate.x ⟨le, 0⟩, Gate.cx p.2 ⟨le, 0⟩]⟩, ⟨le, 0⟩)

/-- `greater_equal`: `a ≥ b ⇔ ¬(a < b)`. -/
def greater_equal (n : ℕ) (qc : Circuit) (a_reg b_reg : ℕ) : Circuit × Qubit :=
  let p := less_than n qc a_reg b_reg
  let ge := p.1.regs.length
  (⟨p.1.regs ++ [1],
    p.1.gates ++ [Gate.x ⟨ge, 0⟩, Gate.cx p.2 ⟨ge, 0⟩]⟩, ⟨ge, 0⟩)

/-! ## `q_arithmetics_controlled.py` -/

/-- `divu_controlled`: the controlled variant of `divu` from
`q_arithmetics_controlled.py`.  Its body is the uncontrolled restoring
division verbatim — the `control` parameter is accepted but never used
by any gate. -/
def divu_controlled (qc : Circuit) (a_reg b_reg : ℕ) (control : Qubit)
    (n_output_bits : Option ℕ) : Circuit × ℕ × ℕ :=
  let n := qc.width a_reg
  let nOut := n_output_bits.getD n
  let qout := qc.regs.length
  let rem := qc.regs.length + 1
  let sign := qc.regs.length + 2
  let qc0 : Circuit := ⟨qc.regs ++ [nOut, n, 1], qc.gates⟩
  ((List.range nOut).reverse.foldl (divuIter n a_reg b_reg qout rem sign) qc0,
   qout, rem)

/-! ## The quantum-safe translator: `quantum_translate.py`

The classical input IR is a straight-line list of operations referencing
earlier results by index (`CInstr`).  The translated quantum IR
(`QInstr`) carries the `(register, version)` pair of each operation.

Modelled from the spec: the register-versioned dialect revision (the
`quantum_dialect` constructors taking `reg_id`/`reg_version`/`path`
arguments, exercised by `test_write_in_place_verification.py` and read
back by `ssa_dag._get_attr_int`) is not in the tree; following the
spec's register/version lifecycle and the translator's bookkeeping
(`name_hint = f"q{reg}_0"`, `reg_version[reg] = 0`), every operation
emitted by the translator carries its freshly allocated register with
version 0, and `ReturnOp` carries no register attributes. -/

/-- Binary opcodes handled by the translator. -/
inductive COp where
  | add | sub | mul | div
deriving DecidableEq, Repr

/-- Classical input IR: `ConstantOp`, `AddiOp`/`SubiOp`/`MuliOp`/`DivSIOp`,
the `iarith.*_imm` forms, and `ReturnOp`.  Operands are indices of
earlier instructions. -/
inductive CInstr where
  | const (v : ℤ)
  | bin (op : COp) (lhs rhs : ℕ)
  | binImm (op : COp) (lhs : ℕ) (imm : ℤ)
  | ret (r : Option ℕ)
deriving DecidableEq, Repr

/-- Register-versioned quantum IR: `QuantumInitOp`, `QAddiOp`-family,
`QAddiImmOp`-family, `ReturnOp`.  Operands are indices of earlier
instructions in the same list. -/
inductive QInstr where
  | init (v : ℤ) (rid ver : ℕ)
  | bin (op : COp) (lhs rhs : ℕ) (rid ver : ℕ)
  | binImm (op : COp) (lhs : ℕ) (imm : ℤ) (rid ver : ℕ)
  | ret (r : Option ℕ)
deriving DecidableEq, Repr

/-- `_get_attr_int(op, "reg_id")`. -/
def QInstr.rid? : QInstr → Option ℕ
  | .init _ rid _ => some rid
  | .bin _ _ _ rid _ => some rid
  | .binImm _ _ _ rid _ => some rid
  | .ret _ => none

/-- `_get_attr_int(op, "reg_version")`. -/
def QInstr.ver? : QInstr → Option ℕ
  | .init _ _ ver => some ver
  | .bin _ _ _ _ ver => some ver
  | .binImm _ _ _ _ ver => some ver
  | .ret _ => none

/-- The `(reg_id, reg_version)` key when both attributes are present. -/
def QInstr.key? (q : QInstr) : Option (ℕ × ℕ) :=
  match q.rid?, q.ver? with
  | some r, some v => some (r, v)
  | _, _ => none

/-- `op.operands` as indices. -/
def QInstr.operandIdxs : QInstr → List ℕ
  | .init _ _ _ => []
  | .bin _ l r _ _ => [l, r]
  | .binImm _ l _ _ _ => [l]
  | .ret r => r.toList

/-- The recomputation descriptor stored in `ValueInfo.expr`. -/
inductive Expr where
  | const (v : ℤ)
  | binary (op : COp) (lhs rhs : ℕ)
  | binaryimm (op : COp) (lhs : ℕ) (imm : ℤ)
deriving DecidableEq, Repr

/-- `ValueInfo`: which register/version currently holds a classical SSA
value and how to recompute it. -/
structure ValueInfo where
  reg : ℕ
  version : ℕ
  expr : Expr
deriving DecidableEq, Repr

/-- Mutable translator state: the emitted instruction list and the
`next_reg` / `val_info` / `reg_version` / `reg_ssa` bookkeeping of
`QuantumTranslator` (`reg_ssa` maps a register to the output index of
the instruction currently holding it). -/
structure TransSt where
  out : List QInstr
  nextReg : ℕ
  valInfo : ℕ → Option ValueInfo
  regVersion : ℕ → ℕ
  regSsa : ℕ → Option ℕ

/-- `allocate_reg`: sequential allocation, version counter starts at 0. -/
def TransSt.alloc (st : TransSt) : ℕ × TransSt :=
  (st.nextReg,
   { st with nextReg := st.nextReg + 1,
             regVersion := fun m => if m = st.nextReg then 0 else st.regVersion m })

/-- Append an instruction to the output block, returning its index. -/
def TransSt.emit (st : TransSt) (q : QInstr) : TransSt × ℕ :=
  ({ st with out := st.out ++ [q] }, st.out.length)

/-- Record that register `r` is now held by output instruction `oi`. -/
def TransSt.setSsa (st : TransSt) (r oi : ℕ) : TransSt :=
  { st with regSsa := fun m => if m = r then some oi else st.regSsa m }

/-- Record `ValueInfo` for classical value `v`. -/
def TransSt.setInfo (st : TransSt) (v : ℕ) (info : ValueInfo) : TransSt :=
  { st with valInfo := fun m => if m = v then some info else st.valInfo m }

/-- The emission block repeated throughout the translator:
`reg = self.allocate_reg()`, append the new operation (carrying the
fresh register at version 0, mirrored by `name_hint = f"q{reg}_0"`),
and point `reg_ssa[reg]` at it.  Returns the new state, the fresh
register and the instruction's output index. -/
def TransSt.emitFresh (st : TransSt) (mk : ℕ → QInstr) : TransSt × ℕ × ℕ :=
  let (reg, st1) := st.alloc
  let (st2, oi) := st1.emit (mk reg)
  (st2.setSsa reg oi, reg, oi)

mutual

/-- `emit_value`: return the output index currently holding classical
value `v`, recomputing it first if its register was overwritten. -/
def emit_value : ℕ → TransSt → ℕ → Option (TransSt × ℕ)
  | 0, _, _ => none
  | fuel + 1, st, v => do
    let info ← st.valInfo v
    if st.regVersion info.reg ≠ info.version then do
      let st1 ← recompute fuel st v
      let info1 ← st1.valInfo v
      let oi ← st1.regSsa info1.reg
      some (st1, oi)
    else do
      let oi ← st.regSsa info.reg
      some (st, oi)

/-- `recompute`: regenerate `v` from its stored expression descriptor
into a fresh register. -/
def recompute : ℕ → TransSt → ℕ → Option TransSt
  | 0, _, _ => none
  | fuel + 1, st, v => do
    let info ← st.valInfo v
    match info.expr with
    | .const value =>
        let (st2, reg, _) := st.emitFresh (fun reg => .init value reg 0)
        some (st2.setInfo v ⟨reg, 0, info.expr⟩)
    | .binary op lhs rhs => do
        let (st1, q_lhs) ← emit_value fuel st lhs
        let (st2, q_rhs0) ← emit_value fuel st1 rhs
        let (st3, q_rhs) ←
          if q_lhs = q_rhs0 then duplicate_value fuel st2 rhs
          else some (st2, q_rhs0)
        let (st5, reg, _) := st3.emitFresh (fun reg => .bin op q_lhs q_rhs reg 0)
        some (st5.setInfo v ⟨reg, 0, info.expr⟩)
    | .binaryimm op lhs imm => do
        let (st1, q_lhs) ← emit_value fuel st lhs
        let (st3, reg, _) := st1.emitFresh (fun reg => .binImm op q_lhs imm reg 0)
        some (st3.setInfo v ⟨reg, 0, info.expr⟩)

/-- `duplicate_value`: a fresh register holding a copy of `v`, realized
as add-immediate-zero (`QAddiImmOp(q_val, 0)`). -/
def duplicate_value : ℕ → TransSt → ℕ → Option (TransSt × ℕ)
  | 0, _, _ => none
  | fuel + 1, st, v => do
    let (st1, q_val) ← emit_value fuel st v
    let (st3, _, oi) := st1.emitFresh (fun reg => .binImm .add q_val 0 reg 0)
    some (st3, oi)

end

/-- One step of `translate_func` (straight-line operations only; the
`remaining`-use and `compute_cost` bookkeeping of the source never
influences which instructions are emitted and is omitted). -/
def translateStep (fuel : ℕ) (st : TransSt) (idx : ℕ) (ins : CInstr) :
    Option TransSt :=
  match ins with
  | .const v =>
      let (st2, reg, _) := st.emitFresh (fun reg => .init v reg 0)
      some (st2.setInfo idx ⟨reg, 0, .const v⟩)
  | .bin op lhs rhs => do
      let (st1, q_lhs) ← emit_value fuel st lhs
      let (st2, q_rhs0) ← emit_value fuel st1 rhs
      let (st3, q_rhs) ←
        if q_lhs = q_rhs0 then duplicate_value fuel st2 rhs
        else some (st2, q_rhs0)
      let (st5, reg, _) := st3.emitFresh (fun reg => .bin op q_lhs q_rhs reg 0)
      some (st5.setInfo idx ⟨reg, 0, .binary op lhs rhs⟩)
  | .binImm op lhs imm => do
      let (st1, q_lhs) ← emit_value fuel st lhs
      let (st3, reg, _) := st1.emitFresh (fun reg => .binImm op q_lhs imm reg 0)
      some (st3.setInfo idx ⟨reg, 0, .binaryimm op lhs imm⟩)
  | .ret (some v) => do
      let (st1, q_val) ← emit_value fuel st v
      some (st1.emit (.ret (some q_val))).1
  | .ret none => some (st.emit (.ret none)).1

/-- The initial translator state. -/
def TransSt.initial : TransSt :=
  ⟨[], 0, fun _ => none, fun _ => 0, fun _ => none⟩

/-- `QuantumTranslator.translate` restricted to one function of
straight-line arithmetic. -/
def translate (p : List CInstr) : Option (List QInstr) :=
  (p.enum.foldlM (fun st e => translateStep (p.length + 2) st e.1 e.2)
    TransSt.initial).map TransSt.out

/-! ## The constraint-enforcement pass: `ssa_dag.py` -/

/-- `_compute_next_overwrite` with the `.get(key, int(1e9))` default:
for each register, the occurrence list of (index, version) pairs in
program order; a key maps to the index following its *last* occurrence
(later dict writes win), or `10^9`. -/
def nextOverwrite (l : List QInstr) (key : ℕ × ℕ) : ℕ :=
  let occ := l.enum.filterMap (fun e =>
    match e.2.key? with
    | some (r, v) => if r = key.1 then some (e.1, v) else none
    | none => none)
  match (occ.enum.filter (fun e => decide (e.2.2 = key.2))).getLast? with
  | some (p, _) =>
      match occ.get? (p + 1) with
      | some e => e.1
      | none => 1000000000
  | none => 1000000000

/-- `_compute_last_use`: the last instruction index reading exactly this
register version; a version read by a `ReturnOp` counts as used at index
`len(ops)`. -/
def lastUse (l : List QInstr) (key : ℕ × ℕ) : Option ℕ :=
  let keyOfOperand := fun (o : ℕ) => (l.get? o).bind QInstr.key?
  let retUses := l.any (fun op =>
    match op with
    | .ret (some o) => decide (keyOfOperand o = some key)
    | _ => false)
  if retUses then some l.length
  else
    (l.enum.filterMap (fun e =>
      if e.2.operandIdxs.any (fun o => decide (keyOfOperand o = some key)) then
        some e.1
      else none)).getLast?

/-- `_create_like`: rebuild an operation with new operands, the given
register id (defaulting to the operation's own) and the original
version.  Operand lists always have the right length at every call
site, so missing entries default to 0. -/
def _create_like (op : QInstr) (operands : List ℕ) (rid : Option ℕ) :
    QInstr :=
  match op with
  | .init v rid0 ver => .init v (rid.getD rid0) ver
  | .bin o _ _ rid0 ver =>
      .bin o (operands.getD 0 0) (operands.getD 1 0) (rid.getD rid0) ver
  | .binImm o _ imm rid0 ver =>
      .binImm o (operands.getD 0 0) imm (rid.getD rid0) ver
  | .ret _ => .ret operands.head?

/-- Mutable state of `enforce_constraints`: the new block, the
`new_ops_map` from original to new indices, the `available_ops`
association and the fresh-register counter. -/
structure EnfSt where
  out : List QInstr
  newMap : ℕ → Option ℕ
  avail : List ((ℕ × ℕ) × ℕ)
  nextReg : ℕ

/-- Dictionary lookup in `available_ops`. -/
def availLookup (avail : List ((ℕ × ℕ) × ℕ)) (key : ℕ × ℕ) : Option ℕ :=
  (avail.find? (fun e => decide (e.1 = key))).map (fun e => e.2)

/-- `clone_rec`: clone the producing sub-tree of an original operation
into fresh registers — unless the operation was already materialized
(`new_ops_map`) or its register version is currently available.  The
recursion is bounded by `fuel` (operand indices strictly decrease, so
`l.length + 1` always suffices). -/
def clone_rec (l : List QInstr) : ℕ → EnfSt → ℕ → ℕ → Option (EnfSt × ℕ)
  | 0, _, _, _ => none
  | fuel + 1, st, opIdx, idx =>
    match st.newMap opIdx with
    | some oi => some (st, oi)
    | none => do
      let op ← l.get? opIdx
      match op.key?.bind (availLookup st.avail) with
      | some oi => some (st, oi)
      | none => do
        let res ← op.operandIdxs.foldlM
          (fun (acc : EnfSt × List ℕ) o => do
            let r ← clone_rec l fuel acc.1 o idx
            some (r.1, acc.2 ++ [r.2]))
          (st, [])
        let (st1, operands) := res
        let (new_rid, st2) :=
          if op.rid?.isSome then
            (some st1.nextReg, { st1 with nextReg := st1.nextReg + 1 })
          else (none, st1)
        let new_op := _create_like op operands new_rid
        let newIdx := st2.out.length
        let st3 : EnfSt :=
          { st2 with
            out := st2.out ++ [new_op],
            newMap := fun m => if m = opIdx then some newIdx else st2.newMap m }
        match op.key? with
        | some key =>
            if (match lastUse l key with
                | some lu => decide (idx < lu)
                | none => false) then
              some ({ st3 with avail := (key, newIdx) :: st3.avail }, newIdx)
            else some (st3, newIdx)
        | none => some (st3, newIdx)

/-- The expiry sweep at the top of the main loop: drop available values
that are overwritten at or before `idx` or whose last use has passed. -/
def expireAvail (l : List QInstr) (idx : ℕ) (st : EnfSt) : EnfSt :=
  { st with avail := st.avail.filter (fun e =>
      !(decide (idx ≥ nextOverwrite l e.1) ||
        (match lastUse l e.1 with
         | some lu => decide (idx > lu)
         | none => false))) }

/-- Resolution of one consumed operand: reuse it if its register version
is available, clone/re-derive it if it has been overwritten, and
otherwise take the already-materialized instruction. -/
def resolveOperand (l : List QInstr) (idx : ℕ) (acc : EnfSt × List ℕ)
    (o : ℕ) : Option (EnfSt × List ℕ) := do
  let inp ← l.get? o
  match inp.key? with
  | some key =>
      match availLookup acc.1.avail key with
      | some oi => some (acc.1, acc.2 ++ [oi])
      | none =>
          if idx ≥ nextOverwrite l key then do
            let r ← clone_rec l (l.length + 1) acc.1 o idx
            some (r.1, acc.2 ++ [r.2])
          else do
            let oi ← acc.1.newMap o
            some (acc.1, acc.2 ++ [oi])
  | none => do
      let oi ← acc.1.newMap o
      some (acc.1, acc.2 ++ [oi])

/-- Constraint 2 of the source: if the two operands of a binary
operation carry the identical `(register, version)` pair, replace the
second resolved operand by `clone_rec` of its producer. -/
def constraint2 (l : List QInstr) (idx : ℕ) (op : QInstr) (st1 : EnfSt)
    (operands0 : List ℕ) : Option (EnfSt × List ℕ) :=
  match op with
  | .bin _ o0 o1 _ _ => do
      let i0 ← l.get? o0
      let i1 ← l.get? o1
      (match i0.key?, i1.key? with
       | some k0, some k1 =>
          if k0 = k1 then do
            let r ← clone_rec l (l.length + 1) st1 o1 idx
            some (r.1, [operands0.getD 0 0, r.2])
          else some (st1, operands0)
       | _, _ => some (st1, operands0))
  | _ => some (st1, operands0)

/-- Emission of the rebuilt operation under its original register
attributes, installing it as the available producer of its version and
dropping older versions of the same register. -/
def emitStep (l : List QInstr) (idx : ℕ) (op : QInstr) (st2 : EnfSt)
    (operands : List ℕ) : EnfSt :=
  let new_op := _create_like op operands op.rid?
  let newIdx := st2.out.length
  let st3 : EnfSt :=
    { st2 with
      out := st2.out ++ [new_op],
      newMap := fun m => if m = idx then some newIdx else st2.newMap m }
  match op.key? with
  | some key =>
      if (match lastUse l key with
          | some lu => decide (idx < lu)
          | none => false) then
        { st3 with avail :=
          (key, newIdx) :: st3.avail.filter (fun e => decide (e.1.1 ≠ key.1)) }
      else st3
  | none => st3

/-- One iteration of the main rewrite loop of `enforce_constraints`. -/
def enforceStep (l : List QInstr) (st : EnfSt) (idx : ℕ) (op : QInstr) :
    Option EnfSt := do
  let st0 := expireAvail l idx st
  let res ← op.operandIdxs.foldlM (resolveOperand l idx) (st0, [])
  let res2 ← constraint2 l idx op res.1 res.2
  some (emitStep l idx op res2.1 res2.2)

/-- `enforce_constraints`: rebuild the instruction list in order. -/
def enforce (l : List QInstr) : Option (List QInstr) :=
  let nextReg0 := ((l.filterMap QInstr.rid?).max?.map (· + 1)).getD 0
  (l.enum.foldlM (fun st e => enforceStep l st e.1 e.2)
    ⟨[], fun _ => none, [], nextReg0⟩).map EnfSt.out


/-! ## Structural properties of the constraint-enforcement pass -/

/-- Well-formed register-versioned code: operands reference strictly
earlier instructions, and those instructions carry register attributes
(both hold for all translator output). -/
def WFq (l : List QInstr) : Prop :=
  ∀ i op, l.get? i = some op → ∀ o ∈ op.operandIdxs,
    o < i ∧ ∃ op', l.get? o = some op' ∧ (QInstr.key? op').isSome

/-- Invariant 2 of the spec: each `(register, version)` pair is produced
by exactly one operation. -/
def SingleProducer (l : List QInstr) : Prop :=
  ∀ i j opi opj k, l.get? i = some opi → l.get? j = some opj →
    opi.key? = some k → opj.key? = some k → i = j

/-- Loop invariant of `enforce_constraints` on a well-formed
single-producer input: after `m` iterations the pass has copied the
first `m` instructions verbatim, `new_ops_map` is the identity on them,
and every available binding points at the producer of its key. -/
def EnfInv (l : List QInstr) (m : ℕ) (st : EnfSt) : Prop :=
  st.out = l.take m ∧
  (∀ o, o < m → st.newMap o = some o) ∧
  (∀ e ∈ st.avail, ∃ op', l.get? e.2 = some op' ∧ op'.key? = some e.1)

lemma create_like_self (op : QInstr) :
    _create_like op op.operandIdxs op.rid? = op := by
  cases op with
  | ret r => cases r <;> rfl
  | _ => rfl

lemma resolveOperand_id (l : List QInstr) (hsp : SingleProducer l)
    (st : EnfSt) (idx o : ℕ) (acc : List ℕ)
    (hainv : ∀ e ∈ st.avail, ∃ op', l.get? e.2 = some op' ∧ op'.key? = some e.1)
    (hnm : st.newMap o = some o)
    (op' : QInstr) (ho : l.get? o = some op')
    (hks : (QInstr.key? op').isSome) :
    resolveOperand l idx (st, acc) o = some (st, acc ++ [o]) := by
  obtain ⟨k, hk⟩ := Option.isSome_iff_exists.mp hks
  unfold resolveOperand
  rw [ho]
  simp only [Option.bind_eq_bind, Option.some_bind]
  rw [hk]
  simp only []
  cases havail : availLookup st.avail k with
  | some oi =>
      -- the available binding points at the unique producer of `k`
      obtain ⟨e, he, hek, hoi⟩ : ∃ e ∈ st.avail, e.1 = k ∧ e.2 = oi := by
        unfold availLookup at havail
        cases hf : st.avail.find? (fun e => decide (e.1 = k)) with
        | none => rw [hf] at havail; simp at havail
        | some e =>
            rw [hf] at havail
            simp at havail
            exact ⟨e, List.mem_of_find?_eq_some hf,
              by have := List.find?_some hf; simpa using this, havail⟩
      obtain ⟨op2, hop2, hop2k⟩ := hainv e he
      have hoeq : oi = o := by
        refine hsp oi o op2 op' k ?_ ho ?_ hk
        · rwa [hoi] at hop2
        · rwa [hek] at hop2k
      simp [hoeq]
  | none =>
      simp only []
      by_cases hno : idx ≥ nextOverwrite l k
      · simp only [ge_iff_le, hno, if_true]
        simp only [clone_rec, hnm, Option.bind_eq_bind, Option.some_bind]
      · simp only [ge_iff_le, hno, if_false]
        simp [hnm]


lemma resolveFold_id (l : List QInstr) (hsp : SingleProducer l)
    (st0 : EnfSt) (m : ℕ) (os : List ℕ)
    (hainv : ∀ e ∈ st0.avail, ∃ op', l.get? e.2 = some op' ∧ op'.key? = some e.1)
    (hos : ∀ o ∈ os, st0.newMap o = some o ∧
      ∃ op', l.get? o = some op' ∧ (QInstr.key? op').isSome) :
    ∀ acc : List ℕ,
      os.foldlM (resolveOperand l m) (st0, acc) = some (st0, acc ++ os) := by
  induction os with
  | nil => intro acc; simp [List.foldlM]
  | cons o os ih =>
      intro acc
      obtain ⟨hnm, op', ho, hk⟩ := hos o (List.mem_cons_self o os)
      rw [List.foldlM_cons,
        resolveOperand_id l hsp st0 m o acc hainv hnm op' ho hk]
      simp only [Option.bind_eq_bind, Option.some_bind]
      rw [ih (fun o ho' => hos o (List.mem_cons_of_mem _ ho')) (acc ++ [o])]
      simp

lemma constraint2_id (l : List QInstr) (hsp : SingleProducer l)
    (st1 : EnfSt) (m : ℕ) (op : QInstr)
    (hops : ∀ o ∈ op.operandIdxs, st1.newMap o = some o ∧
      ∃ op', l.get? o = some op' ∧ (QInstr.key? op').isSome) :
    constraint2 l m op st1 op.operandIdxs = some (st1, op.operandIdxs) := by
  cases op with
  | bin opc o0 o1 rid ver =>
      obtain ⟨hnm0, i0, ho0, hk0s⟩ := hops o0 (by simp [QInstr.operandIdxs])
      obtain ⟨hnm1, i1, ho1, hk1s⟩ := hops o1 (by simp [QInstr.operandIdxs])
      obtain ⟨k0, hk0⟩ := Option.isSome_iff_exists.mp hk0s
      obtain ⟨k1, hk1⟩ := Option.isSome_iff_exists.mp hk1s
      unfold constraint2
      simp only []
      rw [ho0]
      simp only [Option.bind_eq_bind, Option.some_bind]
      rw [ho1]
      simp only [Option.bind_eq_bind, Option.some_bind]
      rw [hk0, hk1]
      simp only []
      by_cases hkk : k0 = k1
      · have ho01 : o0 = o1 := by
          refine hsp o0 o1 i0 i1 k1 ho0 ho1 ?_ hk1
          rw [hk0, hkk]
        simp only [hkk, if_true, clone_rec, hnm1, Option.bind_eq_bind,
          Option.some_bind, QInstr.operandIdxs]
        simp [ho01]
      · simp [hkk]
  | init v rid ver => rfl
  | binImm opc o imm rid ver => rfl
  | ret r => rfl

lemma emitStep_inv (l : List QInstr) (m : ℕ) (op : QInstr)
    (hop : l.get? m = some op) (st0 : EnfSt) (hout : st0.out = l.take m)
    (hnm : ∀ o, o < m → st0.newMap o = some o)
    (hainv : ∀ e ∈ st0.avail, ∃ op', l.get? e.2 = some op' ∧ op'.key? = some e.1) :
    EnfInv l (m + 1) (emitStep l m op st0 op.operandIdxs) := by
  have hm : m < l.length := (List.get?_eq_some.mp hop).1
  have hlen : st0.out.length = m := by
    rw [hout, List.length_take]
    omega
  have htake : l.take (m + 1) = l.take m ++ [op] := by
    have hg : l[m]? = some op := by rwa [← List.get?_eq_getElem?]
    rw [List.take_succ, hg]
    rfl
  have hout' : st0.out ++ [_create_like op op.operandIdxs op.rid?] =
      l.take (m + 1) := by
    rw [create_like_self, hout, htake]
  have hnm' : ∀ o, o < m + 1 →
      (fun o' => if o' = m then some st0.out.length else st0.newMap o') o
        = some o := by
    intro o ho
    by_cases h : o = m
    · simp [h, hlen]
    · have : o < m := by omega
      simp [h, hnm o this]
  unfold emitStep
  cases hkop : op.key? with
  | some key =>
      simp only []
      split
      · exact ⟨hout', hnm', by
          intro e he
          simp only [List.mem_cons] at he
          cases he with
          | inl h =>
              subst h
              exact ⟨op, by simpa [hlen] using hop, hkop⟩
          | inr h => exact hainv e (List.mem_of_mem_filter h)⟩
      · exact ⟨hout', hnm', fun e he => hainv e he⟩
  | none =>
      exact ⟨hout', hnm', fun e he => hainv e he⟩



lemma enforceStep_id (l : List QInstr) (hwf : WFq l) (hsp : SingleProducer l)
    (m : ℕ) (op : QInstr) (hop : l.get? m = some op) (st : EnfSt)
    (hinv : EnfInv l m st) :
    ∃ st', enforceStep l st m op = some st' ∧ EnfInv l (m + 1) st' := by
  obtain ⟨hout, hnm, hainv⟩ := hinv
  have hainv0 : ∀ e ∈ (expireAvail l m st).avail,
      ∃ op', l.get? e.2 = some op' ∧ op'.key? = some e.1 :=
    fun e he => hainv e (List.mem_of_mem_filter he)
  have hos : ∀ o ∈ op.operandIdxs, (expireAvail l m st).newMap o = some o ∧
      ∃ op', l.get? o = some op' ∧ (QInstr.key? op').isSome := by
    intro o ho
    obtain ⟨holt, op', ho', hk⟩ := hwf m op hop o ho
    exact ⟨hnm o holt, op', ho', hk⟩
  refine ⟨emitStep l m op (expireAvail l m st) op.operandIdxs, ?_, ?_⟩
  · unfold enforceStep
    simp only []
    rw [resolveFold_id l hsp (expireAvail l m st) m op.operandIdxs hainv0 hos []]
    simp only [Option.bind_eq_bind, Option.some_bind, List.nil_append]
    rw [constraint2_id l hsp (expireAvail l m st) m op hos]
    simp only [Option.bind_eq_bind, Option.some_bind]
  · exact emitStep_inv l m op hop (expireAvail l m st) hout hnm hainv0

lemma enum_drop_cons (l : List QInstr) (m : ℕ) (op : QInstr)
    (hop : l.get? m = some op) :
    l.enum.drop m = (m, op) :: l.enum.drop (m + 1) := by
  have hm : m < l.length := (List.get?_eq_some.mp hop).1
  have h2 : m < l.enum.length := by simpa using hm
  rw [List.drop_eq_getElem_cons h2]
  congr 1
  rw [List.getElem_enum]
  have hgm : l[m] = op := by
    have h3 := List.get?_eq_some.mp hop
    simpa [List.get_eq_getElem] using h3.2
  rw [hgm]

lemma enforce_go (l : List QInstr) (hwf : WFq l) (hsp : SingleProducer l) :
    ∀ k m st, l.length ≤ m + k → EnfInv l m st →
      ∃ stf, (l.enum.drop m).foldlM
          (fun st e => enforceStep l st e.1 e.2) st = some stf ∧
        stf.out = l := by
  intro k
  induction k with
  | zero =>
      intro m st hlen hinv
      have hm : l.length ≤ m := by omega
      have hnil : l.enum.drop m = [] :=
        List.drop_eq_nil_of_le (by simpa using hm)
      rw [hnil]
      exact ⟨st, rfl, by rw [hinv.1]; exact List.take_of_length_le hm⟩
  | succ k ih =>
      intro m st hlen hinv
      by_cases hm : m < l.length
      · obtain ⟨op, hop⟩ : ∃ op, l.get? m = some op := by
          rw [List.get?_eq_getElem?]
          exact ⟨l[m], List.getElem?_eq_getElem hm⟩
        rw [enum_drop_cons l m op hop, List.foldlM_cons]
        obtain ⟨st', hstep, hinv'⟩ := enforceStep_id l hwf hsp m op hop st hinv
        rw [hstep]
        simp only [Option.bind_eq_bind, Option.some_bind]
        exact ih (m + 1) st' (by omega) hinv'
      · have hm' : l.length ≤ m := by omega
        have hnil : l.enum.drop m = [] :=
          List.drop_eq_nil_of_le (by simpa using hm')
        rw [hnil]
        exact ⟨st, rfl, by rw [hinv.1]; exact List.take_of_length_le hm'⟩

/-- On well-formed single-producer input the Constraint Enforcement Pass
is the identity: every operand resolves to its already-materialized
producer, so no clone or recomputation is ever created. -/
theorem enforce_id (l : List QInstr) (hwf : WFq l) (hsp : SingleProducer l) :
    enforce l = some l := by
  unfold enforce
  have hinv0 : EnfInv l 0
      ⟨[], fun _ => none, [],
        ((l.filterMap QInstr.rid?).max?.map (· + 1)).getD 0⟩ :=
    ⟨rfl, fun o ho => absurd ho (by omega), fun e he => absurd he (by simp)⟩
  obtain ⟨stf, hfold, hout⟩ :=
    enforce_go l hwf hsp l.length 0 _ (by omega) hinv0
  simp only []
  rw [← List.drop_zero l.enum, hfold]
  simp [hout]



/-! ## Structural properties of the translator output -/

/-- Register attributes are present exactly on non-`Return` operations. -/
lemma QInstr.key?_isSome_of_rid? (q : QInstr) (r : ℕ) (h : q.rid? = some r) :
    (QInstr.key? q).isSome := by
  cases q <;> simp [QInstr.key?, QInstr.rid?, QInstr.ver?] at h ⊢

/-- Register ids strictly increase along an instruction list. -/
def RidMono (out : List QInstr) : Prop :=
  ∀ k1 k2 i1 i2 r1 r2, k1 < k2 → out.get? k1 = some i1 →
    out.get? k2 = some i2 → i1.rid? = some r1 → i2.rid? = some r2 → r1 < r2

/-- Every operation carries version 0 (or none, for `Return`). -/
def VerZero (out : List QInstr) : Prop :=
  ∀ k instr, out.get? k = some instr →
    instr.ver? = some 0 ∨ instr.ver? = none

/-- Invariant of the `QuantumTranslator` state throughout
`translate_func`:  the emitted block is well formed with strictly
increasing fresh registers, all versions are 0, `reg_ssa` points at the
instruction holding each register, and every recorded `ValueInfo` is
up to date (its register has never been overwritten, so `emit_value`
never recomputes). -/
def TransInv (st : TransSt) : Prop :=
  WFq st.out ∧
  RidMono st.out ∧
  (∀ k instr, st.out.get? k = some instr → ∀ r, instr.rid? = some r →
    r < st.nextReg) ∧
  VerZero st.out ∧
  (∀ r oi, st.regSsa r = some oi →
    ∃ i', st.out.get? oi = some i' ∧ i'.rid? = some r) ∧
  (∀ v info, st.valInfo v = some info →
    info.reg < st.nextReg ∧ st.regVersion info.reg = info.version ∧
    (st.regSsa info.reg).isSome)

/-- `emit_value` never recomputes under the invariant: it returns the
state unchanged together with the `reg_ssa` index of the value. -/
lemma emit_value_some (fuel : ℕ) (st : TransSt) (v : ℕ)
    (res : TransSt × ℕ)
    (hinv : ∀ v' info, st.valInfo v' = some info →
      info.reg < st.nextReg ∧ st.regVersion info.reg = info.version ∧
      (st.regSsa info.reg).isSome)
    (h : emit_value fuel st v = some res) :
    res.1 = st ∧ ∃ info, st.valInfo v = some info ∧
      st.regSsa info.reg = some res.2 := by
  cases fuel with
  | zero => simp [emit_value] at h
  | succ fuel =>
      unfold emit_value at h
      cases hvi : st.valInfo v with
      | none => rw [hvi] at h; simp at h
      | some info =>
          rw [hvi] at h
          simp only [Option.bind_eq_bind, Option.some_bind] at h
          have hver : ¬(st.regVersion info.reg ≠ info.version) := by
            have := (hinv v info hvi).2.1
            simp [this]
          rw [if_neg hver] at h
          cases hssa : st.regSsa info.reg with
          | none => rw [hssa] at h; simp at h
          | some oi =>
              rw [hssa] at h
              simp only [Option.bind_eq_bind, Option.some_bind,
                Option.some_inj] at h
              cases h
              exact ⟨rfl, info, rfl, hssa⟩

/-- Appending one operation with the freshly allocated register (the
common tail of every emission in the translator) preserves the
invariant. -/
lemma trans_append_inv (st : TransSt) (hinv : TransInv st) (q : QInstr)
    (hrid : q.rid? = some st.nextReg) (hver : q.ver? = some 0)
    (hops : ∀ o ∈ q.operandIdxs,
      ∃ i', st.out.get? o = some i' ∧ (QInstr.rid? i').isSome) :
    TransInv
      { out := st.out ++ [q], nextReg := st.nextReg + 1,
        valInfo := st.valInfo,
        regVersion := fun m => if m = st.nextReg then 0 else st.regVersion m,
        regSsa := fun m => if m = st.nextReg then some st.out.length
          else st.regSsa m } := by
  obtain ⟨hwf, hmono, hbound, hvz, hssa, hvi⟩ := hinv
  have hlt : ∀ o ∈ q.operandIdxs, o < st.out.length := by
    intro o ho
    obtain ⟨i', hi', _⟩ := hops o ho
    exact (List.get?_eq_some.mp hi').1
  have hget_lt : ∀ k instr, k < st.out.length →
      ((st.out ++ [q]).get? k = some instr ↔ st.out.get? k = some instr) := by
    intro k instr hk
    rw [List.get?_append hk]
  have hget_new : (st.out ++ [q]).get? st.out.length = some q :=
    List.get?_concat_length st.out q
  have hget_all : ∀ k instr, (st.out ++ [q]).get? k = some instr →
      (k < st.out.length ∧ st.out.get? k = some instr) ∨
      (k = st.out.length ∧ instr = q) := by
    intro k instr hk
    by_cases h : k < st.out.length
    · exact Or.inl ⟨h, (hget_lt k instr h).mp hk⟩
    · have hk2 : k < (st.out ++ [q]).length := (List.get?_eq_some.mp hk).1
      simp only [List.length_append, List.length_singleton] at hk2
      have : k = st.out.length := by omega
      subst this
      rw [hget_new] at hk
      exact Or.inr ⟨rfl, by injection hk with h'; exact h'.symm⟩
  refine ⟨?_, ?_, ?_, ?_, ?_, ?_⟩
  · -- WFq
    intro i op hget o ho
    rcases hget_all i op hget with ⟨hi, hold⟩ | ⟨hi, rfl⟩
    · obtain ⟨holt, i', hi', hk⟩ := hwf i op hold o ho
      refine ⟨holt, i', ?_, hk⟩
      rw [hget_lt o i' (by omega)]
      exact hi'
    · subst hi
      obtain ⟨i', hi', hk⟩ := hops o ho
      have holt := (List.get?_eq_some.mp hi').1
      refine ⟨holt, i', ?_, ?_⟩
      · rw [hget_lt o i' holt]; exact hi'
      · obtain ⟨r, hr⟩ := Option.isSome_iff_exists.mp hk
        exact QInstr.key?_isSome_of_rid? i' r hr
  · -- RidMono
    intro k1 k2 i1 i2 r1 r2 h12 hg1 hg2 hr1 hr2
    rcases hget_all k2 i2 hg2 with ⟨hk2, hold2⟩ | ⟨hk2, rfl⟩
    · have hk1 : k1 < st.out.length := by omega
      exact hmono k1 k2 i1 i2 r1 r2 h12 ((hget_lt k1 i1 hk1).mp hg1) hold2 hr1 hr2
    · subst hk2
      have hk1 : k1 < st.out.length := by omega
      have := hbound k1 i1 ((hget_lt k1 i1 hk1).mp hg1) r1 hr1
      rw [hrid] at hr2
      injection hr2 with hr2
      omega
  · -- bound
    intro k instr hget r hr
    rcases hget_all k instr hget with ⟨hk, hold⟩ | ⟨hk, rfl⟩
    · have := hbound k instr hold r hr
      simp only []
      omega
    · rw [hrid] at hr
      injection hr with hr
      simp only []
      omega
  · -- VerZero
    intro k instr hget
    rcases hget_all k instr hget with ⟨hk, hold⟩ | ⟨hk, rfl⟩
    · exact hvz k instr hold
    · exact Or.inl hver
  · -- regSsa
    intro r oi h
    simp only [] at h
    by_cases hr : r = st.nextReg
    · rw [if_pos hr] at h
      injection h with h
      exact ⟨q, by rw [← h]; exact hget_new, by rw [hr]; exact hrid⟩
    · rw [if_neg hr] at h
      obtain ⟨i', hi', hrid'⟩ := hssa r oi h
      have holt := (List.get?_eq_some.mp hi').1
      exact ⟨i', by rw [hget_lt oi i' holt]; exact hi', hrid'⟩
  · -- valInfo
    intro v info h
    simp only [] at h ⊢
    obtain ⟨hlt', hver', hsome'⟩ := hvi v info h
    have hne : info.reg ≠ st.nextReg := by omega
    refine ⟨by omega, ?_, ?_⟩
    · rw [if_neg hne]; exact hver'
    · rw [if_neg hne]; exact hsome'

/-- Recording a `ValueInfo` for the just-allocated register preserves
the invariant. -/
lemma setInfo_inv (st : TransSt) (hinv : TransInv st) (idx : ℕ)
    (info : ValueInfo) (h1 : info.reg < st.nextReg)
    (h2 : st.regVersion info.reg = info.version)
    (h3 : (st.regSsa info.reg).isSome) :
    TransInv (st.setInfo idx info) := by
  obtain ⟨hwf, hmono, hbound, hvz, hssa, hvi⟩ := hinv
  refine ⟨hwf, hmono, hbound, hvz, hssa, ?_⟩
  intro v info' h
  simp only [TransSt.setInfo] at h
  by_cases hv : v = idx
  · rw [if_pos hv] at h
    injection h with h
    subst h
    exact ⟨h1, h2, h3⟩
  · rw [if_neg hv] at h
    exact hvi v info' h


/-- `emitFresh` written out: append under the fresh register. -/
lemma emitFresh_eq (st : TransSt) (mk : ℕ → QInstr) :
    st.emitFresh mk =
      ({ out := st.out ++ [mk st.nextReg], nextReg := st.nextReg + 1,
         valInfo := st.valInfo,
         regVersion := fun m => if m = st.nextReg then 0 else st.regVersion m,
         regSsa := fun m => if m = st.nextReg then some st.out.length
           else st.regSsa m }, st.nextReg, st.out.length) := rfl

/-- Appending a `Return` preserves the translator invariant. -/
lemma trans_append_ret_inv (st : TransSt) (hinv : TransInv st)
    (ro : Option ℕ)
    (hops : ∀ o ∈ (QInstr.ret ro).operandIdxs,
      ∃ i', st.out.get? o = some i' ∧ (QInstr.rid? i').isSome) :
    TransInv (st.emit (.ret ro)).1 := by
  obtain ⟨hwf, hmono, hbound, hvz, hssa, hvi⟩ := hinv
  have hget_lt : ∀ k instr, k < st.out.length →
      ((st.out ++ [QInstr.ret ro]).get? k = some instr ↔
        st.out.get? k = some instr) := by
    intro k instr hk
    rw [List.get?_append hk]
  have hget_all : ∀ k instr,
      (st.out ++ [QInstr.ret ro]).get? k = some instr →
      (k < st.out.length ∧ st.out.get? k = some instr) ∨
      (k = st.out.length ∧ instr = QInstr.ret ro) := by
    intro k instr hk
    by_cases h : k < st.out.length
    · exact Or.inl ⟨h, (hget_lt k instr h).mp hk⟩
    · have hk2 : k < (st.out ++ [QInstr.ret ro]).length :=
        (List.get?_eq_some.mp hk).1
      simp only [List.length_append, List.length_singleton] at hk2
      have hke : k = st.out.length := by omega
      subst hke
      rw [List.get?_concat_length] at hk
      exact Or.inr ⟨rfl, by injection hk with h'; exact h'.symm⟩
  refine ⟨?_, ?_, ?_, ?_, ?_, hvi⟩
  · intro i op hget o ho
    rcases hget_all i op hget with ⟨hi, hold⟩ | ⟨hi, rfl⟩
    · obtain ⟨holt, i', hi', hk⟩ := hwf i op hold o ho
      exact ⟨holt, i',
        (hget_lt o i' (by omega)).mpr hi', hk⟩
    · subst hi
      obtain ⟨i', hi', hk⟩ := hops o ho
      have holt := (List.get?_eq_some.mp hi').1
      obtain ⟨r, hr⟩ := Option.isSome_iff_exists.mp hk
      exact ⟨holt, i', (hget_lt o i' holt).mpr hi',
        QInstr.key?_isSome_of_rid? i' r hr⟩
  · intro k1 k2 i1 i2 r1 r2 h12 hg1 hg2 hr1 hr2
    rcases hget_all k2 i2 hg2 with ⟨hk2, hold2⟩ | ⟨hk2, rfl⟩
    · have hk1 : k1 < st.out.length := by omega
      exact hmono k1 k2 i1 i2 r1 r2 h12 ((hget_lt k1 i1 hk1).mp hg1) hold2
        hr1 hr2
    · simp [QInstr.rid?] at hr2
  · intro k instr hget r hr
    rcases hget_all k instr hget with ⟨hk, hold⟩ | ⟨hk, rfl⟩
    · exact hbound k instr hold r hr
    · simp [QInstr.rid?] at hr
  · intro k instr hget
    rcases hget_all k instr hget with ⟨hk, hold⟩ | ⟨hk, rfl⟩
    · exact hvz k instr hold
    · exact Or.inr rfl
  · intro r oi h
    obtain ⟨i', hi', hrid'⟩ := hssa r oi h
    have holt := (List.get?_eq_some.mp hi').1
    exact ⟨i', (hget_lt oi i' holt).mpr hi', hrid'⟩

/-- `duplicate_value` preserves the invariant and yields the index of a
fresh register-carrying instruction; existing indices stay valid. -/
lemma duplicate_value_inv (fuel : ℕ) (st : TransSt) (v : ℕ)
    (res : TransSt × ℕ) (hinv : TransInv st)
    (h : duplicate_value fuel st v = some res) :
    TransInv res.1 ∧
    (∀ k i', st.out.get? k = some i' → res.1.out.get? k = some i') ∧
    (∃ i', res.1.out.get? res.2 = some i' ∧ (QInstr.rid? i').isSome) := by
  cases fuel with
  | zero => simp [duplicate_value] at h
  | succ fuel =>
      unfold duplicate_value at h
      cases h1 : emit_value fuel st v with
      | none => rw [h1] at h; simp at h
      | some res1 =>
          rw [h1] at h
          simp only [Option.bind_eq_bind, Option.some_bind] at h
          obtain ⟨hres1, info1, hinfo1, hssa1⟩ :=
            emit_value_some fuel st v res1 hinv.2.2.2.2.2 h1
          obtain ⟨st1, q_val⟩ := res1
          simp only at hres1
          subst st1
          obtain ⟨i', hi', hrid'⟩ := hinv.2.2.2.2.1 info1.reg q_val hssa1
          simp only [emitFresh_eq, Option.some_inj] at h
          subst h
          have hops : ∀ o ∈ (QInstr.binImm COp.add q_val 0 st.nextReg
              0).operandIdxs,
              ∃ j', st.out.get? o = some j' ∧ (QInstr.rid? j').isSome := by
            intro o ho
            simp only [QInstr.operandIdxs, List.mem_singleton] at ho
            subst ho
            exact ⟨i', hi', by rw [hrid']; rfl⟩
          refine ⟨trans_append_inv st hinv _ rfl rfl hops, ?_, ?_⟩
          · intro k j' hk
            have holt := (List.get?_eq_some.mp hk).1
            simp only []
            rw [List.get?_append holt]
            exact hk
          · refine ⟨QInstr.binImm COp.add q_val 0 st.nextReg 0, ?_, rfl⟩
            simp only []
            exact List.get?_concat_length st.out _

/-- One translated operation preserves the translator invariant. -/
lemma translateStep_inv (fuel : ℕ) (st : TransSt) (idx : ℕ) (ins : CInstr)
    (st' : TransSt) (hinv : TransInv st)
    (h : translateStep fuel st idx ins = some st') : TransInv st' := by
  cases ins with
  | const v =>
      simp only [translateStep, emitFresh_eq, Option.some_inj] at h
      subst h
      refine setInfo_inv _
        (trans_append_inv st hinv (QInstr.init v st.nextReg 0) rfl rfl ?_)
        idx _ ?_ ?_ ?_
      · intro o ho
        simp [QInstr.operandIdxs] at ho
      · show st.nextReg < st.nextReg + 1
        omega
      · show (if st.nextReg = st.nextReg then 0 else st.regVersion st.nextReg)
          = 0
        simp
      · show (if st.nextReg = st.nextReg then some st.out.length
          else st.regSsa st.nextReg).isSome
        simp
  | bin op lhs rhs =>
      simp only [translateStep] at h
      cases h1 : emit_value fuel st lhs with
      | none => rw [h1] at h; simp at h
      | some res1 =>
      rw [h1] at h
      simp only [Option.bind_eq_bind, Option.some_bind] at h
      obtain ⟨hres1, info1, hinfo1, hssa1⟩ :=
        emit_value_some fuel st lhs res1 hinv.2.2.2.2.2 h1
      obtain ⟨st1, q_lhs⟩ := res1
      simp only at hres1
      subst st1
      cases h2 : emit_value fuel st rhs with
      | none => rw [h2] at h; simp at h
      | some res2 =>
      rw [h2] at h
      simp only [Option.bind_eq_bind, Option.some_bind] at h
      obtain ⟨hres2, info2, hinfo2, hssa2⟩ :=
        emit_value_some fuel st rhs res2 hinv.2.2.2.2.2 h2
      obtain ⟨st2, q_rhs0⟩ := res2
      simp only at hres2
      subst st2
      obtain ⟨il, hil, hridl⟩ := hinv.2.2.2.2.1 info1.reg q_lhs hssa1
      by_cases heq : q_lhs = q_rhs0
      · rw [if_pos heq] at h
        cases h3 : duplicate_value fuel st rhs with
        | none => rw [h3] at h; simp at h
        | some res3 =>
        rw [h3] at h
        simp only [Option.bind_eq_bind, Option.some_bind] at h
        obtain ⟨hinv3, hpres3, ir, hir, hridr⟩ :=
          duplicate_value_inv fuel st rhs res3 hinv h3
        obtain ⟨st3, q_rhs⟩ := res3
        simp only [emitFresh_eq, Option.some_inj] at h
        subst h
        have hops : ∀ o ∈ (QInstr.bin op q_lhs q_rhs st3.nextReg
            0).operandIdxs,
            ∃ j', st3.out.get? o = some j' ∧ (QInstr.rid? j').isSome := by
          intro o ho
          simp only [QInstr.operandIdxs, List.mem_cons,
            List.mem_singleton, List.not_mem_nil, or_false] at ho
          cases ho with
          | inl hl =>
              subst hl
              exact ⟨il, hpres3 _ il hil, by rw [hridl]; rfl⟩
          | inr hr =>
              subst hr
              exact ⟨ir, hir, hridr⟩
        refine setInfo_inv _
          (trans_append_inv st3 hinv3
            (QInstr.bin op q_lhs q_rhs st3.nextReg 0) rfl rfl hops)
          idx _ ?_ ?_ ?_
        · show st3.nextReg < st3.nextReg + 1
          omega
        · show (if st3.nextReg = st3.nextReg then 0
            else st3.regVersion st3.nextReg) = 0
          simp
        · show (if st3.nextReg = st3.nextReg then some st3.out.length
            else st3.regSsa st3.nextReg).isSome
          simp
      · rw [if_neg heq] at h
        simp only [Option.bind_eq_bind, Option.some_bind] at h
        obtain ⟨ir, hir, hridr⟩ := hinv.2.2.2.2.1 info2.reg q_rhs0 hssa2
        simp only [emitFresh_eq, Option.some_inj] at h
        subst h
        have hops : ∀ o ∈ (QInstr.bin op q_lhs q_rhs0 st.nextReg
            0).operandIdxs,
            ∃ j', st.out.get? o = some j' ∧ (QInstr.rid? j').isSome := by
          intro o ho
          simp only [QInstr.operandIdxs, List.mem_cons,
            List.mem_singleton, List.not_mem_nil, or_false] at ho
          cases ho with
          | inl hl =>
              subst hl
              exact ⟨il, hil, by rw [hridl]; rfl⟩
          | inr hr =>
              subst hr
              exact ⟨ir, hir, by rw [hridr]; rfl⟩
        refine setInfo_inv _
          (trans_append_inv st hinv
            (QInstr.bin op q_lhs q_rhs0 st.nextReg 0) rfl rfl hops)
          idx _ ?_ ?_ ?_
        · show st.nextReg < st.nextReg + 1
          omega
        · show (if st.nextReg = st.nextReg then 0
            else st.regVersion st.nextReg) = 0
          simp
        · show (if st.nextReg = st.nextReg then some st.out.length
            else st.regSsa st.nextReg).isSome
          simp
  | binImm op lhs imm =>
      simp only [translateStep] at h
      cases h1 : emit_value fuel st lhs with
      | none => rw [h1] at h; simp at h
      | some res1 =>
      rw [h1] at h
      simp only [Option.bind_eq_bind, Option.some_bind] at h
      obtain ⟨hres1, info1, hinfo1, hssa1⟩ :=
        emit_value_some fuel st lhs res1 hinv.2.2.2.2.2 h1
      obtain ⟨st1, q_lhs⟩ := res1
      simp only at hres1
      subst st1
      obtain ⟨il, hil, hridl⟩ := hinv.2.2.2.2.1 info1.reg q_lhs hssa1
      simp only [emitFresh_eq, Option.some_inj] at h
      subst h
      have hops : ∀ o ∈ (QInstr.binImm op q_lhs imm st.nextReg
          0).operandIdxs,
          ∃ j', st.out.get? o = some j' ∧ (QInstr.rid? j').isSome := by
        intro o ho
        simp only [QInstr.operandIdxs, List.mem_singleton] at ho
        subst ho
        exact ⟨il, hil, by rw [hridl]; rfl⟩
      refine setInfo_inv _
        (trans_append_inv st hinv
          (QInstr.binImm op q_lhs imm st.nextReg 0) rfl rfl hops)
        idx _ ?_ ?_ ?_
      · show st.nextReg < st.nextReg + 1
        omega
      · show (if st.nextReg = st.nextReg then 0
          else st.regVersion st.nextReg) = 0
        simp
      · show (if st.nextReg = st.nextReg then some st.out.length
          else st.regSsa st.nextReg).isSome
        simp
  | ret r =>
      cases r with
      | none =>
          simp only [translateStep, Option.some_inj] at h
          subst h
          exact trans_append_ret_inv st hinv none
            (by intro o ho; simp [QInstr.operandIdxs] at ho)
      | some v =>
          simp only [translateStep] at h
          cases h1 : emit_value fuel st v with
          | none => rw [h1] at h; simp at h
          | some res1 =>
          rw [h1] at h
          simp only [Option.bind_eq_bind, Option.some_bind,
            Option.some_inj] at h
          obtain ⟨hres1, info1, hinfo1, hssa1⟩ :=
            emit_value_some fuel st v res1 hinv.2.2.2.2.2 h1
          obtain ⟨st1, q_val⟩ := res1
          simp only at hres1
          subst st1
          subst h
          obtain ⟨i', hi', hrid'⟩ := hinv.2.2.2.2.1 info1.reg q_val hssa1
          refine trans_append_ret_inv st hinv (some q_val) ?_
          intro o ho
          simp only [QInstr.operandIdxs, Option.toList_some,
            List.mem_singleton] at ho
          subst ho
          exact ⟨i', hi', by rw [hrid']; rfl⟩


/-- `key?` determines `rid?`. -/
lemma QInstr.rid?_of_key? (q : QInstr) (k : ℕ × ℕ) (h : q.key? = some k) :
    q.rid? = some k.1 := by
  cases q <;>
    simp [QInstr.key?, QInstr.rid?, QInstr.ver?] at h ⊢ <;>
    simp [← h]

/-- Distinct register ids give the single-producer property. -/
lemma SP_of_RidMono (out : List QInstr) (h : RidMono out) :
    SingleProducer out := by
  intro i j opi opj k hi hj hki hkj
  rcases Nat.lt_trichotomy i j with hij | hij | hij
  · exact absurd (h i j opi opj k.1 k.1 hij hi hj
      (QInstr.rid?_of_key? opi k hki) (QInstr.rid?_of_key? opj k hkj))
      (lt_irrefl _)
  · exact hij
  · exact absurd (h j i opj opi k.1 k.1 hij hj hi
      (QInstr.rid?_of_key? opj k hkj) (QInstr.rid?_of_key? opi k hki))
      (lt_irrefl _)

lemma foldTrans_inv (es : List (ℕ × CInstr)) :
    ∀ (fuel : ℕ) (st : TransSt), TransInv st → ∀ stf,
      es.foldlM (fun st e => translateStep fuel st e.1 e.2) st = some stf →
      TransInv stf := by
  induction es with
  | nil =>
      intro fuel st h stf hf
      simp only [List.foldlM_nil, Option.pure_def, Option.some_inj] at hf
      rwa [← hf]
  | cons e es ih =>
      intro fuel st h stf hf
      rw [List.foldlM_cons] at hf
      cases h1 : translateStep fuel st e.1 e.2 with
      | none => rw [h1] at hf; simp at hf
      | some st1 =>
          rw [h1] at hf
          simp only [Option.bind_eq_bind, Option.some_bind] at hf
          exact ih fuel st1 (translateStep_inv fuel st e.1 e.2 st1 h h1) stf hf

lemma TransInv_initial : TransInv TransSt.initial := by
  refine ⟨?_, ?_, ?_, ?_, ?_, ?_⟩
  · intro i op h o ho
    simp [TransSt.initial] at h
  · intro k1 k2 i1 i2 r1 r2 h12 hg1 hg2 hr1 hr2
    simp [TransSt.initial] at hg1
  · intro k instr h r hr
    simp [TransSt.initial] at h
  · intro k instr h
    simp [TransSt.initial] at h
  · intro r oi h
    simp [TransSt.initial] at h
  · intro v info h
    simp [TransSt.initial] at h

/-- Translator output is well formed with strictly increasing fresh
registers, all at version 0. -/
lemma translate_inv (p : List CInstr) (out : List QInstr)
    (h : translate p = some out) :
    WFq out ∧ RidMono out ∧ VerZero out := by
  unfold translate at h
  cases hf : p.enum.foldlM
      (fun st e => translateStep (p.length + 2) st e.1 e.2)
      TransSt.initial with
  | none => rw [hf] at h; simp at h
  | some stf =>
      rw [hf] at h
      simp only [Option.map_some'] at h
      injection h with h
      have hinv := foldTrans_inv p.enum (p.length + 2)
        TransSt.initial TransInv_initial stf hf
      rw [← h]
      exact ⟨hinv.1, hinv.2.1, hinv.2.2.2.1⟩

/-! ## Bounded (decidable) forms of the well-formedness predicates -/

/-- Decidable check for `WFq`. -/
def WFqB (l : List QInstr) : Bool :=
  l.enum.all fun e => e.2.operandIdxs.all fun o =>
    decide (o < e.1) && ((l.get? o).bind QInstr.key?).isSome

lemma WFq_of_B (l : List QInstr) (h : WFqB l = true) : WFq l := by
  intro i op hget o ho
  have hmem : (i, op) ∈ l.enum := by
    rw [List.get?_eq_getElem?] at hget
    exact List.mem_enum_iff_getElem?.mpr hget
  have h1 := List.all_eq_true.mp h (i, op) hmem
  have h2 := List.all_eq_true.mp h1 o ho
  simp only [Bool.and_eq_true, decide_eq_true_eq] at h2
  refine ⟨h2.1, ?_⟩
  have h3 := h2.2
  cases hg : l.get? o with
  | none => rw [hg] at h3; simp at h3
  | some op' =>
      rw [hg] at h3
      exact ⟨op', rfl, by simpa using h3⟩

/-- Decidable check for `SingleProducer`. -/
def SingleProducerB (l : List QInstr) : Bool :=
  l.enum.all fun e1 => l.enum.all fun e2 =>
    decide ((QInstr.key? e1.2).isSome →
      e1.2.key? = e2.2.key? → e1.1 = e2.1)

lemma SP_of_B (l : List QInstr) (h : SingleProducerB l = true) :
    SingleProducer l := by
  intro i j opi opj k hi hj hki hkj
  have m1 : (i, opi) ∈ l.enum := by
    rw [List.get?_eq_getElem?] at hi
    exact List.mem_enum_iff_getElem?.mpr hi
  have m2 : (j, opj) ∈ l.enum := by
    rw [List.get?_eq_getElem?] at hj
    exact List.mem_enum_iff_getElem?.mpr hj
  have h1 := List.all_eq_true.mp (List.all_eq_true.mp h (i, opi) m1) (j, opj) m2
  simp only [decide_eq_true_eq] at h1
  exact h1 (by simp [hki]) (by rw [hki, hkj])

/-! ## Claims about the translator and the enforcement pass -/

/-- The write-in-place invariant as the spec states it: every non-`Init`
binary operation writes its result into the left operand's register at
the next version. -/
def WriteInPlace (l : List QInstr) : Prop :=
  ∀ k instr, l.get? k = some instr →
    (∀ opc o0 o1 rid ver, instr = QInstr.bin opc o0 o1 rid ver →
      ∃ lop lver, l.get? o0 = some lop ∧ lop.rid? = some rid ∧
        lop.ver? = some lver ∧ ver = lver + 1) ∧
    (∀ opc o0 imm rid ver, instr = QInstr.binImm opc o0 imm rid ver →
      ∃ lop lver, l.get? o0 = some lop ∧ lop.rid? = some rid ∧
        lop.ver? = some lver ∧ ver = lver + 1)

/-- `x = 1; y = 2; z = x + y; return z`. -/
def c3Prog : List CInstr :=
  [.const 1, .const 2, .bin .add 0 1, .ret (some 2)]

/-- Its translation: three fresh registers, all at version 0. -/
def c3Out : List QInstr :=
  [.init 1 0 0, .init 2 1 0, .bin .add 0 1 2 0, .ret (some 2)]

/-- C3, counterexample: on the program `z = x + y` the translated and
enforced output's binary operation writes register 2 at version 0 while
its left operand holds register 0 — the write-in-place claim is false
for the code's output. -/
theorem C3_counterexample :
    (translate c3Prog).bind enforce = some c3Out ∧ ¬ WriteInPlace c3Out := by
  constructor
  · decide
  · intro h
    obtain ⟨lop, lver, hlop, hrid, hver, hv⟩ :=
      (h 2 (QInstr.bin .add 0 1 2 0) (by decide)).1 .add 0 1 2 0 rfl
    have : lop = QInstr.init 1 0 0 := by
      have : c3Out.get? 0 = some (QInstr.init 1 0 0) := by decide
      rw [this] at hlop
      injection hlop with h'
      exact h'.symm
    subst this
    simp [QInstr.rid?] at hrid

/-- C3, amended: the Translator does not write in place — every binary
operation's result is written to a freshly allocated register, strictly
larger than (hence different from) the left operand's register, and its
version is 0, not `lhs.version + 1`; the Constraint Enforcement Pass
preserves the output unchanged (register attributes included). -/
theorem C3_translator_fresh_registers (p : List CInstr) (out : List QInstr)
    (h : translate p = some out) :
    enforce out = some out ∧
    (∀ k opc o0 o1 rid ver,
      out.get? k = some (QInstr.bin opc o0 o1 rid ver) →
      ver = 0 ∧ ∃ lop lrid, out.get? o0 = some lop ∧
        lop.rid? = some lrid ∧ lrid < rid) ∧
    (∀ k opc o0 imm rid ver,
      out.get? k = some (QInstr.binImm opc o0 imm rid ver) →
      ver = 0 ∧ ∃ lop lrid, out.get? o0 = some lop ∧
        lop.rid? = some lrid ∧ lrid < rid) := by
  obtain ⟨hwf, hmono, hvz⟩ := translate_inv p out h
  refine ⟨enforce_id out hwf (SP_of_RidMono out hmono), ?_, ?_⟩
  · intro k opc o0 o1 rid ver hk
    constructor
    · have := hvz k _ hk
      simp [QInstr.ver?] at this
      exact this
    · obtain ⟨ho0lt, lop, hlop, hlkey⟩ :=
        hwf k _ hk o0 (by simp [QInstr.operandIdxs])
      obtain ⟨lk, hlk⟩ := Option.isSome_iff_exists.mp hlkey
      have hlrid := QInstr.rid?_of_key? lop lk hlk
      have hlt := hmono o0 k lop _ lk.1 rid ho0lt hlop hk hlrid rfl
      exact ⟨lop, lk.1, hlop, hlrid, hlt⟩
  · intro k opc o0 imm rid ver hk
    constructor
    · have := hvz k _ hk
      simp [QInstr.ver?] at this
      exact this
    · obtain ⟨ho0lt, lop, hlop, hlkey⟩ :=
        hwf k _ hk o0 (by simp [QInstr.operandIdxs])
      obtain ⟨lk, hlk⟩ := Option.isSome_iff_exists.mp hlkey
      have hlrid := QInstr.rid?_of_key? lop lk hlk
      have hlt := hmono o0 k lop _ lk.1 rid ho0lt hlop hk hlrid rfl
      exact ⟨lop, lk.1, hlop, hlrid, hlt⟩

/-- `x = 1; y = 2; z = x + y; w = z * 3; return w`: a program whose
translation contains both a binary and an immediate-binary operation. -/
def c3Prog2 : List CInstr :=
  [.const 1, .const 2, .bin .add 0 1, .binImm .mul 2 3, .ret (some 3)]

/-- Its translation: four fresh registers, all at version 0. -/
def c3Out2 : List QInstr :=
  [.init 1 0 0, .init 2 1 0, .bin .add 0 1 2 0, .binImm .mul 2 3 3 0,
   .ret (some 3)]

/-- Witness for C3: the amended theorem applied to the concrete program
`z = x + y; w = z * 3`, exercising both the binary and the
immediate-binary clause. -/
theorem C3_translator_fresh_registers_witness :
    enforce c3Out2 = some c3Out2 ∧ (0 : ℕ) < 2 ∧ (2 : ℕ) < 3 :=
  ⟨(C3_translator_fresh_registers c3Prog2 c3Out2 (by decide)).1, by
    have h2 := (C3_translator_fresh_registers c3Prog2 c3Out2 (by decide)).2.1
      2 .add 0 1 2 0 (by decide)
    obtain ⟨-, lop, lrid, hlop, hlrid, hlt⟩ := h2
    have hl : lop = QInstr.init 1 0 0 := by
      have hg : c3Out2.get? 0 = some (QInstr.init 1 0 0) := by decide
      rw [hg] at hlop
      injection hlop with h'
      exact h'.symm
    subst hl
    have : lrid = 0 := by
      simp [QInstr.rid?] at hlrid
      omega
    omega, by
    have h3 := (C3_translator_fresh_registers c3Prog2 c3Out2 (by decide)).2.2
      3 .mul 2 3 3 0 (by decide)
    obtain ⟨-, lop, lrid, hlop, hlrid, hlt⟩ := h3
    have hl : lop = QInstr.bin .add 0 1 2 0 := by
      have hg : c3Out2.get? 2 = some (QInstr.bin .add 0 1 2 0) := by decide
      rw [hg] at hlop
      injection hlop with h'
      exact h'.symm
    subst hl
    have : lrid = 2 := by
      simp [QInstr.rid?] at hlrid
      omega
    omega⟩

/-- An input in which one operation consumes the same register version
twice. -/
def c4In : List QInstr := [.init 5 0 0, .bin .add 0 0 1 0, .ret (some 1)]

/-- C4: the pass is supposed to repair double consumption by cloning one
operand into a fresh register, but `clone_rec` consults `new_ops_map`
first and returns the already-materialized operand, so the violating
operation passes through with both operand `(register, version)` pairs
identical — no clone is emitted. -/
theorem C4_double_consumption_not_repaired :
    enforce c4In = some c4In ∧
    c4In.get? 1 = some (QInstr.bin .add 0 0 1 0) ∧
    (c4In.get? 0).bind QInstr.key? = some (0, 0) := by decide

/-- `x = 1; y = 2; z = x + y; w = z * y; return w`. -/
def c5Ex : List QInstr :=
  [.init 1 0 0, .init 2 1 0, .bin .add 0 1 2 0, .bin .mul 2 1 3 0,
   .ret (some 3)]

/-- C5: the Constraint Enforcement Pass is idempotent on well-formed
single-producer input — in fact it is the identity, so a second
application returns its own output unchanged. -/
theorem C5_enforce_idempotent (l l' : List QInstr) (hwf : WFq l)
    (hsp : SingleProducer l) (h : enforce l = some l') :
    enforce l' = some l' := by
  have hid := enforce_id l hwf hsp
  rw [hid] at h
  injection h with h
  rw [← h]
  exact hid

/-- Witness for C5 at a concrete five-instruction block. -/
theorem C5_enforce_idempotent_witness : enforce c5Ex = some c5Ex :=
  C5_enforce_idempotent c5Ex c5Ex (WFq_of_B c5Ex (by decide))
    (SP_of_B c5Ex (by decide)) (by decide)

/-- `x = 5; z = x / 0; return z` with an immediate divisor of zero. -/
def c7Prog : List CInstr := [.const 5, .binImm .div 0 0, .ret (some 1)]

/-- Its translation — emitted without any error. -/
def c7Out : List QInstr := [.init 5 0 0, .binImm .div 0 0 1 0, .ret (some 1)]

/-- C7, counterexample: the Translator emits an immediate-division
operation whose divisor is literally zero instead of reporting an error
(`create_binary_imm_op` performs no check). -/
theorem C7_counterexample :
    translate c7Prog = some c7Out ∧
    c7Out.get? 1 = some (QInstr.binImm .div 0 0 1 0) := by decide

/-- C7, amended: the zero-divisor check happens when the backend builds
the division circuit — `divi` (and `divui`) raise `ValueError` on a
literal zero divisor before emitting any gate — not at translation time;
the Translator emits the operation unchanged. -/
theorem C7_div_zero_checked_at_circuit_build :
    translate c7Prog = some c7Out ∧
    (∀ (n : ℕ) (qc : Circuit) (a : ℕ) (nOut : Option ℕ),
      divi n qc a 0 nOut = none ∧ divui n qc a 0 nOut = none) := by
  refine ⟨by decide, ?_⟩
  intro n qc a nOut
  constructor <;> simp [divi, divui]

/-- C10: `set_number_of_bits` rejects exactly the non-positive widths,
and `initialize_variable` creates an `n`-qubit register and accepts
exactly the literals in the two's-complement range
`[-2^(n-1), 2^(n-1) - 1]`. -/
theorem C10_bit_width_configuration :
    (∀ m : ℤ, (set_number_of_bits m = none ↔ m ≤ 0) ∧
      (0 < m → set_number_of_bits m = some m.toNat)) ∧
    (∀ (n : ℕ) (qc : Circuit) (v : ℤ),
      ((initialize_variable n qc v).isSome ↔
        -2 ^ (n - 1) ≤ v ∧ v ≤ 2 ^ (n - 1) - 1) ∧
      (∀ qc' r, initialize_variable n qc v = some (qc', r) →
        qc'.width r = n ∧ r = qc.regs.length)) := by
  constructor
  · intro m
    constructor
    · unfold set_number_of_bits
      split <;> simp_all
    · intro hm
      unfold set_number_of_bits
      rw [if_neg (by omega)]
  · intro n qc v
    constructor
    · unfold initialize_variable
      simp only []
      set A : ℤ := 2 ^ (n - 1) with hA
      split <;> rename_i hcond
      · simp only [Option.isSome_none, Bool.false_eq_true, false_iff]
        omega
      · simp only [Option.isSome_some, true_iff]
        omega
    · intro qc' r h
      unfold initialize_variable at h
      simp only [] at h
      split at h
      · simp at h
      · simp only [Option.some_inj, Prod.mk.injEq] at h
        obtain ⟨hqc, hr⟩ := h
        subst hqc
        subst hr
        refine ⟨?_, rfl⟩
        show (qc.regs ++ [n]).getD qc.regs.length 0 = n
        rw [List.getD_eq_getElem?_getD, List.getElem?_concat_length]
        rfl

/-- Witness for C10 at width 4: 4 bits are accepted, the value 7 fits,
and 8 is rejected. -/
theorem C10_bit_width_configuration_witness :
    set_number_of_bits 4 = some 4 ∧
    (initialize_variable 4 Circuit.empty 7).isSome ∧
    initialize_variable 4 Circuit.empty 8 = none := by
  refine ⟨C10_bit_width_configuration.1 4 |>.2 (by norm_num), ?_, ?_⟩
  · exact (C10_bit_width_configuration.2 4 Circuit.empty 7).1.mpr (by norm_num)
  · have h := (C10_bit_width_configuration.2 4 Circuit.empty 8).1
    cases hg : initialize_variable 4 Circuit.empty 8 with
    | none => rfl
    | some p =>
        have : ((8 : ℤ) ≤ 2 ^ (4 - 1) - 1) := (h.mp (by rw [hg]; rfl)).2
        norm_num at this


/-! ## Claims evaluated on concrete circuits -/

/-- Width-4 registers `a = 1`, `b = 1`, a control qubit prepared in
state |0⟩, then `divu_controlled`; returns the decoded quotient and the
decoded dividend register. -/
def c6Run : Option (ℤ × ℤ) := do
  let p1 ← initialize_variable 4 Circuit.empty 1
  let p2 ← initialize_variable 4 p1.1 1
  let p3 ← initialize_variable 1 p2.1 0
  let r := divu_controlled p3.1 p1.2 p2.2 ⟨p3.2, 0⟩ none
  let st ← r.1.exec
  let q ← st.decodeReg r.2.1
  let a ← st.decodeReg p1.2
  some (q, a)

/-- C6: with its control qubit in state |0⟩, `divu_controlled` is not
the identity — it ignores the control input entirely (no gate in its
body uses it) and performs the division: the quotient register ends at
1 (identity would leave it at 0) and the dividend register is consumed
to 0 (identity would leave it at 1). -/
theorem C6_divu_controlled_ignores_control : c6Run = some (1, 0) := by
  set_option maxRecDepth 100000 in decide

/-- Width-4 registers `a = 1`, `b = 1`, then `divu`; returns the decoded
quotient, remainder, and dividend register. -/
def c9Run : Option (ℤ × ℤ × ℤ) := do
  let p1 ← initialize_variable 4 Circuit.empty 1
  let p2 ← initialize_variable 4 p1.1 1
  let r := divu p2.1 p1.2 p2.2 none
  let st ← r.1.exec
  let q ← st.decodeReg r.2.1
  let rr ← st.decodeReg r.2.2
  let a ← st.decodeReg p1.2
  some (q, rr, a)

/-- C9: `divu` computes quotient 1 and remainder 0 but destroys its
dividend operand — `a_reg` decodes to 0 after the call, not to the 1 it
held before, contradicting the claim (and the function's own docstring)
that operand registers are left unchanged. -/
theorem C9_divu_destroys_dividend : c9Run = some (1, 0, 0) := by
  set_option maxRecDepth 100000 in decide


/-! ## Semantics toolkit: runs, state updates, Fourier blocks -/

lemma run_nil (st : QState) : run [] st = some st := rfl

lemma run_cons (g : Gate) (gs : List Gate) (st : QState) :
    run (g :: gs) st = (applyGate st g).bind (run gs) := by
  show List.foldlM applyGate st (g :: gs) = _
  rw [List.foldlM_cons]
  cases applyGate st g with
  | none => rfl
  | some st' => rfl

lemma run_append (g1 g2 : List Gate) (st : QState) :
    run (g1 ++ g2) st = (run g1 st).bind (run g2) := by
  induction g1 generalizing st with
  | nil => simp [run_nil, run]
  | cons g gs ih =>
      rw [List.cons_append, run_cons, run_cons]
      cases applyGate st g with
      | none => simp
      | some st' => simp only [Option.some_bind]; exact ih st'

lemma QState.get?_set_ne (st : QState) (r : ℕ) (x : RegSt) (r' : ℕ)
    (h : r' ≠ r) : (st.set r x).get? r' = st.get? r' := by
  rw [List.get?_eq_getElem?, List.get?_eq_getElem?]
  exact List.getElem?_set_ne (by omega)

lemma QState.get?_set_self (st : QState) (r : ℕ) (x : RegSt)
    (h : r < st.length) : (st.set r x).get? r = some x := by
  rw [List.get?_eq_getElem?]
  exact List.getElem?_set_self h

lemma QState.lt_length_of_get? (st : QState) (r : ℕ) (x : RegSt)
    (h : st.get? r = some x) : r < st.length := by
  rw [List.get?_eq_getElem?] at h
  exact (List.getElem?_eq_some.mp h).1

lemma QState.set_self (st : QState) (r : ℕ) (x : RegSt)
    (h : st.get? r = some x) : st.set r x = st := by
  apply List.ext_get?
  intro j
  by_cases hj : j = r
  · subst hj
    rw [QState.get?_set_self st j x (QState.lt_length_of_get? st j x h), h]
  · exact QState.get?_set_ne st r x j hj

lemma QState.getBit_set_ne (st : QState) (r : ℕ) (x : RegSt) (q : Qubit)
    (h : q.reg ≠ r) : QState.getBit (st.set r x) q = st.getBit q := by
  unfold QState.getBit
  rw [QState.get?_set_ne st r x q.reg h]

lemma fourier_delta_eq (bits : List Bool) (t : ℕ → ℤ) (c : ℤ) (i : ℕ) :
    RegSt.fourier bits (fun m => if m = i then t m + c else t m) =
    RegSt.fourier bits (fun m => t m + (if m = i then c else 0)) := by
  congr 1
  funext m
  by_cases h : m = i <;> simp [h]

lemma fourier_zero_delta (st : QState) (s : ℕ) (bits : List Bool)
    (t : ℕ → ℤ) (hs : st.get? s = some (RegSt.fourier bits t)) :
    st.set s (RegSt.fourier bits (fun m => t m + (fun _ : ℕ => (0 : ℤ)) m))
      = st := by
  have : RegSt.fourier bits (fun m => t m + (fun _ : ℕ => (0 : ℤ)) m) =
      RegSt.fourier bits t := by
    congr 1
    funext m
    simp
  rw [this]
  exact QState.set_self st s _ hs

/-- The per-gate phase-accumulator delta contributed to Fourier-mode
register `s` of width `len`; `none` when the gate is not a phase
rotation targeting `s` with an in-range index and controls away from
`s`. -/
def phaseDelta (st : QState) (s : ℕ) (len : ℕ) : Gate → Option (ℕ → ℤ)
  | .p frac tq =>
      if tq.reg = s ∧ tq.idx < len then
        (phaseContrib frac tq.idx).map
          (fun c m => if m = tq.idx then c else 0)
      else none
  | .cp frac cq tq =>
      if tq.reg = s ∧ tq.idx < len ∧ cq.reg ≠ s then
        (st.getBit cq).bind (fun b =>
          if b then
            (phaseContrib frac tq.idx).map
              (fun c m => if m = tq.idx then c else 0)
          else some (fun _ => 0))
      else none
  | .ccp frac c1 c2 tq =>
      if tq.reg = s ∧ tq.idx < len ∧ c1.reg ≠ s ∧ c2.reg ≠ s then
        (st.getBit c1).bind (fun b1 =>
          (st.getBit c2).bind (fun b2 =>
            if b1 && b2 then
              (phaseContrib frac tq.idx).map
                (fun c m => if m = tq.idx then c else 0)
            else some (fun _ => 0)))
      else none
  | _ => none

/-- One phase gate on a Fourier-mode register adds its delta. -/
lemma applyGate_phase (st : QState) (s : ℕ) (bits : List Bool) (t : ℕ → ℤ)
    (g : Gate) (d : ℕ → ℤ)
    (hs : st.get? s = some (RegSt.fourier bits t))
    (hd : phaseDelta st s bits.length g = some d) :
    applyGate st g = some (st.set s (RegSt.fourier bits
      (fun m => t m + d m))) := by
  cases g with
  | p frac tq =>
      simp only [phaseDelta] at hd
      split at hd
      · rename_i hc
        obtain ⟨hreg, hidx⟩ := hc
        subst hreg
        cases hpc : phaseContrib frac tq.idx with
        | none => rw [hpc] at hd; simp at hd
        | some c =>
            rw [hpc] at hd
            simp only [Option.map_some', Option.some_inj] at hd
            subst hd
            show QState.phase st frac tq = _
            unfold QState.phase
            rw [hs]
            simp only [hidx, if_true, hpc, Option.bind_eq_bind,
              Option.some_bind, fourier_delta_eq]
      · exact absurd hd (by simp)
  | cp frac cq tq =>
      simp only [phaseDelta] at hd
      split at hd
      · rename_i hc
        obtain ⟨hreg, hidx, hcq⟩ := hc
        subst hreg
        show (st.getBit cq).bind _ = _
        cases hb : st.getBit cq with
        | none => rw [hb] at hd; simp at hd
        | some b =>
            rw [hb] at hd
            simp only [Option.some_bind] at hd
            simp only [Option.bind_eq_bind, Option.some_bind]
            cases b with
            | false =>
                simp only [Bool.false_eq_true, if_false] at hd ⊢
                injection hd with hd
                subst hd
                rw [fourier_zero_delta st tq.reg bits t hs]
            | true =>
                simp only [if_true] at hd ⊢
                cases hpc : phaseContrib frac tq.idx with
                | none => rw [hpc] at hd; simp at hd
                | some c =>
                    rw [hpc] at hd
                    simp only [Option.map_some', Option.some_inj] at hd
                    subst hd
                    unfold QState.phase
                    rw [hs]
                    simp only [hidx, if_true, hpc, Option.bind_eq_bind,
                      Option.some_bind, fourier_delta_eq]
      · exact absurd hd (by simp)
  | ccp frac c1 c2 tq =>
      simp only [phaseDelta] at hd
      split at hd
      · rename_i hc
        obtain ⟨hreg, hidx, hc1, hc2⟩ := hc
        subst hreg
        show (st.getBit c1).bind _ = _
        cases hb1 : st.getBit c1 with
        | none => rw [hb1] at hd; simp at hd
        | some b1 =>
            rw [hb1] at hd
            simp only [Option.some_bind] at hd
            simp only [Option.bind_eq_bind, Option.some_bind]
            cases hb2 : st.getBit c2 with
            | none => rw [hb2] at hd; simp at hd
            | some b2 =>
                rw [hb2] at hd
                simp only [Option.some_bind] at hd
                simp only [Option.bind_eq_bind, Option.some_bind]
                cases hbb : b1 && b2 with
                | false =>
                    rw [hbb] at hd
                    simp only [Bool.false_eq_true, if_false] at hd ⊢
                    injection hd with hd
                    subst hd
                    rw [fourier_zero_delta st tq.reg bits t hs]
                | true =>
                    rw [hbb] at hd
                    simp only [if_true] at hd ⊢
                    cases hpc : phaseContrib frac tq.idx with
                    | none => rw [hpc] at hd; simp at hd
                    | some c =>
                        rw [hpc] at hd
                        simp only [Option.map_some', Option.some_inj] at hd
                        subst hd
                        unfold QState.phase
                        rw [hs]
                        simp only [hidx, if_true, hpc, Option.bind_eq_bind,
                          Option.some_bind, fourier_delta_eq]
      · exact absurd hd (by simp)
  | x tq => exact absurd hd (by simp [phaseDelta])
  | cx c tq => exact absurd hd (by simp [phaseDelta])
  | swap a b => exact absurd hd (by simp [phaseDelta])
  | mcx cs tq => exact absurd hd (by simp [phaseDelta])
  | qft r => exact absurd hd (by simp [phaseDelta])
  | iqft r => exact absurd hd (by simp [phaseDelta])


/-- Pointwise sum of the deltas of a gate list. -/
def sumDelta (st : QState) (s len : ℕ) (gs : List Gate) (m : ℕ) : ℤ :=
  (gs.map (fun g => ((phaseDelta st s len g).getD (fun _ => 0)) m)).sum

lemma phaseDelta_set (st : QState) (s len : ℕ) (x : RegSt) (g : Gate) :
    phaseDelta (st.set s x) s len g = phaseDelta st s len g := by
  cases g with
  | cp frac cq tq =>
      simp only [phaseDelta]
      split
      · rename_i hc
        rw [QState.getBit_set_ne st s x cq hc.2.2]
      · rfl
  | ccp frac c1 c2 tq =>
      simp only [phaseDelta]
      split
      · rename_i hc
        rw [QState.getBit_set_ne st s x c1 hc.2.2.1,
          QState.getBit_set_ne st s x c2 hc.2.2.2]
      · rfl
  | _ => rfl

lemma sumDelta_set (st : QState) (s len : ℕ) (x : RegSt) (gs : List Gate)
    (m : ℕ) : sumDelta (st.set s x) s len gs m = sumDelta st s len gs m := by
  unfold sumDelta
  congr 1
  apply List.map_congr_left
  intro g hg
  rw [phaseDelta_set]

lemma sumDelta_nil (st : QState) (s len m : ℕ) :
    sumDelta st s len [] m = 0 := rfl

lemma sumDelta_cons (st : QState) (s len : ℕ) (g : Gate) (gs : List Gate)
    (m : ℕ) : sumDelta st s len (g :: gs) m =
      ((phaseDelta st s len g).getD (fun _ => 0)) m +
        sumDelta st s len gs m := by
  unfold sumDelta
  rw [List.map_cons, List.sum_cons]

lemma sumDelta_append (st : QState) (s len : ℕ) (gs1 gs2 : List Gate)
    (m : ℕ) : sumDelta st s len (gs1 ++ gs2) m =
      sumDelta st s len gs1 m + sumDelta st s len gs2 m := by
  unfold sumDelta
  rw [List.map_append, List.sum_append]

/-- Running a list of phase gates on Fourier-mode register `s` adds the
summed deltas to the accumulators. -/
lemma run_phases (s : ℕ) (bits : List Bool) (gs : List Gate) :
    ∀ (st : QState) (t : ℕ → ℤ),
    st.get? s = some (RegSt.fourier bits t) →
    (∀ g ∈ gs, (phaseDelta st s bits.length g).isSome) →
    run gs st = some (st.set s (RegSt.fourier bits
      (fun m => t m + sumDelta st s bits.length gs m))) := by
  induction gs with
  | nil =>
      intro st t hs hall
      rw [run_nil]
      congr 1
      rw [show (fun m => t m + sumDelta st s bits.length [] m)
        = fun m => t m + (fun _ : ℕ => (0 : ℤ)) m from rfl]
      rw [fourier_zero_delta st s bits t hs]
  | cons g gs ih =>
      intro st t hs hall
      obtain ⟨d, hd⟩ := Option.isSome_iff_exists.mp
        (hall g (List.mem_cons_self g gs))
      rw [run_cons, applyGate_phase st s bits t g d hs hd, Option.some_bind]
      have hlen : s < st.length := QState.lt_length_of_get? st s _ hs
      have hs' : (st.set s (RegSt.fourier bits (fun m => t m + d m))).get? s
          = some (RegSt.fourier bits (fun m => t m + d m)) :=
        QState.get?_set_self st s _ hlen
      have hall' : ∀ g' ∈ gs,
          (phaseDelta (st.set s (RegSt.fourier bits (fun m => t m + d m)))
            s bits.length g').isSome := by
        intro g' hg'
        rw [phaseDelta_set]
        exact hall g' (List.mem_cons_of_mem g hg')
      rw [ih _ _ hs' hall']
      rw [List.set_set]
      have heq : (fun m => t m + d m +
          sumDelta (st.set s (RegSt.fourier bits fun m => t m + d m))
            s bits.length gs m) =
          (fun m => t m + sumDelta st s bits.length (g :: gs) m) := by
        funext m
        rw [sumDelta_set, sumDelta_cons, hd]
        simp only [Option.getD_some]
        ring
      rw [heq]

/-- `iqftResult` recovers `v` when the accumulated phases are coherent
with it. -/
lemma iqftResult_eq (bits : List Bool) (t : ℕ → ℤ) (v : ℕ)
    (hn : 0 < bits.length) (hv : v < 2 ^ bits.length)
    (hcoh : ∀ i < bits.length,
      ((bitsVal bits : ℤ) + t i) % 2 ^ (i + 1) = (v : ℤ) % 2 ^ (i + 1)) :
    iqftResult bits t = some (natToBits bits.length v) := by
  unfold iqftResult
  simp only []
  have hv2 : (v : ℤ) % 2 ^ bits.length = v :=
    Int.emod_eq_of_lt (by positivity) (by exact_mod_cast hv)
  have hlast := hcoh (bits.length - 1) (by omega)
  have hsucc : bits.length - 1 + 1 = bits.length := by omega
  rw [hsucc] at hlast
  have hveq : ((bitsVal bits : ℤ) + t (bits.length - 1)) % 2 ^ bits.length
      = (v : ℤ) := by rw [hlast, hv2]
  have hcond : ((List.range bits.length).all (fun i =>
      ((bitsVal bits : ℤ) + t i) % 2 ^ (i + 1) =
        (((bitsVal bits : ℤ) + t (bits.length - 1)) % 2 ^ bits.length)
          % 2 ^ (i + 1))) = true := by
    rw [List.all_eq_true]
    intro i hi
    rw [List.mem_range] at hi
    rw [hveq]
    exact decide_eq_true (hcoh i hi)
  rw [if_pos hcond, hveq]
  simp

lemma applyGate_qft (st : QState) (r : ℕ) (bits : List Bool)
    (h : st.get? r = some (RegSt.basis bits)) :
    applyGate st (Gate.qft r) =
      some (st.set r (RegSt.fourier bits (fun _ => 0))) := by
  simp only [applyGate]
  rw [h]

lemma applyGate_iqft (st : QState) (r : ℕ) (bits : List Bool) (t : ℕ → ℤ)
    (h : st.get? r = some (RegSt.fourier bits t)) :
    applyGate st (Gate.iqft r) =
      (iqftResult bits t).bind
        (fun bits' => some (st.set r (RegSt.basis bits'))) := by
  simp only [applyGate]
  rw [h]
  rfl

lemma run_singleton (g : Gate) (st : QState) :
    run [g] st = applyGate st g := by
  rw [run_cons]
  cases applyGate st g <;> rfl

/-- A full `QFT; phases; inverse QFT` block on basis register `s`
producing the coherent value `v`. -/
lemma run_qft_block (st : QState) (s : ℕ) (bits : List Bool)
    (phases : List Gate) (v : ℕ)
    (hs : st.get? s = some (RegSt.basis bits))
    (hall : ∀ g ∈ phases,
      (phaseDelta (st.set s (RegSt.fourier bits (fun _ => 0)))
        s bits.length g).isSome)
    (hn : 0 < bits.length) (hv : v < 2 ^ bits.length)
    (hcoh : ∀ i < bits.length,
      ((bitsVal bits : ℤ) +
        sumDelta (st.set s (RegSt.fourier bits (fun _ => 0)))
          s bits.length phases i) % 2 ^ (i + 1) =
        (v : ℤ) % 2 ^ (i + 1)) :
    run (Gate.qft s :: (phases ++ [Gate.iqft s])) st =
      some (st.set s (RegSt.basis (natToBits bits.length v))) := by
  have hlen : s < st.length := QState.lt_length_of_get? st s _ hs
  rw [run_cons]
  rw [applyGate_qft st s bits hs, Option.some_bind, run_append]
  have hs1 : (st.set s (RegSt.fourier bits (fun _ => 0))).get? s =
      some (RegSt.fourier bits (fun _ => 0)) :=
    QState.get?_set_self st s _ hlen
  rw [run_phases s bits phases _ _ hs1 hall, Option.some_bind]
  rw [List.set_set, run_singleton]
  rw [applyGate_iqft _ s bits _ (QState.get?_set_self st s _ hlen)]
  have hres : iqftResult bits (fun m =>
      (0 : ℤ) +
        sumDelta (st.set s (RegSt.fourier bits (fun _ => 0)))
          s bits.length phases m) = some (natToBits bits.length v) := by
    apply iqftResult_eq bits _ v hn hv
    intro i hi
    have := hcoh i hi
    simpa using this
  rw [hres]
  simp only [Option.some_bind]
  rw [List.set_set]


/-! ## Bit-flip waves -/

/-- Result of flipping target bits of `bits` at the indices of `il`,
each conditioned on `cond i` (read from untouched registers). -/
def flipFold (cond : ℕ → Bool) (bits : List Bool) (il : List ℕ) :
    List Bool :=
  il.foldl (fun bs i =>
    if cond i then bs.set i (!(bs.getD i false)) else bs) bits

lemma flipFold_length (cond : ℕ → Bool) (il : List ℕ) :
    ∀ bits : List Bool, (flipFold cond bits il).length = bits.length := by
  induction il with
  | nil => intro bits; rfl
  | cons i il ih =>
      intro bits
      unfold flipFold
      rw [List.foldl_cons]
      by_cases h : cond i
      · rw [if_pos h]
        rw [show (List.foldl _ (bits.set i (!(bits.getD i false))) il) =
          flipFold cond (bits.set i (!(bits.getD i false))) il from rfl]
        rw [ih, List.length_set]
      · rw [if_neg h]
        exact ih bits

lemma flipFold_getD (cond : ℕ → Bool) (il : List ℕ) :
    ∀ (bits : List Bool) (j : ℕ), j < bits.length →
      (flipFold cond bits il).getD j false =
        xor (bits.getD j false) (cond j && (il.count j) % 2 = 1) := by
  induction il with
  | nil =>
      intro bits j hj
      simp [flipFold, List.count_nil]
  | cons i il ih =>
      intro bits j hj
      unfold flipFold
      rw [List.foldl_cons]
      by_cases hci : cond i
      · rw [if_pos hci]
        have hstep : (List.foldl _ (bits.set i (!(bits.getD i false))) il) =
            flipFold cond (bits.set i (!(bits.getD i false))) il := rfl
        rw [hstep, ih _ j (by rw [List.length_set]; exact hj)]
        by_cases hji : j = i
        · subst hji
          have hset : ((bits.set j (!(bits.getD j false))).getD j false) =
              !(bits.getD j false) := by
            rw [List.getD_eq_getElem?_getD, List.getElem?_set_self hj]
            rfl
          rw [hset, List.count_cons_self, hci]
          rcases Nat.even_or_odd (il.count j) with he | ho
          · have h1 : il.count j % 2 = 0 := Nat.even_iff.mp he
            have h2 : (il.count j + 1) % 2 = 1 := by omega
            simp [h1, h2]
          · have h1 : il.count j % 2 = 1 := Nat.odd_iff.mp ho
            have h2 : (il.count j + 1) % 2 = 0 := by omega
            simp [h1, h2]
        · have hset : ((bits.set i (!(bits.getD i false))).getD j false) =
              bits.getD j false := by
            rw [List.getD_eq_getElem?_getD, List.getElem?_set_ne
              (by omega), ← List.getD_eq_getElem?_getD]
          rw [hset, List.count_cons_of_ne (by omega)]
      · rw [if_neg hci]
        have hstep : (List.foldl _ bits il) = flipFold cond bits il := rfl
        rw [hstep, ih bits j hj]
        by_cases hji : j = i
        · subst hji
          simp [hci]
        · rw [List.count_cons_of_ne (by omega)]


/-! ## Bit-value arithmetic -/

lemma bitsVal_cons (b : Bool) (bs : List Bool) :
    bitsVal (b :: bs) = b.toNat + 2 * bitsVal bs := by
  unfold bitsVal
  rw [List.foldr_cons]
  omega

lemma bitsVal_lt (bs : List Bool) : bitsVal bs < 2 ^ bs.length := by
  induction bs with
  | nil => simp [bitsVal]
  | cons b bs ih =>
      rw [bitsVal_cons, List.length_cons, pow_succ]
      cases b <;> simp only [Bool.toNat_false, Bool.toNat_true] <;> omega

lemma testBit_bitsVal (bs : List Bool) :
    ∀ i, (bitsVal bs).testBit i = bs.getD i false := by
  induction bs with
  | nil => intro i; simp [bitsVal, Nat.zero_testBit]
  | cons b bs ih =>
      intro i
      cases i with
      | zero =>
          rw [bitsVal_cons, List.getD_cons_zero, Nat.testBit_zero]
          cases b <;> simp [Nat.add_mul_mod_self_left]
      | succ i =>
          rw [bitsVal_cons, List.getD_cons_succ, ← ih i]
          rw [Nat.testBit_succ]
          have hdiv : (b.toNat + 2 * bitsVal bs) / 2 = bitsVal bs := by
            cases b <;> simp <;> omega
          rw [hdiv]

lemma toNat_testBit (v i : ℕ) : (v.testBit i).toNat = v / 2 ^ i % 2 := by
  rw [Nat.testBit_to_div_mod]
  rcases Nat.mod_two_eq_zero_or_one (v / 2 ^ i) with h | h <;> rw [h] <;> simp

lemma testBit_sum (v : ℕ) (k : ℕ) :
    (∑ j ∈ Finset.range k, (v.testBit j).toNat * 2 ^ j) = v % 2 ^ k := by
  induction k with
  | zero => rw [Finset.sum_range_zero, pow_zero, Nat.mod_one]
  | succ k ih =>
      rw [Finset.sum_range_succ, ih, toNat_testBit, pow_succ, Nat.mod_mul]
      ring

lemma sum_map_range_eq (f : ℕ → ℤ) (n : ℕ) :
    ((List.range n).map f).sum = ∑ i ∈ Finset.range n, f i := by
  induction n with
  | zero => simp
  | succ n ih =>
      rw [List.range_succ, List.map_append, List.sum_append,
        Finset.sum_range_succ, ih]
      simp

lemma length_natToBits (n v : ℕ) : (natToBits n v).length = n := by
  unfold natToBits
  rw [List.length_map, List.length_range]

lemma getD_natToBits (n v j : ℕ) (h : j < n) :
    (natToBits n v).getD j false = v.testBit j := by
  unfold natToBits
  rw [List.getD_eq_getElem?_getD, List.getElem?_map, List.getElem?_range h]
  rfl

lemma bitsVal_eq_sum (bs : List Bool) :
    bitsVal bs
      = ∑ j ∈ Finset.range bs.length, (bs.getD j false).toNat * 2 ^ j := by
  induction bs with
  | nil => simp [bitsVal]
  | cons b bs ih =>
      rw [bitsVal_cons, ih, List.length_cons, Finset.sum_range_succ']
      have h1 : ∀ i ∈ Finset.range bs.length,
          ((b :: bs).getD (i + 1) false).toNat * 2 ^ (i + 1)
            = 2 * ((bs.getD i false).toNat * 2 ^ i) := by
        intro i _
        rw [List.getD_cons_succ]
        ring
      rw [Finset.sum_congr rfl h1, ← Finset.mul_sum, List.getD_cons_zero]
      omega

lemma bitsVal_natToBits (n v : ℕ) : bitsVal (natToBits n v) = v % 2 ^ n := by
  rw [bitsVal_eq_sum, length_natToBits]
  rw [Finset.sum_congr rfl (fun j hj => by
    rw [getD_natToBits n v j (Finset.mem_range.mp hj)])]
  exact testBit_sum v n

lemma bitsVal_replicate_false (n : ℕ) :
    bitsVal (List.replicate n false) = 0 := by
  induction n with
  | zero => rfl
  | succ n ih => rw [List.replicate_succ, bitsVal_cons, ih]; rfl

lemma getD_sum_int (bs : List Bool) (k : ℕ) :
    (∑ j ∈ Finset.range k, (if bs.getD j false then (2 : ℤ) ^ j else 0))
      = ((bitsVal bs % 2 ^ k : ℕ) : ℤ) := by
  have h : ∀ j ∈ Finset.range k, (if bs.getD j false then (2 : ℤ) ^ j else 0)
      = ((bs.getD j false).toNat : ℤ) * 2 ^ j := by
    intro j _
    cases bs.getD j false <;> simp
  rw [Finset.sum_congr rfl h]
  have hn' : ∑ j ∈ Finset.range k, (bs.getD j false).toNat * 2 ^ j
      = bitsVal bs % 2 ^ k := by
    rw [← testBit_sum (bitsVal bs) k]
    exact Finset.sum_congr rfl (fun j _ => by rw [testBit_bitsVal])
  rw [← hn']
  push_cast
  rfl

lemma sum_range_ite_le (f : ℕ → ℤ) (n m : ℕ) (hm : m < n) :
    (∑ j ∈ Finset.range n, if j ≤ m then f j else 0)
      = ∑ j ∈ Finset.range (m + 1), f j := by
  rw [← Finset.sum_filter]
  apply Finset.sum_congr _ (fun j _ => rfl)
  ext j
  simp only [Finset.mem_filter, Finset.mem_range]
  omega

lemma list_eq_of_getD (xs ys : List Bool) (hlen : xs.length = ys.length)
    (h : ∀ j < xs.length, xs.getD j false = ys.getD j false) : xs = ys := by
  apply List.ext_getElem hlen
  intro j h1 h2
  have hj := h j h1
  rwa [List.getD_eq_getElem?_getD, List.getD_eq_getElem?_getD,
    List.getElem?_eq_getElem h1, List.getElem?_eq_getElem h2,
    Option.getD_some, Option.getD_some] at hj


lemma get?_eq_getD (bs : List Bool) (j : ℕ) (h : j < bs.length) :
    bs.get? j = some (bs.getD j false) := by
  rw [List.get?_eq_getElem?, List.getElem?_eq_getElem h,
    List.getD_eq_getElem?_getD, List.getElem?_eq_getElem h, Option.getD_some]

lemma QState.getBit_eq (st : QState) (c i : ℕ) (cbits : List Bool)
    (hc : st.get? c = some (RegSt.basis cbits)) (hi : i < cbits.length) :
    st.getBit ⟨c, i⟩ = some (cbits.getD i false) := by
  unfold QState.getBit
  simp only []
  rw [hc]
  exact get?_eq_getD cbits i hi

/-- Running a wave of X gates on distinct-or-not indices of register `r`
performs the corresponding unconditional bit flips. -/
lemma run_xwave (r : ℕ) (il : List ℕ) : ∀ (st : QState) (bits : List Bool),
    st.get? r = some (RegSt.basis bits) → (∀ i ∈ il, i < bits.length) →
    run (il.map (fun i => Gate.x ⟨r, i⟩)) st
      = some (st.set r (RegSt.basis (flipFold (fun _ => true) bits il))) := by
  induction il with
  | nil =>
      intro st bits hst _
      rw [List.map_nil, run_nil]
      rw [show flipFold (fun _ => true) bits [] = bits from rfl]
      rw [QState.set_self st r _ hst]
  | cons i il ih =>
      intro st bits hst hrange
      have hi : i < bits.length := hrange i (List.mem_cons_self i il)
      rw [List.map_cons, run_cons]
      have hx : applyGate st (Gate.x ⟨r, i⟩)
          = some (st.set r (RegSt.basis (bits.set i (!(bits.getD i false))))) := by
        show st.flipBit ⟨r, i⟩ = _
        unfold QState.flipBit
        rw [QState.getBit_eq st r i bits hst hi, Option.bind_eq_bind,
          Option.some_bind]
        unfold QState.setBit
        simp only []
        rw [hst]
        simp only []
        rw [if_pos hi]
      rw [hx, Option.some_bind]
      have hlen : r < st.length := QState.lt_length_of_get? st r _ hst
      have hst' : (st.set r (RegSt.basis (bits.set i (!(bits.getD i false))))).get? r
          = some (RegSt.basis (bits.set i (!(bits.getD i false)))) :=
        QState.get?_set_self st r _ hlen
      rw [ih _ _ hst' (by intro k hk; rw [List.length_set]; exact hrange k (List.mem_cons_of_mem i hk))]
      rw [List.set_set]
      rw [show flipFold (fun _ => true) bits (i :: il)
        = flipFold (fun _ => true) (bits.set i (!(bits.getD i false))) il by
          unfold flipFold; rw [List.foldl_cons, if_pos rfl]]

/-- Running a wave of CX gates controlled on register `c` and targeting
register `r` flips target bits where the control bit is set. -/
lemma run_cxwave (r c : ℕ) (cbits : List Bool) (hcr : c ≠ r) (il : List ℕ) :
    ∀ (st : QState) (bits : List Bool),
    st.get? r = some (RegSt.basis bits) →
    st.get? c = some (RegSt.basis cbits) →
    (∀ i ∈ il, i < bits.length) → (∀ i ∈ il, i < cbits.length) →
    run (il.map (fun i => Gate.cx ⟨c, i⟩ ⟨r, i⟩)) st
      = some (st.set r (RegSt.basis
          (flipFold (fun i => cbits.getD i false) bits il))) := by
  induction il with
  | nil =>
      intro st bits hst hc _ _
      rw [List.map_nil, run_nil]
      rw [show flipFold (fun i => cbits.getD i false) bits [] = bits from rfl]
      rw [QState.set_self st r _ hst]
  | cons i il ih =>
      intro st bits hst hc hrange hcrange
      have hi : i < bits.length := hrange i (List.mem_cons_self i il)
      have hci : i < cbits.length := hcrange i (List.mem_cons_self i il)
      rw [List.map_cons, run_cons]
      have hlen : r < st.length := QState.lt_length_of_get? st r _ hst
      have hgate : applyGate st (Gate.cx ⟨c, i⟩ ⟨r, i⟩)
          = some (if cbits.getD i false then
              st.set r (RegSt.basis (bits.set i (!(bits.getD i false))))
            else st) := by
        show (do
          let b ← st.getBit ⟨c, i⟩
          if b then st.flipBit ⟨r, i⟩ else some st) = _
        rw [QState.getBit_eq st c i cbits hc hci, Option.bind_eq_bind,
          Option.some_bind]
        cases hb : cbits.getD i false
        · simp only [Bool.false_eq_true, if_false]
        · simp only [if_true]
          unfold QState.flipBit
          rw [QState.getBit_eq st r i bits hst hi, Option.bind_eq_bind,
            Option.some_bind]
          unfold QState.setBit
          simp only []
          rw [hst]
          simp only []
          rw [if_pos hi]
      rw [hgate, Option.some_bind]
      have hstep : flipFold (fun i => cbits.getD i false) bits (i :: il)
          = flipFold (fun i => cbits.getD i false)
              (if cbits.getD i false then bits.set i (!(bits.getD i false))
               else bits) il := by
        unfold flipFold
        rw [List.foldl_cons]
      cases hb : cbits.getD i false
      · rw [if_neg (by simp)]
        rw [ih st bits hst hc
          (fun k hk => hrange k (List.mem_cons_of_mem i hk))
          (fun k hk => hcrange k (List.mem_cons_of_mem i hk))]
        rw [hstep, hb]
        rw [if_neg (by simp)]
      · rw [if_pos rfl]
        have hst' : (st.set r (RegSt.basis (bits.set i (!(bits.getD i false))))).get? r
            = some (RegSt.basis (bits.set i (!(bits.getD i false)))) :=
          QState.get?_set_self st r _ hlen
        have hc' : (st.set r (RegSt.basis (bits.set i (!(bits.getD i false))))).get? c
            = some (RegSt.basis cbits) := by
          rw [QState.get?_set_ne st r _ c hcr]
          exact hc
        rw [ih _ _ hst' hc'
          (by intro k hk; rw [List.length_set]; exact hrange k (List.mem_cons_of_mem i hk))
          (fun k hk => hcrange k (List.mem_cons_of_mem i hk))]
        rw [List.set_set, hstep, hb, if_pos rfl]


lemma flipFold_init (n : ℕ) (bits : List Bool) (hlen : bits.length = n) :
    flipFold (fun _ => true) (List.replicate n false)
      ((List.range n).filter (fun i => bits.getD i false)) = bits := by
  have hnodup : ((List.range n).filter (fun i => bits.getD i false)).Nodup :=
    (List.nodup_range n).filter _
  apply list_eq_of_getD
  · rw [flipFold_length, List.length_replicate, hlen]
  · intro j hj
    rw [flipFold_length, List.length_replicate] at hj
    rw [flipFold_getD _ _ _ j (by rw [List.length_replicate]; exact hj)]
    have hrep : (List.replicate n false).getD j false = false := by
      rw [List.getD_eq_getElem?_getD, List.getElem?_replicate, if_pos hj]
      rfl
    rw [hrep]
    by_cases hmem : j ∈ (List.range n).filter (fun i => bits.getD i false)
    · have hcount : ((List.range n).filter
          (fun i => bits.getD i false)).count j = 1 :=
        List.count_eq_one_of_mem hnodup hmem
      have hbit : bits.getD j false = true := (List.mem_filter.mp hmem).2
      rw [hcount, hbit]
      rfl
    · have hcount : ((List.range n).filter
          (fun i => bits.getD i false)).count j = 0 :=
        List.count_eq_zero.mpr hmem
      have hbit : bits.getD j false = false := by
        cases h : bits.getD j false
        · rfl
        · exact absurd (List.mem_filter.mpr
            ⟨List.mem_range.mpr hj, h⟩) hmem
      rw [hcount, hbit]
      rfl

/-- Running the X wave of `initialize_variable` on an all-zero register
loads the encoded bits. -/
lemma run_init_xwave (st : QState) (r n : ℕ) (bits : List Bool)
    (hst : st.get? r = some (RegSt.basis (List.replicate n false)))
    (hlen : bits.length = n) :
    run (((List.range n).filter (fun i => bits.getD i false)).map
      (fun i => Gate.x ⟨r, i⟩)) st = some (st.set r (RegSt.basis bits)) := by
  rw [run_xwave r _ st _ hst (by
    intro i hi
    rw [List.length_replicate]
    exact List.mem_range.mp (List.mem_of_mem_filter hi))]
  rw [flipFold_init n bits hlen]

lemma flipFold_not (bits : List Bool) (n : ℕ) (hlen : bits.length = n) :
    flipFold (fun _ => true) bits (List.range n)
      = bits.map (fun b => !b) := by
  apply list_eq_of_getD
  · rw [flipFold_length, List.length_map]
  · intro j hj
    rw [flipFold_length] at hj
    rw [flipFold_getD _ _ _ j hj]
    have hcount : (List.range n).count j = 1 :=
      List.count_eq_one_of_mem (List.nodup_range n)
        (List.mem_range.mpr (by omega))
    have hmap : (bits.map (fun b => !b)).getD j false = !(bits.getD j false) := by
      rw [List.getD_eq_getElem?_getD, List.getD_eq_getElem?_getD,
        List.getElem?_map, List.getElem?_eq_getElem hj, Option.map_some',
        Option.getD_some, Option.getD_some]
    rw [hcount, hmap]
    cases bits.getD j false <;> rfl

/-- Running X on every qubit of a register complements its bits. -/
lemma run_notwave (st : QState) (r n : ℕ) (bits : List Bool)
    (hst : st.get? r = some (RegSt.basis bits)) (hlen : bits.length = n) :
    run ((List.range n).map (fun i => Gate.x ⟨r, i⟩)) st
      = some (st.set r (RegSt.basis (bits.map (fun b => !b)))) := by
  rw [run_xwave r _ st _ hst (by
    intro i hi
    rw [hlen]
    exact List.mem_range.mp hi)]
  rw [flipFold_not bits n hlen]

lemma bitsVal_map_not (bits : List Bool) :
    bitsVal (bits.map (fun b => !b)) = 2 ^ bits.length - 1 - bitsVal bits := by
  induction bits with
  | nil => rfl
  | cons b bs ih =>
      rw [List.map_cons, bitsVal_cons, bitsVal_cons, List.length_cons,
        ih, pow_succ]
      have hlt := bitsVal_lt bs
      cases b <;>
        simp only [Bool.not_false, Bool.not_true, Bool.toNat_false,
          Bool.toNat_true] <;> omega


/-! ## Phase-delta computations for the arithmetic builders -/

lemma sumDelta_flatMap {A : Type} (st : QState) (s len : ℕ) (l : List A)
    (f : A → List Gate) (m : ℕ) :
    sumDelta st s len (l.flatMap f) m
      = (l.map (fun a => sumDelta st s len (f a) m)).sum := by
  induction l with
  | nil => rfl
  | cons a l ih =>
      rw [List.flatMap_cons, sumDelta_append, ih, List.map_cons,
        List.sum_cons]

lemma sumDelta_map {A : Type} (st : QState) (s len : ℕ) (l : List A)
    (f : A → Gate) (m : ℕ) :
    sumDelta st s len (l.map f) m
      = (l.map (fun a => ((phaseDelta st s len (f a)).getD (fun _ => 0)) m)).sum := by
  unfold sumDelta
  rw [List.map_map]
  rfl

lemma sumDelta_singleton (st : QState) (s len : ℕ) (g : Gate) (m : ℕ) :
    sumDelta st s len [g] m
      = ((phaseDelta st s len g).getD (fun _ => 0)) m := by
  unfold sumDelta
  rw [List.map_cons, List.map_nil, List.sum_cons, List.sum_nil, add_zero]

lemma p_delta (st : QState) (s n j : ℕ) (hj : j < n) (num : ℤ) :
    phaseDelta st s n (Gate.p ⟨num, j + 1⟩ ⟨s, j⟩)
      = some (fun m => if m = j then num else 0) := by
  simp only [phaseDelta]
  rw [if_pos (⟨by trivial, hj⟩ : _ ∧ _)]
  have hpc : phaseContrib ⟨num, j + 1⟩ j = some num := by
    unfold phaseContrib
    simp only []
    rw [if_pos (le_refl (j + 1)), Nat.sub_self, pow_zero, mul_one]
  rw [hpc, Option.map_some']

lemma cp_delta (st : QState) (s c n t i e : ℕ) (cbits : List Bool) (num : ℤ)
    (hc : st.get? c = some (RegSt.basis cbits)) (hcs : c ≠ s)
    (ht : t < n) (hi : i < cbits.length) (he : e ≤ t + 1) :
    phaseDelta st s n (Gate.cp ⟨num, e⟩ ⟨c, i⟩ ⟨s, t⟩)
      = some (fun m => if m = t then
          (if cbits.getD i false then num * 2 ^ (t + 1 - e) else 0)
          else 0) := by
  simp only [phaseDelta]
  rw [if_pos (⟨by trivial, ht, hcs⟩ : _ ∧ _)]
  rw [QState.getBit_eq st c i cbits hc hi, Option.some_bind]
  have hpc : phaseContrib ⟨num, e⟩ t = some (num * 2 ^ (t + 1 - e)) := by
    unfold phaseContrib
    simp only []
    rw [if_pos he]
  cases hb : cbits.getD i false
  · rw [if_neg (by simp)]
    exact congrArg some (funext fun m => by
      by_cases hmt : m = t <;> simp [hmt])
  · rw [if_pos rfl, hpc, Option.map_some']
    exact congrArg some (funext fun m => by
      by_cases hmt : m = t <;> simp [hmt])

lemma ccp_delta (st : QState) (s c1 c2 n t i1 i2 e : ℕ)
    (b1s b2s : List Bool) (num : ℤ)
    (hc1 : st.get? c1 = some (RegSt.basis b1s))
    (hc2 : st.get? c2 = some (RegSt.basis b2s))
    (h1s : c1 ≠ s) (h2s : c2 ≠ s) (ht : t < n)
    (hi1 : i1 < b1s.length) (hi2 : i2 < b2s.length) (he : e ≤ t + 1) :
    phaseDelta st s n (Gate.ccp ⟨num, e⟩ ⟨c1, i1⟩ ⟨c2, i2⟩ ⟨s, t⟩)
      = some (fun m => if m = t then
          (if b1s.getD i1 false && b2s.getD i2 false then
            num * 2 ^ (t + 1 - e) else 0)
          else 0) := by
  simp only [phaseDelta]
  rw [if_pos (⟨by trivial, ht, h1s, h2s⟩ : _ ∧ _)]
  rw [QState.getBit_eq st c1 i1 b1s hc1 hi1, Option.some_bind,
    QState.getBit_eq st c2 i2 b2s hc2 hi2, Option.some_bind]
  have hpc : phaseContrib ⟨num, e⟩ t = some (num * 2 ^ (t + 1 - e)) := by
    unfold phaseContrib
    simp only []
    rw [if_pos he]
  cases hb : b1s.getD i1 false && b2s.getD i2 false
  · rw [if_neg (by simp)]
    exact congrArg some (funext fun m => by
      by_cases hmt : m = t <;> simp [hmt])
  · rw [if_pos rfl, hpc, Option.map_some']
    exact congrArg some (funext fun m => by
      by_cases hmt : m = t <;> simp [hmt])


lemma add_deltas_some (st : QState) (s a b n : ℕ) (abits bbits : List Bool)
    (ha : st.get? a = some (RegSt.basis abits))
    (hb : st.get? b = some (RegSt.basis bbits))
    (hna : abits.length = n) (hnb : bbits.length = n)
    (has : a ≠ s) (hbs : b ≠ s) :
    ∀ g ∈ (List.range n).flatMap (fun i => (List.range n).flatMap (fun j =>
      if j ≤ i then
        [Gate.cp ⟨1, i - j + 1⟩ ⟨a, j⟩ ⟨s, i⟩,
         Gate.cp ⟨1, i - j + 1⟩ ⟨b, j⟩ ⟨s, i⟩]
      else [])), (phaseDelta st s n g).isSome := by
  intro g hg
  rw [List.mem_flatMap] at hg
  obtain ⟨i, hi, hg⟩ := hg
  rw [List.mem_flatMap] at hg
  obtain ⟨j, hj, hg⟩ := hg
  rw [List.mem_range] at hi
  rw [List.mem_range] at hj
  by_cases hji : j ≤ i
  · rw [if_pos hji] at hg
    simp only [List.mem_cons, List.not_mem_nil, or_false] at hg
    rcases hg with hg | hg
    · subst hg
      rw [cp_delta st s a n i j (i - j + 1) abits 1 ha has hi
        (by omega) (by omega)]
      rfl
    · subst hg
      rw [cp_delta st s b n i j (i - j + 1) bbits 1 hb hbs hi
        (by omega) (by omega)]
      rfl
  · rw [if_neg hji] at hg
    exact absurd hg (List.not_mem_nil g)

lemma add_sumDelta (st : QState) (s a b n : ℕ) (abits bbits : List Bool)
    (ha : st.get? a = some (RegSt.basis abits))
    (hb : st.get? b = some (RegSt.basis bbits))
    (hna : abits.length = n) (hnb : bbits.length = n)
    (has : a ≠ s) (hbs : b ≠ s) (m : ℕ) (hm : m < n) :
    sumDelta st s n ((List.range n).flatMap (fun i => (List.range n).flatMap
      (fun j => if j ≤ i then
        [Gate.cp ⟨1, i - j + 1⟩ ⟨a, j⟩ ⟨s, i⟩,
         Gate.cp ⟨1, i - j + 1⟩ ⟨b, j⟩ ⟨s, i⟩]
      else []))) m
    = ((bitsVal abits % 2 ^ (m + 1) : ℕ) : ℤ)
      + ((bitsVal bbits % 2 ^ (m + 1) : ℕ) : ℤ) := by
  rw [sumDelta_flatMap, sum_map_range_eq]
  have hrow : ∀ i ∈ Finset.range n,
      sumDelta st s n ((List.range n).flatMap (fun j => if j ≤ i then
        [Gate.cp ⟨1, i - j + 1⟩ ⟨a, j⟩ ⟨s, i⟩,
         Gate.cp ⟨1, i - j + 1⟩ ⟨b, j⟩ ⟨s, i⟩]
      else [])) m
      = if m = i then
          ((bitsVal abits % 2 ^ (i + 1) : ℕ) : ℤ)
            + ((bitsVal bbits % 2 ^ (i + 1) : ℕ) : ℤ)
        else 0 := by
    intro i hi
    rw [Finset.mem_range] at hi
    rw [sumDelta_flatMap, sum_map_range_eq]
    have hcell : ∀ j ∈ Finset.range n,
        sumDelta st s n (if j ≤ i then
          [Gate.cp ⟨1, i - j + 1⟩ ⟨a, j⟩ ⟨s, i⟩,
           Gate.cp ⟨1, i - j + 1⟩ ⟨b, j⟩ ⟨s, i⟩]
        else []) m
        = if j ≤ i then
            (if m = i then
              ((if abits.getD j false then (2 : ℤ) ^ j else 0)
                + (if bbits.getD j false then (2 : ℤ) ^ j else 0))
            else 0)
          else 0 := by
      intro j hj
      rw [Finset.mem_range] at hj
      by_cases hji : j ≤ i
      · rw [if_pos hji, if_pos hji]
        have h1 := cp_delta st s a n i j (i - j + 1) abits 1 ha has hi
          (by omega) (by omega)
        have h2 := cp_delta st s b n i j (i - j + 1) bbits 1 hb hbs hi
          (by omega) (by omega)
        unfold sumDelta
        rw [List.map_cons, List.map_cons, List.map_nil, List.sum_cons,
          List.sum_cons, List.sum_nil, add_zero, h1, h2]
        simp only [Option.getD_some]
        have hexp : i + 1 - (i - j + 1) = j := by omega
        rw [hexp]
        by_cases hmi : m = i
        · subst hmi
          simp
        · simp [hmi]
      · rw [if_neg hji, if_neg hji]
        rfl
    rw [Finset.sum_congr rfl hcell]
    by_cases hmi : m = i
    · subst hmi
      have hsimp : ∀ j ∈ Finset.range n, (if j ≤ m then
          (if m = m then
            ((if abits.getD j false then (2 : ℤ) ^ j else 0)
              + (if bbits.getD j false then (2 : ℤ) ^ j else 0))
          else 0) else 0)
          = (if j ≤ m then
            ((if abits.getD j false then (2 : ℤ) ^ j else 0)
              + (if bbits.getD j false then (2 : ℤ) ^ j else 0)) else 0) := by
        intro j _
        by_cases hji : j ≤ m <;> simp [hji]
      rw [Finset.sum_congr rfl hsimp, sum_range_ite_le _ n m hi,
        Finset.sum_add_distrib, getD_sum_int, getD_sum_int, if_pos rfl]
    · simp only [if_neg hmi]
      exact Finset.sum_eq_zero (fun j _ => by
        by_cases hji : j ≤ i <;> simp [hji])
  rw [Finset.sum_congr rfl hrow, Finset.sum_ite_eq,
    if_pos (Finset.mem_range.mpr hm)]

/-- Running the QFT block of `add` computes the modular sum into the
fresh zero register. -/
lemma run_add_gates (st : QState) (a b s n : ℕ) (abits bbits : List Bool)
    (ha : st.get? a = some (RegSt.basis abits))
    (hb : st.get? b = some (RegSt.basis bbits))
    (hs : st.get? s = some (RegSt.basis (List.replicate n false)))
    (hna : abits.length = n) (hnb : bbits.length = n)
    (has : a ≠ s) (hbs : b ≠ s) (hn : 0 < n) :
    run (Gate.qft s :: (((List.range n).flatMap (fun i =>
      (List.range n).flatMap (fun j => if j ≤ i then
        [Gate.cp ⟨1, i - j + 1⟩ ⟨a, j⟩ ⟨s, i⟩,
         Gate.cp ⟨1, i - j + 1⟩ ⟨b, j⟩ ⟨s, i⟩]
      else []))) ++ [Gate.iqft s])) st
      = some (st.set s (RegSt.basis
          (natToBits n ((bitsVal abits + bitsVal bbits) % 2 ^ n)))) := by
  have hrep : (List.replicate n false).length = n :=
    List.length_replicate n false
  have hpos : 0 < 2 ^ n := Nat.pos_pow_of_pos n (by omega)
  have hres := run_qft_block st s (List.replicate n false) _
    ((bitsVal abits + bitsVal bbits) % 2 ^ n) hs
    (by
      rw [hrep]
      intro g hg
      have := add_deltas_some st s a b n abits bbits ha hb hna hnb has hbs
        g hg
      rwa [← phaseDelta_set st s n
        (RegSt.fourier (List.replicate n false) (fun _ => 0)) g] at this)
    (by rw [hrep]; omega)
    (by rw [hrep]; exact Nat.mod_lt _ hpos)
    (by
      rw [hrep]
      intro i hi
      rw [sumDelta_set, add_sumDelta st s a b n abits bbits ha hb hna hnb
        has hbs i hi, bitsVal_replicate_false]
      have hdvd : ((2 : ℤ) ^ (i + 1)) ∣ 2 ^ n := pow_dvd_pow 2 (by omega)
      push_cast
      rw [Int.emod_emod_of_dvd _ hdvd, zero_add, ← Int.add_emod])
  rwa [hrep] at hres


lemma addi_deltas_some (st : QState) (r n : ℕ) (bval : ℤ) :
    ∀ g ∈ (List.range n).map (fun j => Gate.p ⟨bval, j + 1⟩ ⟨r, j⟩),
      (phaseDelta st r n g).isSome := by
  intro g hg
  rw [List.mem_map] at hg
  obtain ⟨j, hj, hg⟩ := hg
  subst hg
  rw [p_delta st r n j (List.mem_range.mp hj) bval]
  rfl

lemma addi_sumDelta (st : QState) (r n : ℕ) (bval : ℤ) (m : ℕ) (hm : m < n) :
    sumDelta st r n ((List.range n).map
      (fun j => Gate.p ⟨bval, j + 1⟩ ⟨r, j⟩)) m = bval := by
  rw [sumDelta_map, sum_map_range_eq]
  have h : ∀ j ∈ Finset.range n,
      ((phaseDelta st r n (Gate.p ⟨bval, j + 1⟩ ⟨r, j⟩)).getD
        (fun _ => 0)) m = if m = j then bval else 0 := by
    intro j hj
    rw [p_delta st r n j (Finset.mem_range.mp hj) bval, Option.getD_some]
  rw [Finset.sum_congr rfl h, Finset.sum_ite_eq,
    if_pos (Finset.mem_range.mpr hm)]

/-- Running the QFT block of `addi_in_place` adds `bval` into the
register, modulo `2^n`. -/
lemma run_addi_gates (st : QState) (r n : ℕ) (bits : List Bool) (bval : ℤ)
    (hst : st.get? r = some (RegSt.basis bits)) (hlen : bits.length = n)
    (hn : 0 < n) :
    run (Gate.qft r :: ((List.range n).map
      (fun j => Gate.p ⟨bval, j + 1⟩ ⟨r, j⟩) ++ [Gate.iqft r])) st
      = some (st.set r (RegSt.basis
          (natToBits n (((bitsVal bits : ℤ) + bval) % 2 ^ n).toNat))) := by
  have hp : (0 : ℤ) < 2 ^ n := by positivity
  have h1 : 0 ≤ ((bitsVal bits : ℤ) + bval) % 2 ^ n :=
    Int.emod_nonneg _ (by positivity)
  have h2 : ((bitsVal bits : ℤ) + bval) % 2 ^ n < 2 ^ n :=
    Int.emod_lt_of_pos _ hp
  have hcast : (((2 : ℕ) ^ n : ℕ) : ℤ) = 2 ^ n := by push_cast; rfl
  have hres := run_qft_block st r bits _
    ((((bitsVal bits : ℤ) + bval) % 2 ^ n).toNat) hst
    (by
      rw [hlen]
      exact fun g hg => addi_deltas_some _ r n bval g hg)
    (by omega)
    (by rw [hlen]; omega)
    (by
      rw [hlen]
      intro i hi
      rw [sumDelta_set, addi_sumDelta st r n bval i hi]
      rw [Int.toNat_of_nonneg h1]
      have hdvd : ((2 : ℤ) ^ (i + 1)) ∣ 2 ^ n := pow_dvd_pow 2 (by omega)
      rw [Int.emod_emod_of_dvd _ hdvd])
  rwa [hlen] at hres

lemma bitsVal_int_to_twos_one (n : ℕ) (hn : 0 < n) :
    bitsVal (int_to_twos_complement n 1) = 1 := by
  have : int_to_twos_complement n 1 = natToBits n 1 := by
    unfold int_to_twos_complement natToBits
    rfl
  rw [this, bitsVal_natToBits]
  have h2 : 2 ≤ 2 ^ n := by
    calc 2 = 2 ^ 1 := by norm_num
    _ ≤ 2 ^ n := Nat.pow_le_pow_right (by omega) (by omega)
  exact Nat.mod_eq_of_lt (by omega)

/-- Running the gates of `invert` (bitwise NOT then add 1) negates the
register value modulo `2^n`. -/
lemma run_invert_gates (st : QState) (r n : ℕ) (bits : List Bool)
    (hst : st.get? r = some (RegSt.basis bits)) (hlen : bits.length = n)
    (hn : 0 < n) :
    run ((List.range n).map (fun i => Gate.x ⟨r, i⟩)
        ++ (Gate.qft r :: ((List.range n).map (fun j =>
            Gate.p ⟨(if (0 : ℤ) ≤ 1 then
              ((bitsVal (int_to_twos_complement n 1) : ℕ) : ℤ)
            else ((bitsVal (int_to_twos_complement n 1) : ℕ) : ℤ) - 2 ^ n),
              j + 1⟩ ⟨r, j⟩) ++ [Gate.iqft r]))) st
      = some (st.set r (RegSt.basis
          (natToBits n ((2 ^ n - bitsVal bits) % 2 ^ n)))) := by
  rw [run_append, run_notwave st r n bits hst hlen, Option.some_bind]
  have hlen' : (bits.map (fun b => !b)).length = n := by
    rw [List.length_map, hlen]
  have hget : (st.set r (RegSt.basis (bits.map (fun b => !b)))).get? r
      = some (RegSt.basis (bits.map (fun b => !b))) :=
    QState.get?_set_self st r _ (QState.lt_length_of_get? st r _ hst)
  rw [run_addi_gates _ r n _ _ hget hlen' hn, List.set_set]
  have hbv : bitsVal (bits.map (fun b => !b)) = 2 ^ n - 1 - bitsVal bits := by
    rw [bitsVal_map_not, hlen]
  have hone : (if (0 : ℤ) ≤ 1 then
      ((bitsVal (int_to_twos_complement n 1) : ℕ) : ℤ)
    else ((bitsVal (int_to_twos_complement n 1) : ℕ) : ℤ) - 2 ^ n) = 1 := by
    rw [if_pos (by norm_num), bitsVal_int_to_twos_one n hn]
    rfl
  rw [hbv, hone]
  have hlt := bitsVal_lt bits
  rw [hlen] at hlt
  have hc2 : (((2 : ℕ) ^ n : ℕ) : ℤ) = (2 : ℤ) ^ n := by push_cast; rfl
  have hval : (((2 ^ n - 1 - bitsVal bits : ℕ) : ℤ) + 1) % 2 ^ n
      = ((2 ^ n - bitsVal bits : ℕ) : ℤ) % 2 ^ n := by
    have e1 : ((2 ^ n - 1 - bitsVal bits : ℕ) : ℤ)
        = ((2 : ℕ) ^ n : ℕ) - 1 - (bitsVal bits : ℤ) := by omega
    have e2 : ((2 ^ n - bitsVal bits : ℕ) : ℤ)
        = ((2 : ℕ) ^ n : ℕ) - (bitsVal bits : ℤ) := by omega
    rw [e1, e2]
    congr 1
    ring
  rw [hval]
  have hmod : ((2 ^ n - bitsVal bits : ℕ) : ℤ) % (2 : ℤ) ^ n
      = (((2 ^ n - bitsVal bits) % 2 ^ n : ℕ) : ℤ) := by
    push_cast
    rfl
  rw [hmod, Int.toNat_natCast]


lemma sum_map_range'_eq (f : ℕ → ℤ) (n : ℕ) :
    ((List.range' 1 n).map f).sum = ∑ x ∈ Finset.range n, f (1 + x) := by
  rw [List.range'_eq_map_range, List.map_map, sum_map_range_eq]
  rfl

lemma mul_deltas_some (st : QState) (s a b n : ℕ) (abits bbits : List Bool)
    (ha : st.get? a = some (RegSt.basis abits))
    (hb : st.get? b = some (RegSt.basis bbits))
    (hna : abits.length = n) (hnb : bbits.length = n)
    (has : a ≠ s) (hbs : b ≠ s) :
    ∀ g ∈ (List.range' 1 n).flatMap (fun (j : ℕ) =>
      (List.range' 1 n).flatMap (fun (i : ℕ) => (List.range' 1 n).map
        (fun (k : ℕ) => Gate.ccp ⟨2 ^ (2 * n - i - j), k⟩
          ⟨a, n - j⟩ ⟨b, n - i⟩ ⟨s, k - 1⟩))),
      (phaseDelta st s n g).isSome := by
  intro g hg
  rw [List.mem_flatMap] at hg
  obtain ⟨j, hj, hg⟩ := hg
  rw [List.mem_flatMap] at hg
  obtain ⟨i, hi, hg⟩ := hg
  rw [List.mem_map] at hg
  obtain ⟨k, hk, hg⟩ := hg
  rw [List.mem_range'] at hj hi hk
  subst hg
  rw [ccp_delta st s a b n (k - 1) (n - j) (n - i) k abits bbits _
    ha hb has hbs (by omega) (by omega) (by omega) (by omega)]
  rfl

lemma mul_sumDelta (st : QState) (s a b n : ℕ) (abits bbits : List Bool)
    (ha : st.get? a = some (RegSt.basis abits))
    (hb : st.get? b = some (RegSt.basis bbits))
    (hna : abits.length = n) (hnb : bbits.length = n)
    (has : a ≠ s) (hbs : b ≠ s) (m : ℕ) (hm : m < n) :
    sumDelta st s n ((List.range' 1 n).flatMap (fun (j : ℕ) =>
      (List.range' 1 n).flatMap (fun (i : ℕ) => (List.range' 1 n).map
        (fun (k : ℕ) => Gate.ccp ⟨2 ^ (2 * n - i - j), k⟩
          ⟨a, n - j⟩ ⟨b, n - i⟩ ⟨s, k - 1⟩)))) m
    = ((bitsVal abits : ℕ) : ℤ) * ((bitsVal bbits : ℕ) : ℤ) := by
  have hk : ∀ j i : ℕ, 1 ≤ j → j ≤ n → 1 ≤ i → i ≤ n →
      sumDelta st s n ((List.range' 1 n).map (fun (k : ℕ) =>
        Gate.ccp ⟨2 ^ (2 * n - i - j), k⟩ ⟨a, n - j⟩ ⟨b, n - i⟩
          ⟨s, k - 1⟩)) m
      = (if abits.getD (n - j) false then (2 : ℤ) ^ (n - j) else 0)
        * (if bbits.getD (n - i) false then (2 : ℤ) ^ (n - i) else 0) := by
    intro j i hj1 hjn hi1 hin
    rw [sumDelta_map, sum_map_range'_eq]
    have hterm : ∀ x ∈ Finset.range n,
        ((phaseDelta st s n (Gate.ccp ⟨2 ^ (2 * n - i - j), 1 + x⟩
          ⟨a, n - j⟩ ⟨b, n - i⟩ ⟨s, 1 + x - 1⟩)).getD (fun _ => 0)) m
        = if m = x then
            (if abits.getD (n - j) false && bbits.getD (n - i) false then
              (2 : ℤ) ^ (2 * n - i - j) else 0)
          else 0 := by
      intro x hx
      rw [Finset.mem_range] at hx
      have ht : 1 + x - 1 = x := by omega
      rw [ht]
      rw [ccp_delta st s a b n x (n - j) (n - i) (1 + x) abits bbits _
        ha hb has hbs hx (by omega) (by omega) (by omega), Option.getD_some]
      have he : x + 1 - (1 + x) = 0 := by omega
      rw [he, pow_zero, mul_one]
    rw [Finset.sum_congr rfl hterm, Finset.sum_ite_eq,
      if_pos (Finset.mem_range.mpr hm)]
    have hexp : 2 * n - i - j = (n - j) + (n - i) := by omega
    rw [hexp, pow_add]
    cases abits.getD (n - j) false <;> cases bbits.getD (n - i) false <;> simp
  rw [sumDelta_flatMap, sum_map_range'_eq]
  have hrow : ∀ x ∈ Finset.range n,
      sumDelta st s n ((List.range' 1 n).flatMap (fun (i : ℕ) =>
        (List.range' 1 n).map (fun (k : ℕ) =>
          Gate.ccp ⟨2 ^ (2 * n - i - (1 + x)), k⟩
            ⟨a, n - (1 + x)⟩ ⟨b, n - i⟩ ⟨s, k - 1⟩))) m
      = (if abits.getD (n - (1 + x)) false then (2 : ℤ) ^ (n - (1 + x))
          else 0)
        * ∑ y ∈ Finset.range n,
            (if bbits.getD (n - (1 + y)) false then (2 : ℤ) ^ (n - (1 + y))
              else 0) := by
    intro x hx
    rw [Finset.mem_range] at hx
    rw [sumDelta_flatMap, sum_map_range'_eq]
    have hcell : ∀ y ∈ Finset.range n,
        sumDelta st s n ((List.range' 1 n).map (fun (k : ℕ) =>
          Gate.ccp ⟨2 ^ (2 * n - (1 + y) - (1 + x)), k⟩
            ⟨a, n - (1 + x)⟩ ⟨b, n - (1 + y)⟩ ⟨s, k - 1⟩)) m
        = (if abits.getD (n - (1 + x)) false then (2 : ℤ) ^ (n - (1 + x))
            else 0)
          * (if bbits.getD (n - (1 + y)) false then (2 : ℤ) ^ (n - (1 + y))
            else 0) := by
      intro y hy
      rw [Finset.mem_range] at hy
      exact hk (1 + x) (1 + y) (by omega) (by omega) (by omega) (by omega)
    rw [Finset.sum_congr rfl hcell, ← Finset.mul_sum]
  rw [Finset.sum_congr rfl hrow, ← Finset.sum_mul]
  have hrefl : ∀ (bs : List Bool), bs.length = n →
      (∑ x ∈ Finset.range n,
        (if bs.getD (n - (1 + x)) false then (2 : ℤ) ^ (n - (1 + x)) else 0))
      = ((bitsVal bs : ℕ) : ℤ) := by
    intro bs hbs
    have hre : ∀ x ∈ Finset.range n, (if bs.getD (n - (1 + x)) false then
        (2 : ℤ) ^ (n - (1 + x)) else 0)
        = (fun t => if bs.getD t false then (2 : ℤ) ^ t else 0)
            (n - 1 - x) := by
      intro x hx
      have : n - (1 + x) = n - 1 - x := by omega
      rw [this]
    rw [Finset.sum_congr rfl hre, Finset.sum_range_reflect
      (fun t => if bs.getD t false then (2 : ℤ) ^ t else 0) n]
    rw [getD_sum_int bs n]
    rw [← hbs, Nat.mod_eq_of_lt (bitsVal_lt bs)]
  rw [hrefl abits hna, hrefl bbits hnb]

/-- Running the QFT block of `mul` computes the modular product into the
fresh zero register. -/
lemma run_mul_gates (st : QState) (a b s n : ℕ) (abits bbits : List Bool)
    (ha : st.get? a = some (RegSt.basis abits))
    (hb : st.get? b = some (RegSt.basis bbits))
    (hs : st.get? s = some (RegSt.basis (List.replicate n false)))
    (hna : abits.length = n) (hnb : bbits.length = n)
    (has : a ≠ s) (hbs : b ≠ s) (hn : 0 < n) :
    run (Gate.qft s :: (((List.range' 1 n).flatMap (fun (j : ℕ) =>
      (List.range' 1 n).flatMap (fun (i : ℕ) => (List.range' 1 n).map
        (fun (k : ℕ) => Gate.ccp ⟨2 ^ (2 * n - i - j), k⟩
          ⟨a, n - j⟩ ⟨b, n - i⟩ ⟨s, k - 1⟩)))) ++ [Gate.iqft s])) st
      = some (st.set s (RegSt.basis
          (natToBits n ((bitsVal abits * bitsVal bbits) % 2 ^ n)))) := by
  have hrep : (List.replicate n false).length = n :=
    List.length_replicate n false
  have hpos : 0 < 2 ^ n := Nat.pos_pow_of_pos n (by omega)
  have hres := run_qft_block st s (List.replicate n false) _
    ((bitsVal abits * bitsVal bbits) % 2 ^ n) hs
    (by
      rw [hrep]
      intro g hg
      have := mul_deltas_some st s a b n abits bbits ha hb hna hnb has hbs
        g hg
      rwa [← phaseDelta_set st s n
        (RegSt.fourier (List.replicate n false) (fun _ => 0)) g] at this)
    (by rw [hrep]; omega)
    (by rw [hrep]; exact Nat.mod_lt _ hpos)
    (by
      rw [hrep]
      intro i hi
      rw [sumDelta_set, mul_sumDelta st s a b n abits bbits ha hb hna hnb
        has hbs i hi, bitsVal_replicate_false]
      have hdvd : ((2 : ℤ) ^ (i + 1)) ∣ 2 ^ n := pow_dvd_pow 2 (by omega)
      push_cast
      rw [Int.emod_emod_of_dvd _ hdvd, zero_add])
  rwa [hrep] at hres


/-! ## Two's-complement encode/decode values -/

lemma int_to_twos_eq_natToBits (n : ℕ) (a : ℤ) :
    int_to_twos_complement n a
      = natToBits n (if a < 0 then 2 ^ n + a else a).toNat := rfl

lemma length_int_to_twos (n : ℕ) (a : ℤ) :
    (int_to_twos_complement n a).length = n := by
  rw [int_to_twos_eq_natToBits, length_natToBits]

lemma twos_val (n : ℕ) (a : ℤ) (hn : 0 < n)
    (hlo : -2 ^ (n - 1) ≤ a) (hhi : a ≤ 2 ^ (n - 1) - 1) :
    ((bitsVal (int_to_twos_complement n a) : ℕ) : ℤ) = a % 2 ^ n := by
  rw [int_to_twos_eq_natToBits, bitsVal_natToBits]
  have hc2 : (((2 : ℕ) ^ n : ℕ) : ℤ) = (2 : ℤ) ^ n := by push_cast; rfl
  have hhalf : (2 : ℤ) ^ n = 2 ^ (n - 1) * 2 := by
    rw [← pow_succ]
    congr 1
    omega
  have hApos : (0 : ℤ) < 2 ^ (n - 1) := by positivity
  set v : ℤ := if a < 0 then 2 ^ n + a else a with hv
  have h0 : 0 ≤ v := by
    rw [hv]
    by_cases hneg : a < 0
    · rw [if_pos hneg]; omega
    · rw [if_neg hneg]; omega
  have hlt : v < 2 ^ n := by
    rw [hv]
    by_cases hneg : a < 0
    · rw [if_pos hneg]; omega
    · rw [if_neg hneg]; omega
  have hva : v % 2 ^ n = a % 2 ^ n := by
    rw [hv]
    by_cases hneg : a < 0
    · rw [if_pos hneg, add_comm]
      have he : a + 2 ^ n = a + 2 ^ n * 1 := by ring
      rw [he, Int.add_mul_emod_self_left]
    · rw [if_neg hneg]
  have hcast : ((v.toNat % 2 ^ n : ℕ) : ℤ) = v % 2 ^ n := by
    push_cast
    rw [Int.toNat_of_nonneg h0]
  omega

lemma getLast?_natToBits (n v : ℕ) (hn : 0 < n) :
    (natToBits n v).getLast? = some (v.testBit (n - 1)) := by
  rw [List.getLast?_eq_getElem?, length_natToBits]
  unfold natToBits
  rw [List.getElem?_map, List.getElem?_range (by omega : n - 1 < n)]
  rfl

lemma decode_natToBits (n w : ℕ) (hn : 2 ≤ n) (hw : w < 2 ^ n) :
    decode_twos_complement (natToBits n w)
      = if (w : ℤ) < 2 ^ (n - 1) then (w : ℤ) else (w : ℤ) - 2 ^ n := by
  unfold decode_twos_complement
  simp only []
  rw [getLast?_natToBits n w (by omega), Option.getD_some, length_natToBits,
    bitsVal_natToBits, Nat.mod_eq_of_lt hw]
  have hP : 0 < 2 ^ (n - 1) := Nat.pos_pow_of_pos _ (by omega)
  have h2 : (2 : ℕ) ^ n = 2 ^ (n - 1) * 2 := by
    rw [← pow_succ]
    congr 1
    omega
  have hc2 : (((2 : ℕ) ^ n : ℕ) : ℤ) = (2 : ℤ) ^ n := by push_cast; rfl
  have hcP : (((2 : ℕ) ^ (n - 1) : ℕ) : ℤ) = (2 : ℤ) ^ (n - 1) := by
    push_cast; rfl
  by_cases hge : 2 ^ (n - 1) ≤ w
  · have hdiv : w / 2 ^ (n - 1) = 1 :=
      Nat.div_eq_of_lt_le (by omega) (by omega)
    have hbit : w.testBit (n - 1) = true := by
      rw [Nat.testBit_to_div_mod, hdiv]
      rfl
    rw [hbit, if_pos ⟨rfl, by omega⟩, if_neg (by omega)]
  · have hdiv : w / 2 ^ (n - 1) = 0 := Nat.div_eq_of_lt (by omega)
    have hbit : w.testBit (n - 1) = false := by
      rw [Nat.testBit_to_div_mod, hdiv]
      rfl
    rw [hbit, if_neg (by simp), if_pos (by omega)]


/-! ## End-to-end pipelines for the binary arithmetic claims -/

lemma init_var_eq (n : ℕ) (qc : Circuit) (a : ℤ)
    (hlo : -2 ^ (n - 1) ≤ a) (hhi : a ≤ 2 ^ (n - 1) - 1) :
    initialize_variable n qc a
      = some (⟨qc.regs ++ [n], qc.gates ++
          (((List.range n).filter (fun i =>
            (int_to_twos_complement n a).getD i false)).map
            (fun i => Gate.x ⟨qc.regs.length, i⟩))⟩, qc.regs.length) := by
  unfold initialize_variable
  simp only []
  rw [if_neg (by omega)]

lemma invert_bval_eq (n : ℕ) (hn : 0 < n) :
    (if (0 : ℤ) ≤ 1 then
        ((bitsVal (int_to_twos_complement n 1) : ℕ) : ℤ)
      else ((bitsVal (int_to_twos_complement n 1) : ℕ) : ℤ) - 2 ^ n)
      = 1 := by
  rw [if_pos (by norm_num), bitsVal_int_to_twos_one n hn]
  rfl

/-- The two gate chunks of `invert` evaluated in sequence. -/
lemma run_invert_chunks (st : QState) (r n : ℕ) (bits : List Bool)
    (hst : st.get? r = some (RegSt.basis bits)) (hlen : bits.length = n)
    (hn : 0 < n) :
    (run ((List.range n).map (fun i => Gate.x ⟨r, i⟩)) st).bind
      (run (Gate.qft r :: ((List.range n).map (fun j =>
        Gate.p ⟨(if (0 : ℤ) ≤ 1 then
          ((bitsVal (int_to_twos_complement n 1) : ℕ) : ℤ)
        else ((bitsVal (int_to_twos_complement n 1) : ℕ) : ℤ) - 2 ^ n),
          j + 1⟩ ⟨r, j⟩) ++ [Gate.iqft r])))
      = some (st.set r (RegSt.basis
          (natToBits n ((2 ^ n - bitsVal bits) % 2 ^ n)))) := by
  rw [← run_append]
  exact run_invert_gates st r n bits hst hlen hn


/-- The three backend opcodes covered by the arithmetic claim. -/
inductive C1Op where
  | add | sub | mul
deriving DecidableEq, Repr

/-- Integer semantics of the three opcodes. -/
def C1Op.sem : C1Op → ℤ → ℤ → ℤ
  | C1Op.add, a, b => a + b
  | C1Op.sub, a, b => a - b
  | C1Op.mul, a, b => a * b

/-- The claim's test harness: initialize two variables with
`initialize_variable` and apply the chosen backend builder. -/
def c1Build (n : ℕ) (op : C1Op) (a b : ℤ) : Option (Circuit × ℕ) :=
  match initialize_variable n Circuit.empty a with
  | none => none
  | some (qc1, ra) =>
    match initialize_variable n qc1 b with
    | none => none
    | some (qc2, rb) =>
      match op with
      | C1Op.add => some (add qc2 ra rb)
      | C1Op.sub => some (sub n qc2 ra rb)
      | C1Op.mul => some (mul qc2 ra rb)

lemma cast_mod_add (n : ℕ) (x y : ℕ) (a b : ℤ)
    (hx : ((x : ℕ) : ℤ) = a % 2 ^ n) (hy : ((y : ℕ) : ℤ) = b % 2 ^ n) :
    (((x + y) % 2 ^ n : ℕ) : ℤ) = (a + b) % 2 ^ n := by
  push_cast
  rw [hx, hy, ← Int.add_emod]

lemma cast_mod_mul (n : ℕ) (x y : ℕ) (a b : ℤ)
    (hx : ((x : ℕ) : ℤ) = a % 2 ^ n) (hy : ((y : ℕ) : ℤ) = b % 2 ^ n) :
    (((x * y) % 2 ^ n : ℕ) : ℤ) = (a * b) % 2 ^ n := by
  push_cast
  rw [hx, hy, ← Int.mul_emod]

lemma cast_mod_sub (n : ℕ) (x y : ℕ) (a b : ℤ) (hylt : y < 2 ^ n)
    (hx : ((x : ℕ) : ℤ) = a % 2 ^ n) (hy : ((y : ℕ) : ℤ) = b % 2 ^ n) :
    (((x + (2 ^ n - y) % 2 ^ n) % 2 ^ n : ℕ) : ℤ) = (a - b) % 2 ^ n := by
  have hc2 : (((2 : ℕ) ^ n : ℕ) : ℤ) = (2 : ℤ) ^ n := by push_cast; rfl
  have hsub : ((2 ^ n - y : ℕ) : ℤ) = (((2 : ℕ) ^ n : ℕ) : ℤ) - (y : ℤ) := by
    omega
  push_cast
  push_cast at hsub
  rw [hsub, hx, hy, ← Int.add_emod]
  have h1 : a + ((2 : ℤ) ^ n - b % 2 ^ n) = a - b % 2 ^ n + 2 ^ n * 1 := by
    ring
  rw [h1, Int.add_mul_emod_self_left, Int.sub_emod a (b % 2 ^ n),
    Int.emod_emod_of_dvd _ (dvd_refl ((2 : ℤ) ^ n)), ← Int.sub_emod]

lemma c1_add_case (n : ℕ) (a b : ℤ) (hn : 2 ≤ n)
    (halo : -2 ^ (n - 1) ≤ a) (hahi : a ≤ 2 ^ (n - 1) - 1)
    (hblo : -2 ^ (n - 1) ≤ b) (hbhi : b ≤ 2 ^ (n - 1) - 1) :
    ∃ qc r st, c1Build n C1Op.add a b = some (qc, r) ∧ qc.exec = some st ∧
      st.decodeReg r = some (if (a + b) % 2 ^ n < 2 ^ (n - 1)
        then (a + b) % 2 ^ n else (a + b) % 2 ^ n - 2 ^ n) := by
  have hnpos : 0 < n := by omega
  have hp : 0 < 2 ^ n := Nat.pos_pow_of_pos n (by omega)
  have h1 : initialize_variable n Circuit.empty a
      = some (⟨[n], ((List.range n).filter (fun i =>
          (int_to_twos_complement n a).getD i false)).map
          (fun i => Gate.x ⟨0, i⟩)⟩, 0) := by
    rw [init_var_eq n Circuit.empty a halo hahi]
    rfl
  have h2 : initialize_variable n (⟨[n], ((List.range n).filter (fun i =>
        (int_to_twos_complement n a).getD i false)).map
        (fun i => Gate.x ⟨0, i⟩)⟩ : Circuit) b
      = some (⟨[n, n], (((List.range n).filter (fun i =>
          (int_to_twos_complement n a).getD i false)).map
          (fun i => Gate.x ⟨0, i⟩)) ++ (((List.range n).filter (fun i =>
          (int_to_twos_complement n b).getD i false)).map
          (fun i => Gate.x ⟨1, i⟩))⟩, 1) := by
    rw [init_var_eq n _ b hblo hbhi]
    rfl
  have hbuild : c1Build n C1Op.add a b
      = some (add (⟨[n, n], (((List.range n).filter (fun i =>
          (int_to_twos_complement n a).getD i false)).map
          (fun i => Gate.x ⟨0, i⟩)) ++ (((List.range n).filter (fun i =>
          (int_to_twos_complement n b).getD i false)).map
          (fun i => Gate.x ⟨1, i⟩))⟩ : Circuit) 0 1) := by
    unfold c1Build
    rw [h1]
    simp only []
    rw [h2]
  refine ⟨⟨[n, n, n], ((((List.range n).filter (fun i =>
      (int_to_twos_complement n a).getD i false)).map
      (fun i => Gate.x ⟨0, i⟩)) ++ (((List.range n).filter (fun i =>
      (int_to_twos_complement n b).getD i false)).map
      (fun i => Gate.x ⟨1, i⟩))) ++ (Gate.qft 2 ::
        (((List.range n).flatMap (fun i => (List.range n).flatMap (fun j =>
          if j ≤ i then
            [Gate.cp ⟨1, i - j + 1⟩ ⟨0, j⟩ ⟨2, i⟩,
             Gate.cp ⟨1, i - j + 1⟩ ⟨1, j⟩ ⟨2, i⟩]
          else []))) ++ [Gate.iqft 2]))⟩, 2,
    [RegSt.basis (int_to_twos_complement n a),
     RegSt.basis (int_to_twos_complement n b),
     RegSt.basis (natToBits n ((bitsVal (int_to_twos_complement n a)
       + bitsVal (int_to_twos_complement n b)) % 2 ^ n))], ?_, ?_, ?_⟩
  · rw [hbuild]
    rfl
  · show run ((((((List.range n).filter (fun i =>
        (int_to_twos_complement n a).getD i false)).map
        (fun i => Gate.x ⟨0, i⟩)) ++ (((List.range n).filter (fun i =>
        (int_to_twos_complement n b).getD i false)).map
        (fun i => Gate.x ⟨1, i⟩)))) ++ (Gate.qft 2 ::
          (((List.range n).flatMap (fun i => (List.range n).flatMap (fun j =>
            if j ≤ i then
              [Gate.cp ⟨1, i - j + 1⟩ ⟨0, j⟩ ⟨2, i⟩,
               Gate.cp ⟨1, i - j + 1⟩ ⟨1, j⟩ ⟨2, i⟩]
            else []))) ++ [Gate.iqft 2])))
      [RegSt.basis (List.replicate n false),
       RegSt.basis (List.replicate n false),
       RegSt.basis (List.replicate n false)] = _
    simp only [run_append]
    rw [run_init_xwave ([RegSt.basis (List.replicate n false),
        RegSt.basis (List.replicate n false),
        RegSt.basis (List.replicate n false)] : QState) 0 n
      (int_to_twos_complement n a) rfl
      (length_int_to_twos n a), Option.some_bind]
    rw [show ([RegSt.basis (List.replicate n false),
        RegSt.basis (List.replicate n false),
        RegSt.basis (List.replicate n false)] : QState).set 0
          (RegSt.basis (int_to_twos_complement n a))
        = [RegSt.basis (int_to_twos_complement n a),
           RegSt.basis (List.replicate n false),
           RegSt.basis (List.replicate n false)] from rfl]
    rw [run_init_xwave ([RegSt.basis (int_to_twos_complement n a),
        RegSt.basis (List.replicate n false),
        RegSt.basis (List.replicate n false)] : QState) 1 n
      (int_to_twos_complement n b) rfl
      (length_int_to_twos n b), Option.some_bind]
    rw [show ([RegSt.basis (int_to_twos_complement n a),
        RegSt.basis (List.replicate n false),
        RegSt.basis (List.replicate n false)] : QState).set 1
          (RegSt.basis (int_to_twos_complement n b))
        = [RegSt.basis (int_to_twos_complement n a),
           RegSt.basis (int_to_twos_complement n b),
           RegSt.basis (List.replicate n false)] from rfl]
    rw [run_add_gates ([RegSt.basis (int_to_twos_complement n a),
        RegSt.basis (int_to_twos_complement n b),
        RegSt.basis (List.replicate n false)] : QState) 0 1 2 n
      (int_to_twos_complement n a)
      (int_to_twos_complement n b) rfl rfl rfl (length_int_to_twos n a)
      (length_int_to_twos n b) (by omega) (by omega) hnpos]
    rfl
  · rw [show (QState.decodeReg ([RegSt.basis (int_to_twos_complement n a),
        RegSt.basis (int_to_twos_complement n b),
        RegSt.basis (natToBits n ((bitsVal (int_to_twos_complement n a)
          + bitsVal (int_to_twos_complement n b)) % 2 ^ n))] :
            QState) 2)
        = some (decode_twos_complement (natToBits n
            ((bitsVal (int_to_twos_complement n a)
              + bitsVal (int_to_twos_complement n b)) % 2 ^ n))) from rfl]
    rw [decode_natToBits n _ hn (Nat.mod_lt _ hp)]
    rw [cast_mod_add n _ _ a b (twos_val n a hnpos halo hahi)
      (twos_val n b hnpos hblo hbhi)]

lemma c1_mul_case (n : ℕ) (a b : ℤ) (hn : 2 ≤ n)
    (halo : -2 ^ (n - 1) ≤ a) (hahi : a ≤ 2 ^ (n - 1) - 1)
    (hblo : -2 ^ (n - 1) ≤ b) (hbhi : b ≤ 2 ^ (n - 1) - 1) :
    ∃ qc r st, c1Build n C1Op.mul a b = some (qc, r) ∧ qc.exec = some st ∧
      st.decodeReg r = some (if (a * b) % 2 ^ n < 2 ^ (n - 1)
        then (a * b) % 2 ^ n else (a * b) % 2 ^ n - 2 ^ n) := by
  have hnpos : 0 < n := by omega
  have hp : 0 < 2 ^ n := Nat.pos_pow_of_pos n (by omega)
  have h1 : initialize_variable n Circuit.empty a
      = some (⟨[n], ((List.range n).filter (fun i =>
          (int_to_twos_complement n a).getD i false)).map
          (fun i => Gate.x ⟨0, i⟩)⟩, 0) := by
    rw [init_var_eq n Circuit.empty a halo hahi]
    rfl
  have h2 : initialize_variable n (⟨[n], ((List.range n).filter (fun i =>
        (int_to_twos_complement n a).getD i false)).map
        (fun i => Gate.x ⟨0, i⟩)⟩ : Circuit) b
      = some (⟨[n, n], (((List.range n).filter (fun i =>
          (int_to_twos_complement n a).getD i false)).map
          (fun i => Gate.x ⟨0, i⟩)) ++ (((List.range n).filter (fun i =>
          (int_to_twos_complement n b).getD i false)).map
          (fun i => Gate.x ⟨1, i⟩))⟩, 1) := by
    rw [init_var_eq n _ b hblo hbhi]
    rfl
  have hbuild : c1Build n C1Op.mul a b
      = some (mul (⟨[n, n], (((List.range n).filter (fun i =>
          (int_to_twos_complement n a).getD i false)).map
          (fun i => Gate.x ⟨0, i⟩)) ++ (((List.range n).filter (fun i =>
          (int_to_twos_complement n b).getD i false)).map
          (fun i => Gate.x ⟨1, i⟩))⟩ : Circuit) 0 1) := by
    unfold c1Build
    rw [h1]
    simp only []
    rw [h2]
  refine ⟨⟨[n, n, n], ((((List.range n).filter (fun i =>
      (int_to_twos_complement n a).getD i false)).map
      (fun i => Gate.x ⟨0, i⟩)) ++ (((List.range n).filter (fun i =>
      (int_to_twos_complement n b).getD i false)).map
      (fun i => Gate.x ⟨1, i⟩))) ++ (Gate.qft 2 ::
        (((List.range' 1 n).flatMap (fun (j : ℕ) =>
          (List.range' 1 n).flatMap (fun (i : ℕ) => (List.range' 1 n).map
            (fun (k : ℕ) => Gate.ccp ⟨2 ^ (2 * n - i - j), k⟩
              ⟨0, n - j⟩ ⟨1, n - i⟩ ⟨2, k - 1⟩)))) ++ [Gate.iqft 2]))⟩, 2,
    [RegSt.basis (int_to_twos_complement n a),
     RegSt.basis (int_to_twos_complement n b),
     RegSt.basis (natToBits n ((bitsVal (int_to_twos_complement n a)
       * bitsVal (int_to_twos_complement n b)) % 2 ^ n))], ?_, ?_, ?_⟩
  · rw [hbuild]
    rfl
  · show run ((((((List.range n).filter (fun i =>
        (int_to_twos_complement n a).getD i false)).map
        (fun i => Gate.x ⟨0, i⟩)) ++ (((List.range n).filter (fun i =>
        (int_to_twos_complement n b).getD i false)).map
        (fun i => Gate.x ⟨1, i⟩)))) ++ (Gate.qft 2 ::
          (((List.range' 1 n).flatMap (fun (j : ℕ) =>
            (List.range' 1 n).flatMap (fun (i : ℕ) => (List.range' 1 n).map
              (fun (k : ℕ) => Gate.ccp ⟨2 ^ (2 * n - i - j), k⟩
                ⟨0, n - j⟩ ⟨1, n - i⟩ ⟨2, k - 1⟩)))) ++ [Gate.iqft 2])))
      [RegSt.basis (List.replicate n false),
       RegSt.basis (List.replicate n false),
       RegSt.basis (List.replicate n false)] = _
    simp only [run_append]
    rw [run_init_xwave ([RegSt.basis (List.replicate n false),
        RegSt.basis (List.replicate n false),
        RegSt.basis (List.replicate n false)] : QState) 0 n
      (int_to_twos_complement n a) rfl
      (length_int_to_twos n a), Option.some_bind]
    rw [show ([RegSt.basis (List.replicate n false),
        RegSt.basis (List.replicate n false),
        RegSt.basis (List.replicate n false)] : QState).set 0
          (RegSt.basis (int_to_twos_complement n a))
        = [RegSt.basis (int_to_twos_complement n a),
           RegSt.basis (List.replicate n false),
           RegSt.basis (List.replicate n false)] from rfl]
    rw [run_init_xwave ([RegSt.basis (int_to_twos_complement n a),
        RegSt.basis (List.replicate n false),
        RegSt.basis (List.replicate n false)] : QState) 1 n
      (int_to_twos_complement n b) rfl
      (length_int_to_twos n b), Option.some_bind]
    rw [show ([RegSt.basis (int_to_twos_complement n a),
        RegSt.basis (List.replicate n false),
        RegSt.basis (List.replicate n false)] : QState).set 1
          (RegSt.basis (int_to_twos_complement n b))
        = [RegSt.basis (int_to_twos_complement n a),
           RegSt.basis (int_to_twos_complement n b),
           RegSt.basis (List.replicate n false)] from rfl]
    rw [run_mul_gates ([RegSt.basis (int_to_twos_complement n a),
        RegSt.basis (int_to_twos_complement n b),
        RegSt.basis (List.replicate n false)] : QState) 0 1 2 n
      (int_to_twos_complement n a)
      (int_to_twos_complement n b) rfl rfl rfl (length_int_to_twos n a)
      (length_int_to_twos n b) (by omega) (by omega) hnpos]
    rfl
  · rw [show (QState.decodeReg ([RegSt.basis (int_to_twos_complement n a),
        RegSt.basis (int_to_twos_complement n b),
        RegSt.basis (natToBits n ((bitsVal (int_to_twos_complement n a)
          * bitsVal (int_to_twos_complement n b)) % 2 ^ n))] :
            QState) 2)
        = some (decode_twos_complement (natToBits n
            ((bitsVal (int_to_twos_complement n a)
              * bitsVal (int_to_twos_complement n b)) % 2 ^ n))) from rfl]
    rw [decode_natToBits n _ hn (Nat.mod_lt _ hp)]
    rw [cast_mod_mul n _ _ a b (twos_val n a hnpos halo hahi)
      (twos_val n b hnpos hblo hbhi)]



lemma c1_sub_case (n : ℕ) (a b : ℤ) (hn : 2 ≤ n)
    (halo : -2 ^ (n - 1) ≤ a) (hahi : a ≤ 2 ^ (n - 1) - 1)
    (hblo : -2 ^ (n - 1) ≤ b) (hbhi : b ≤ 2 ^ (n - 1) - 1) :
    ∃ qc r st, c1Build n C1Op.sub a b = some (qc, r) ∧ qc.exec = some st ∧
      st.decodeReg r = some (if (a - b) % 2 ^ n < 2 ^ (n - 1)
        then (a - b) % 2 ^ n else (a - b) % 2 ^ n - 2 ^ n) := by
  have hnpos : 0 < n := by omega
  have hp : 0 < 2 ^ n := Nat.pos_pow_of_pos n (by omega)
  have h1 : initialize_variable n Circuit.empty a
      = some (⟨[n], (((List.range n).filter (fun i =>
  (int_to_twos_complement n a).getD i false)).map
  (fun i => Gate.x ⟨0, i⟩))⟩, 0) := by
    rw [init_var_eq n Circuit.empty a halo hahi]
    rfl
  have h2 : initialize_variable n (⟨[n], (((List.range n).filter (fun i =>
  (int_to_twos_complement n a).getD i false)).map
  (fun i => Gate.x ⟨0, i⟩))⟩ : Circuit) b
      = some (⟨[n, n], ((((List.range n).filter (fun i =>
  (int_to_twos_complement n a).getD i false)).map
  (fun i => Gate.x ⟨0, i⟩)) ++ (((List.range n).filter (fun i =>
  (int_to_twos_complement n b).getD i false)).map
  (fun i => Gate.x ⟨1, i⟩)))⟩, 1) := by
    rw [init_var_eq n _ b hblo hbhi]
    rfl
  have hbuild : c1Build n C1Op.sub a b
      = some (sub n (⟨[n, n], ((((List.range n).filter (fun i =>
  (int_to_twos_complement n a).getD i false)).map
  (fun i => Gate.x ⟨0, i⟩)) ++ (((List.range n).filter (fun i =>
  (int_to_twos_complement n b).getD i false)).map
  (fun i => Gate.x ⟨1, i⟩)))⟩ : Circuit) 0 1) := by
    unfold c1Build
    rw [h1]
    simp only []
    rw [h2]
  refine ⟨⟨[n, n, n], (((((((((List.range n).filter (fun i =>
  (int_to_twos_complement n a).getD i false)).map
  (fun i => Gate.x ⟨0, i⟩)) ++
(((List.range n).filter (fun i =>
  (int_to_twos_complement n b).getD i false)).map
  (fun i => Gate.x ⟨1, i⟩))) ++
((List.range n).map (fun i => Gate.x ⟨1, i⟩))) ++
(Gate.qft 1 ::
  ((List.range n).map (fun j => Gate.p ⟨(if (0 : ℤ) ≤ 1 then
    ((bitsVal (int_to_twos_complement n 1) : ℕ) : ℤ)
  else ((bitsVal (int_to_twos_complement n 1) : ℕ) : ℤ) - 2 ^ n),
    j + 1⟩ ⟨1, j⟩) ++ [Gate.iqft 1]))) ++
(Gate.qft 2 ::
  (((List.range n).flatMap (fun i => (List.range n).flatMap (fun j =>
    if j ≤ i then
      [Gate.cp ⟨1, i - j + 1⟩ ⟨0, j⟩ ⟨2, i⟩,
       Gate.cp ⟨1, i - j + 1⟩ ⟨1, j⟩ ⟨2, i⟩]
    else []))) ++ [Gate.iqft 2]))) ++
((List.range n).map (fun i => Gate.x ⟨1, i⟩))) ++
(Gate.qft 1 ::
  ((List.range n).map (fun j => Gate.p ⟨(if (0 : ℤ) ≤ 1 then
    ((bitsVal (int_to_twos_complement n 1) : ℕ) : ℤ)
  else ((bitsVal (int_to_twos_complement n 1) : ℕ) : ℤ) - 2 ^ n),
    j + 1⟩ ⟨1, j⟩) ++ [Gate.iqft 1])))⟩, 2, ([RegSt.basis (int_to_twos_complement n a),
RegSt.basis (natToBits n ((2 ^ n - bitsVal (natToBits n ((2 ^ n - bitsVal (int_to_twos_complement n b)) % 2 ^ n))) % 2 ^ n)),
RegSt.basis (natToBits n ((bitsVal (int_to_twos_complement n a)
  + bitsVal (natToBits n ((2 ^ n - bitsVal (int_to_twos_complement n b)) % 2 ^ n))) % 2 ^ n))] : QState), ?_, ?_, ?_⟩
  · rw [hbuild]
    rfl
  · show run (((((((((List.range n).filter (fun i =>
  (int_to_twos_complement n a).getD i false)).map
  (fun i => Gate.x ⟨0, i⟩)) ++
(((List.range n).filter (fun i =>
  (int_to_twos_complement n b).getD i false)).map
  (fun i => Gate.x ⟨1, i⟩))) ++
((List.range n).map (fun i => Gate.x ⟨1, i⟩))) ++
(Gate.qft 1 ::
  ((List.range n).map (fun j => Gate.p ⟨(if (0 : ℤ) ≤ 1 then
    ((bitsVal (int_to_twos_complement n 1) : ℕ) : ℤ)
  else ((bitsVal (int_to_twos_complement n 1) : ℕ) : ℤ) - 2 ^ n),
    j + 1⟩ ⟨1, j⟩) ++ [Gate.iqft 1]))) ++
(Gate.qft 2 ::
  (((List.range n).flatMap (fun i => (List.range n).flatMap (fun j =>
    if j ≤ i then
      [Gate.cp ⟨1, i - j + 1⟩ ⟨0, j⟩ ⟨2, i⟩,
       Gate.cp ⟨1, i - j + 1⟩ ⟨1, j⟩ ⟨2, i⟩]
    else []))) ++ [Gate.iqft 2]))) ++
((List.range n).map (fun i => Gate.x ⟨1, i⟩))) ++
(Gate.qft 1 ::
  ((List.range n).map (fun j => Gate.p ⟨(if (0 : ℤ) ≤ 1 then
    ((bitsVal (int_to_twos_complement n 1) : ℕ) : ℤ)
  else ((bitsVal (int_to_twos_complement n 1) : ℕ) : ℤ) - 2 ^ n),
    j + 1⟩ ⟨1, j⟩) ++ [Gate.iqft 1]))) ([RegSt.basis (List.replicate n false),
RegSt.basis (List.replicate n false),
RegSt.basis (List.replicate n false)] : QState) = _
    simp only [run_append]
    rw [run_init_xwave ([RegSt.basis (List.replicate n false),
RegSt.basis (List.replicate n false),
RegSt.basis (List.replicate n false)] : QState) 0 n (int_to_twos_complement n a) rfl (length_int_to_twos n a),
      Option.some_bind]
    rw [show ([RegSt.basis (List.replicate n false),
RegSt.basis (List.replicate n false),
RegSt.basis (List.replicate n false)] : QState).set 0 (RegSt.basis (int_to_twos_complement n a)) = ([RegSt.basis (int_to_twos_complement n a),
RegSt.basis (List.replicate n false),
RegSt.basis (List.replicate n false)] : QState) from rfl]
    rw [run_init_xwave ([RegSt.basis (int_to_twos_complement n a),
RegSt.basis (List.replicate n false),
RegSt.basis (List.replicate n false)] : QState) 1 n (int_to_twos_complement n b) rfl (length_int_to_twos n b),
      Option.some_bind]
    rw [show ([RegSt.basis (int_to_twos_complement n a),
RegSt.basis (List.replicate n false),
RegSt.basis (List.replicate n false)] : QState).set 1 (RegSt.basis (int_to_twos_complement n b)) = ([RegSt.basis (int_to_twos_complement n a),
RegSt.basis (int_to_twos_complement n b),
RegSt.basis (List.replicate n false)] : QState) from rfl]
    rw [run_invert_chunks ([RegSt.basis (int_to_twos_complement n a),
RegSt.basis (int_to_twos_complement n b),
RegSt.basis (List.replicate n false)] : QState) 1 n (int_to_twos_complement n b) rfl (length_int_to_twos n b) hnpos,
      Option.some_bind]
    rw [show ([RegSt.basis (int_to_twos_complement n a),
RegSt.basis (int_to_twos_complement n b),
RegSt.basis (List.replicate n false)] : QState).set 1 (RegSt.basis (natToBits n ((2 ^ n - bitsVal (int_to_twos_complement n b)) % 2 ^ n))) = ([RegSt.basis (int_to_twos_complement n a),
RegSt.basis (natToBits n ((2 ^ n - bitsVal (int_to_twos_complement n b)) % 2 ^ n)),
RegSt.basis (List.replicate n false)] : QState) from rfl]
    rw [run_add_gates ([RegSt.basis (int_to_twos_complement n a),
RegSt.basis (natToBits n ((2 ^ n - bitsVal (int_to_twos_complement n b)) % 2 ^ n)),
RegSt.basis (List.replicate n false)] : QState) 0 1 2 n (int_to_twos_complement n a) (natToBits n ((2 ^ n - bitsVal (int_to_twos_complement n b)) % 2 ^ n)) rfl rfl rfl
      (length_int_to_twos n a) (length_natToBits n _) (by omega) (by omega)
      hnpos, Option.some_bind]
    rw [show ([RegSt.basis (int_to_twos_complement n a),
RegSt.basis (natToBits n ((2 ^ n - bitsVal (int_to_twos_complement n b)) % 2 ^ n)),
RegSt.basis (List.replicate n false)] : QState).set 2 (RegSt.basis (natToBits n ((bitsVal (int_to_twos_complement n a)
  + bitsVal (natToBits n ((2 ^ n - bitsVal (int_to_twos_complement n b)) % 2 ^ n))) % 2 ^ n))) = ([RegSt.basis (int_to_twos_complement n a),
RegSt.basis (natToBits n ((2 ^ n - bitsVal (int_to_twos_complement n b)) % 2 ^ n)),
RegSt.basis (natToBits n ((bitsVal (int_to_twos_complement n a)
  + bitsVal (natToBits n ((2 ^ n - bitsVal (int_to_twos_complement n b)) % 2 ^ n))) % 2 ^ n))] : QState) from rfl]
    rw [run_invert_chunks ([RegSt.basis (int_to_twos_complement n a),
RegSt.basis (natToBits n ((2 ^ n - bitsVal (int_to_twos_complement n b)) % 2 ^ n)),
RegSt.basis (natToBits n ((bitsVal (int_to_twos_complement n a)
  + bitsVal (natToBits n ((2 ^ n - bitsVal (int_to_twos_complement n b)) % 2 ^ n))) % 2 ^ n))] : QState) 1 n (natToBits n ((2 ^ n - bitsVal (int_to_twos_complement n b)) % 2 ^ n)) rfl (length_natToBits n _) hnpos]
    rfl
  · rw [show QState.decodeReg ([RegSt.basis (int_to_twos_complement n a),
RegSt.basis (natToBits n ((2 ^ n - bitsVal (natToBits n ((2 ^ n - bitsVal (int_to_twos_complement n b)) % 2 ^ n))) % 2 ^ n)),
RegSt.basis (natToBits n ((bitsVal (int_to_twos_complement n a)
  + bitsVal (natToBits n ((2 ^ n - bitsVal (int_to_twos_complement n b)) % 2 ^ n))) % 2 ^ n))] : QState) 2
        = some (decode_twos_complement (natToBits n ((bitsVal (int_to_twos_complement n a)
  + bitsVal (natToBits n ((2 ^ n - bitsVal (int_to_twos_complement n b)) % 2 ^ n))) % 2 ^ n))) from rfl]
    rw [bitsVal_natToBits n ((2 ^ n - bitsVal (int_to_twos_complement n b)) % 2 ^ n)]
    rw [Nat.mod_mod_of_dvd _ (dvd_refl (2 ^ n))]
    rw [decode_natToBits n _ hn (Nat.mod_lt _ hp)]
    have hblt : bitsVal (int_to_twos_complement n b) < 2 ^ n := by
      have := bitsVal_lt (int_to_twos_complement n b)
      rwa [length_int_to_twos] at this
    rw [cast_mod_sub n _ _ a b hblt (twos_val n a hnpos halo hahi)
      (twos_val n b hnpos hblo hbhi)]


/-- **C1** (counterexample to the claim as stated): at the configurable
bit width `n = 1`, adding the representable values `a = -1`, `b = 0`
yields a register decoding to `+1`, not to `(a + b) mod 2^1`
reinterpreted as two's complement (which is `-1`): `simulate`'s decoder
treats 1-bit registers as unsigned. -/
theorem C1_counterexample :
    ((c1Build 1 C1Op.add (-1) 0).bind (fun p =>
      p.1.exec.bind (fun st => st.decodeReg p.2))) = some 1
    ∧ (if ((-1 : ℤ) + 0) % 2 ^ 1 < 2 ^ (1 - 1) then ((-1 : ℤ) + 0) % 2 ^ 1
        else ((-1 : ℤ) + 0) % 2 ^ 1 - 2 ^ 1) = -1 := by
  constructor
  · decide
  · decide

/-- **C1** (amended): for every bit width `n ≥ 2` and all representable
`a`, `b`, each of the backend builders `add`, `sub`, `mul` applied to
registers initialized with `initialize_variable` produces a result
register that decodes to `(a op b) mod 2^n` reinterpreted as a signed
two's-complement value (silent wraparound, no error). -/
theorem C1_add_sub_mul_wraparound (n : ℕ) (op : C1Op) (a b : ℤ)
    (hn : 2 ≤ n)
    (halo : -2 ^ (n - 1) ≤ a) (hahi : a ≤ 2 ^ (n - 1) - 1)
    (hblo : -2 ^ (n - 1) ≤ b) (hbhi : b ≤ 2 ^ (n - 1) - 1) :
    ∃ qc r st, c1Build n op a b = some (qc, r) ∧ qc.exec = some st ∧
      st.decodeReg r = some (if C1Op.sem op a b % 2 ^ n < 2 ^ (n - 1)
        then C1Op.sem op a b % 2 ^ n
        else C1Op.sem op a b % 2 ^ n - 2 ^ n) := by
  cases op
  · exact c1_add_case n a b hn halo hahi hblo hbhi
  · exact c1_sub_case n a b hn halo hahi hblo hbhi
  · exact c1_mul_case n a b hn halo hahi hblo hbhi

theorem C1_add_sub_mul_wraparound_witness :
    (2 ≤ 4 ∧ -2 ^ (4 - 1) ≤ (3 : ℤ) ∧ (3 : ℤ) ≤ 2 ^ (4 - 1) - 1
      ∧ -2 ^ (4 - 1) ≤ (-2 : ℤ) ∧ (-2 : ℤ) ≤ 2 ^ (4 - 1) - 1)
    ∧ ∃ qc r st, c1Build 4 C1Op.sub 3 (-2) = some (qc, r)
        ∧ qc.exec = some st
        ∧ st.decodeReg r
          = some (if C1Op.sem C1Op.sub 3 (-2) % 2 ^ 4 < 2 ^ (4 - 1)
            then C1Op.sem C1Op.sub 3 (-2) % 2 ^ 4
            else C1Op.sem C1Op.sub 3 (-2) % 2 ^ 4 - 2 ^ 4) :=
  ⟨⟨by norm_num, by norm_num, by norm_num, by norm_num, by norm_num⟩,
    C1_add_sub_mul_wraparound 4 C1Op.sub 3 (-2) (by norm_num) (by norm_num)
      (by norm_num) (by norm_num) (by norm_num)⟩


/-! ## Comparison-circuit building blocks -/

lemma flipFold_copy_eq (n : ℕ) (cbits : List Bool) (hlen : cbits.length = n) :
    flipFold (fun i => cbits.getD i false) (List.replicate n false)
      (List.range n) = cbits := by
  apply list_eq_of_getD
  · rw [flipFold_length, List.length_replicate, hlen]
  · intro j hj
    rw [flipFold_length, List.length_replicate] at hj
    rw [flipFold_getD _ _ _ j (by rw [List.length_replicate]; exact hj)]
    have hrep : (List.replicate n false).getD j false = false := by
      rw [List.getD_eq_getElem?_getD, List.getElem?_replicate, if_pos hj]
      rfl
    have hcount : (List.range n).count j = 1 :=
      List.count_eq_one_of_mem (List.nodup_range n)
        (List.mem_range.mpr hj)
    rw [hrep, hcount]
    cases cbits.getD j false <;> rfl

/-- A CX copy wave from register `c` onto an all-zero register `t`
duplicates the control bits. -/
lemma run_copy_wave (st : QState) (c t n : ℕ) (cbits : List Bool)
    (hc : st.get? c = some (RegSt.basis cbits))
    (ht : st.get? t = some (RegSt.basis (List.replicate n false)))
    (hlen : cbits.length = n) (hct : c ≠ t) :
    run ((List.range n).map (fun i => Gate.cx ⟨c, i⟩ ⟨t, i⟩)) st
      = some (st.set t (RegSt.basis cbits)) := by
  rw [run_cxwave t c cbits hct (List.range n) st (List.replicate n false)
    ht hc
    (by intro i hi; rw [List.length_replicate]; exact List.mem_range.mp hi)
    (by intro i hi; rw [hlen]; exact List.mem_range.mp hi)]
  rw [flipFold_copy_eq n cbits hlen]

/-- A single CX reading bit `ci` of register `c` into a fresh qubit. -/
lemma run_single_cx (st : QState) (c t ci : ℕ) (cbits : List Bool)
    (hc : st.get? c = some (RegSt.basis cbits))
    (ht : st.get? t = some (RegSt.basis [false]))
    (hci : ci < cbits.length) (hct : c ≠ t) :
    run [Gate.cx ⟨c, ci⟩ ⟨t, 0⟩] st
      = some (st.set t (RegSt.basis [cbits.getD ci false])) := by
  rw [run_singleton]
  show (do
    let b ← st.getBit ⟨c, ci⟩
    if b then st.flipBit ⟨t, 0⟩ else some st) = _
  rw [QState.getBit_eq st c ci cbits hc hci, Option.bind_eq_bind,
    Option.some_bind]
  cases hb : cbits.getD ci false
  · simp only [Bool.false_eq_true, if_false]
    rw [QState.set_self st t _ ht]
  · simp only [if_true]
    unfold QState.flipBit
    rw [QState.getBit_eq st t 0 [false] ht (by norm_num),
      Option.bind_eq_bind, Option.some_bind]
    unfold QState.setBit
    simp only []
    rw [ht]
    simp only []
    rw [if_pos (by norm_num)]
    rfl

/-- The `X`-then-`CX` gadget writes the negation of qubit `q` into a
fresh qubit. -/
lemma run_not_gate_pair (st : QState) (q : Qubit) (t : ℕ) (bq : Bool)
    (hq : st.getBit q = some bq)
    (ht : st.get? t = some (RegSt.basis [false]))
    (hqt : q.reg ≠ t) :
    run [Gate.x ⟨t, 0⟩, Gate.cx q ⟨t, 0⟩] st
      = some (st.set t (RegSt.basis [!bq])) := by
  rw [run_cons]
  have hx : applyGate st (Gate.x ⟨t, 0⟩)
      = some (st.set t (RegSt.basis [true])) := by
    show st.flipBit ⟨t, 0⟩ = _
    unfold QState.flipBit
    rw [QState.getBit_eq st t 0 [false] ht (by norm_num),
      Option.bind_eq_bind, Option.some_bind]
    unfold QState.setBit
    simp only []
    rw [ht]
    simp only []
    rw [if_pos (by norm_num)]
    rfl
  rw [hx, Option.some_bind, run_singleton]
  have hlen : t < st.length := QState.lt_length_of_get? st t _ ht
  have hq' : QState.getBit (st.set t (RegSt.basis [true])) q = some bq := by
    rw [QState.getBit_set_ne st t _ q hqt]
    exact hq
  show (do
    let b ← QState.getBit (st.set t (RegSt.basis [true])) q
    if b then QState.flipBit (st.set t (RegSt.basis [true])) ⟨t, 0⟩
    else some (st.set t (RegSt.basis [true]))) = _
  rw [hq', Option.bind_eq_bind, Option.some_bind]
  cases bq
  · simp only [Bool.false_eq_true, if_false, Bool.not_false]
  · simp only [if_true, Bool.not_true]
    unfold QState.flipBit
    rw [QState.getBit_eq (st.set t (RegSt.basis [true])) t 0 [true]
      (QState.get?_set_self st t _ hlen) (by norm_num),
      Option.bind_eq_bind, Option.some_bind]
    unfold QState.setBit
    simp only []
    rw [QState.get?_set_self st t _ hlen]
    simp only []
    rw [if_pos (by norm_num), List.set_set]
    rfl


lemma testBit_msb (n w : ℕ) (hn : 0 < n) (hw : w < 2 ^ n) :
    w.testBit (n - 1) = decide (2 ^ (n - 1) ≤ w) := by
  have h2 : (2 : ℕ) ^ n = 2 ^ (n - 1) * 2 := by
    rw [← pow_succ]
    congr 1
    omega
  have hP : 0 < 2 ^ (n - 1) := Nat.pos_pow_of_pos _ (by omega)
  by_cases hge : 2 ^ (n - 1) ≤ w
  · have hdiv : w / 2 ^ (n - 1) = 1 :=
      Nat.div_eq_of_lt_le (by omega) (by omega)
    rw [Nat.testBit_to_div_mod, hdiv]
    simp [hge]
  · have hdiv : w / 2 ^ (n - 1) = 0 := Nat.div_eq_of_lt (by omega)
    rw [Nat.testBit_to_div_mod, hdiv]
    simp [hge]

/-- Test harness for the comparison claim: initialize `a` and `b`, then
build `less_than`. -/
def c8Build (n : ℕ) (a b : ℤ) : Option (Circuit × Qubit) :=
  match initialize_variable n Circuit.empty a with
  | none => none
  | some (qc1, ra) =>
    match initialize_variable n qc1 b with
    | none => none
    | some (qc2, rb) => some (less_than n qc2 ra rb)

/-- Same harness with `greater_equal`. -/
def c8BuildGe (n : ℕ) (a b : ℤ) : Option (Circuit × Qubit) :=
  match initialize_variable n Circuit.empty a with
  | none => none
  | some (qc1, ra) =>
    match initialize_variable n qc1 b with
    | none => none
    | some (qc2, rb) => some (greater_equal n qc2 ra rb)

lemma c8_lt_exec (n : ℕ) (a b : ℤ) (hn : 0 < n)
    (halo : -2 ^ (n - 1) ≤ a) (hahi : a ≤ 2 ^ (n - 1) - 1)
    (hblo : -2 ^ (n - 1) ≤ b) (hbhi : b ≤ 2 ^ (n - 1) - 1) :
    ∃ qc st, c8Build n a b = some (qc, ⟨4, 0⟩) ∧ qc.exec = some st ∧
      st.getBit ⟨4, 0⟩ = some (decide ((2 : ℤ) ^ (n - 1)
        ≤ (a - b) % 2 ^ n)) := by
  have hp : 0 < 2 ^ n := Nat.pos_pow_of_pos n (by omega)
  have h1 : initialize_variable n Circuit.empty a
      = some (⟨[n], (((List.range n).filter (fun i =>
  (int_to_twos_complement n a).getD i false)).map
  (fun i => Gate.x ⟨0, i⟩))⟩, 0) := by
    rw [init_var_eq n Circuit.empty a halo hahi]
    rfl
  have h2 : initialize_variable n (⟨[n], (((List.range n).filter (fun i =>
  (int_to_twos_complement n a).getD i false)).map
  (fun i => Gate.x ⟨0, i⟩))⟩ : Circuit) b
      = some (⟨[n, n], ((((List.range n).filter (fun i =>
  (int_to_twos_complement n a).getD i false)).map
  (fun i => Gate.x ⟨0, i⟩)) ++ (((List.range n).filter (fun i =>
  (int_to_twos_complement n b).getD i false)).map
  (fun i => Gate.x ⟨1, i⟩)))⟩, 1) := by
    rw [init_var_eq n _ b hblo hbhi]
    rfl
  have hbuild : c8Build n a b
      = some (less_than n (⟨[n, n], ((((List.range n).filter (fun i =>
  (int_to_twos_complement n a).getD i false)).map
  (fun i => Gate.x ⟨0, i⟩)) ++ (((List.range n).filter (fun i =>
  (int_to_twos_complement n b).getD i false)).map
  (fun i => Gate.x ⟨1, i⟩)))⟩ : Circuit) 0 1) := by
    unfold c8Build
    rw [h1]
    simp only []
    rw [h2]
  refine ⟨⟨[n, n, n, n, 1], (((((((((((List.range n).filter (fun i =>
  (int_to_twos_complement n a).getD i false)).map
  (fun i => Gate.x ⟨0, i⟩)) ++
(((List.range n).filter (fun i =>
  (int_to_twos_complement n b).getD i false)).map
  (fun i => Gate.x ⟨1, i⟩))) ++
((List.range n).map (fun i => Gate.cx ⟨1, i⟩ ⟨2, i⟩))) ++
((List.range n).map (fun i => Gate.x ⟨2, i⟩))) ++
(Gate.qft 2 ::
  ((List.range n).map (fun j => Gate.p ⟨(if (0 : ℤ) ≤ 1 then
    ((bitsVal (int_to_twos_complement n 1) : ℕ) : ℤ)
  else ((bitsVal (int_to_twos_complement n 1) : ℕ) : ℤ) - 2 ^ n),
    j + 1⟩ ⟨2, j⟩) ++ [Gate.iqft 2]))) ++
(Gate.qft 3 ::
  (((List.range n).flatMap (fun i => (List.range n).flatMap (fun j =>
    if j ≤ i then
      [Gate.cp ⟨1, i - j + 1⟩ ⟨0, j⟩ ⟨3, i⟩,
       Gate.cp ⟨1, i - j + 1⟩ ⟨2, j⟩ ⟨3, i⟩]
    else []))) ++ [Gate.iqft 3]))) ++
[Gate.cx ⟨3, n - 1⟩ ⟨4, 0⟩]) ++
((List.range n).map (fun i => Gate.x ⟨2, i⟩))) ++
(Gate.qft 2 ::
  ((List.range n).map (fun j => Gate.p ⟨(if (0 : ℤ) ≤ 1 then
    ((bitsVal (int_to_twos_complement n 1) : ℕ) : ℤ)
  else ((bitsVal (int_to_twos_complement n 1) : ℕ) : ℤ) - 2 ^ n),
    j + 1⟩ ⟨2, j⟩) ++ [Gate.iqft 2])))⟩, ([RegSt.basis (int_to_twos_complement n a),
RegSt.basis (int_to_twos_complement n b),
RegSt.basis (natToBits n ((2 ^ n - bitsVal (natToBits n ((2 ^ n - bitsVal (int_to_twos_complement n b)) % 2 ^ n))) % 2 ^ n)),
RegSt.basis (natToBits n ((bitsVal (int_to_twos_complement n a)
  + bitsVal (natToBits n ((2 ^ n - bitsVal (int_to_twos_complement n b)) % 2 ^ n))) % 2 ^ n)),
RegSt.basis [(natToBits n ((bitsVal (int_to_twos_complement n a)
  + bitsVal (natToBits n ((2 ^ n - bitsVal (int_to_twos_complement n b)) % 2 ^ n))) % 2 ^ n)).getD (n - 1) false]] : QState), ?_, ?_, ?_⟩
  · rw [hbuild]
    rfl
  · show run (((((((((((List.range n).filter (fun i =>
  (int_to_twos_complement n a).getD i false)).map
  (fun i => Gate.x ⟨0, i⟩)) ++
(((List.range n).filter (fun i =>
  (int_to_twos_complement n b).getD i false)).map
  (fun i => Gate.x ⟨1, i⟩))) ++
((List.range n).map (fun i => Gate.cx ⟨1, i⟩ ⟨2, i⟩))) ++
((List.range n).map (fun i => Gate.x ⟨2, i⟩))) ++
(Gate.qft 2 ::
  ((List.range n).map (fun j => Gate.p ⟨(if (0 : ℤ) ≤ 1 then
    ((bitsVal (int_to_twos_complement n 1) : ℕ) : ℤ)
  else ((bitsVal (int_to_twos_complement n 1) : ℕ) : ℤ) - 2 ^ n),
    j + 1⟩ ⟨2, j⟩) ++ [Gate.iqft 2]))) ++
(Gate.qft 3 ::
  (((List.range n).flatMap (fun i => (List.range n).flatMap (fun j =>
    if j ≤ i then
      [Gate.cp ⟨1, i - j + 1⟩ ⟨0, j⟩ ⟨3, i⟩,
       Gate.cp ⟨1, i - j + 1⟩ ⟨2, j⟩ ⟨3, i⟩]
    else []))) ++ [Gate.iqft 3]))) ++
[Gate.cx ⟨3, n - 1⟩ ⟨4, 0⟩]) ++
((List.range n).map (fun i => Gate.x ⟨2, i⟩))) ++
(Gate.qft 2 ::
  ((List.range n).map (fun j => Gate.p ⟨(if (0 : ℤ) ≤ 1 then
    ((bitsVal (int_to_twos_complement n 1) : ℕ) : ℤ)
  else ((bitsVal (int_to_twos_complement n 1) : ℕ) : ℤ) - 2 ^ n),
    j + 1⟩ ⟨2, j⟩) ++ [Gate.iqft 2]))) ([RegSt.basis (List.replicate n false),
RegSt.basis (List.replicate n false),
RegSt.basis (List.replicate n false),
RegSt.basis (List.replicate n false),
RegSt.basis (List.replicate 1 false)] : QState) = _
    simp only [run_append]
    rw [run_init_xwave ([RegSt.basis (List.replicate n false),
RegSt.basis (List.replicate n false),
RegSt.basis (List.replicate n false),
RegSt.basis (List.replicate n false),
RegSt.basis (List.replicate 1 false)] : QState) 0 n (int_to_twos_complement n a) rfl (length_int_to_twos n a),
      Option.some_bind]
    rw [show ([RegSt.basis (List.replicate n false),
RegSt.basis (List.replicate n false),
RegSt.basis (List.replicate n false),
RegSt.basis (List.replicate n false),
RegSt.basis (List.replicate 1 false)] : QState).set 0 (RegSt.basis (int_to_twos_complement n a)) = ([RegSt.basis (int_to_twos_complement n a),
RegSt.basis (List.replicate n false),
RegSt.basis (List.replicate n false),
RegSt.basis (List.replicate n false),
RegSt.basis (List.replicate 1 false)] : QState) from rfl]
    rw [run_init_xwave ([RegSt.basis (int_to_twos_complement n a),
RegSt.basis (List.replicate n false),
RegSt.basis (List.replicate n false),
RegSt.basis (List.replicate n false),
RegSt.basis (List.replicate 1 false)] : QState) 1 n (int_to_twos_complement n b) rfl (length_int_to_twos n b),
      Option.some_bind]
    rw [show ([RegSt.basis (int_to_twos_complement n a),
RegSt.basis (List.replicate n false),
RegSt.basis (List.replicate n false),
RegSt.basis (List.replicate n false),
RegSt.basis (List.replicate 1 false)] : QState).set 1 (RegSt.basis (int_to_twos_complement n b)) = ([RegSt.basis (int_to_twos_complement n a),
RegSt.basis (int_to_twos_complement n b),
RegSt.basis (List.replicate n false),
RegSt.basis (List.replicate n false),
RegSt.basis (List.replicate 1 false)] : QState) from rfl]
    rw [run_copy_wave ([RegSt.basis (int_to_twos_complement n a),
RegSt.basis (int_to_twos_complement n b),
RegSt.basis (List.replicate n false),
RegSt.basis (List.replicate n false),
RegSt.basis (List.replicate 1 false)] : QState) 1 2 n (int_to_twos_complement n b) rfl rfl (length_int_to_twos n b)
      (by omega), Option.some_bind]
    rw [show ([RegSt.basis (int_to_twos_complement n a),
RegSt.basis (int_to_twos_complement n b),
RegSt.basis (List.replicate n false),
RegSt.basis (List.replicate n false),
RegSt.basis (List.replicate 1 false)] : QState).set 2 (RegSt.basis (int_to_twos_complement n b)) = ([RegSt.basis (int_to_twos_complement n a),
RegSt.basis (int_to_twos_complement n b),
RegSt.basis (int_to_twos_complement n b),
RegSt.basis (List.replicate n false),
RegSt.basis (List.replicate 1 false)] : QState) from rfl]
    rw [run_invert_chunks ([RegSt.basis (int_to_twos_complement n a),
RegSt.basis (int_to_twos_complement n b),
RegSt.basis (int_to_twos_complement n b),
RegSt.basis (List.replicate n false),
RegSt.basis (List.replicate 1 false)] : QState) 2 n (int_to_twos_complement n b) rfl (length_int_to_twos n b) hn,
      Option.some_bind]
    rw [show ([RegSt.basis (int_to_twos_complement n a),
RegSt.basis (int_to_twos_complement n b),
RegSt.basis (int_to_twos_complement n b),
RegSt.basis (List.replicate n false),
RegSt.basis (List.replicate 1 false)] : QState).set 2 (RegSt.basis (natToBits n ((2 ^ n - bitsVal (int_to_twos_complement n b)) % 2 ^ n))) = ([RegSt.basis (int_to_twos_complement n a),
RegSt.basis (int_to_twos_complement n b),
RegSt.basis (natToBits n ((2 ^ n - bitsVal (int_to_twos_complement n b)) % 2 ^ n)),
RegSt.basis (List.replicate n false),
RegSt.basis (List.replicate 1 false)] : QState) from rfl]
    rw [run_add_gates ([RegSt.basis (int_to_twos_complement n a),
RegSt.basis (int_to_twos_complement n b),
RegSt.basis (natToBits n ((2 ^ n - bitsVal (int_to_twos_complement n b)) % 2 ^ n)),
RegSt.basis (List.replicate n false),
RegSt.basis (List.replicate 1 false)] : QState) 0 2 3 n (int_to_twos_complement n a) (natToBits n ((2 ^ n - bitsVal (int_to_twos_complement n b)) % 2 ^ n)) rfl rfl rfl
      (length_int_to_twos n a) (length_natToBits n _) (by omega) (by omega)
      hn, Option.some_bind]
    rw [show ([RegSt.basis (int_to_twos_complement n a),
RegSt.basis (int_to_twos_complement n b),
RegSt.basis (natToBits n ((2 ^ n - bitsVal (int_to_twos_complement n b)) % 2 ^ n)),
RegSt.basis (List.replicate n false),
RegSt.basis (List.replicate 1 false)] : QState).set 3 (RegSt.basis (natToBits n ((bitsVal (int_to_twos_complement n a)
  + bitsVal (natToBits n ((2 ^ n - bitsVal (int_to_twos_complement n b)) % 2 ^ n))) % 2 ^ n))) = ([RegSt.basis (int_to_twos_complement n a),
RegSt.basis (int_to_twos_complement n b),
RegSt.basis (natToBits n ((2 ^ n - bitsVal (int_to_twos_complement n b)) % 2 ^ n)),
RegSt.basis (natToBits n ((bitsVal (int_to_twos_complement n a)
  + bitsVal (natToBits n ((2 ^ n - bitsVal (int_to_twos_complement n b)) % 2 ^ n))) % 2 ^ n)),
RegSt.basis (List.replicate 1 false)] : QState) from rfl]
    rw [run_single_cx ([RegSt.basis (int_to_twos_complement n a),
RegSt.basis (int_to_twos_complement n b),
RegSt.basis (natToBits n ((2 ^ n - bitsVal (int_to_twos_complement n b)) % 2 ^ n)),
RegSt.basis (natToBits n ((bitsVal (int_to_twos_complement n a)
  + bitsVal (natToBits n ((2 ^ n - bitsVal (int_to_twos_complement n b)) % 2 ^ n))) % 2 ^ n)),
RegSt.basis (List.replicate 1 false)] : QState) 3 4 (n - 1) (natToBits n ((bitsVal (int_to_twos_complement n a)
  + bitsVal (natToBits n ((2 ^ n - bitsVal (int_to_twos_complement n b)) % 2 ^ n))) % 2 ^ n)) rfl rfl
      (by rw [length_natToBits]; omega) (by omega), Option.some_bind]
    rw [show ([RegSt.basis (int_to_twos_complement n a),
RegSt.basis (int_to_twos_complement n b),
RegSt.basis (natToBits n ((2 ^ n - bitsVal (int_to_twos_complement n b)) % 2 ^ n)),
RegSt.basis (natToBits n ((bitsVal (int_to_twos_complement n a)
  + bitsVal (natToBits n ((2 ^ n - bitsVal (int_to_twos_complement n b)) % 2 ^ n))) % 2 ^ n)),
RegSt.basis (List.replicate 1 false)] : QState).set 4 (RegSt.basis [(natToBits n ((bitsVal (int_to_twos_complement n a)
  + bitsVal (natToBits n ((2 ^ n - bitsVal (int_to_twos_complement n b)) % 2 ^ n))) % 2 ^ n)).getD (n - 1) false]) = ([RegSt.basis (int_to_twos_complement n a),
RegSt.basis (int_to_twos_complement n b),
RegSt.basis (natToBits n ((2 ^ n - bitsVal (int_to_twos_complement n b)) % 2 ^ n)),
RegSt.basis (natToBits n ((bitsVal (int_to_twos_complement n a)
  + bitsVal (natToBits n ((2 ^ n - bitsVal (int_to_twos_complement n b)) % 2 ^ n))) % 2 ^ n)),
RegSt.basis [(natToBits n ((bitsVal (int_to_twos_complement n a)
  + bitsVal (natToBits n ((2 ^ n - bitsVal (int_to_twos_complement n b)) % 2 ^ n))) % 2 ^ n)).getD (n - 1) false]] : QState) from rfl]
    rw [run_invert_chunks ([RegSt.basis (int_to_twos_complement n a),
RegSt.basis (int_to_twos_complement n b),
RegSt.basis (natToBits n ((2 ^ n - bitsVal (int_to_twos_complement n b)) % 2 ^ n)),
RegSt.basis (natToBits n ((bitsVal (int_to_twos_complement n a)
  + bitsVal (natToBits n ((2 ^ n - bitsVal (int_to_twos_complement n b)) % 2 ^ n))) % 2 ^ n)),
RegSt.basis [(natToBits n ((bitsVal (int_to_twos_complement n a)
  + bitsVal (natToBits n ((2 ^ n - bitsVal (int_to_twos_complement n b)) % 2 ^ n))) % 2 ^ n)).getD (n - 1) false]] : QState) 2 n (natToBits n ((2 ^ n - bitsVal (int_to_twos_complement n b)) % 2 ^ n)) rfl (length_natToBits n _) hn]
    rfl
  · show some ((natToBits n ((bitsVal (int_to_twos_complement n a)
  + bitsVal (natToBits n ((2 ^ n - bitsVal (int_to_twos_complement n b)) % 2 ^ n))) % 2 ^ n)).getD (n - 1) false) = _
    rw [getD_natToBits n _ (n - 1) (by omega)]
    rw [bitsVal_natToBits n ((2 ^ n - bitsVal (int_to_twos_complement n b)) % 2 ^ n)]
    rw [Nat.mod_mod_of_dvd _ (dvd_refl (2 ^ n))]
    rw [testBit_msb n _ hn (Nat.mod_lt _ hp)]
    have hblt : bitsVal (int_to_twos_complement n b) < 2 ^ n := by
      have := bitsVal_lt (int_to_twos_complement n b)
      rwa [length_int_to_twos] at this
    have hcast := cast_mod_sub n (bitsVal (int_to_twos_complement n a)) (bitsVal (int_to_twos_complement n b)) a b hblt
      (twos_val n a hn halo hahi) (twos_val n b hn hblo hbhi)
    congr 1
    rw [decide_eq_decide]
    constructor
    · intro h
      rw [← hcast]
      calc ((2 : ℤ) ^ (n - 1)) = (((2 ^ (n - 1) : ℕ) : ℕ) : ℤ) := by
            push_cast
            rfl
      _ ≤ _ := by exact_mod_cast h
    · intro h
      rw [← hcast] at h
      have : (((2 ^ (n - 1) : ℕ) : ℕ) : ℤ) ≤ ((((bitsVal (int_to_twos_complement n a)
          + (2 ^ n - bitsVal (int_to_twos_complement n b)) % 2 ^ n) % 2 ^ n : ℕ) : ℕ) : ℤ) := by
        calc (((2 ^ (n - 1) : ℕ) : ℕ) : ℤ) = (2 : ℤ) ^ (n - 1) := by
              push_cast
              rfl
        _ ≤ _ := h
      exact_mod_cast this


lemma c8_ge_exec (n : ℕ) (a b : ℤ) (hn : 0 < n)
    (halo : -2 ^ (n - 1) ≤ a) (hahi : a ≤ 2 ^ (n - 1) - 1)
    (hblo : -2 ^ (n - 1) ≤ b) (hbhi : b ≤ 2 ^ (n - 1) - 1) :
    ∃ qc st, c8BuildGe n a b = some (qc, ⟨5, 0⟩) ∧ qc.exec = some st ∧
      st.getBit ⟨5, 0⟩ = some (!(decide ((2 : ℤ) ^ (n - 1)
        ≤ (a - b) % 2 ^ n))) := by
  have hp : 0 < 2 ^ n := Nat.pos_pow_of_pos n (by omega)
  have h1 : initialize_variable n Circuit.empty a
      = some (⟨[n], (((List.range n).filter (fun i =>
  (int_to_twos_complement n a).getD i false)).map
  (fun i => Gate.x ⟨0, i⟩))⟩, 0) := by
    rw [init_var_eq n Circuit.empty a halo hahi]
    rfl
  have h2 : initialize_variable n (⟨[n], (((List.range n).filter (fun i =>
  (int_to_twos_complement n a).getD i false)).map
  (fun i => Gate.x ⟨0, i⟩))⟩ : Circuit) b
      = some (⟨[n, n], ((((List.range n).filter (fun i =>
  (int_to_twos_complement n a).getD i false)).map
  (fun i => Gate.x ⟨0, i⟩)) ++ (((List.range n).filter (fun i =>
  (int_to_twos_complement n b).getD i false)).map
  (fun i => Gate.x ⟨1, i⟩)))⟩, 1) := by
    rw [init_var_eq n _ b hblo hbhi]
    rfl
  have hbuild : c8BuildGe n a b
      = some (greater_equal n (⟨[n, n], ((((List.range n).filter (fun i =>
  (int_to_twos_complement n a).getD i false)).map
  (fun i => Gate.x ⟨0, i⟩)) ++ (((List.range n).filter (fun i =>
  (int_to_twos_complement n b).getD i false)).map
  (fun i => Gate.x ⟨1, i⟩)))⟩ : Circuit) 0 1) := by
    unfold c8BuildGe
    rw [h1]
    simp only []
    rw [h2]
  refine ⟨⟨[n, n, n, n, 1, 1], ((((((((((((List.range n).filter (fun i =>
  (int_to_twos_complement n a).getD i false)).map
  (fun i => Gate.x ⟨0, i⟩)) ++
(((List.range n).filter (fun i =>
  (int_to_twos_complement n b).getD i false)).map
  (fun i => Gate.x ⟨1, i⟩))) ++
((List.range n).map (fun i => Gate.cx ⟨1, i⟩ ⟨2, i⟩))) ++
((List.range n).map (fun i => Gate.x ⟨2, i⟩))) ++
(Gate.qft 2 ::
  ((List.range n).map (fun j => Gate.p ⟨(if (0 : ℤ) ≤ 1 then
    ((bitsVal (int_to_twos_complement n 1) : ℕ) : ℤ)
  else ((bitsVal (int_to_twos_complement n 1) : ℕ) : ℤ) - 2 ^ n),
    j + 1⟩ ⟨2, j⟩) ++ [Gate.iqft 2]))) ++
(Gate.qft 3 ::
  (((List.range n).flatMap (fun i => (List.range n).flatMap (fun j =>
    if j ≤ i then
      [Gate.cp ⟨1, i - j + 1⟩ ⟨0, j⟩ ⟨3, i⟩,
       Gate.cp ⟨1, i - j + 1⟩ ⟨2, j⟩ ⟨3, i⟩]
    else []))) ++ [Gate.iqft 3]))) ++
[Gate.cx ⟨3, n - 1⟩ ⟨4, 0⟩]) ++
((List.range n).map (fun i => Gate.x ⟨2, i⟩))) ++
(Gate.qft 2 ::
  ((List.range n).map (fun j => Gate.p ⟨(if (0 : ℤ) ≤ 1 then
    ((bitsVal (int_to_twos_complement n 1) : ℕ) : ℤ)
  else ((bitsVal (int_to_twos_complement n 1) : ℕ) : ℤ) - 2 ^ n),
    j + 1⟩ ⟨2, j⟩) ++ [Gate.iqft 2]))) ++
[Gate.x ⟨5, 0⟩, Gate.cx ⟨4, 0⟩ ⟨5, 0⟩])⟩, ([RegSt.basis (int_to_twos_complement n a),
RegSt.basis (int_to_twos_complement n b),
RegSt.basis (natToBits n ((2 ^ n - bitsVal (natToBits n ((2 ^ n - bitsVal (int_to_twos_complement n b)) % 2 ^ n))) % 2 ^ n)),
RegSt.basis (natToBits n ((bitsVal (int_to_twos_complement n a)
  + bitsVal (natToBits n ((2 ^ n - bitsVal (int_to_twos_complement n b)) % 2 ^ n))) % 2 ^ n)),
RegSt.basis [(natToBits n ((bitsVal (int_to_twos_complement n a)
  + bitsVal (natToBits n ((2 ^ n - bitsVal (int_to_twos_complement n b)) % 2 ^ n))) % 2 ^ n)).getD (n - 1) false],
RegSt.basis [!((natToBits n ((bitsVal (int_to_twos_complement n a)
  + bitsVal (natToBits n ((2 ^ n - bitsVal (int_to_twos_complement n b)) % 2 ^ n))) % 2 ^ n)).getD (n - 1) false)]] : QState), ?_, ?_, ?_⟩
  · rw [hbuild]
    rfl
  · show run ((((((((((((List.range n).filter (fun i =>
  (int_to_twos_complement n a).getD i false)).map
  (fun i => Gate.x ⟨0, i⟩)) ++
(((List.range n).filter (fun i =>
  (int_to_twos_complement n b).getD i false)).map
  (fun i => Gate.x ⟨1, i⟩))) ++
((List.range n).map (fun i => Gate.cx ⟨1, i⟩ ⟨2, i⟩))) ++
((List.range n).map (fun i => Gate.x ⟨2, i⟩))) ++
(Gate.qft 2 ::
  ((List.range n).map (fun j => Gate.p ⟨(if (0 : ℤ) ≤ 1 then
    ((bitsVal (int_to_twos_complement n 1) : ℕ) : ℤ)
  else ((bitsVal (int_to_twos_complement n 1) : ℕ) : ℤ) - 2 ^ n),
    j + 1⟩ ⟨2, j⟩) ++ [Gate.iqft 2]))) ++
(Gate.qft 3 ::
  (((List.range n).flatMap (fun i => (List.range n).flatMap (fun j =>
    if j ≤ i then
      [Gate.cp ⟨1, i - j + 1⟩ ⟨0, j⟩ ⟨3, i⟩,
       Gate.cp ⟨1, i - j + 1⟩ ⟨2, j⟩ ⟨3, i⟩]
    else []))) ++ [Gate.iqft 3]))) ++
[Gate.cx ⟨3, n - 1⟩ ⟨4, 0⟩]) ++
((List.range n).map (fun i => Gate.x ⟨2, i⟩))) ++
(Gate.qft 2 ::
  ((List.range n).map (fun j => Gate.p ⟨(if (0 : ℤ) ≤ 1 then
    ((bitsVal (int_to_twos_complement n 1) : ℕ) : ℤ)
  else ((bitsVal (int_to_twos_complement n 1) : ℕ) : ℤ) - 2 ^ n),
    j + 1⟩ ⟨2, j⟩) ++ [Gate.iqft 2]))) ++
[Gate.x ⟨5, 0⟩, Gate.cx ⟨4, 0⟩ ⟨5, 0⟩]) ([RegSt.basis (List.replicate n false),
RegSt.basis (List.replicate n false),
RegSt.basis (List.replicate n false),
RegSt.basis (List.replicate n false),
RegSt.basis (List.replicate 1 false),
RegSt.basis (List.replicate 1 false)] : QState) = _
    simp only [run_append]
    rw [run_init_xwave ([RegSt.basis (List.replicate n false),
RegSt.basis (List.replicate n false),
RegSt.basis (List.replicate n false),
RegSt.basis (List.replicate n false),
RegSt.basis (List.replicate 1 false),
RegSt.basis (List.replicate 1 false)] : QState) 0 n (int_to_twos_complement n a) rfl (length_int_to_twos n a),
      Option.some_bind]
    rw [show ([RegSt.basis (List.replicate n false),
RegSt.basis (List.replicate n false),
RegSt.basis (List.replicate n false),
RegSt.basis (List.replicate n false),
RegSt.basis (List.replicate 1 false),
RegSt.basis (List.replicate 1 false)] : QState).set 0 (RegSt.basis (int_to_twos_complement n a)) = ([RegSt.basis (int_to_twos_complement n a),
RegSt.basis (List.replicate n false),
RegSt.basis (List.replicate n false),
RegSt.basis (List.replicate n false),
RegSt.basis (List.replicate 1 false),
RegSt.basis (List.replicate 1 false)] : QState) from rfl]
    rw [run_init_xwave ([RegSt.basis (int_to_twos_complement n a),
RegSt.basis (List.replicate n false),
RegSt.basis (List.replicate n false),
RegSt.basis (List.replicate n false),
RegSt.basis (List.replicate 1 false),
RegSt.basis (List.replicate 1 false)] : QState) 1 n (int_to_twos_complement n b) rfl (length_int_to_twos n b),
      Option.some_bind]
    rw [show ([RegSt.basis (int_to_twos_complement n a),
RegSt.basis (List.replicate n false),
RegSt.basis (List.replicate n false),
RegSt.basis (List.replicate n false),
RegSt.basis (List.replicate 1 false),
RegSt.basis (List.replicate 1 false)] : QState).set 1 (RegSt.basis (int_to_twos_complement n b)) = ([RegSt.basis (int_to_twos_complement n a),
RegSt.basis (int_to_twos_complement n b),
RegSt.basis (List.replicate n false),
RegSt.basis (List.replicate n false),
RegSt.basis (List.replicate 1 false),
RegSt.basis (List.replicate 1 false)] : QState) from rfl]
    rw [run_copy_wave ([RegSt.basis (int_to_twos_complement n a),
RegSt.basis (int_to_twos_complement n b),
RegSt.basis (List.replicate n false),
RegSt.basis (List.replicate n false),
RegSt.basis (List.replicate 1 false),
RegSt.basis (List.replicate 1 false)] : QState) 1 2 n (int_to_twos_complement n b) rfl rfl (length_int_to_twos n b)
      (by omega), Option.some_bind]
    rw [show ([RegSt.basis (int_to_twos_complement n a),
RegSt.basis (int_to_twos_complement n b),
RegSt.basis (List.replicate n false),
RegSt.basis (List.replicate n false),
RegSt.basis (List.replicate 1 false),
RegSt.basis (List.replicate 1 false)] : QState).set 2 (RegSt.basis (int_to_twos_complement n b)) = ([RegSt.basis (int_to_twos_complement n a),
RegSt.basis (int_to_twos_complement n b),
RegSt.basis (int_to_twos_complement n b),
RegSt.basis (List.replicate n false),
RegSt.basis (List.replicate 1 false),
RegSt.basis (List.replicate 1 false)] : QState) from rfl]
    rw [run_invert_chunks ([RegSt.basis (int_to_twos_complement n a),
RegSt.basis (int_to_twos_complement n b),
RegSt.basis (int_to_twos_complement n b),
RegSt.basis (List.replicate n false),
RegSt.basis (List.replicate 1 false),
RegSt.basis (List.replicate 1 false)] : QState) 2 n (int_to_twos_complement n b) rfl (length_int_to_twos n b) hn,
      Option.some_bind]
    rw [show ([RegSt.basis (int_to_twos_complement n a),
RegSt.basis (int_to_twos_complement n b),
RegSt.basis (int_to_twos_complement n b),
RegSt.basis (List.replicate n false),
RegSt.basis (List.replicate 1 false),
RegSt.basis (List.replicate 1 false)] : QState).set 2 (RegSt.basis (natToBits n ((2 ^ n - bitsVal (int_to_twos_complement n b)) % 2 ^ n))) = ([RegSt.basis (int_to_twos_complement n a),
RegSt.basis (int_to_twos_complement n b),
RegSt.basis (natToBits n ((2 ^ n - bitsVal (int_to_twos_complement n b)) % 2 ^ n)),
RegSt.basis (List.replicate n false),
RegSt.basis (List.replicate 1 false),
RegSt.basis (List.replicate 1 false)] : QState) from rfl]
    rw [run_add_gates ([RegSt.basis (int_to_twos_complement n a),
RegSt.basis (int_to_twos_complement n b),
RegSt.basis (natToBits n ((2 ^ n - bitsVal (int_to_twos_complement n b)) % 2 ^ n)),
RegSt.basis (List.replicate n false),
RegSt.basis (List.replicate 1 false),
RegSt.basis (List.replicate 1 false)] : QState) 0 2 3 n (int_to_twos_complement n a) (natToBits n ((2 ^ n - bitsVal (int_to_twos_complement n b)) % 2 ^ n)) rfl rfl rfl
      (length_int_to_twos n a) (length_natToBits n _) (by omega) (by omega)
      hn, Option.some_bind]
    rw [show ([RegSt.basis (int_to_twos_complement n a),
RegSt.basis (int_to_twos_complement n b),
RegSt.basis (natToBits n ((2 ^ n - bitsVal (int_to_twos_complement n b)) % 2 ^ n)),
RegSt.basis (List.replicate n false),
RegSt.basis (List.replicate 1 false),
RegSt.basis (List.replicate 1 false)] : QState).set 3 (RegSt.basis (natToBits n ((bitsVal (int_to_twos_complement n a)
  + bitsVal (natToBits n ((2 ^ n - bitsVal (int_to_twos_complement n b)) % 2 ^ n))) % 2 ^ n))) = ([RegSt.basis (int_to_twos_complement n a),
RegSt.basis (int_to_twos_complement n b),
RegSt.basis (natToBits n ((2 ^ n - bitsVal (int_to_twos_complement n b)) % 2 ^ n)),
RegSt.basis (natToBits n ((bitsVal (int_to_twos_complement n a)
  + bitsVal (natToBits n ((2 ^ n - bitsVal (int_to_twos_complement n b)) % 2 ^ n))) % 2 ^ n)),
RegSt.basis (List.replicate 1 false),
RegSt.basis (List.replicate 1 false)] : QState) from rfl]
    rw [run_single_cx ([RegSt.basis (int_to_twos_complement n a),
RegSt.basis (int_to_twos_complement n b),
RegSt.basis (natToBits n ((2 ^ n - bitsVal (int_to_twos_complement n b)) % 2 ^ n)),
RegSt.basis (natToBits n ((bitsVal (int_to_twos_complement n a)
  + bitsVal (natToBits n ((2 ^ n - bitsVal (int_to_twos_complement n b)) % 2 ^ n))) % 2 ^ n)),
RegSt.basis (List.replicate 1 false),
RegSt.basis (List.replicate 1 false)] : QState) 3 4 (n - 1) (natToBits n ((bitsVal (int_to_twos_complement n a)
  + bitsVal (natToBits n ((2 ^ n - bitsVal (int_to_twos_complement n b)) % 2 ^ n))) % 2 ^ n)) rfl rfl
      (by rw [length_natToBits]; omega) (by omega), Option.some_bind]
    rw [show ([RegSt.basis (int_to_twos_complement n a),
RegSt.basis (int_to_twos_complement n b),
RegSt.basis (natToBits n ((2 ^ n - bitsVal (int_to_twos_complement n b)) % 2 ^ n)),
RegSt.basis (natToBits n ((bitsVal (int_to_twos_complement n a)
  + bitsVal (natToBits n ((2 ^ n - bitsVal (int_to_twos_complement n b)) % 2 ^ n))) % 2 ^ n)),
RegSt.basis (List.replicate 1 false),
RegSt.basis (List.replicate 1 false)] : QState).set 4 (RegSt.basis [(natToBits n ((bitsVal (int_to_twos_complement n a)
  + bitsVal (natToBits n ((2 ^ n - bitsVal (int_to_twos_complement n b)) % 2 ^ n))) % 2 ^ n)).getD (n - 1) false]) = ([RegSt.basis (int_to_twos_complement n a),
RegSt.basis (int_to_twos_complement n b),
RegSt.basis (natToBits n ((2 ^ n - bitsVal (int_to_twos_complement n b)) % 2 ^ n)),
RegSt.basis (natToBits n ((bitsVal (int_to_twos_complement n a)
  + bitsVal (natToBits n ((2 ^ n - bitsVal (int_to_twos_complement n b)) % 2 ^ n))) % 2 ^ n)),
RegSt.basis [(natToBits n ((bitsVal (int_to_twos_complement n a)
  + bitsVal (natToBits n ((2 ^ n - bitsVal (int_to_twos_complement n b)) % 2 ^ n))) % 2 ^ n)).getD (n - 1) false],
RegSt.basis (List.replicate 1 false)] : QState) from rfl]
    rw [run_invert_chunks ([RegSt.basis (int_to_twos_complement n a),
RegSt.basis (int_to_twos_complement n b),
RegSt.basis (natToBits n ((2 ^ n - bitsVal (int_to_twos_complement n b)) % 2 ^ n)),
RegSt.basis (natToBits n ((bitsVal (int_to_twos_complement n a)
  + bitsVal (natToBits n ((2 ^ n - bitsVal (int_to_twos_complement n b)) % 2 ^ n))) % 2 ^ n)),
RegSt.basis [(natToBits n ((bitsVal (int_to_twos_complement n a)
  + bitsVal (natToBits n ((2 ^ n - bitsVal (int_to_twos_complement n b)) % 2 ^ n))) % 2 ^ n)).getD (n - 1) false],
RegSt.basis (List.replicate 1 false)] : QState) 2 n (natToBits n ((2 ^ n - bitsVal (int_to_twos_complement n b)) % 2 ^ n)) rfl (length_natToBits n _) hn,
      Option.some_bind]
    rw [show ([RegSt.basis (int_to_twos_complement n a),
RegSt.basis (int_to_twos_complement n b),
RegSt.basis (natToBits n ((2 ^ n - bitsVal (int_to_twos_complement n b)) % 2 ^ n)),
RegSt.basis (natToBits n ((bitsVal (int_to_twos_complement n a)
  + bitsVal (natToBits n ((2 ^ n - bitsVal (int_to_twos_complement n b)) % 2 ^ n))) % 2 ^ n)),
RegSt.basis [(natToBits n ((bitsVal (int_to_twos_complement n a)
  + bitsVal (natToBits n ((2 ^ n - bitsVal (int_to_twos_complement n b)) % 2 ^ n))) % 2 ^ n)).getD (n - 1) false],
RegSt.basis (List.replicate 1 false)] : QState).set 2 (RegSt.basis (natToBits n ((2 ^ n - bitsVal (natToBits n ((2 ^ n - bitsVal (int_to_twos_complement n b)) % 2 ^ n))) % 2 ^ n))) = ([RegSt.basis (int_to_twos_complement n a),
RegSt.basis (int_to_twos_complement n b),
RegSt.basis (natToBits n ((2 ^ n - bitsVal (natToBits n ((2 ^ n - bitsVal (int_to_twos_complement n b)) % 2 ^ n))) % 2 ^ n)),
RegSt.basis (natToBits n ((bitsVal (int_to_twos_complement n a)
  + bitsVal (natToBits n ((2 ^ n - bitsVal (int_to_twos_complement n b)) % 2 ^ n))) % 2 ^ n)),
RegSt.basis [(natToBits n ((bitsVal (int_to_twos_complement n a)
  + bitsVal (natToBits n ((2 ^ n - bitsVal (int_to_twos_complement n b)) % 2 ^ n))) % 2 ^ n)).getD (n - 1) false],
RegSt.basis (List.replicate 1 false)] : QState) from rfl]
    rw [run_not_gate_pair ([RegSt.basis (int_to_twos_complement n a),
RegSt.basis (int_to_twos_complement n b),
RegSt.basis (natToBits n ((2 ^ n - bitsVal (natToBits n ((2 ^ n - bitsVal (int_to_twos_complement n b)) % 2 ^ n))) % 2 ^ n)),
RegSt.basis (natToBits n ((bitsVal (int_to_twos_complement n a)
  + bitsVal (natToBits n ((2 ^ n - bitsVal (int_to_twos_complement n b)) % 2 ^ n))) % 2 ^ n)),
RegSt.basis [(natToBits n ((bitsVal (int_to_twos_complement n a)
  + bitsVal (natToBits n ((2 ^ n - bitsVal (int_to_twos_complement n b)) % 2 ^ n))) % 2 ^ n)).getD (n - 1) false],
RegSt.basis (List.replicate 1 false)] : QState) ⟨4, 0⟩ 5 ((natToBits n ((bitsVal (int_to_twos_complement n a)
  + bitsVal (natToBits n ((2 ^ n - bitsVal (int_to_twos_complement n b)) % 2 ^ n))) % 2 ^ n)).getD (n - 1) false) rfl rfl
      (by decide)]
    rfl
  · show some (!((natToBits n ((bitsVal (int_to_twos_complement n a)
  + bitsVal (natToBits n ((2 ^ n - bitsVal (int_to_twos_complement n b)) % 2 ^ n))) % 2 ^ n)).getD (n - 1) false)) = _
    rw [getD_natToBits n _ (n - 1) (by omega)]
    rw [bitsVal_natToBits n ((2 ^ n - bitsVal (int_to_twos_complement n b)) % 2 ^ n)]
    rw [Nat.mod_mod_of_dvd _ (dvd_refl (2 ^ n))]
    rw [testBit_msb n _ hn (Nat.mod_lt _ hp)]
    have hblt : bitsVal (int_to_twos_complement n b) < 2 ^ n := by
      have := bitsVal_lt (int_to_twos_complement n b)
      rwa [length_int_to_twos] at this
    have hcast := cast_mod_sub n (bitsVal (int_to_twos_complement n a)) (bitsVal (int_to_twos_complement n b)) a b hblt
      (twos_val n a hn halo hahi) (twos_val n b hn hblo hbhi)
    congr 2
    rw [decide_eq_decide]
    constructor
    · intro h
      rw [← hcast]
      calc ((2 : ℤ) ^ (n - 1)) = (((2 ^ (n - 1) : ℕ) : ℕ) : ℤ) := by
            push_cast
            rfl
      _ ≤ _ := by exact_mod_cast h
    · intro h
      rw [← hcast] at h
      have : (((2 ^ (n - 1) : ℕ) : ℕ) : ℤ) ≤ ((((bitsVal (int_to_twos_complement n a)
          + (2 ^ n - bitsVal (int_to_twos_complement n b)) % 2 ^ n) % 2 ^ n : ℕ) : ℕ) : ℤ) := by
        calc (((2 ^ (n - 1) : ℕ) : ℕ) : ℤ) = (2 : ℤ) ^ (n - 1) := by
              push_cast
              rfl
        _ ≤ _ := h
      exact_mod_cast this


/-- **C8** (counterexample to the claim as stated): at width 4 with
`a = 0`, `b = -8` (both representable), the `less_than` circuit's output
qubit reads `1` even though `0 < -8` is false: the sign bit of
`(a - b) mod 2^n` differs from `a < b` when the difference overflows. -/
theorem C8_counterexample :
    ((c8Build 4 0 (-8)).bind (fun p =>
      p.1.exec.bind (fun st => st.getBit p.2))) = some true
    ∧ ¬ ((0 : ℤ) < -8) := by
  constructor
  · set_option maxRecDepth 100000 in decide
  · decide

/-- **C8** (amended): `less_than` computes the sign bit of
`(a - b) mod 2^n` (the sum `a + (-b)` of the restored-copy pipeline),
which coincides with `a < b` exactly when the true difference fits the
signed range; `greater_equal` produces the boolean negation of that bit,
`greater_than` is `less_than` with swapped arguments, and `less_equal`
and `not_equal` are the X-then-CX negation gadget applied to
`greater_than`'s and `equal`'s output qubits. -/
theorem C8_compare_sign_bit (n : ℕ) (a b : ℤ) (hn : 0 < n)
    (halo : -2 ^ (n - 1) ≤ a) (hahi : a ≤ 2 ^ (n - 1) - 1)
    (hblo : -2 ^ (n - 1) ≤ b) (hbhi : b ≤ 2 ^ (n - 1) - 1) :
    (∃ qc st, c8Build n a b = some (qc, ⟨4, 0⟩) ∧ qc.exec = some st ∧
      st.getBit ⟨4, 0⟩ = some (decide ((2 : ℤ) ^ (n - 1)
        ≤ (a - b) % 2 ^ n)))
    ∧ (∃ qc st, c8BuildGe n a b = some (qc, ⟨5, 0⟩) ∧ qc.exec = some st ∧
      st.getBit ⟨5, 0⟩ = some (!(decide ((2 : ℤ) ^ (n - 1)
        ≤ (a - b) % 2 ^ n))))
    ∧ ((-2 ^ (n - 1) ≤ a - b ∧ a - b ≤ 2 ^ (n - 1) - 1) →
        (((2 : ℤ) ^ (n - 1) ≤ (a - b) % 2 ^ n) ↔ a < b))
    ∧ (∀ qc x y, greater_than n qc x y = less_than n qc y x)
    ∧ (∀ qc x y, less_equal n qc x y
        = (⟨(greater_than n qc x y).1.regs ++ [1],
            (greater_than n qc x y).1.gates
              ++ [Gate.x ⟨(greater_than n qc x y).1.regs.length, 0⟩,
                  Gate.cx (greater_than n qc x y).2
                    ⟨(greater_than n qc x y).1.regs.length, 0⟩]⟩,
           (⟨(greater_than n qc x y).1.regs.length, 0⟩ : Qubit)))
    ∧ (∀ qc x y, not_equal qc x y
        = (⟨(equal qc x y).1.regs ++ [1],
            (equal qc x y).1.gates
              ++ [Gate.x ⟨(equal qc x y).1.regs.length, 0⟩,
                  Gate.cx (equal qc x y).2
                    ⟨(equal qc x y).1.regs.length, 0⟩]⟩,
           (⟨(equal qc x y).1.regs.length, 0⟩ : Qubit))) := by
  refine ⟨?_, ?_, ?_, fun qc x y => rfl, fun qc x y => rfl,
    fun qc x y => rfl⟩
  · obtain ⟨qc, st, hb, he, hg⟩ :=
      c8_lt_exec n a b hn halo hahi hblo hbhi
    exact ⟨qc, st, hb, he, hg⟩
  · obtain ⟨qc, st, hb, he, hg⟩ :=
      c8_ge_exec n a b hn halo hahi hblo hbhi
    exact ⟨qc, st, hb, he, hg⟩
  · rintro ⟨h1, h2⟩
    have hApos : (0 : ℤ) < 2 ^ (n - 1) := by positivity
    have hhalf : (2 : ℤ) ^ n = 2 ^ (n - 1) * 2 := by
      rw [← pow_succ]
      congr 1
      omega
    by_cases hd : 0 ≤ a - b
    · have he : (a - b) % 2 ^ n = a - b :=
        Int.emod_eq_of_lt hd (by omega)
      rw [he]
      constructor <;> intro h <;> omega
    · push_neg at hd
      have he : (a - b) % 2 ^ n = a - b + 2 ^ n := by
        calc (a - b) % 2 ^ n = (a - b + 2 ^ n * 1) % 2 ^ n :=
              (Int.add_mul_emod_self_left (a - b) (2 ^ n) 1).symm
        _ = (a - b + 2 ^ n) % 2 ^ n := by ring_nf
        _ = a - b + 2 ^ n := Int.emod_eq_of_lt (by omega) (by omega)
      rw [he]
      constructor <;> intro h <;> omega

theorem C8_compare_sign_bit_witness :
    (0 < 4 ∧ -2 ^ (4 - 1) ≤ (2 : ℤ) ∧ (2 : ℤ) ≤ 2 ^ (4 - 1) - 1
      ∧ -2 ^ (4 - 1) ≤ (3 : ℤ) ∧ (3 : ℤ) ≤ 2 ^ (4 - 1) - 1)
    ∧ ((∃ qc st, c8Build 4 2 3 = some (qc, ⟨4, 0⟩) ∧ qc.exec = some st ∧
        st.getBit ⟨4, 0⟩ = some (decide ((2 : ℤ) ^ (4 - 1)
          ≤ ((2 : ℤ) - 3) % 2 ^ 4)))
      ∧ (∃ qc st, c8BuildGe 4 2 3 = some (qc, ⟨5, 0⟩) ∧ qc.exec = some st ∧
        st.getBit ⟨5, 0⟩ = some (!(decide ((2 : ℤ) ^ (4 - 1)
          ≤ ((2 : ℤ) - 3) % 2 ^ 4))))
      ∧ ((-2 ^ (4 - 1) ≤ (2 : ℤ) - 3 ∧ (2 : ℤ) - 3 ≤ 2 ^ (4 - 1) - 1) →
          (((2 : ℤ) ^ (4 - 1) ≤ ((2 : ℤ) - 3) % 2 ^ 4) ↔ (2 : ℤ) < 3))
      ∧ (∀ qc x y, greater_than 4 qc x y = less_than 4 qc y x)
      ∧ (∀ qc x y, less_equal 4 qc x y
          = (⟨(greater_than 4 qc x y).1.regs ++ [1],
              (greater_than 4 qc x y).1.gates
                ++ [Gate.x ⟨(greater_than 4 qc x y).1.regs.length, 0⟩,
                    Gate.cx (greater_than 4 qc x y).2
                      ⟨(greater_than 4 qc x y).1.regs.length, 0⟩]⟩,
             (⟨(greater_than 4 qc x y).1.regs.length, 0⟩ : Qubit)))
      ∧ (∀ qc x y, not_equal qc x y
          = (⟨(equal qc x y).1.regs ++ [1],
              (equal qc x y).1.gates
                ++ [Gate.x ⟨(equal qc x y).1.regs.length, 0⟩,
                    Gate.cx (equal qc x y).2
                      ⟨(equal qc x y).1.regs.length, 0⟩]⟩,
             (⟨(equal qc x y).1.regs.length, 0⟩ : Qubit)))) :=
  ⟨⟨by norm_num, by norm_num, by norm_num, by norm_num, by norm_num⟩,
    C8_compare_sign_bit 4 2 3 (by norm_num) (by norm_num) (by norm_num)
      (by norm_num) (by norm_num)⟩


/-! ## Restoring-division machinery: swaps and rotation -/

lemma applyGate_swap_same (st : QState) (r i j : ℕ) (bits : List Bool)
    (hst : st.get? r = some (RegSt.basis bits))
    (hi : i < bits.length) (hj : j < bits.length) :
    applyGate st (Gate.swap ⟨r, i⟩ ⟨r, j⟩)
      = some (st.set r (RegSt.basis
          ((bits.set i (bits.getD j false)).set j (bits.getD i false)))) := by
  show (do
    let ba ← st.getBit ⟨r, i⟩
    let bb ← st.getBit ⟨r, j⟩
    let st' ← st.setBit ⟨r, i⟩ bb
    QState.setBit st' ⟨r, j⟩ ba) = _
  rw [QState.getBit_eq st r i bits hst hi, Option.bind_eq_bind,
    Option.some_bind, QState.getBit_eq st r j bits hst hj,
    Option.some_bind]
  have hset1 : st.setBit ⟨r, i⟩ (bits.getD j false)
      = some (st.set r (RegSt.basis (bits.set i (bits.getD j false)))) := by
    unfold QState.setBit
    simp only []
    rw [hst]
    simp only []
    rw [if_pos hi]
  rw [hset1]
  simp only [Option.bind_eq_bind, Option.some_bind]
  have hlen : r < st.length := QState.lt_length_of_get? st r _ hst
  unfold QState.setBit
  simp only []
  rw [QState.get?_set_self st r _ hlen]
  simp only []
  rw [if_pos (by rw [List.length_set]; exact hj), List.set_set]

lemma applyGate_swap_diff (st : QState) (r1 i1 r2 i2 : ℕ)
    (bits1 bits2 : List Bool)
    (h1 : st.get? r1 = some (RegSt.basis bits1))
    (h2 : st.get? r2 = some (RegSt.basis bits2))
    (hi1 : i1 < bits1.length) (hi2 : i2 < bits2.length) (hne : r1 ≠ r2) :
    applyGate st (Gate.swap ⟨r1, i1⟩ ⟨r2, i2⟩)
      = some ((st.set r1 (RegSt.basis
          (bits1.set i1 (bits2.getD i2 false)))).set r2 (RegSt.basis
          (bits2.set i2 (bits1.getD i1 false)))) := by
  show (do
    let ba ← st.getBit ⟨r1, i1⟩
    let bb ← st.getBit ⟨r2, i2⟩
    let st' ← st.setBit ⟨r1, i1⟩ bb
    QState.setBit st' ⟨r2, i2⟩ ba) = _
  rw [QState.getBit_eq st r1 i1 bits1 h1 hi1, Option.bind_eq_bind,
    Option.some_bind, QState.getBit_eq st r2 i2 bits2 h2 hi2,
    Option.some_bind]
  have hset1 : st.setBit ⟨r1, i1⟩ (bits2.getD i2 false)
      = some (st.set r1 (RegSt.basis (bits1.set i1 (bits2.getD i2 false)))) := by
    unfold QState.setBit
    simp only []
    rw [h1]
    simp only []
    rw [if_pos hi1]
  rw [hset1]
  simp only [Option.bind_eq_bind, Option.some_bind]
  unfold QState.setBit
  simp only []
  rw [QState.get?_set_ne st r1 _ r2 (fun h => hne h.symm), h2]
  simp only []
  rw [if_pos hi2]

/-- One-step left rotation of the low `k+1` positions of a bit list. -/
def rotSeg (k : ℕ) (bs : List Bool) : List Bool :=
  (List.range bs.length).map (fun j =>
    if j = 0 then bs.getD k false
    else if j ≤ k then bs.getD (j - 1) false else bs.getD j false)

lemma rotSeg_length (k : ℕ) (bs : List Bool) :
    (rotSeg k bs).length = bs.length := by
  unfold rotSeg
  rw [List.length_map, List.length_range]

lemma rotSeg_getD (k : ℕ) (bs : List Bool) (j : ℕ) (hj : j < bs.length) :
    (rotSeg k bs).getD j false
      = (if j = 0 then bs.getD k false
        else if j ≤ k then bs.getD (j - 1) false else bs.getD j false) := by
  unfold rotSeg
  rw [List.getD_eq_getElem?_getD, List.getElem?_map,
    List.getElem?_range hj]
  rfl

lemma rotSeg_zero (bs : List Bool) : rotSeg 0 bs = bs := by
  apply list_eq_of_getD
  · exact rotSeg_length 0 bs
  · intro j hj
    rw [rotSeg_length] at hj
    rw [rotSeg_getD 0 bs j hj]
    by_cases h0 : j = 0
    · subst h0
      rfl
    · rw [if_neg h0, if_neg (by omega)]

lemma rotSeg_swap_step (k : ℕ) (bs : List Bool) (hk : k + 1 < bs.length) :
    rotSeg k ((bs.set (k + 1) (bs.getD k false)).set k (bs.getD (k + 1) false))
      = rotSeg (k + 1) bs := by
  apply list_eq_of_getD
  · rw [rotSeg_length, rotSeg_length, List.length_set, List.length_set]
  · intro j hj
    rw [rotSeg_length, List.length_set, List.length_set] at hj
    have hlen2 : ((bs.set (k + 1) (bs.getD k false)).set k
        (bs.getD (k + 1) false)).length = bs.length := by
      rw [List.length_set, List.length_set]
    have hgd : ∀ m : ℕ, ((bs.set (k + 1) (bs.getD k false)).set k
        (bs.getD (k + 1) false)).getD m false
        = (if m = k then bs.getD (k + 1) false
          else if m = k + 1 then bs.getD k false else bs.getD m false) := by
      intro m
      by_cases hmk : m = k
      · subst hmk
        rw [if_pos rfl, List.getD_eq_getElem?_getD,
          List.getElem?_set_self (by rw [List.length_set]; omega),
          Option.getD_some]
      · rw [if_neg hmk]
        by_cases hmk1 : m = k + 1
        · subst hmk1
          rw [if_pos rfl, List.getD_eq_getElem?_getD,
            List.getElem?_set_ne (by omega),
            List.getElem?_set_self (by omega), Option.getD_some]
        · rw [if_neg hmk1, List.getD_eq_getElem?_getD,
            List.getElem?_set_ne (by omega), List.getElem?_set_ne (by omega),
            ← List.getD_eq_getElem?_getD]
    rw [rotSeg_getD _ _ j (by rw [hlen2]; exact hj), rotSeg_getD _ _ j hj]
    by_cases h0 : j = 0
    · subst h0
      rw [if_pos rfl, if_pos rfl, hgd k, if_pos rfl]
    · rw [if_neg h0, if_neg h0]
      by_cases hjk : j ≤ k
      · rw [if_pos hjk, if_pos (by omega), hgd (j - 1),
          if_neg (by omega), if_neg (by omega)]
      · rw [if_neg hjk]
        by_cases hjk1 : j ≤ k + 1
        · have hje : j = k + 1 := by omega
          subst hje
          have he : k + 1 - 1 = k := rfl
          rw [if_pos (le_refl (k + 1)), he, hgd (k + 1), if_neg (by omega),
            if_pos rfl]
        · rw [if_neg hjk1, hgd j, if_neg (by omega), if_neg (by omega)]

/-- The descending adjacent-swap chain of the restoring loop rotates the
register left by one position. -/
lemma run_rotate_chain (r : ℕ) : ∀ (k : ℕ) (st : QState) (bs : List Bool),
    st.get? r = some (RegSt.basis bs) → k < bs.length →
    run (((List.range' 1 k).reverse.map
      (fun j => Gate.swap ⟨r, j⟩ ⟨r, j - 1⟩))) st
      = some (st.set r (RegSt.basis (rotSeg k bs))) := by
  intro k
  induction k with
  | zero =>
      intro st bs hst _
      rw [show List.range' 1 0 = [] from rfl, List.reverse_nil, List.map_nil,
        run_nil, rotSeg_zero, QState.set_self st r _ hst]
  | succ k ih =>
      intro st bs hst hk
      have hlist : ((List.range' 1 (k + 1)).reverse.map
          (fun j => Gate.swap ⟨r, j⟩ ⟨r, j - 1⟩))
          = Gate.swap ⟨r, k + 1⟩ ⟨r, k⟩ :: ((List.range' 1 k).reverse.map
            (fun j => Gate.swap ⟨r, j⟩ ⟨r, j - 1⟩)) := by
        rw [List.range'_concat, List.reverse_append, List.reverse_singleton,
          List.singleton_append, List.map_cons]
        have e1 : 1 + 1 * k = k + 1 := by omega
        rw [e1]
        rfl
      rw [hlist, run_cons]
      rw [applyGate_swap_same st r (k + 1) k bs hst (by omega) (by omega)]
      rw [Option.some_bind]
      have hlen : r < st.length := QState.lt_length_of_get? st r _ hst
      have hst' : (st.set r (RegSt.basis ((bs.set (k + 1)
          (bs.getD k false)).set k (bs.getD (k + 1) false)))).get? r
          = some (RegSt.basis ((bs.set (k + 1)
            (bs.getD k false)).set k (bs.getD (k + 1) false))) :=
        QState.get?_set_self st r _ hlen
      rw [ih _ _ hst' (by
        rw [List.length_set, List.length_set]
        omega)]
      rw [List.set_set]
      rw [rotSeg_swap_step k bs (by omega)]


/-! ## In-place subtract and controlled add blocks -/

lemma sub_deltas_some (st : QState) (s b n : ℕ) (bbits : List Bool)
    (hb : st.get? b = some (RegSt.basis bbits)) (hnb : bbits.length = n)
    (hbs : b ≠ s) :
    ∀ g ∈ (List.range n).flatMap (fun i => (List.range n).flatMap (fun j =>
      if j ≤ i then [Gate.cp ⟨-1, i - j + 1⟩ ⟨b, j⟩ ⟨s, i⟩] else [])),
      (phaseDelta st s n g).isSome := by
  intro g hg
  rw [List.mem_flatMap] at hg
  obtain ⟨i, hi, hg⟩ := hg
  rw [List.mem_flatMap] at hg
  obtain ⟨j, hj, hg⟩ := hg
  rw [List.mem_range] at hi
  rw [List.mem_range] at hj
  by_cases hji : j ≤ i
  · rw [if_pos hji] at hg
    simp only [List.mem_cons, List.not_mem_nil, or_false] at hg
    subst hg
    rw [cp_delta st s b n i j (i - j + 1) bbits (-1) hb hbs hi
      (by omega) (by omega)]
    rfl
  · rw [if_neg hji] at hg
    exact absurd hg (List.not_mem_nil g)

lemma sub_sumDelta (st : QState) (s b n : ℕ) (bbits : List Bool)
    (hb : st.get? b = some (RegSt.basis bbits)) (hnb : bbits.length = n)
    (hbs : b ≠ s) (m : ℕ) (hm : m < n) :
    sumDelta st s n ((List.range n).flatMap (fun i =>
      (List.range n).flatMap (fun j =>
        if j ≤ i then [Gate.cp ⟨-1, i - j + 1⟩ ⟨b, j⟩ ⟨s, i⟩] else []))) m
    = -((bitsVal bbits % 2 ^ (m + 1) : ℕ) : ℤ) := by
  rw [sumDelta_flatMap, sum_map_range_eq]
  have hrow : ∀ i ∈ Finset.range n,
      sumDelta st s n ((List.range n).flatMap (fun j => if j ≤ i then
        [Gate.cp ⟨-1, i - j + 1⟩ ⟨b, j⟩ ⟨s, i⟩] else [])) m
      = if m = i then -((bitsVal bbits % 2 ^ (i + 1) : ℕ) : ℤ) else 0 := by
    intro i hi
    rw [Finset.mem_range] at hi
    rw [sumDelta_flatMap, sum_map_range_eq]
    have hcell : ∀ j ∈ Finset.range n,
        sumDelta st s n (if j ≤ i then
          [Gate.cp ⟨-1, i - j + 1⟩ ⟨b, j⟩ ⟨s, i⟩] else []) m
        = if j ≤ i then
            (if m = i then
              -(if bbits.getD j false then (2 : ℤ) ^ j else 0)
            else 0)
          else 0 := by
      intro j hj
      rw [Finset.mem_range] at hj
      by_cases hji : j ≤ i
      · rw [if_pos hji, if_pos hji]
        have h1 := cp_delta st s b n i j (i - j + 1) bbits (-1) hb hbs hi
          (by omega) (by omega)
        rw [sumDelta_singleton, h1, Option.getD_some]
        have hexp : i + 1 - (i - j + 1) = j := by omega
        rw [hexp]
        by_cases hmi : m = i
        · subst hmi
          cases hbj : bbits.getD j false <;> simp [hbj]
        · simp [hmi]
      · rw [if_neg hji, if_neg hji]
        rfl
    rw [Finset.sum_congr rfl hcell]
    by_cases hmi : m = i
    · subst hmi
      have hsimp : ∀ j ∈ Finset.range n, (if j ≤ m then
          (if m = m then
            -(if bbits.getD j false then (2 : ℤ) ^ j else 0)
          else 0) else 0)
          = -(if j ≤ m then
            (if bbits.getD j false then (2 : ℤ) ^ j else 0) else 0) := by
        intro j _
        by_cases hji : j ≤ m <;> simp [hji]
      rw [Finset.sum_congr rfl hsimp, Finset.sum_neg_distrib,
        sum_range_ite_le _ n m hi, getD_sum_int, if_pos rfl]
    · simp only [if_neg hmi]
      exact Finset.sum_eq_zero (fun j _ => by
        by_cases hji : j ≤ i <;> simp [hji, hmi])
  rw [Finset.sum_congr rfl hrow, Finset.sum_ite_eq,
    if_pos (Finset.mem_range.mpr hm)]

/-- Running the QFT block of `_sub_in_place` subtracts the operand
register's value modulo `2^n`. -/
lemma run_sub_block (st : QState) (r b n : ℕ) (rbits bbits : List Bool)
    (hr : st.get? r = some (RegSt.basis rbits))
    (hb : st.get? b = some (RegSt.basis bbits))
    (hnr : rbits.length = n) (hnb : bbits.length = n)
    (hbr : b ≠ r) (hn : 0 < n) :
    run (Gate.qft r :: (((List.range n).flatMap (fun i =>
      (List.range n).flatMap (fun j =>
        if j ≤ i then [Gate.cp ⟨-1, i - j + 1⟩ ⟨b, j⟩ ⟨r, i⟩] else [])))
      ++ [Gate.iqft r])) st
      = some (st.set r (RegSt.basis (natToBits n
          (((bitsVal rbits : ℤ) - bitsVal bbits) % 2 ^ n).toNat))) := by
  have hp : (0 : ℤ) < 2 ^ n := by positivity
  have h1 : 0 ≤ ((bitsVal rbits : ℤ) - bitsVal bbits) % 2 ^ n :=
    Int.emod_nonneg _ (by positivity)
  have h2 : ((bitsVal rbits : ℤ) - bitsVal bbits) % 2 ^ n < 2 ^ n :=
    Int.emod_lt_of_pos _ hp
  have hcast : (((2 : ℕ) ^ n : ℕ) : ℤ) = 2 ^ n := by push_cast; rfl
  have hres := run_qft_block st r rbits _
    ((((bitsVal rbits : ℤ) - bitsVal bbits) % 2 ^ n).toNat) hr
    (by
      rw [hnr]
      intro g hg
      have := sub_deltas_some st r b n bbits hb hnb hbr g hg
      rwa [← phaseDelta_set st r n
        (RegSt.fourier rbits (fun _ => 0)) g] at this)
    (by omega)
    (by rw [hnr]; omega)
    (by
      rw [hnr]
      intro i hi
      rw [sumDelta_set, sub_sumDelta st r b n bbits hb hnb hbr i hi]
      rw [Int.toNat_of_nonneg h1]
      have hdvd : ((2 : ℤ) ^ (i + 1)) ∣ 2 ^ n := pow_dvd_pow 2 (by omega)
      rw [Int.emod_emod_of_dvd _ hdvd]
      push_cast
      rw [← sub_eq_add_neg, Int.sub_emod ((bitsVal rbits : ℤ))
        ((bitsVal bbits : ℤ) % 2 ^ (i + 1)),
        Int.emod_emod_of_dvd ((bitsVal bbits : ℤ))
          (dvd_refl ((2 : ℤ) ^ (i + 1))),
        ← Int.sub_emod])
  rwa [hnr] at hres


lemma natToBits_bitsVal (bs : List Bool) :
    natToBits bs.length (bitsVal bs) = bs := by
  apply list_eq_of_getD
  · rw [length_natToBits]
  · intro j hj
    rw [length_natToBits] at hj
    rw [getD_natToBits _ _ j hj, testBit_bitsVal]


lemma ccp_delta_bit (st : QState) (s : ℕ) (cq : Qubit) (cbit : Bool)
    (c2 n t i2 e : ℕ) (b2s : List Bool) (num : ℤ)
    (hc : st.getBit cq = some cbit)
    (hc2 : st.get? c2 = some (RegSt.basis b2s))
    (h1s : cq.reg ≠ s) (h2s : c2 ≠ s) (ht : t < n)
    (hi2 : i2 < b2s.length) (he : e ≤ t + 1) :
    phaseDelta st s n (Gate.ccp ⟨num, e⟩ cq ⟨c2, i2⟩ ⟨s, t⟩)
      = some (fun m => if m = t then
          (if cbit && b2s.getD i2 false then num * 2 ^ (t + 1 - e) else 0)
          else 0) := by
  simp only [phaseDelta]
  rw [if_pos (⟨by trivial, ht, h1s, h2s⟩ : _ ∧ _)]
  rw [hc, Option.some_bind, QState.getBit_eq st c2 i2 b2s hc2 hi2,
    Option.some_bind]
  have hpc : phaseContrib ⟨num, e⟩ t = some (num * 2 ^ (t + 1 - e)) := by
    unfold phaseContrib
    simp only []
    rw [if_pos he]
  cases hb : cbit && b2s.getD i2 false
  · rw [if_neg (by simp)]
    exact congrArg some (funext fun m => by
      by_cases hmt : m = t <;> simp [hmt])
  · rw [if_pos rfl, hpc, Option.map_some']
    exact congrArg some (funext fun m => by
      by_cases hmt : m = t <;> simp [hmt])

lemma ctrl_add_deltas_some (st : QState) (s b n : ℕ) (cq : Qubit)
    (cbit : Bool) (bbits : List Bool)
    (hb : st.get? b = some (RegSt.basis bbits)) (hnb : bbits.length = n)
    (hbs : b ≠ s) (hc : st.getBit cq = some cbit) (hcs : cq.reg ≠ s) :
    ∀ g ∈ (List.range n).flatMap (fun i => (List.range n).flatMap (fun j =>
      if j ≤ i then [Gate.ccp ⟨1, i - j + 1⟩ cq ⟨b, j⟩ ⟨s, i⟩] else [])),
      (phaseDelta st s n g).isSome := by
  intro g hg
  rw [List.mem_flatMap] at hg
  obtain ⟨i, hi, hg⟩ := hg
  rw [List.mem_flatMap] at hg
  obtain ⟨j, hj, hg⟩ := hg
  rw [List.mem_range] at hi
  rw [List.mem_range] at hj
  by_cases hji : j ≤ i
  · rw [if_pos hji] at hg
    simp only [List.mem_cons, List.not_mem_nil, or_false] at hg
    subst hg
    rw [ccp_delta_bit st s cq cbit b n i j (i - j + 1) bbits 1 hc hb hcs
      hbs hi (by omega) (by omega)]
    rfl
  · rw [if_neg hji] at hg
    exact absurd hg (List.not_mem_nil g)

lemma ctrl_add_sumDelta (st : QState) (s b n : ℕ) (cq : Qubit)
    (cbit : Bool) (bbits : List Bool)
    (hb : st.get? b = some (RegSt.basis bbits)) (hnb : bbits.length = n)
    (hbs : b ≠ s) (hc : st.getBit cq = some cbit) (hcs : cq.reg ≠ s)
    (m : ℕ) (hm : m < n) :
    sumDelta st s n ((List.range n).flatMap (fun i =>
      (List.range n).flatMap (fun j =>
        if j ≤ i then [Gate.ccp ⟨1, i - j + 1⟩ cq ⟨b, j⟩ ⟨s, i⟩] else []))) m
    = if cbit then ((bitsVal bbits % 2 ^ (m + 1) : ℕ) : ℤ) else 0 := by
  rw [sumDelta_flatMap, sum_map_range_eq]
  have hrow : ∀ i ∈ Finset.range n,
      sumDelta st s n ((List.range n).flatMap (fun j => if j ≤ i then
        [Gate.ccp ⟨1, i - j + 1⟩ cq ⟨b, j⟩ ⟨s, i⟩] else [])) m
      = if m = i then
          (if cbit then ((bitsVal bbits % 2 ^ (i + 1) : ℕ) : ℤ) else 0)
        else 0 := by
    intro i hi
    rw [Finset.mem_range] at hi
    rw [sumDelta_flatMap, sum_map_range_eq]
    have hcell : ∀ j ∈ Finset.range n,
        sumDelta st s n (if j ≤ i then
          [Gate.ccp ⟨1, i - j + 1⟩ cq ⟨b, j⟩ ⟨s, i⟩] else []) m
        = if j ≤ i then
            (if m = i then
              (if cbit && bbits.getD j false then (2 : ℤ) ^ j else 0)
            else 0)
          else 0 := by
      intro j hj
      rw [Finset.mem_range] at hj
      by_cases hji : j ≤ i
      · rw [if_pos hji, if_pos hji]
        rw [sumDelta_singleton, ccp_delta_bit st s cq cbit b n i j
          (i - j + 1) bbits 1 hc hb hcs hbs hi (by omega) (by omega),
          Option.getD_some]
        have hexp : i + 1 - (i - j + 1) = j := by omega
        rw [hexp]
        by_cases hmi : m = i
        · subst hmi
          cases hcb : cbit && bbits.getD j false <;> simp [hcb]
        · simp [hmi]
      · rw [if_neg hji, if_neg hji]
        rfl
    rw [Finset.sum_congr rfl hcell]
    by_cases hmi : m = i
    · subst hmi
      have hsimp : ∀ j ∈ Finset.range n, (if j ≤ m then
          (if m = m then
            (if cbit && bbits.getD j false then (2 : ℤ) ^ j else 0)
          else 0) else 0)
          = (if j ≤ m then
            (if cbit && bbits.getD j false then (2 : ℤ) ^ j else 0)
            else 0) := by
        intro j _
        by_cases hji : j ≤ m <;> simp [hji]
      rw [Finset.sum_congr rfl hsimp, sum_range_ite_le _ n m hi,
        if_pos rfl]
      cases hcbit : cbit
      · simp
      · simp only [Bool.true_and]
        rw [getD_sum_int]
        simp
    · simp only [if_neg hmi]
      exact Finset.sum_eq_zero (fun j _ => by
        by_cases hji : j ≤ i <;> simp [hji, hmi])
  rw [Finset.sum_congr rfl hrow, Finset.sum_ite_eq,
    if_pos (Finset.mem_range.mpr hm)]

/-- Running the QFT block of `_controlled_add_in_place` adds the operand
register's value when the control bit is set, and only canonicalizes the
target otherwise. -/
lemma run_ctrl_add_block (st : QState) (r b n : ℕ) (cq : Qubit)
    (cbit : Bool) (rbits bbits : List Bool)
    (hr : st.get? r = some (RegSt.basis rbits))
    (hb : st.get? b = some (RegSt.basis bbits))
    (hc : st.getBit cq = some cbit)
    (hnr : rbits.length = n) (hnb : bbits.length = n)
    (hbr : b ≠ r) (hcr : cq.reg ≠ r) (hn : 0 < n) :
    run (Gate.qft r :: (((List.range n).flatMap (fun i =>
      (List.range n).flatMap (fun j =>
        if j ≤ i then [Gate.ccp ⟨1, i - j + 1⟩ cq ⟨b, j⟩ ⟨r, i⟩] else [])))
      ++ [Gate.iqft r])) st
      = some (st.set r (RegSt.basis (natToBits n
          ((bitsVal rbits
            + (if cbit then bitsVal bbits else 0)) % 2 ^ n)))) := by
  have hp : 0 < 2 ^ n := Nat.pos_pow_of_pos n (by omega)
  have hres := run_qft_block st r rbits _
    ((bitsVal rbits + (if cbit then bitsVal bbits else 0)) % 2 ^ n) hr
    (by
      rw [hnr]
      intro g hg
      have hc' : QState.getBit (st.set r
          (RegSt.fourier rbits (fun _ => 0))) cq = some cbit := by
        rw [QState.getBit_set_ne st r _ cq hcr]
        exact hc
      have hb' : (st.set r (RegSt.fourier rbits (fun _ => 0))).get? b
          = some (RegSt.basis bbits) := by
        rw [QState.get?_set_ne st r _ b hbr]
        exact hb
      exact ctrl_add_deltas_some _ r b n cq cbit bbits hb' hnb hbr hc'
        hcr g hg)
    (by rw [hnr]; omega)
    (by rw [hnr]; exact Nat.mod_lt _ hp)
    (by
      rw [hnr]
      intro i hi
      have hc' : QState.getBit (st.set r
          (RegSt.fourier rbits (fun _ => 0))) cq = some cbit := by
        rw [QState.getBit_set_ne st r _ cq hcr]
        exact hc
      have hb' : (st.set r (RegSt.fourier rbits (fun _ => 0))).get? b
          = some (RegSt.basis bbits) := by
        rw [QState.get?_set_ne st r _ b hbr]
        exact hb
      rw [ctrl_add_sumDelta _ r b n cq cbit bbits hb' hnb hbr hc' hcr i hi]
      have hdvd : ((2 : ℤ) ^ (i + 1)) ∣ 2 ^ n := pow_dvd_pow 2 (by omega)
      have hite : (if cbit then ((bitsVal bbits : ℤ)) % 2 ^ (i + 1) else 0)
          = (if cbit then ((bitsVal bbits : ℤ)) else 0) % 2 ^ (i + 1) := by
        cases cbit <;> simp
      push_cast
      rw [Int.emod_emod_of_dvd _ hdvd, hite,
        Int.add_emod ((bitsVal rbits : ℕ) : ℤ)
          ((if cbit then ((bitsVal bbits : ℕ) : ℤ) else 0) % 2 ^ (i + 1)),
        Int.emod_emod_of_dvd (if cbit then ((bitsVal bbits : ℕ) : ℤ) else 0)
          (dvd_refl ((2 : ℤ) ^ (i + 1))),
        ← Int.add_emod])
  rwa [hnr] at hres


lemma cp_delta_bit (st : QState) (s : ℕ) (cq : Qubit) (cbit : Bool)
    (n t e : ℕ) (num : ℤ)
    (hc : st.getBit cq = some cbit) (hcs : cq.reg ≠ s)
    (ht : t < n) (he : e ≤ t + 1) :
    phaseDelta st s n (Gate.cp ⟨num, e⟩ cq ⟨s, t⟩)
      = some (fun m => if m = t then
          (if cbit then num * 2 ^ (t + 1 - e) else 0) else 0) := by
  simp only [phaseDelta]
  rw [if_pos (⟨by trivial, ht, hcs⟩ : _ ∧ _)]
  rw [hc, Option.some_bind]
  have hpc : phaseContrib ⟨num, e⟩ t = some (num * 2 ^ (t + 1 - e)) := by
    unfold phaseContrib
    simp only []
    rw [if_pos he]
  cases hb : cbit
  · rw [if_neg (by simp)]
    exact congrArg some (funext fun m => by
      by_cases hmt : m = t <;> simp [hmt])
  · rw [if_pos rfl, hpc, Option.map_some']
    exact congrArg some (funext fun m => by
      by_cases hmt : m = t <;> simp [hmt])

lemma ctrl_addi_deltas_some (st : QState) (r n : ℕ) (cq : Qubit)
    (cbit : Bool) (bval : ℤ)
    (hc : st.getBit cq = some cbit) (hcr : cq.reg ≠ r) :
    ∀ g ∈ (List.range n).flatMap (fun j =>
      if bval ≠ 0 then [Gate.cp ⟨bval, j + 1⟩ cq ⟨r, j⟩] else []),
      (phaseDelta st r n g).isSome := by
  intro g hg
  rw [List.mem_flatMap] at hg
  obtain ⟨j, hj, hg⟩ := hg
  rw [List.mem_range] at hj
  by_cases hbv : bval ≠ 0
  · rw [if_pos hbv] at hg
    simp only [List.mem_cons, List.not_mem_nil, or_false] at hg
    subst hg
    rw [cp_delta_bit st r cq cbit n j (j + 1) bval hc hcr hj (le_refl _)]
    rfl
  · rw [if_neg hbv] at hg
    exact absurd hg (List.not_mem_nil g)

lemma ctrl_addi_sumDelta (st : QState) (r n : ℕ) (cq : Qubit)
    (cbit : Bool) (bval : ℤ)
    (hc : st.getBit cq = some cbit) (hcr : cq.reg ≠ r) (m : ℕ) (hm : m < n) :
    sumDelta st r n ((List.range n).flatMap (fun j =>
      if bval ≠ 0 then [Gate.cp ⟨bval, j + 1⟩ cq ⟨r, j⟩] else [])) m
    = if cbit then bval else 0 := by
  by_cases hbv : bval = 0
  · subst hbv
    have hempty : (List.range n).flatMap (fun j =>
        if (0 : ℤ) ≠ 0 then [Gate.cp ⟨0, j + 1⟩ cq ⟨r, j⟩] else [])
        = ([] : List Gate) := by
      simp
    rw [hempty]
    cases cbit <;> simp [sumDelta]
  · have hbv' : bval ≠ 0 := hbv
    rw [sumDelta_flatMap, sum_map_range_eq]
    have hcell : ∀ j ∈ Finset.range n,
        sumDelta st r n (if bval ≠ 0 then
          [Gate.cp ⟨bval, j + 1⟩ cq ⟨r, j⟩] else []) m
        = if m = j then (if cbit then bval else 0) else 0 := by
      intro j hj
      rw [Finset.mem_range] at hj
      rw [if_pos hbv', sumDelta_singleton,
        cp_delta_bit st r cq cbit n j (j + 1) bval hc hcr hj (le_refl _),
        Option.getD_some]
      rw [Nat.sub_self, pow_zero, mul_one]
  -- hmm: j + 1 - (j + 1) inside t+1-e form
    rw [Finset.sum_congr rfl hcell, Finset.sum_ite_eq,
      if_pos (Finset.mem_range.mpr hm)]

/-- Running the QFT block of `_controlled_addi_in_place` adds the
classical value when the control bit is set. -/
lemma run_ctrl_addi_block (st : QState) (r n : ℕ) (rbits : List Bool)
    (cq : Qubit) (cbit : Bool) (bval : ℤ)
    (hr : st.get? r = some (RegSt.basis rbits))
    (hc : st.getBit cq = some cbit) (hcr : cq.reg ≠ r)
    (hnr : rbits.length = n) (hn : 0 < n) :
    run (Gate.qft r :: (((List.range n).flatMap (fun j =>
      if bval ≠ 0 then [Gate.cp ⟨bval, j + 1⟩ cq ⟨r, j⟩] else []))
      ++ [Gate.iqft r])) st
      = some (st.set r (RegSt.basis (natToBits n
          (((bitsVal rbits : ℤ)
            + (if cbit then bval else 0)) % 2 ^ n).toNat))) := by
  have hp : (0 : ℤ) < 2 ^ n := by positivity
  have h1 : 0 ≤ ((bitsVal rbits : ℤ) + (if cbit then bval else 0)) % 2 ^ n :=
    Int.emod_nonneg _ (by positivity)
  have h2 : ((bitsVal rbits : ℤ) + (if cbit then bval else 0)) % 2 ^ n
      < 2 ^ n := Int.emod_lt_of_pos _ hp
  have hcast : (((2 : ℕ) ^ n : ℕ) : ℤ) = 2 ^ n := by push_cast; rfl
  have hres := run_qft_block st r rbits _
    ((((bitsVal rbits : ℤ) + (if cbit then bval else 0)) % 2 ^ n).toNat) hr
    (by
      rw [hnr]
      intro g hg
      have hc' : QState.getBit (st.set r
          (RegSt.fourier rbits (fun _ => 0))) cq = some cbit := by
        rw [QState.getBit_set_ne st r _ cq hcr]
        exact hc
      exact ctrl_addi_deltas_some _ r n cq cbit bval hc' hcr g hg)
    (by omega)
    (by rw [hnr]; omega)
    (by
      rw [hnr]
      intro i hi
      have hc' : QState.getBit (st.set r
          (RegSt.fourier rbits (fun _ => 0))) cq = some cbit := by
        rw [QState.getBit_set_ne st r _ cq hcr]
        exact hc
      rw [ctrl_addi_sumDelta _ r n cq cbit bval hc' hcr i hi]
      rw [Int.toNat_of_nonneg h1]
      have hdvd : ((2 : ℤ) ^ (i + 1)) ∣ 2 ^ n := pow_dvd_pow 2 (by omega)
      rw [Int.emod_emod_of_dvd _ hdvd])
  rwa [hnr] at hres

lemma flipFold_const_false (bits : List Bool) (il : List ℕ) :
    flipFold (fun _ => false) bits il = bits := by
  induction il generalizing bits with
  | nil => rfl
  | cons i il ih =>
      unfold flipFold
      rw [List.foldl_cons, if_neg (by simp)]
      exact ih bits

/-- A CX wave from one fixed control qubit onto a whole register
complements the register's bits exactly when the control bit is set. -/
lemma run_cnotwave (r : ℕ) (cq : Qubit) (cbit : Bool) (il : List ℕ) :
    ∀ (st : QState) (bits : List Bool),
    st.get? r = some (RegSt.basis bits) → st.getBit cq = some cbit →
    cq.reg ≠ r → (∀ i ∈ il, i < bits.length) →
    run (il.map (fun i => Gate.cx cq ⟨r, i⟩)) st
      = some (st.set r (RegSt.basis (flipFold (fun _ => cbit) bits il))) := by
  induction il with
  | nil =>
      intro st bits hst _ _ _
      rw [List.map_nil, run_nil,
        show flipFold (fun _ => cbit) bits [] = bits from rfl,
        QState.set_self st r _ hst]
  | cons i il ih =>
      intro st bits hst hc hcr hrange
      have hi : i < bits.length := hrange i (List.mem_cons_self i il)
      rw [List.map_cons, run_cons]
      have hlen : r < st.length := QState.lt_length_of_get? st r _ hst
      have hgate : applyGate st (Gate.cx cq ⟨r, i⟩)
          = some (if cbit then
              st.set r (RegSt.basis (bits.set i (!(bits.getD i false))))
            else st) := by
        show (do
          let b ← st.getBit cq
          if b then st.flipBit ⟨r, i⟩ else some st) = _
        rw [hc, Option.bind_eq_bind, Option.some_bind]
        cases hb : cbit
        · simp only [Bool.false_eq_true, if_false]
        · simp only [if_true]
          unfold QState.flipBit
          rw [QState.getBit_eq st r i bits hst hi, Option.bind_eq_bind,
            Option.some_bind]
          unfold QState.setBit
          simp only []
          rw [hst]
          simp only []
          rw [if_pos hi]
      have hstep : flipFold (fun _ => cbit) bits (i :: il)
          = flipFold (fun _ => cbit)
              (if cbit then bits.set i (!(bits.getD i false)) else bits)
              il := by
        unfold flipFold
        rw [List.foldl_cons]
      rw [hgate, Option.some_bind, hstep]
      cases hb : cbit
      · subst hb
        rw [if_neg (by simp), if_neg (by simp)]
        exact ih st bits hst hc hcr
          (fun k hk => hrange k (List.mem_cons_of_mem i hk))
      · subst hb
        rw [if_pos rfl, if_pos rfl]
        have hst' : (st.set r (RegSt.basis
            (bits.set i (!(bits.getD i false))))).get? r
            = some (RegSt.basis (bits.set i (!(bits.getD i false)))) :=
          QState.get?_set_self st r _ hlen
        have hc' : QState.getBit (st.set r (RegSt.basis
            (bits.set i (!(bits.getD i false))))) cq = some true := by
          rw [QState.getBit_set_ne st r _ cq hcr]
          exact hc
        rw [ih _ _ hst' hc' hcr (by
          intro k hk
          rw [List.length_set]
          exact hrange k (List.mem_cons_of_mem i hk))]
        rw [List.set_set]


/-- The two gate chunks of `_controlled_invert_in_place` evaluated in
sequence: when the control bit is set the register is negated modulo
`2^n` (bitwise NOT then add 1), otherwise it is left unchanged. -/
lemma run_ctrl_invert_chunks (st : QState) (r n : ℕ) (bits : List Bool)
    (cq : Qubit) (cbit : Bool)
    (hr : st.get? r = some (RegSt.basis bits))
    (hc : st.getBit cq = some cbit) (hcr : cq.reg ≠ r)
    (hlen : bits.length = n) (hn : 0 < n) :
    (run ((List.range n).map (fun i => Gate.cx cq ⟨r, i⟩)) st).bind
      (run (Gate.qft r :: (((List.range n).flatMap (fun j =>
        if (if (0 : ℤ) ≤ 1 then
            ((bitsVal (int_to_twos_complement n 1) : ℕ) : ℤ)
          else ((bitsVal (int_to_twos_complement n 1) : ℕ) : ℤ) - 2 ^ n) ≠ 0
        then [Gate.cp ⟨(if (0 : ℤ) ≤ 1 then
            ((bitsVal (int_to_twos_complement n 1) : ℕ) : ℤ)
          else ((bitsVal (int_to_twos_complement n 1) : ℕ) : ℤ) - 2 ^ n),
            j + 1⟩ cq ⟨r, j⟩]
        else [])) ++ [Gate.iqft r])))
      = some (st.set r (RegSt.basis (if cbit then
          natToBits n ((2 ^ n - bitsVal bits) % 2 ^ n) else bits))) := by
  rw [run_cnotwave r cq cbit (List.range n) st bits hr hc hcr (by
    intro i hi
    rw [hlen]
    exact List.mem_range.mp hi)]
  rw [Option.some_bind]
  have hlenst : r < st.length := QState.lt_length_of_get? st r _ hr
  have hr1 : (st.set r (RegSt.basis
      (flipFold (fun _ => cbit) bits (List.range n)))).get? r
      = some (RegSt.basis (flipFold (fun _ => cbit) bits (List.range n))) :=
    QState.get?_set_self st r _ hlenst
  have hc1 : QState.getBit (st.set r (RegSt.basis
      (flipFold (fun _ => cbit) bits (List.range n)))) cq = some cbit := by
    rw [QState.getBit_set_ne st r _ cq hcr]
    exact hc
  rw [run_ctrl_addi_block _ r n _ cq cbit _ hr1 hc1 hcr
    (by rw [flipFold_length, hlen]) hn]
  rw [List.set_set, invert_bval_eq n hn]
  have hlt := bitsVal_lt bits
  rw [hlen] at hlt
  have hc2 : (((2 : ℕ) ^ n : ℕ) : ℤ) = (2 : ℤ) ^ n := by push_cast; rfl
  cases hcbit : cbit
  · subst hcbit
    rw [flipFold_const_false]
    have hval : (((bitsVal bits : ℕ) : ℤ)
        + (if false = true then (1 : ℤ) else 0)) % 2 ^ n
        = ((bitsVal bits : ℕ) : ℤ) := by
      rw [if_neg (by simp), add_zero]
      exact Int.emod_eq_of_lt (by omega) (by omega)
    rw [hval, Int.toNat_natCast, if_neg (by simp), ← hlen,
      natToBits_bitsVal]
  · subst hcbit
    rw [flipFold_not bits n hlen]
    simp only [eq_self_iff_true, if_true]
    have hbv : bitsVal (bits.map (fun b => !b))
        = 2 ^ n - 1 - bitsVal bits := by
      rw [bitsVal_map_not, hlen]
    rw [hbv]
    have hval : (((2 ^ n - 1 - bitsVal bits : ℕ) : ℤ) + 1) % 2 ^ n
        = ((2 ^ n - bitsVal bits : ℕ) : ℤ) % 2 ^ n := by
      have e1 : ((2 ^ n - 1 - bitsVal bits : ℕ) : ℤ)
          = ((2 : ℕ) ^ n : ℕ) - 1 - (bitsVal bits : ℤ) := by omega
      have e2 : ((2 ^ n - bitsVal bits : ℕ) : ℤ)
          = ((2 : ℕ) ^ n : ℕ) - (bitsVal bits : ℤ) := by omega
      rw [e1, e2]
      congr 1
      ring
    rw [hval]
    have hmod : ((2 ^ n - bitsVal bits : ℕ) : ℤ) % (2 : ℤ) ^ n
        = (((2 ^ n - bitsVal bits) % 2 ^ n : ℕ) : ℤ) := by
      push_cast
      rfl
    rw [hmod, Int.toNat_natCast]


/-! ## The restoring-division loop -/

/-- The gates appended by one `divuIter` call (right-nested form). -/
def divuIterG (n a_reg b_reg qout rem sign : ℕ) (i : ℕ) : List Gate :=
  ((List.range' 1 (n - 1)).reverse.map
    (fun j => Gate.swap ⟨rem, j⟩ ⟨rem, j - 1⟩))
  ++ ((if i < n then [Gate.swap ⟨rem, 0⟩ ⟨a_reg, i⟩] else [])
  ++ ((Gate.qft rem :: (((List.range n).flatMap (fun i2 =>
        (List.range n).flatMap (fun j =>
          if j ≤ i2 then [Gate.cp ⟨-1, i2 - j + 1⟩ ⟨b_reg, j⟩ ⟨rem, i2⟩]
          else [])))
      ++ [Gate.iqft rem]))
  ++ ([Gate.cx ⟨rem, n - 1⟩ ⟨sign, 0⟩]
  ++ ((Gate.qft rem :: (((List.range n).flatMap (fun i2 =>
        (List.range n).flatMap (fun j =>
          if j ≤ i2 then
            [Gate.ccp ⟨1, i2 - j + 1⟩ ⟨sign, 0⟩ ⟨b_reg, j⟩ ⟨rem, i2⟩]
          else [])))
      ++ [Gate.iqft rem]))
  ++ [Gate.x ⟨qout, i⟩, Gate.cx ⟨sign, 0⟩ ⟨qout, i⟩,
      Gate.cx ⟨qout, i⟩ ⟨sign, 0⟩, Gate.x ⟨sign, 0⟩]))))

lemma divuIter_eq (n a b qout rem sign : ℕ) (qcc : Circuit) (i : ℕ)
    (hw : qcc.regs.getD rem 0 = n) :
    divuIter n a b qout rem sign qcc i
      = ⟨qcc.regs, qcc.gates ++ divuIterG n a b qout rem sign i⟩ := by
  unfold divuIter _sub_in_place _controlled_add_in_place divuIterG
    Circuit.width
  simp only []
  rw [hw]
  simp [List.append_assoc]

lemma foldl_divuIter_gates (n a b qout rem sign : ℕ) :
    ∀ (l : List ℕ) (qcc : Circuit), qcc.regs.getD rem 0 = n →
    l.foldl (divuIter n a b qout rem sign) qcc
      = ⟨qcc.regs, qcc.gates
          ++ l.flatMap (divuIterG n a b qout rem sign)⟩ := by
  intro l
  induction l with
  | nil =>
      intro qcc _
      rw [List.foldl_nil, List.flatMap_nil, List.append_nil]
  | cons i l ih =>
      intro qcc hw
      rw [List.foldl_cons, divuIter_eq n a b qout rem sign qcc i hw]
      rw [ih ⟨qcc.regs, qcc.gates ++ divuIterG n a b qout rem sign i⟩ hw]
      rw [List.flatMap_cons, List.append_assoc]

/-- A single CX onto a one-qubit register holding an arbitrary bit. -/
lemma run_single_cx' (st : QState) (c t ci : ℕ) (cbits : List Bool)
    (tb : Bool)
    (hc : st.get? c = some (RegSt.basis cbits))
    (ht : st.get? t = some (RegSt.basis [tb]))
    (hci : ci < cbits.length) (hct : c ≠ t) :
    run [Gate.cx ⟨c, ci⟩ ⟨t, 0⟩] st
      = some (st.set t (RegSt.basis [xor (cbits.getD ci false) tb])) := by
  rw [run_singleton]
  show (do
    let b ← st.getBit ⟨c, ci⟩
    if b then st.flipBit ⟨t, 0⟩ else some st) = _
  rw [QState.getBit_eq st c ci cbits hc hci, Option.bind_eq_bind,
    Option.some_bind]
  cases hb : cbits.getD ci false
  · simp only [Bool.false_eq_true, if_false, Bool.false_xor]
    rw [QState.set_self st t _ ht]
  · simp only [if_true, Bool.true_xor]
    unfold QState.flipBit
    rw [QState.getBit_eq st t 0 [tb] ht (by norm_num),
      Option.bind_eq_bind, Option.some_bind]
    unfold QState.setBit
    simp only []
    rw [ht]
    simp only []
    rw [if_pos (by norm_num)]
    rfl


/-- The four-gate quotient-bit gadget: record the negation of the sign
flag into quotient bit `i` and reset the flag to zero. -/
lemma run_quotient_gadget (st : QState) (qout sign i : ℕ)
    (qbits : List Bool) (qb : Bool)
    (hq : st.get? qout = some (RegSt.basis qbits))
    (hs : st.get? sign = some (RegSt.basis [!qb]))
    (hqi : qbits.getD i false = false) (hi : i < qbits.length)
    (hqs : qout ≠ sign) :
    run [Gate.x ⟨qout, i⟩, Gate.cx ⟨sign, 0⟩ ⟨qout, i⟩,
         Gate.cx ⟨qout, i⟩ ⟨sign, 0⟩, Gate.x ⟨sign, 0⟩] st
      = some ((st.set qout (RegSt.basis (qbits.set i qb))).set sign
          (RegSt.basis [false])) := by
  have hlq : qout < st.length := QState.lt_length_of_get? st qout _ hq
  have hx1 : applyGate st (Gate.x ⟨qout, i⟩)
      = some (st.set qout (RegSt.basis (qbits.set i true))) := by
    show st.flipBit ⟨qout, i⟩ = _
    unfold QState.flipBit
    rw [QState.getBit_eq st qout i qbits hq hi, Option.bind_eq_bind,
      Option.some_bind]
    unfold QState.setBit
    simp only []
    rw [hq]
    simp only []
    rw [if_pos hi, hqi]
    rfl
  have hq1 : (st.set qout (RegSt.basis (qbits.set i true))).get? qout
      = some (RegSt.basis (qbits.set i true)) :=
    QState.get?_set_self st qout _ hlq
  have hs1 : (st.set qout (RegSt.basis (qbits.set i true))).get? sign
      = some (RegSt.basis [!qb]) := by
    rw [QState.get?_set_ne st qout _ sign (fun h => hqs h.symm)]
    exact hs
  have h2 : applyGate (st.set qout (RegSt.basis (qbits.set i true)))
      (Gate.cx ⟨sign, 0⟩ ⟨qout, i⟩)
      = some (st.set qout (RegSt.basis (qbits.set i qb))) := by
    show (do
      let b ← QState.getBit (st.set qout (RegSt.basis (qbits.set i true)))
        ⟨sign, 0⟩
      if b then QState.flipBit (st.set qout
        (RegSt.basis (qbits.set i true))) ⟨qout, i⟩
      else some (st.set qout (RegSt.basis (qbits.set i true)))) = _
    rw [QState.getBit_eq _ sign 0 [!qb] hs1 (by norm_num),
      Option.bind_eq_bind, Option.some_bind]
    cases hqb : qb
    · simp only [Bool.not_false, List.getD_cons_zero, if_true]
      unfold QState.flipBit
      rw [QState.getBit_eq _ qout i (qbits.set i true) hq1
        (by rw [List.length_set]; exact hi), Option.bind_eq_bind,
        Option.some_bind]
      unfold QState.setBit
      simp only []
      rw [hq1]
      simp only []
      rw [if_pos (by rw [List.length_set]; exact hi)]
      have hgd : (qbits.set i true).getD i false = true := by
        rw [List.getD_eq_getElem?_getD, List.getElem?_set_self hi,
          Option.getD_some]
      rw [hgd, List.set_set, List.set_set]
      rfl
    · simp only [Bool.not_true, List.getD_cons_zero, Bool.false_eq_true,
        if_false]
  rw [run_cons, hx1, Option.some_bind, run_cons, h2, Option.some_bind]
  have hq2 : (st.set qout (RegSt.basis (qbits.set i qb))).get? qout
      = some (RegSt.basis (qbits.set i qb)) :=
    QState.get?_set_self st qout _ hlq
  have hs2 : (st.set qout (RegSt.basis (qbits.set i qb))).get? sign
      = some (RegSt.basis [!qb]) := by
    rw [QState.get?_set_ne st qout _ sign (fun h => hqs h.symm)]
    exact hs
  have h3 : applyGate (st.set qout (RegSt.basis (qbits.set i qb)))
      (Gate.cx ⟨qout, i⟩ ⟨sign, 0⟩)
      = some ((st.set qout (RegSt.basis (qbits.set i qb))).set sign
          (RegSt.basis [true])) := by
    show (do
      let b ← QState.getBit (st.set qout (RegSt.basis (qbits.set i qb)))
        ⟨qout, i⟩
      if b then QState.flipBit (st.set qout
        (RegSt.basis (qbits.set i qb))) ⟨sign, 0⟩
      else some (st.set qout (RegSt.basis (qbits.set i qb)))) = _
    have hgd : (qbits.set i qb).getD i false = qb := by
      rw [List.getD_eq_getElem?_getD, List.getElem?_set_self hi,
        Option.getD_some]
    rw [QState.getBit_eq _ qout i (qbits.set i qb) hq2
      (by rw [List.length_set]; exact hi), Option.bind_eq_bind,
      Option.some_bind, hgd]
    cases hqb : qb
    · subst hqb
      simp only [Bool.false_eq_true, if_false]
      have hs2' : (st.set qout (RegSt.basis (qbits.set i false))).get? sign
          = some (RegSt.basis [true]) := by
        rw [hs2]
        rfl
      rw [QState.set_self _ sign _ hs2']
    · subst hqb
      simp only [if_true]
      unfold QState.flipBit
      rw [QState.getBit_eq _ sign 0 [!true] hs2 (by norm_num),
        Option.bind_eq_bind, Option.some_bind]
      unfold QState.setBit
      simp only []
      rw [hs2]
      simp only []
      rw [if_pos (by norm_num)]
      rfl
  rw [run_cons, h3, Option.some_bind, run_singleton]
  have hls2 : sign < (st.set qout (RegSt.basis (qbits.set i qb))).length := by
    rw [List.length_set]
    exact QState.lt_length_of_get? st sign _ hs
  have hs3 : ((st.set qout (RegSt.basis (qbits.set i qb))).set sign
      (RegSt.basis [true])).get? sign = some (RegSt.basis [true]) :=
    QState.get?_set_self _ sign _ hls2
  have h4 : applyGate ((st.set qout (RegSt.basis (qbits.set i qb))).set sign
      (RegSt.basis [true])) (Gate.x ⟨sign, 0⟩)
      = some ((st.set qout (RegSt.basis (qbits.set i qb))).set sign
          (RegSt.basis [false])) := by
    show QState.flipBit _ ⟨sign, 0⟩ = _
    unfold QState.flipBit
    rw [QState.getBit_eq _ sign 0 [true] hs3 (by norm_num),
      Option.bind_eq_bind, Option.some_bind]
    unfold QState.setBit
    simp only []
    rw [hs3]
    simp only []
    rw [if_pos (by norm_num), List.set_set]
    rfl
  exact h4


/-- Dividend bits still unconsumed before loop index `i`. -/
def aBitsAt (n i va : ℕ) : List Bool :=
  (List.range n).map (fun j => decide (j < i) && va.testBit j)

/-- Quotient bits produced by the loop iterations down to index `i`. -/
def qBitsAt (n i q : ℕ) : List Bool :=
  (List.range n).map (fun j => decide (i ≤ j) && q.testBit j)

lemma aBitsAt_length (n i va : ℕ) : (aBitsAt n i va).length = n := by
  unfold aBitsAt
  rw [List.length_map, List.length_range]

lemma qBitsAt_length (n i q : ℕ) : (qBitsAt n i q).length = n := by
  unfold qBitsAt
  rw [List.length_map, List.length_range]

lemma aBitsAt_getD (n i va j : ℕ) (hj : j < n) :
    (aBitsAt n i va).getD j false = (decide (j < i) && va.testBit j) := by
  unfold aBitsAt
  rw [List.getD_eq_getElem?_getD, List.getElem?_map,
    List.getElem?_range hj]
  rfl

lemma qBitsAt_getD (n i q j : ℕ) (hj : j < n) :
    (qBitsAt n i q).getD j false = (decide (i ≤ j) && q.testBit j) := by
  unfold qBitsAt
  rw [List.getD_eq_getElem?_getD, List.getElem?_map,
    List.getElem?_range hj]
  rfl

lemma aBitsAt_full (n va : ℕ) : aBitsAt n n va = natToBits n va := by
  apply list_eq_of_getD
  · rw [aBitsAt_length, length_natToBits]
  · intro j hj
    rw [aBitsAt_length] at hj
    rw [aBitsAt_getD n n va j hj, getD_natToBits n va j hj,
      decide_eq_true (by omega : j < n), Bool.true_and]

lemma aBitsAt_zero (n va : ℕ) : aBitsAt n 0 va = List.replicate n false := by
  apply list_eq_of_getD
  · rw [aBitsAt_length, List.length_replicate]
  · intro j hj
    rw [aBitsAt_length] at hj
    rw [aBitsAt_getD n 0 va j hj]
    have : (List.replicate n false).getD j false = false := by
      rw [List.getD_eq_getElem?_getD, List.getElem?_replicate, if_pos hj]
      rfl
    rw [this]
    simp

lemma qBitsAt_start (n q : ℕ) : qBitsAt n n q = List.replicate n false := by
  apply list_eq_of_getD
  · rw [qBitsAt_length, List.length_replicate]
  · intro j hj
    rw [qBitsAt_length] at hj
    rw [qBitsAt_getD n n q j hj]
    have : (List.replicate n false).getD j false = false := by
      rw [List.getD_eq_getElem?_getD, List.getElem?_replicate, if_pos hj]
      rfl
    rw [this]
    have : ¬ (n ≤ j) := by omega
    simp [this]

lemma qBitsAt_zero (n q : ℕ) : qBitsAt n 0 q = natToBits n q := by
  apply list_eq_of_getD
  · rw [qBitsAt_length, length_natToBits]
  · intro j hj
    rw [qBitsAt_length] at hj
    rw [qBitsAt_getD n 0 q j hj, getD_natToBits n q j hj,
      decide_eq_true (by omega : 0 ≤ j), Bool.true_and]

lemma aBitsAt_set (n i va : ℕ) (hi : i < n) :
    (aBitsAt n (i + 1) va).set i false = aBitsAt n i va := by
  apply list_eq_of_getD
  · rw [List.length_set, aBitsAt_length, aBitsAt_length]
  · intro j hj
    rw [List.length_set, aBitsAt_length] at hj
    by_cases hji : j = i
    · rw [hji]
      rw [List.getD_eq_getElem?_getD,
        List.getElem?_set_self (by rw [aBitsAt_length]; exact hi),
        Option.getD_some, aBitsAt_getD n i va i hi]
      have : ¬ (i < i) := by omega
      simp [this]
    · rw [List.getD_eq_getElem?_getD, List.getElem?_set_ne (by omega),
        ← List.getD_eq_getElem?_getD, aBitsAt_getD n (i + 1) va j hj,
        aBitsAt_getD n i va j hj]
      have heq : (j < i + 1) ↔ (j < i) := by omega
      rw [decide_eq_decide.mpr heq]

lemma qBitsAt_set (n i q : ℕ) (hi : i < n) :
    (qBitsAt n (i + 1) q).set i (q.testBit i) = qBitsAt n i q := by
  apply list_eq_of_getD
  · rw [List.length_set, qBitsAt_length, qBitsAt_length]
  · intro j hj
    rw [List.length_set, qBitsAt_length] at hj
    by_cases hji : j = i
    · rw [hji]
      rw [List.getD_eq_getElem?_getD,
        List.getElem?_set_self (by rw [qBitsAt_length]; exact hi),
        Option.getD_some, qBitsAt_getD n i q i hi,
        decide_eq_true (le_refl i), Bool.true_and]
    · rw [List.getD_eq_getElem?_getD, List.getElem?_set_ne (by omega),
        ← List.getD_eq_getElem?_getD, qBitsAt_getD n (i + 1) q j hj,
        qBitsAt_getD n i q j hj]
      have heq : (i + 1 ≤ j) ↔ (i ≤ j) := by omega
      rw [decide_eq_decide.mpr heq]

lemma qBitsAt_getD_self (n i q : ℕ) (hi : i < n) :
    (qBitsAt n (i + 1) q).getD i false = false := by
  rw [qBitsAt_getD n (i + 1) q i hi]
  have : ¬ (i + 1 ≤ i) := by omega
  simp [this]

lemma testBit_double (v j : ℕ) (hj : 1 ≤ j) :
    (2 * v).testBit j = v.testBit (j - 1) := by
  obtain ⟨k, rfl⟩ : ∃ k, j = k + 1 := ⟨j - 1, by omega⟩
  rw [Nat.testBit_succ]
  have : 2 * v / 2 = v := by omega
  rw [this]
  rfl

lemma rotSeg_natToBits (n rv : ℕ) (hn : 0 < n) (hrv : rv < 2 ^ (n - 1)) :
    rotSeg (n - 1) (natToBits n rv) = natToBits n (2 * rv) := by
  have h2 : (2 : ℕ) ^ n = 2 ^ (n - 1) * 2 := by
    rw [← pow_succ]
    congr 1
    omega
  apply list_eq_of_getD
  · rw [rotSeg_length, length_natToBits, length_natToBits]
  · intro j hj
    rw [rotSeg_length, length_natToBits] at hj
    rw [rotSeg_getD _ _ j (by rw [length_natToBits]; exact hj),
      getD_natToBits n (2 * rv) j hj]
    by_cases h0 : j = 0
    · subst h0
      rw [if_pos rfl, getD_natToBits n rv (n - 1) (by omega)]
      have hb1 : rv.testBit (n - 1) = false := by
        rw [Nat.testBit_to_div_mod, Nat.div_eq_of_lt hrv]
        rfl
      have hb2 : (2 * rv).testBit 0 = false := by
        rw [Nat.testBit_to_div_mod]
        simp [Nat.mul_mod_right]
      rw [hb1, hb2]
    · rw [if_neg h0, if_pos (by omega),
        getD_natToBits n rv (j - 1) (by omega),
        testBit_double rv j (by omega)]

lemma natToBits_set_lsb (n v : ℕ) (c : Bool) (hv : v % 2 = 0)
    (hvn : v + 1 < 2 ^ n) :
    (natToBits n v).set 0 c = natToBits n (v + c.toNat) := by
  have hn : 0 < n := by
    rcases Nat.eq_zero_or_pos n with h | h
    · subst h
      rw [pow_zero] at hvn
      omega
    · exact h
  apply list_eq_of_getD
  · rw [List.length_set, length_natToBits, length_natToBits]
  · intro j hj
    rw [List.length_set, length_natToBits] at hj
    by_cases h0 : j = 0
    · subst h0
      rw [List.getD_eq_getElem?_getD,
        List.getElem?_set_self (by rw [length_natToBits]; omega),
        Option.getD_some, getD_natToBits n (v + c.toNat) 0 hn,
        Nat.testBit_to_div_mod]
      simp only [pow_zero, Nat.div_one]
      cases c
      · simp only [Bool.toNat_false, Nat.add_zero]
        exact (decide_eq_false (by omega)).symm
      · simp only [Bool.toNat_true]
        exact (decide_eq_true (by omega)).symm
    · rw [List.getD_eq_getElem?_getD, List.getElem?_set_ne (by omega),
        ← List.getD_eq_getElem?_getD, getD_natToBits n v j hj,
        getD_natToBits n (v + c.toNat) j hj]
      obtain ⟨k, rfl⟩ : ∃ k, j = k + 1 := ⟨j - 1, by omega⟩
      rw [Nat.testBit_succ, Nat.testBit_succ]
      have : (v + c.toNat) / 2 = v / 2 := by
        cases c
        · rfl
        · simp only [Bool.toNat_true]
          omega
      rw [this]


lemma div_shift_step (VA i : ℕ) :
    VA / 2 ^ i = 2 * (VA / 2 ^ (i + 1)) + (VA.testBit i).toNat := by
  have h1 : VA / 2 ^ i / 2 = VA / 2 ^ (i + 1) := by
    rw [Nat.div_div_eq_div_mul, ← pow_succ]
  have h2 : (VA.testBit i).toNat = VA / 2 ^ i % 2 := toNat_testBit VA i
  omega

lemma div_step_rem (VA VB i : ℕ) (hVB : 0 < VB) :
    (if VB ≤ 2 * (VA / 2 ^ (i + 1) % VB) + (VA.testBit i).toNat
      then 2 * (VA / 2 ^ (i + 1) % VB) + (VA.testBit i).toNat - VB
      else 2 * (VA / 2 ^ (i + 1) % VB) + (VA.testBit i).toNat)
    = VA / 2 ^ i % VB := by
  set x := VA / 2 ^ (i + 1) with hx
  set c := (VA.testBit i).toNat with hc
  set t := 2 * (x % VB) + c with ht
  have hshift : VA / 2 ^ i = 2 * x + c := div_shift_step VA i
  have hcle : c ≤ 1 := by
    rw [hc]
    cases VA.testBit i <;> simp
  have hdecomp : 2 * x + c = VB * (2 * (x / VB)) + t := by
    have := Nat.div_add_mod x VB
    rw [ht]
    ring_nf
    omega
  have htlt : t < 2 * VB := by
    have := Nat.mod_lt x hVB
    omega
  have hmod : (2 * x + c) % VB = t % VB := by
    rw [hdecomp, Nat.mul_add_mod]
  have htm : t % VB = if VB ≤ t then t - VB else t := by
    by_cases hle : VB ≤ t
    · rw [if_pos hle, Nat.mod_eq_sub_mod hle,
        Nat.mod_eq_of_lt (by omega)]
    · rw [if_neg hle, Nat.mod_eq_of_lt (by omega)]
  rw [hshift, hmod, htm]

lemma div_step_bit (VA VB i : ℕ) (hVB : 0 < VB) :
    decide (VB ≤ 2 * (VA / 2 ^ (i + 1) % VB) + (VA.testBit i).toNat)
    = (VA / VB).testBit i := by
  set x := VA / 2 ^ (i + 1) with hx
  set c := (VA.testBit i).toNat with hc
  set t := 2 * (x % VB) + c with ht
  have hshift : VA / 2 ^ i = 2 * x + c := div_shift_step VA i
  have hcle : c ≤ 1 := by
    rw [hc]
    cases VA.testBit i <;> simp
  have hdecomp : 2 * x + c = VB * (2 * (x / VB)) + t := by
    have := Nat.div_add_mod x VB
    rw [ht]
    ring_nf
    omega
  have htlt : t < 2 * VB := by
    have := Nat.mod_lt x hVB
    omega
  have hdiv : (2 * x + c) / VB = 2 * (x / VB) + t / VB := by
    rw [hdecomp, Nat.mul_add_div hVB]
  have htd : t / VB = if VB ≤ t then 1 else 0 := by
    by_cases hle : VB ≤ t
    · rw [if_pos hle]
      exact Nat.div_eq_of_lt_le (by omega) (by omega)
    · rw [if_neg hle]
      exact Nat.div_eq_of_lt (by omega)
  have hQi : VA / VB / 2 ^ i = (2 * x + c) / VB := by
    rw [Nat.div_div_eq_div_mul, Nat.mul_comm VB (2 ^ i),
      ← Nat.div_div_eq_div_mul, hshift]
  rw [Nat.testBit_to_div_mod, decide_eq_decide, hQi, hdiv]
  constructor
  · intro hle
    have h1 : t / VB = 1 := by rw [htd, if_pos hle]
    omega
  · intro hmod
    by_contra hle
    have h0 : t / VB = 0 := by rw [htd, if_neg hle]
    omega


lemma sub_toNat_val (n t vb : ℕ) (ht : t < 2 ^ n) (hvb : vb ≤ 2 ^ n) :
    ((((t : ℕ) : ℤ) - ((vb : ℕ) : ℤ)) % 2 ^ n).toNat
    = if vb ≤ t then t - vb else 2 ^ n + t - vb := by
  have hc2 : (((2 : ℕ) ^ n : ℕ) : ℤ) = (2 : ℤ) ^ n := by push_cast; rfl
  by_cases hle : vb ≤ t
  · rw [if_pos hle]
    have he : ((t : ℤ) - vb) % 2 ^ n = (t : ℤ) - vb :=
      Int.emod_eq_of_lt (by omega) (by omega)
    rw [he]
    omega
  · rw [if_neg hle]
    have he : ((t : ℤ) - vb) % 2 ^ n = (t : ℤ) - vb + 2 ^ n := by
      calc ((t : ℤ) - vb) % 2 ^ n
          = ((t : ℤ) - vb + 2 ^ n * 1) % 2 ^ n :=
            (Int.add_mul_emod_self_left _ _ _).symm
      _ = ((t : ℤ) - vb + 2 ^ n) % 2 ^ n := by ring_nf
      _ = (t : ℤ) - vb + 2 ^ n := Int.emod_eq_of_lt (by omega) (by omega)
    rw [he]
    omega

/-- One iteration of the restoring-division loop at the register layout
of `div` (dividend 0, divisor 1, quotient 4, remainder 5, sign 6). -/
lemma run_divuIter_step (n i rv : ℕ) (abits bbits qbits : List Bool)
    (m2 m3 : RegSt) (rest : List RegSt)
    (hna : abits.length = n) (hnb : bbits.length = n)
    (hnq : qbits.length = n)
    (hi : i < n) (hn : 0 < n)
    (hvb_pos : 0 < bitsVal bbits) (hvb_le : bitsVal bbits ≤ 2 ^ (n - 1))
    (hrv : rv < bitsVal bbits) (hqi : qbits.getD i false = false) :
    run (divuIterG n 0 1 4 5 6 i) ([RegSt.basis abits, RegSt.basis bbits, m2, m3,
  RegSt.basis qbits,
  RegSt.basis (natToBits n rv),
  RegSt.basis [false]] ++ rest : QState)
      = some ([RegSt.basis (abits.set i false), RegSt.basis bbits, m2, m3,
  RegSt.basis (qbits.set i (decide (bitsVal bbits ≤ (2 * rv + (abits.getD i false).toNat)))),
  RegSt.basis (natToBits n (if bitsVal bbits ≤ (2 * rv + (abits.getD i false).toNat) then (2 * rv + (abits.getD i false).toNat) - bitsVal bbits else (2 * rv + (abits.getD i false).toNat))),
  RegSt.basis [false]] ++ rest : QState) := by
  have h2n : (2 : ℕ) ^ n = 2 ^ (n - 1) * 2 := by
    rw [← pow_succ]
    congr 1
    omega
  have hrv2 : rv < 2 ^ (n - 1) := by omega
  have hct : (abits.getD i false).toNat ≤ 1 := by
    cases habit : (abits.getD i false) <;> simp
  have htlt : (2 * rv + (abits.getD i false).toNat) < 2 ^ n := by omega
  have hvblt : bitsVal bbits ≤ 2 ^ n := by omega
  unfold divuIterG
  simp only [run_append]
  rw [run_rotate_chain 5 (n - 1) ([RegSt.basis abits, RegSt.basis bbits, m2, m3,
  RegSt.basis qbits,
  RegSt.basis (natToBits n rv),
  RegSt.basis [false]] ++ rest : QState) (natToBits n rv) rfl
    (by rw [length_natToBits]; omega)]
  rw [rotSeg_natToBits n rv hn hrv2, Option.some_bind]
  rw [show ([RegSt.basis abits, RegSt.basis bbits, m2, m3,
  RegSt.basis qbits,
  RegSt.basis (natToBits n rv),
  RegSt.basis [false]] ++ rest : QState).set 5 (RegSt.basis (natToBits n (2 * rv)))
    = ([RegSt.basis abits, RegSt.basis bbits, m2, m3,
  RegSt.basis qbits,
  RegSt.basis (natToBits n (2 * rv)),
  RegSt.basis [false]] ++ rest : QState) from rfl]
  rw [if_pos hi, run_singleton]
  rw [applyGate_swap_diff ([RegSt.basis abits, RegSt.basis bbits, m2, m3,
  RegSt.basis qbits,
  RegSt.basis (natToBits n (2 * rv)),
  RegSt.basis [false]] ++ rest : QState) 5 0 0 i (natToBits n (2 * rv)) abits rfl rfl
    (by rw [length_natToBits]; omega) (by omega) (by omega)]
  rw [Option.some_bind]
  have hlsb : (natToBits n (2 * rv)).set 0 (abits.getD i false)
      = natToBits n (2 * rv + (abits.getD i false).toNat) :=
    natToBits_set_lsb n (2 * rv) (abits.getD i false) (by omega) (by omega)
  have hbit0 : (natToBits n (2 * rv)).getD 0 false = false := by
    rw [getD_natToBits n (2 * rv) 0 hn, Nat.testBit_to_div_mod]
    simp [Nat.mul_mod_right]
  rw [hlsb, hbit0]
  rw [show (([RegSt.basis abits, RegSt.basis bbits, m2, m3,
  RegSt.basis qbits,
  RegSt.basis (natToBits n (2 * rv)),
  RegSt.basis [false]] ++ rest : QState).set 5 (RegSt.basis (natToBits n (2 * rv + (abits.getD i false).toNat)))).set 0
    (RegSt.basis (abits.set i false)) = ([RegSt.basis (abits.set i false), RegSt.basis bbits, m2, m3,
  RegSt.basis qbits,
  RegSt.basis (natToBits n (2 * rv + (abits.getD i false).toNat)),
  RegSt.basis [false]] ++ rest : QState) from rfl]
  rw [run_sub_block ([RegSt.basis (abits.set i false), RegSt.basis bbits, m2, m3,
  RegSt.basis qbits,
  RegSt.basis (natToBits n (2 * rv + (abits.getD i false).toNat)),
  RegSt.basis [false]] ++ rest : QState) 5 1 n (natToBits n (2 * rv + (abits.getD i false).toNat)) bbits rfl rfl
    (length_natToBits n _) hnb (by omega) hn]
  rw [Option.some_bind]
  have hbvt : bitsVal (natToBits n (2 * rv + (abits.getD i false).toNat)) = (2 * rv + (abits.getD i false).toNat) := by
    rw [bitsVal_natToBits, Nat.mod_eq_of_lt htlt]
  rw [hbvt, sub_toNat_val n (2 * rv + (abits.getD i false).toNat) (bitsVal bbits) htlt hvblt]
  rw [show ([RegSt.basis (abits.set i false), RegSt.basis bbits, m2, m3,
  RegSt.basis qbits,
  RegSt.basis (natToBits n (2 * rv + (abits.getD i false).toNat)),
  RegSt.basis [false]] ++ rest : QState).set 5 (RegSt.basis (natToBits n (if bitsVal bbits ≤ (2 * rv + (abits.getD i false).toNat) then (2 * rv + (abits.getD i false).toNat) - bitsVal bbits
    else 2 ^ n + (2 * rv + (abits.getD i false).toNat) - bitsVal bbits)))
    = ([RegSt.basis (abits.set i false), RegSt.basis bbits, m2, m3,
  RegSt.basis qbits,
  RegSt.basis (natToBits n (if bitsVal bbits ≤ (2 * rv + (abits.getD i false).toNat) then (2 * rv + (abits.getD i false).toNat) - bitsVal bbits
    else 2 ^ n + (2 * rv + (abits.getD i false).toNat) - bitsVal bbits)),
  RegSt.basis [false]] ++ rest : QState) from rfl]
  rw [run_single_cx ([RegSt.basis (abits.set i false), RegSt.basis bbits, m2, m3,
  RegSt.basis qbits,
  RegSt.basis (natToBits n (if bitsVal bbits ≤ (2 * rv + (abits.getD i false).toNat) then (2 * rv + (abits.getD i false).toNat) - bitsVal bbits
    else 2 ^ n + (2 * rv + (abits.getD i false).toNat) - bitsVal bbits)),
  RegSt.basis [false]] ++ rest : QState) 5 6 (n - 1) (natToBits n (if bitsVal bbits ≤ (2 * rv + (abits.getD i false).toNat) then (2 * rv + (abits.getD i false).toNat) - bitsVal bbits
    else 2 ^ n + (2 * rv + (abits.getD i false).toNat) - bitsVal bbits)) rfl rfl
    (by rw [length_natToBits]; omega) (by omega)]
  rw [Option.some_bind]
  have hUlt : (if bitsVal bbits ≤ (2 * rv + (abits.getD i false).toNat) then (2 * rv + (abits.getD i false).toNat) - bitsVal bbits
    else 2 ^ n + (2 * rv + (abits.getD i false).toNat) - bitsVal bbits) < 2 ^ n := by
    by_cases hle : bitsVal bbits ≤ (2 * rv + (abits.getD i false).toNat)
    · rw [if_pos hle]
      omega
    · rw [if_neg hle]
      omega
  have hmsb : (natToBits n (if bitsVal bbits ≤ (2 * rv + (abits.getD i false).toNat) then (2 * rv + (abits.getD i false).toNat) - bitsVal bbits
    else 2 ^ n + (2 * rv + (abits.getD i false).toNat) - bitsVal bbits)).getD (n - 1) false = !(decide (bitsVal bbits ≤ (2 * rv + (abits.getD i false).toNat))) := by
    rw [getD_natToBits n _ (n - 1) (by omega),
      testBit_msb n _ hn hUlt]
    by_cases hle : bitsVal bbits ≤ (2 * rv + (abits.getD i false).toNat)
    · rw [decide_eq_true hle, Bool.not_true]
      apply decide_eq_false
      rw [if_pos hle]
      omega
    · rw [decide_eq_false hle, Bool.not_false]
      apply decide_eq_true
      rw [if_neg hle]
      omega
  rw [hmsb]
  rw [show ([RegSt.basis (abits.set i false), RegSt.basis bbits, m2, m3,
  RegSt.basis qbits,
  RegSt.basis (natToBits n (if bitsVal bbits ≤ (2 * rv + (abits.getD i false).toNat) then (2 * rv + (abits.getD i false).toNat) - bitsVal bbits
    else 2 ^ n + (2 * rv + (abits.getD i false).toNat) - bitsVal bbits)),
  RegSt.basis [false]] ++ rest : QState).set 6 (RegSt.basis [!(decide (bitsVal bbits ≤ (2 * rv + (abits.getD i false).toNat)))]) = ([RegSt.basis (abits.set i false), RegSt.basis bbits, m2, m3,
  RegSt.basis qbits,
  RegSt.basis (natToBits n (if bitsVal bbits ≤ (2 * rv + (abits.getD i false).toNat) then (2 * rv + (abits.getD i false).toNat) - bitsVal bbits
    else 2 ^ n + (2 * rv + (abits.getD i false).toNat) - bitsVal bbits)),
  RegSt.basis [!(decide (bitsVal bbits ≤ (2 * rv + (abits.getD i false).toNat)))]] ++ rest : QState) from rfl]
  rw [run_ctrl_add_block ([RegSt.basis (abits.set i false), RegSt.basis bbits, m2, m3,
  RegSt.basis qbits,
  RegSt.basis (natToBits n (if bitsVal bbits ≤ (2 * rv + (abits.getD i false).toNat) then (2 * rv + (abits.getD i false).toNat) - bitsVal bbits
    else 2 ^ n + (2 * rv + (abits.getD i false).toNat) - bitsVal bbits)),
  RegSt.basis [!(decide (bitsVal bbits ≤ (2 * rv + (abits.getD i false).toNat)))]] ++ rest : QState) 5 1 n ⟨6, 0⟩ (!(decide (bitsVal bbits ≤ (2 * rv + (abits.getD i false).toNat))))
    (natToBits n (if bitsVal bbits ≤ (2 * rv + (abits.getD i false).toNat) then (2 * rv + (abits.getD i false).toNat) - bitsVal bbits
    else 2 ^ n + (2 * rv + (abits.getD i false).toNat) - bitsVal bbits)) bbits rfl rfl rfl (length_natToBits n _) hnb
    (by omega) (by decide) hn]
  rw [Option.some_bind]
  have hrestore : (bitsVal (natToBits n (if bitsVal bbits ≤ (2 * rv + (abits.getD i false).toNat) then (2 * rv + (abits.getD i false).toNat) - bitsVal bbits
    else 2 ^ n + (2 * rv + (abits.getD i false).toNat) - bitsVal bbits))
      + (if !(decide (bitsVal bbits ≤ (2 * rv + (abits.getD i false).toNat))) then bitsVal bbits else 0)) % 2 ^ n
      = (if bitsVal bbits ≤ (2 * rv + (abits.getD i false).toNat) then (2 * rv + (abits.getD i false).toNat) - bitsVal bbits else (2 * rv + (abits.getD i false).toNat)) := by
    rw [bitsVal_natToBits, Nat.mod_eq_of_lt hUlt]
    by_cases hle : bitsVal bbits ≤ (2 * rv + (abits.getD i false).toNat)
    · rw [if_pos hle, if_pos hle, decide_eq_true hle, Bool.not_true,
        if_neg (by simp), Nat.add_zero, Nat.mod_eq_of_lt (by omega)]
    · rw [if_neg hle, if_neg hle, decide_eq_false hle, Bool.not_false,
        if_pos rfl]
      have he : 2 ^ n + (2 * rv + (abits.getD i false).toNat) - bitsVal bbits + bitsVal bbits
          = 2 ^ n + (2 * rv + (abits.getD i false).toNat) := by omega
      rw [he, Nat.add_mod_left, Nat.mod_eq_of_lt htlt]
  rw [hrestore]
  rw [show ([RegSt.basis (abits.set i false), RegSt.basis bbits, m2, m3,
  RegSt.basis qbits,
  RegSt.basis (natToBits n (if bitsVal bbits ≤ (2 * rv + (abits.getD i false).toNat) then (2 * rv + (abits.getD i false).toNat) - bitsVal bbits
    else 2 ^ n + (2 * rv + (abits.getD i false).toNat) - bitsVal bbits)),
  RegSt.basis [!(decide (bitsVal bbits ≤ (2 * rv + (abits.getD i false).toNat)))]] ++ rest : QState).set 5 (RegSt.basis (natToBits n (if bitsVal bbits ≤ (2 * rv + (abits.getD i false).toNat) then (2 * rv + (abits.getD i false).toNat) - bitsVal bbits else (2 * rv + (abits.getD i false).toNat))))
    = ([RegSt.basis (abits.set i false), RegSt.basis bbits, m2, m3,
  RegSt.basis qbits,
  RegSt.basis (natToBits n (if bitsVal bbits ≤ (2 * rv + (abits.getD i false).toNat) then (2 * rv + (abits.getD i false).toNat) - bitsVal bbits else (2 * rv + (abits.getD i false).toNat))),
  RegSt.basis [!(decide (bitsVal bbits ≤ (2 * rv + (abits.getD i false).toNat)))]] ++ rest : QState) from rfl]
  rw [run_quotient_gadget ([RegSt.basis (abits.set i false), RegSt.basis bbits, m2, m3,
  RegSt.basis qbits,
  RegSt.basis (natToBits n (if bitsVal bbits ≤ (2 * rv + (abits.getD i false).toNat) then (2 * rv + (abits.getD i false).toNat) - bitsVal bbits else (2 * rv + (abits.getD i false).toNat))),
  RegSt.basis [!(decide (bitsVal bbits ≤ (2 * rv + (abits.getD i false).toNat)))]] ++ rest : QState) 4 6 i qbits (decide (bitsVal bbits ≤ (2 * rv + (abits.getD i false).toNat))) rfl rfl hqi
    (by omega) (by omega)]
  rw [show (([RegSt.basis (abits.set i false), RegSt.basis bbits, m2, m3,
  RegSt.basis qbits,
  RegSt.basis (natToBits n (if bitsVal bbits ≤ (2 * rv + (abits.getD i false).toNat) then (2 * rv + (abits.getD i false).toNat) - bitsVal bbits else (2 * rv + (abits.getD i false).toNat))),
  RegSt.basis [!(decide (bitsVal bbits ≤ (2 * rv + (abits.getD i false).toNat)))]] ++ rest : QState).set 4 (RegSt.basis (qbits.set i (decide (bitsVal bbits ≤ (2 * rv + (abits.getD i false).toNat)))))).set 6
    (RegSt.basis [false]) = ([RegSt.basis (abits.set i false), RegSt.basis bbits, m2, m3,
  RegSt.basis (qbits.set i (decide (bitsVal bbits ≤ (2 * rv + (abits.getD i false).toNat)))),
  RegSt.basis (natToBits n (if bitsVal bbits ≤ (2 * rv + (abits.getD i false).toNat) then (2 * rv + (abits.getD i false).toNat) - bitsVal bbits else (2 * rv + (abits.getD i false).toNat))),
  RegSt.basis [false]] ++ rest : QState) from rfl]


/-- The full restoring-division loop of `divu` at the register layout of
`div`: running iterations i-1, ..., 0 turns the partial state at stage i
into the final quotient/remainder state. -/
lemma run_divu_loop (n VA : ℕ) (bbits : List Bool) (m2 m3 : RegSt)
    (rest : List RegSt) (hnb : bbits.length = n) (hn : 0 < n)
    (hvb_pos : 0 < bitsVal bbits) (hvb_le : bitsVal bbits ≤ 2 ^ (n - 1)) :
    ∀ i, i ≤ n →
    run (((List.range i).reverse).flatMap (divuIterG n 0 1 4 5 6))
      ([RegSt.basis (aBitsAt n i VA), RegSt.basis bbits, m2, m3,
        RegSt.basis (qBitsAt n i (VA / bitsVal bbits)),
        RegSt.basis (natToBits n (VA / 2 ^ i % bitsVal bbits)),
        RegSt.basis [false]] ++ rest)
      = some ([RegSt.basis (List.replicate n false), RegSt.basis bbits, m2, m3,
        RegSt.basis (natToBits n (VA / bitsVal bbits)),
        RegSt.basis (natToBits n (VA % bitsVal bbits)),
        RegSt.basis [false]] ++ rest) := by
  intro i
  induction i with
  | zero =>
    intro _
    simp only [List.range_zero, List.reverse_nil, List.flatMap_nil, run_nil]
    rw [aBitsAt_zero, qBitsAt_zero, pow_zero, Nat.div_one]
  | succ i ih =>
    intro hi1
    have hi : i < n := by omega
    have hrg : (List.range (i + 1)).reverse = i :: (List.range i).reverse := by
      rw [List.range_succ, List.reverse_append]
      rfl
    rw [hrg, List.flatMap_cons, run_append]
    have hstep := run_divuIter_step n i (VA / 2 ^ (i + 1) % bitsVal bbits)
      (aBitsAt n (i + 1) VA) bbits (qBitsAt n (i + 1) (VA / bitsVal bbits))
      m2 m3 rest (aBitsAt_length n (i + 1) VA) hnb
      (qBitsAt_length n (i + 1) (VA / bitsVal bbits)) hi hn hvb_pos hvb_le
      (Nat.mod_lt _ hvb_pos) (qBitsAt_getD_self n i (VA / bitsVal bbits) hi)
    rw [aBitsAt_set n i VA hi] at hstep
    have hc : (aBitsAt n (i + 1) VA).getD i false = VA.testBit i := by
      rw [aBitsAt_getD n (i + 1) VA i hi, decide_eq_true (by omega),
        Bool.true_and]
    simp only [hc] at hstep
    rw [div_step_bit VA (bitsVal bbits) i hvb_pos] at hstep
    rw [qBitsAt_set n i (VA / bitsVal bbits) hi] at hstep
    rw [div_step_rem VA (bitsVal bbits) i hvb_pos] at hstep
    rw [hstep, Option.some_bind]
    exact ih (by omega)


lemma run_pair (g1 g2 : Gate) (st : QState) :
    run [g1, g2] st = (run [g1] st).bind (run [g2]) := run_append [g1] [g2] st

lemma natToBits_zero (n : ℕ) : natToBits n 0 = List.replicate n false := by
  apply list_eq_of_getD
  · rw [length_natToBits, List.length_replicate]
  · intro j hj
    rw [length_natToBits] at hj
    rw [getD_natToBits n 0 j hj, Nat.zero_testBit,
      List.getD_eq_getElem?_getD, List.getElem?_replicate, if_pos hj]
    rfl

lemma getD_replicate_false (n j : ℕ) :
    (List.replicate n false).getD j false = false := by
  rw [List.getD_eq_getElem?_getD, List.getElem?_replicate]
  by_cases h : j < n
  · rw [if_pos h]
    rfl
  · rw [if_neg h]
    rfl

/-- The MSB of the two's-complement encoding is the sign bit. -/
lemma msb_twos (n : ℕ) (b : ℤ) (hn : 0 < n)
    (hblo : -2 ^ (n - 1) ≤ b) (hbhi : b ≤ 2 ^ (n - 1) - 1) :
    (int_to_twos_complement n b).getD (n - 1) false = decide (b < 0) := by
  have hc2 : (((2 : ℕ) ^ n : ℕ) : ℤ) = (2 : ℤ) ^ n := by push_cast; rfl
  have hcP : (((2 : ℕ) ^ (n - 1) : ℕ) : ℤ) = (2 : ℤ) ^ (n - 1) := by
    push_cast; rfl
  have hhalf : (2 : ℤ) ^ n = 2 ^ (n - 1) * 2 := by
    rw [← pow_succ]
    congr 1
    omega
  have hlt : (if b < 0 then 2 ^ n + b else b).toNat < 2 ^ n := by
    by_cases hneg : b < 0
    · rw [if_pos hneg]
      omega
    · rw [if_neg hneg]
      omega
  rw [int_to_twos_eq_natToBits, getD_natToBits _ _ _ (by omega),
    testBit_msb n _ hn hlt]
  apply decide_eq_decide.mpr
  by_cases hneg : b < 0
  · rw [if_pos hneg]
    constructor
    · intro _
      exact hneg
    · intro _
      omega
  · rw [if_neg hneg]
    constructor
    · intro hge
      omega
    · intro hb
      exact absurd hb hneg

lemma inv_mag_len (n : ℕ) (b : ℤ) :
    (if decide (b < 0) then
        natToBits n ((2 ^ n - bitsVal (int_to_twos_complement n b)) % 2 ^ n)
      else int_to_twos_complement n b).length = n := by
  cases decide (b < 0)
  · rw [if_neg (by simp), length_int_to_twos]
  · rw [if_pos rfl, length_natToBits]

/-- Conditionally negating the two's-complement encoding of `b` yields
its magnitude `|b|`. -/
lemma inv_mag_val (n : ℕ) (b : ℤ) (hn : 0 < n) (hb : b ≠ 0)
    (hblo : -2 ^ (n - 1) ≤ b) (hbhi : b ≤ 2 ^ (n - 1) - 1) :
    bitsVal (if decide (b < 0) then
        natToBits n ((2 ^ n - bitsVal (int_to_twos_complement n b)) % 2 ^ n)
      else int_to_twos_complement n b) = b.natAbs := by
  have hc2 : (((2 : ℕ) ^ n : ℕ) : ℤ) = (2 : ℤ) ^ n := by push_cast; rfl
  have hcP : (((2 : ℕ) ^ (n - 1) : ℕ) : ℤ) = (2 : ℤ) ^ (n - 1) := by
    push_cast; rfl
  have hhalf : (2 : ℤ) ^ n = 2 ^ (n - 1) * 2 := by
    rw [← pow_succ]
    congr 1
    omega
  have hBV : ((bitsVal (int_to_twos_complement n b) : ℕ) : ℤ) = b % 2 ^ n :=
    twos_val n b hn hblo hbhi
  by_cases hneg : b < 0
  · rw [decide_eq_true hneg, if_pos rfl, bitsVal_natToBits]
    have he : b % 2 ^ n = b + 2 ^ n := by
      calc b % 2 ^ n = (b + 2 ^ n * 1) % 2 ^ n :=
            (Int.add_mul_emod_self_left b (2 ^ n) 1).symm
      _ = b + 2 ^ n * 1 := Int.emod_eq_of_lt (by omega) (by omega)
      _ = b + 2 ^ n := by ring
    rw [he] at hBV
    have h1 : 2 ^ n - bitsVal (int_to_twos_complement n b) < 2 ^ n := by
      omega
    rw [Nat.mod_mod_of_dvd _ (dvd_refl _), Nat.mod_eq_of_lt h1]
    omega
  · rw [decide_eq_false hneg, if_neg (by simp)]
    have he : b % 2 ^ n = b := Int.emod_eq_of_lt (by omega) (by omega)
    rw [he] at hBV
    omega

/-- For a nonnegative dividend, `Int.tdiv` is the natural-number
division of the magnitudes with the divisor sign reattached. -/
lemma tdiv_pos_abs (a b : ℤ) (ha : 0 ≤ a) (hb : b ≠ 0) :
    a.tdiv b = if b < 0 then -((a.toNat / b.natAbs : ℕ) : ℤ)
      else ((a.toNat / b.natAbs : ℕ) : ℤ) := by
  have ha' : ((a.toNat : ℕ) : ℤ) = a := by omega
  set k := b.natAbs with hk
  by_cases hneg : b < 0
  · rw [if_pos hneg]
    have hbk : b = -((k : ℕ) : ℤ) := by omega
    rw [hbk, Int.tdiv_neg]
    congr 1
    conv_lhs => rw [← ha']
    rfl
  · rw [if_neg hneg]
    have hbk : b = ((k : ℕ) : ℤ) := by omega
    rw [hbk]
    conv_lhs => rw [← ha']
    rfl

/-- `a - (a.tdiv b) * b` is the natural remainder of the magnitudes for
a nonnegative dividend. -/
lemma tdiv_mul_sub (a b : ℤ) (ha : 0 ≤ a) (hb : b ≠ 0) :
    a - a.tdiv b * b = ((a.toNat % b.natAbs : ℕ) : ℤ) := by
  have ha' : ((a.toNat : ℕ) : ℤ) = a := by omega
  rw [tdiv_pos_abs a b ha hb]
  set k := b.natAbs with hk
  have hdm : ((k : ℕ) : ℤ) * ((a.toNat / k : ℕ) : ℤ)
      + ((a.toNat % k : ℕ) : ℤ) = ((a.toNat : ℕ) : ℤ) := by
    exact_mod_cast Nat.div_add_mod a.toNat k
  rw [ha'] at hdm
  by_cases hneg : b < 0
  · rw [if_pos hneg]
    have hbk : b = -((k : ℕ) : ℤ) := by omega
    rw [hbk]
    linarith [hdm]
  · rw [if_neg hneg]
    have hbk : b = ((k : ℕ) : ℤ) := by omega
    rw [hbk]
    linarith [hdm]

/-- Decoding the conditionally negated quotient register. -/
lemma c2_quot_decode (n Q : ℕ) (b : ℤ) (hn2 : 2 ≤ n)
    (hQ : Q ≤ 2 ^ (n - 1) - 1) :
    decode_twos_complement (if decide (b < 0) then
        natToBits n ((2 ^ n - Q) % 2 ^ n) else natToBits n Q)
      = if b < 0 then -((Q : ℕ) : ℤ) else ((Q : ℕ) : ℤ) := by
  have h2n : (2 : ℕ) ^ n = 2 ^ (n - 1) * 2 := by
    rw [← pow_succ]
    congr 1
    omega
  have hP : 0 < (2 : ℕ) ^ (n - 1) := Nat.pos_pow_of_pos _ (by omega)
  have hc2 : (((2 : ℕ) ^ n : ℕ) : ℤ) = (2 : ℤ) ^ n := by push_cast; rfl
  have hcP : (((2 : ℕ) ^ (n - 1) : ℕ) : ℤ) = (2 : ℤ) ^ (n - 1) := by
    push_cast; rfl
  have hQlt : Q < 2 ^ n := by omega
  by_cases hneg : b < 0
  · rw [decide_eq_true hneg, if_pos rfl, if_pos hneg]
    by_cases hQ0 : Q = 0
    · subst hQ0
      rw [Nat.sub_zero, Nat.mod_self, decode_natToBits n 0 hn2 (by omega)]
      rw [if_pos (by exact_mod_cast hP)]
      simp
    · have hw : (2 ^ n - Q) % 2 ^ n = 2 ^ n - Q := Nat.mod_eq_of_lt (by omega)
      rw [hw, decode_natToBits n (2 ^ n - Q) hn2 (by omega)]
      rw [if_neg (by omega)]
      omega
  · rw [decide_eq_false hneg, if_neg (by simp), if_neg hneg,
      decode_natToBits n Q hn2 hQlt, if_pos (by omega)]

/-- Building the `div` example program of claim C2: initialise two
registers and divide them. -/
def c2Build (n : ℕ) (a b : ℤ) : Option (Circuit × ℕ × ℕ) :=
  match initialize_variable n Circuit.empty a with
  | none => none
  | some (qc1, ra) =>
    match initialize_variable n qc1 b with
    | none => none
    | some (qc2, rb) => some (div n qc2 ra rb none)

/-- `div` on a two-register `n`-bit circuit, with its gate list written
out chunk by chunk. -/
lemma div_gates_eq (n : ℕ) (g0 : List Gate) :
    div n ⟨[n, n], g0⟩ 0 1 none
      = (⟨[n, n, 1, 1, n, n, 1, 1], (((((((((((((((((((g0 ++ [Gate.cx ⟨0, n - 1⟩ ⟨2, 0⟩]) ++ ((List.range n).map (fun i => Gate.cx ⟨2, 0⟩ ⟨0, i⟩))) ++ (Gate.qft 0 :: (((List.range n).flatMap (fun j => if (if (0 : ℤ) ≤ 1 then ((bitsVal (int_to_twos_complement n 1) : ℕ) : ℤ) else ((bitsVal (int_to_twos_complement n 1) : ℕ) : ℤ) - 2 ^ n) ≠ 0 then [Gate.cp ⟨(if (0 : ℤ) ≤ 1 then ((bitsVal (int_to_twos_complement n 1) : ℕ) : ℤ) else ((bitsVal (int_to_twos_complement n 1) : ℕ) : ℤ) - 2 ^ n), j + 1⟩ ⟨2, 0⟩ ⟨0, j⟩] else [])) ++ [Gate.iqft 0]))) ++ [Gate.cx ⟨1, n - 1⟩ ⟨3, 0⟩]) ++ ((List.range n).map (fun i => Gate.cx ⟨3, 0⟩ ⟨1, i⟩))) ++ (Gate.qft 1 :: (((List.range n).flatMap (fun j => if (if (0 : ℤ) ≤ 1 then ((bitsVal (int_to_twos_complement n 1) : ℕ) : ℤ) else ((bitsVal (int_to_twos_complement n 1) : ℕ) : ℤ) - 2 ^ n) ≠ 0 then [Gate.cp ⟨(if (0 : ℤ) ≤ 1 then ((bitsVal (int_to_twos_complement n 1) : ℕ) : ℤ) else ((bitsVal (int_to_twos_complement n 1) : ℕ) : ℤ) - 2 ^ n), j + 1⟩ ⟨3, 0⟩ ⟨1, j⟩] else [])) ++ [Gate.iqft 1]))) ++ ((List.range n).reverse.flatMap (divuIterG n 0 1 4 5 6))) ++ [Gate.cx ⟨2, 0⟩ ⟨7, 0⟩, Gate.cx ⟨3, 0⟩ ⟨7, 0⟩]) ++ ((List.range n).map (fun i => Gate.cx ⟨7, 0⟩ ⟨4, i⟩))) ++ (Gate.qft 4 :: (((List.range n).flatMap (fun j => if (if (0 : ℤ) ≤ 1 then ((bitsVal (int_to_twos_complement n 1) : ℕ) : ℤ) else ((bitsVal (int_to_twos_complement n 1) : ℕ) : ℤ) - 2 ^ n) ≠ 0 then [Gate.cp ⟨(if (0 : ℤ) ≤ 1 then ((bitsVal (int_to_twos_complement n 1) : ℕ) : ℤ) else ((bitsVal (int_to_twos_complement n 1) : ℕ) : ℤ) - 2 ^ n), j + 1⟩ ⟨7, 0⟩ ⟨4, j⟩] else [])) ++ [Gate.iqft 4]))) ++ [Gate.cx ⟨4, n - 1⟩ ⟨7, 0⟩]) ++ ((List.range n).map (fun i => Gate.cx ⟨2, 0⟩ ⟨5, i⟩))) ++ (Gate.qft 5 :: (((List.range n).flatMap (fun j => if (if (0 : ℤ) ≤ 1 then ((bitsVal (int_to_twos_complement n 1) : ℕ) : ℤ) else ((bitsVal (int_to_twos_complement n 1) : ℕ) : ℤ) - 2 ^ n) ≠ 0 then [Gate.cp ⟨(if (0 : ℤ) ≤ 1 then ((bitsVal (int_to_twos_complement n 1) : ℕ) : ℤ) else ((bitsVal (int_to_twos_complement n 1) : ℕ) : ℤ) - 2 ^ n), j + 1⟩ ⟨2, 0⟩ ⟨5, j⟩] else [])) ++ [Gate.iqft 5]))) ++ ((List.range n).map (fun i => Gate.cx ⟨2, 0⟩ ⟨0, i⟩))) ++ (Gate.qft 0 :: (((List.range n).flatMap (fun j => if (if (0 : ℤ) ≤ 1 then ((bitsVal (int_to_twos_complement n 1) : ℕ) : ℤ) else ((bitsVal (int_to_twos_complement n 1) : ℕ) : ℤ) - 2 ^ n) ≠ 0 then [Gate.cp ⟨(if (0 : ℤ) ≤ 1 then ((bitsVal (int_to_twos_complement n 1) : ℕ) : ℤ) else ((bitsVal (int_to_twos_complement n 1) : ℕ) : ℤ) - 2 ^ n), j + 1⟩ ⟨2, 0⟩ ⟨0, j⟩] else [])) ++ [Gate.iqft 0]))) ++ [Gate.cx ⟨0, n - 1⟩ ⟨2, 0⟩]) ++ ((List.range n).map (fun i => Gate.cx ⟨3, 0⟩ ⟨1, i⟩))) ++ (Gate.qft 1 :: (((List.range n).flatMap (fun j => if (if (0 : ℤ) ≤ 1 then ((bitsVal (int_to_twos_complement n 1) : ℕ) : ℤ) else ((bitsVal (int_to_twos_complement n 1) : ℕ) : ℤ) - 2 ^ n) ≠ 0 then [Gate.cp ⟨(if (0 : ℤ) ≤ 1 then ((bitsVal (int_to_twos_complement n 1) : ℕ) : ℤ) else ((bitsVal (int_to_twos_complement n 1) : ℕ) : ℤ) - 2 ^ n), j + 1⟩ ⟨3, 0⟩ ⟨1, j⟩] else [])) ++ [Gate.iqft 1]))) ++ [Gate.cx ⟨1, n - 1⟩ ⟨3, 0⟩])⟩, 4, 5) := by
  have hfold := foldl_divuIter_gates n 0 1 4 5 6 (List.range n).reverse
    ⟨[n, n, 1, 1, n, n, 1], ((((((g0 ++ [Gate.cx ⟨0, n - 1⟩ ⟨2, 0⟩]) ++ ((List.range n).map (fun i => Gate.cx ⟨2, 0⟩ ⟨0, i⟩))) ++ (Gate.qft 0 :: (((List.range n).flatMap (fun j => if (if (0 : ℤ) ≤ 1 then ((bitsVal (int_to_twos_complement n 1) : ℕ) : ℤ) else ((bitsVal (int_to_twos_complement n 1) : ℕ) : ℤ) - 2 ^ n) ≠ 0 then [Gate.cp ⟨(if (0 : ℤ) ≤ 1 then ((bitsVal (int_to_twos_complement n 1) : ℕ) : ℤ) else ((bitsVal (int_to_twos_complement n 1) : ℕ) : ℤ) - 2 ^ n), j + 1⟩ ⟨2, 0⟩ ⟨0, j⟩] else [])) ++ [Gate.iqft 0]))) ++ [Gate.cx ⟨1, n - 1⟩ ⟨3, 0⟩]) ++ ((List.range n).map (fun i => Gate.cx ⟨3, 0⟩ ⟨1, i⟩))) ++ (Gate.qft 1 :: (((List.range n).flatMap (fun j => if (if (0 : ℤ) ≤ 1 then ((bitsVal (int_to_twos_complement n 1) : ℕ) : ℤ) else ((bitsVal (int_to_twos_complement n 1) : ℕ) : ℤ) - 2 ^ n) ≠ 0 then [Gate.cp ⟨(if (0 : ℤ) ≤ 1 then ((bitsVal (int_to_twos_complement n 1) : ℕ) : ℤ) else ((bitsVal (int_to_twos_complement n 1) : ℕ) : ℤ) - 2 ^ n), j + 1⟩ ⟨3, 0⟩ ⟨1, j⟩] else [])) ++ [Gate.iqft 1])))⟩ rfl
  rw [show div n ⟨[n, n], g0⟩ 0 1 none
    = (fun qc3 : Circuit =>
    let sign_q := qc3.regs.length
    let qc4 : Circuit := ⟨qc3.regs ++ [1], qc3.gates ++
      [Gate.cx ⟨2, 0⟩ ⟨sign_q, 0⟩, Gate.cx ⟨3, 0⟩ ⟨sign_q, 0⟩]⟩
    let qc5 := sign_magnitude_to_twos n qc4 4 sign_q
    let qc6 : Circuit := ⟨qc5.regs, qc5.gates ++ [Gate.cx ⟨4, n - 1⟩ ⟨sign_q, 0⟩]⟩
    let qc7 := sign_magnitude_to_twos n qc6 5 2
    let qc8 := sign_magnitude_to_twos n qc7 0 2
    let qc9 : Circuit := ⟨qc8.regs, qc8.gates ++ [Gate.cx ⟨0, n - 1⟩ ⟨2, 0⟩]⟩
    let qc10 := sign_magnitude_to_twos n qc9 1 3
    ((⟨qc10.regs, qc10.gates ++ [Gate.cx ⟨1, n - 1⟩ ⟨3, 0⟩]⟩ : Circuit), 4, 5))
      (List.foldl (divuIter n 0 1 4 5 6)
        ⟨[n, n, 1, 1, n, n, 1], ((((((g0 ++ [Gate.cx ⟨0, n - 1⟩ ⟨2, 0⟩]) ++ ((List.range n).map (fun i => Gate.cx ⟨2, 0⟩ ⟨0, i⟩))) ++ (Gate.qft 0 :: (((List.range n).flatMap (fun j => if (if (0 : ℤ) ≤ 1 then ((bitsVal (int_to_twos_complement n 1) : ℕ) : ℤ) else ((bitsVal (int_to_twos_complement n 1) : ℕ) : ℤ) - 2 ^ n) ≠ 0 then [Gate.cp ⟨(if (0 : ℤ) ≤ 1 then ((bitsVal (int_to_twos_complement n 1) : ℕ) : ℤ) else ((bitsVal (int_to_twos_complement n 1) : ℕ) : ℤ) - 2 ^ n), j + 1⟩ ⟨2, 0⟩ ⟨0, j⟩] else [])) ++ [Gate.iqft 0]))) ++ [Gate.cx ⟨1, n - 1⟩ ⟨3, 0⟩]) ++ ((List.range n).map (fun i => Gate.cx ⟨3, 0⟩ ⟨1, i⟩))) ++ (Gate.qft 1 :: (((List.range n).flatMap (fun j => if (if (0 : ℤ) ≤ 1 then ((bitsVal (int_to_twos_complement n 1) : ℕ) : ℤ) else ((bitsVal (int_to_twos_complement n 1) : ℕ) : ℤ) - 2 ^ n) ≠ 0 then [Gate.cp ⟨(if (0 : ℤ) ≤ 1 then ((bitsVal (int_to_twos_complement n 1) : ℕ) : ℤ) else ((bitsVal (int_to_twos_complement n 1) : ℕ) : ℤ) - 2 ^ n), j + 1⟩ ⟨3, 0⟩ ⟨1, j⟩] else [])) ++ [Gate.iqft 1])))⟩ ((List.range n).reverse)) from rfl]
  rw [hfold]
  rfl


/-- `c2Build` fully elaborated: register table and gate list of the
translated divide-two-variables program. -/
lemma c2Build_eq (n : ℕ) (a b : ℤ)
    (halo : -2 ^ (n - 1) ≤ a) (hahi : a ≤ 2 ^ (n - 1) - 1)
    (hblo : -2 ^ (n - 1) ≤ b) (hbhi : b ≤ 2 ^ (n - 1) - 1) :
    c2Build n a b = some (⟨[n, n, 1, 1, n, n, 1, 1], (((((((((((((((((((((((List.range n).filter (fun i => (int_to_twos_complement n a).getD i false)).map (fun i => Gate.x ⟨0, i⟩)) ++ (((List.range n).filter (fun i => (int_to_twos_complement n b).getD i false)).map (fun i => Gate.x ⟨1, i⟩))) ++ [Gate.cx ⟨0, n - 1⟩ ⟨2, 0⟩]) ++ ((List.range n).map (fun i => Gate.cx ⟨2, 0⟩ ⟨0, i⟩))) ++ (Gate.qft 0 :: (((List.range n).flatMap (fun j => if (if (0 : ℤ) ≤ 1 then ((bitsVal (int_to_twos_complement n 1) : ℕ) : ℤ) else ((bitsVal (int_to_twos_complement n 1) : ℕ) : ℤ) - 2 ^ n) ≠ 0 then [Gate.cp ⟨(if (0 : ℤ) ≤ 1 then ((bitsVal (int_to_twos_complement n 1) : ℕ) : ℤ) else ((bitsVal (int_to_twos_complement n 1) : ℕ) : ℤ) - 2 ^ n), j + 1⟩ ⟨2, 0⟩ ⟨0, j⟩] else [])) ++ [Gate.iqft 0]))) ++ [Gate.cx ⟨1, n - 1⟩ ⟨3, 0⟩]) ++ ((List.range n).map (fun i => Gate.cx ⟨3, 0⟩ ⟨1, i⟩))) ++ (Gate.qft 1 :: (((List.range n).flatMap (fun j => if (if (0 : ℤ) ≤ 1 then ((bitsVal (int_to_twos_complement n 1) : ℕ) : ℤ) else ((bitsVal (int_to_twos_complement n 1) : ℕ) : ℤ) - 2 ^ n) ≠ 0 then [Gate.cp ⟨(if (0 : ℤ) ≤ 1 then ((bitsVal (int_to_twos_complement n 1) : ℕ) : ℤ) else ((bitsVal (int_to_twos_complement n 1) : ℕ) : ℤ) - 2 ^ n), j + 1⟩ ⟨3, 0⟩ ⟨1, j⟩] else [])) ++ [Gate.iqft 1]))) ++ ((List.range n).reverse.flatMap (divuIterG n 0 1 4 5 6))) ++ [Gate.cx ⟨2, 0⟩ ⟨7, 0⟩, Gate.cx ⟨3, 0⟩ ⟨7, 0⟩]) ++ ((List.range n).map (fun i => Gate.cx ⟨7, 0⟩ ⟨4, i⟩))) ++ (Gate.qft 4 :: (((List.range n).flatMap (fun j => if (if (0 : ℤ) ≤ 1 then ((bitsVal (int_to_twos_complement n 1) : ℕ) : ℤ) else ((bitsVal (int_to_twos_complement n 1) : ℕ) : ℤ) - 2 ^ n) ≠ 0 then [Gate.cp ⟨(if (0 : ℤ) ≤ 1 then ((bitsVal (int_to_twos_complement n 1) : ℕ) : ℤ) else ((bitsVal (int_to_twos_complement n 1) : ℕ) : ℤ) - 2 ^ n), j + 1⟩ ⟨7, 0⟩ ⟨4, j⟩] else [])) ++ [Gate.iqft 4]))) ++ [Gate.cx ⟨4, n - 1⟩ ⟨7, 0⟩]) ++ ((List.range n).map (fun i => Gate.cx ⟨2, 0⟩ ⟨5, i⟩))) ++ (Gate.qft 5 :: (((List.range n).flatMap (fun j => if (if (0 : ℤ) ≤ 1 then ((bitsVal (int_to_twos_complement n 1) : ℕ) : ℤ) else ((bitsVal (int_to_twos_complement n 1) : ℕ) : ℤ) - 2 ^ n) ≠ 0 then [Gate.cp ⟨(if (0 : ℤ) ≤ 1 then ((bitsVal (int_to_twos_complement n 1) : ℕ) : ℤ) else ((bitsVal (int_to_twos_complement n 1) : ℕ) : ℤ) - 2 ^ n), j + 1⟩ ⟨2, 0⟩ ⟨5, j⟩] else [])) ++ [Gate.iqft 5]))) ++ ((List.range n).map (fun i => Gate.cx ⟨2, 0⟩ ⟨0, i⟩))) ++ (Gate.qft 0 :: (((List.range n).flatMap (fun j => if (if (0 : ℤ) ≤ 1 then ((bitsVal (int_to_twos_complement n 1) : ℕ) : ℤ) else ((bitsVal (int_to_twos_complement n 1) : ℕ) : ℤ) - 2 ^ n) ≠ 0 then [Gate.cp ⟨(if (0 : ℤ) ≤ 1 then ((bitsVal (int_to_twos_complement n 1) : ℕ) : ℤ) else ((bitsVal (int_to_twos_complement n 1) : ℕ) : ℤ) - 2 ^ n), j + 1⟩ ⟨2, 0⟩ ⟨0, j⟩] else [])) ++ [Gate.iqft 0]))) ++ [Gate.cx ⟨0, n - 1⟩ ⟨2, 0⟩]) ++ ((List.range n).map (fun i => Gate.cx ⟨3, 0⟩ ⟨1, i⟩))) ++ (Gate.qft 1 :: (((List.range n).flatMap (fun j => if (if (0 : ℤ) ≤ 1 then ((bitsVal (int_to_twos_complement n 1) : ℕ) : ℤ) else ((bitsVal (int_to_twos_complement n 1) : ℕ) : ℤ) - 2 ^ n) ≠ 0 then [Gate.cp ⟨(if (0 : ℤ) ≤ 1 then ((bitsVal (int_to_twos_complement n 1) : ℕ) : ℤ) else ((bitsVal (int_to_twos_complement n 1) : ℕ) : ℤ) - 2 ^ n), j + 1⟩ ⟨3, 0⟩ ⟨1, j⟩] else [])) ++ [Gate.iqft 1]))) ++ [Gate.cx ⟨1, n - 1⟩ ⟨3, 0⟩])⟩, 4, 5) := by
  have h1 : initialize_variable n Circuit.empty a = some (⟨[n], (((List.range n).filter (fun i => (int_to_twos_complement n a).getD i false)).map (fun i => Gate.x ⟨0, i⟩))⟩, 0) := by
    rw [init_var_eq n Circuit.empty a halo hahi]
    rfl
  have h2 : initialize_variable n ⟨[n], (((List.range n).filter (fun i => (int_to_twos_complement n a).getD i false)).map (fun i => Gate.x ⟨0, i⟩))⟩ b
      = some (⟨[n, n], (((List.range n).filter (fun i => (int_to_twos_complement n a).getD i false)).map (fun i => Gate.x ⟨0, i⟩)) ++ (((List.range n).filter (fun i => (int_to_twos_complement n b).getD i false)).map (fun i => Gate.x ⟨1, i⟩))⟩, 1) := by
    rw [init_var_eq n _ b hblo hbhi]
    rfl
  unfold c2Build
  rw [h1]
  simp only []
  rw [h2]
  simp only []
  rw [div_gates_eq n ((((List.range n).filter (fun i => (int_to_twos_complement n a).getD i false)).map (fun i => Gate.x ⟨0, i⟩)) ++ (((List.range n).filter (fun i => (int_to_twos_complement n b).getD i false)).map (fun i => Gate.x ⟨1, i⟩)))]

/-- Running the full signed-division pipeline on a positive dividend:
the quotient register decodes to the truncating quotient and the
remainder register to `a - q*b`. -/
lemma c2_pipeline (n : ℕ) (a b : ℤ) (hn : 0 < n) (ha_pos : 0 < a)
    (hahi : a ≤ 2 ^ (n - 1) - 1) (hb : b ≠ 0) (hblo : -2 ^ (n - 1) ≤ b)
    (hbhi : b ≤ 2 ^ (n - 1) - 1) :
    ∃ st, Circuit.exec ⟨[n, n, 1, 1, n, n, 1, 1], (((((((((((((((((((((((List.range n).filter (fun i => (int_to_twos_complement n a).getD i false)).map (fun i => Gate.x ⟨0, i⟩)) ++ (((List.range n).filter (fun i => (int_to_twos_complement n b).getD i false)).map (fun i => Gate.x ⟨1, i⟩))) ++ [Gate.cx ⟨0, n - 1⟩ ⟨2, 0⟩]) ++ ((List.range n).map (fun i => Gate.cx ⟨2, 0⟩ ⟨0, i⟩))) ++ (Gate.qft 0 :: (((List.range n).flatMap (fun j => if (if (0 : ℤ) ≤ 1 then ((bitsVal (int_to_twos_complement n 1) : ℕ) : ℤ) else ((bitsVal (int_to_twos_complement n 1) : ℕ) : ℤ) - 2 ^ n) ≠ 0 then [Gate.cp ⟨(if (0 : ℤ) ≤ 1 then ((bitsVal (int_to_twos_complement n 1) : ℕ) : ℤ) else ((bitsVal (int_to_twos_complement n 1) : ℕ) : ℤ) - 2 ^ n), j + 1⟩ ⟨2, 0⟩ ⟨0, j⟩] else [])) ++ [Gate.iqft 0]))) ++ [Gate.cx ⟨1, n - 1⟩ ⟨3, 0⟩]) ++ ((List.range n).map (fun i => Gate.cx ⟨3, 0⟩ ⟨1, i⟩))) ++ (Gate.qft 1 :: (((List.range n).flatMap (fun j => if (if (0 : ℤ) ≤ 1 then ((bitsVal (int_to_twos_complement n 1) : ℕ) : ℤ) else ((bitsVal (int_to_twos_complement n 1) : ℕ) : ℤ) - 2 ^ n) ≠ 0 then [Gate.cp ⟨(if (0 : ℤ) ≤ 1 then ((bitsVal (int_to_twos_complement n 1) : ℕ) : ℤ) else ((bitsVal (int_to_twos_complement n 1) : ℕ) : ℤ) - 2 ^ n), j + 1⟩ ⟨3, 0⟩ ⟨1, j⟩] else [])) ++ [Gate.iqft 1]))) ++ ((List.range n).reverse.flatMap (divuIterG n 0 1 4 5 6))) ++ [Gate.cx ⟨2, 0⟩ ⟨7, 0⟩, Gate.cx ⟨3, 0⟩ ⟨7, 0⟩]) ++ ((List.range n).map (fun i => Gate.cx ⟨7, 0⟩ ⟨4, i⟩))) ++ (Gate.qft 4 :: (((List.range n).flatMap (fun j => if (if (0 : ℤ) ≤ 1 then ((bitsVal (int_to_twos_complement n 1) : ℕ) : ℤ) else ((bitsVal (int_to_twos_complement n 1) : ℕ) : ℤ) - 2 ^ n) ≠ 0 then [Gate.cp ⟨(if (0 : ℤ) ≤ 1 then ((bitsVal (int_to_twos_complement n 1) : ℕ) : ℤ) else ((bitsVal (int_to_twos_complement n 1) : ℕ) : ℤ) - 2 ^ n), j + 1⟩ ⟨7, 0⟩ ⟨4, j⟩] else [])) ++ [Gate.iqft 4]))) ++ [Gate.cx ⟨4, n - 1⟩ ⟨7, 0⟩]) ++ ((List.range n).map (fun i => Gate.cx ⟨2, 0⟩ ⟨5, i⟩))) ++ (Gate.qft 5 :: (((List.range n).flatMap (fun j => if (if (0 : ℤ) ≤ 1 then ((bitsVal (int_to_twos_complement n 1) : ℕ) : ℤ) else ((bitsVal (int_to_twos_complement n 1) : ℕ) : ℤ) - 2 ^ n) ≠ 0 then [Gate.cp ⟨(if (0 : ℤ) ≤ 1 then ((bitsVal (int_to_twos_complement n 1) : ℕ) : ℤ) else ((bitsVal (int_to_twos_complement n 1) : ℕ) : ℤ) - 2 ^ n), j + 1⟩ ⟨2, 0⟩ ⟨5, j⟩] else [])) ++ [Gate.iqft 5]))) ++ ((List.range n).map (fun i => Gate.cx ⟨2, 0⟩ ⟨0, i⟩))) ++ (Gate.qft 0 :: (((List.range n).flatMap (fun j => if (if (0 : ℤ) ≤ 1 then ((bitsVal (int_to_twos_complement n 1) : ℕ) : ℤ) else ((bitsVal (int_to_twos_complement n 1) : ℕ) : ℤ) - 2 ^ n) ≠ 0 then [Gate.cp ⟨(if (0 : ℤ) ≤ 1 then ((bitsVal (int_to_twos_complement n 1) : ℕ) : ℤ) else ((bitsVal (int_to_twos_complement n 1) : ℕ) : ℤ) - 2 ^ n), j + 1⟩ ⟨2, 0⟩ ⟨0, j⟩] else [])) ++ [Gate.iqft 0]))) ++ [Gate.cx ⟨0, n - 1⟩ ⟨2, 0⟩]) ++ ((List.range n).map (fun i => Gate.cx ⟨3, 0⟩ ⟨1, i⟩))) ++ (Gate.qft 1 :: (((List.range n).flatMap (fun j => if (if (0 : ℤ) ≤ 1 then ((bitsVal (int_to_twos_complement n 1) : ℕ) : ℤ) else ((bitsVal (int_to_twos_complement n 1) : ℕ) : ℤ) - 2 ^ n) ≠ 0 then [Gate.cp ⟨(if (0 : ℤ) ≤ 1 then ((bitsVal (int_to_twos_complement n 1) : ℕ) : ℤ) else ((bitsVal (int_to_twos_complement n 1) : ℕ) : ℤ) - 2 ^ n), j + 1⟩ ⟨3, 0⟩ ⟨1, j⟩] else [])) ++ [Gate.iqft 1]))) ++ [Gate.cx ⟨1, n - 1⟩ ⟨3, 0⟩])⟩ = some st
      ∧ st.decodeReg 4 = some (a.tdiv b)
      ∧ st.decodeReg 5 = some (a - a.tdiv b * b) := by
  have hc2 : (((2 : ℕ) ^ n : ℕ) : ℤ) = (2 : ℤ) ^ n := by push_cast; rfl
  have hcP : (((2 : ℕ) ^ (n - 1) : ℕ) : ℤ) = (2 : ℤ) ^ (n - 1) := by
    push_cast; rfl
  have h2n : (2 : ℕ) ^ n = 2 ^ (n - 1) * 2 := by
    rw [← pow_succ]
    congr 1
    omega
  have hn2 : 2 ≤ n := by
    by_contra hlt
    have hn1 : n = 1 := by omega
    rw [hn1] at hahi
    norm_num at hahi
    omega
  have hVAlt : a.toNat < 2 ^ n := by omega
  have hVAsm : a.toNat < 2 ^ (n - 1) := by omega
  have haA : int_to_twos_complement n a = natToBits n a.toNat := by
    rw [int_to_twos_eq_natToBits, if_neg (by omega : ¬ a < 0)]
  have hmsbA : (natToBits n a.toNat).getD (n - 1) false = false := by
    rw [getD_natToBits n a.toNat (n - 1) (by omega),
      testBit_msb n _ (by omega) hVAlt]
    exact decide_eq_false (by omega)
  have hb'len : ((if decide (b < 0) then natToBits n ((2 ^ n - bitsVal (int_to_twos_complement n b)) % 2 ^ n) else int_to_twos_complement n b) : List Bool).length = n := inv_mag_len n b
  have hb'val : bitsVal (if decide (b < 0) then natToBits n ((2 ^ n - bitsVal (int_to_twos_complement n b)) % 2 ^ n) else int_to_twos_complement n b) = b.natAbs := inv_mag_val n b hn hb hblo hbhi
  have hvb_pos : 0 < bitsVal (if decide (b < 0) then natToBits n ((2 ^ n - bitsVal (int_to_twos_complement n b)) % 2 ^ n) else int_to_twos_complement n b) := by
    rw [hb'val]
    omega
  have hvb_le : bitsVal (if decide (b < 0) then natToBits n ((2 ^ n - bitsVal (int_to_twos_complement n b)) % 2 ^ n) else int_to_twos_complement n b) ≤ 2 ^ (n - 1) := by
    rw [hb'val]
    omega
  have hdiv0 : a.toNat / 2 ^ n = 0 := Nat.div_eq_of_lt hVAlt
  have hQlt : a.toNat / b.natAbs < 2 ^ n := by
    have := Nat.div_le_self a.toNat b.natAbs
    omega
  have hbvQ : bitsVal (natToBits n (a.toNat / b.natAbs))
      = a.toNat / b.natAbs := by
    rw [bitsVal_natToBits]
    exact Nat.mod_eq_of_lt hQlt
  have hlenQB : ((if decide (b < 0) then natToBits n ((2 ^ n - a.toNat / b.natAbs) % 2 ^ n) else natToBits n (a.toNat / b.natAbs)) : List Bool).length = n := by
    cases decide (b < 0)
    · rw [if_neg (by simp), length_natToBits]
    · rw [if_pos rfl, length_natToBits]
  have hlenJB : ((if decide (b < 0) then natToBits n ((2 ^ n - bitsVal (if decide (b < 0) then natToBits n ((2 ^ n - bitsVal (int_to_twos_complement n b)) % 2 ^ n) else int_to_twos_complement n b)) % 2 ^ n) else (if decide (b < 0) then natToBits n ((2 ^ n - bitsVal (int_to_twos_complement n b)) % 2 ^ n) else int_to_twos_complement n b)) : List Bool).length = n := by
    cases decide (b < 0) <;> simp [length_natToBits, length_int_to_twos]
  have hloop := run_divu_loop n a.toNat (if decide (b < 0) then natToBits n ((2 ^ n - bitsVal (int_to_twos_complement n b)) % 2 ^ n) else int_to_twos_complement n b) (RegSt.basis [false])
    (RegSt.basis [decide (b < 0)]) [RegSt.basis [false]]
    hb'len hn hvb_pos hvb_le n (le_refl n)
  rw [hb'val, aBitsAt_full, qBitsAt_start, hdiv0, Nat.zero_mod,
    natToBits_zero] at hloop
  refine ⟨([RegSt.basis (List.replicate n false),
      RegSt.basis (if decide (b < 0) then natToBits n ((2 ^ n - bitsVal (if decide (b < 0) then natToBits n ((2 ^ n - bitsVal (int_to_twos_complement n b)) % 2 ^ n) else int_to_twos_complement n b)) % 2 ^ n) else (if decide (b < 0) then natToBits n ((2 ^ n - bitsVal (int_to_twos_complement n b)) % 2 ^ n) else int_to_twos_complement n b)),
      RegSt.basis [false],
      RegSt.basis [(xor ((if decide (b < 0) then natToBits n ((2 ^ n - bitsVal (if decide (b < 0) then natToBits n ((2 ^ n - bitsVal (int_to_twos_complement n b)) % 2 ^ n) else int_to_twos_complement n b)) % 2 ^ n) else (if decide (b < 0) then natToBits n ((2 ^ n - bitsVal (int_to_twos_complement n b)) % 2 ^ n) else int_to_twos_complement n b)).getD (n - 1) false) (decide (b < 0)))],
      RegSt.basis (if decide (b < 0) then natToBits n ((2 ^ n - a.toNat / b.natAbs) % 2 ^ n) else natToBits n (a.toNat / b.natAbs)),
      RegSt.basis (natToBits n (a.toNat % b.natAbs)),
      RegSt.basis [false],
      RegSt.basis [(xor ((if decide (b < 0) then natToBits n ((2 ^ n - a.toNat / b.natAbs) % 2 ^ n) else natToBits n (a.toNat / b.natAbs)).getD (n - 1) false) (decide (b < 0)))]] : QState), ?_, ?_, ?_⟩
  · show run (((((((((((((((((((((((List.range n).filter (fun i => (int_to_twos_complement n a).getD i false)).map (fun i => Gate.x ⟨0, i⟩)) ++ (((List.range n).filter (fun i => (int_to_twos_complement n b).getD i false)).map (fun i => Gate.x ⟨1, i⟩))) ++ [Gate.cx ⟨0, n - 1⟩ ⟨2, 0⟩]) ++ ((List.range n).map (fun i => Gate.cx ⟨2, 0⟩ ⟨0, i⟩))) ++ (Gate.qft 0 :: (((List.range n).flatMap (fun j => if (if (0 : ℤ) ≤ 1 then ((bitsVal (int_to_twos_complement n 1) : ℕ) : ℤ) else ((bitsVal (int_to_twos_complement n 1) : ℕ) : ℤ) - 2 ^ n) ≠ 0 then [Gate.cp ⟨(if (0 : ℤ) ≤ 1 then ((bitsVal (int_to_twos_complement n 1) : ℕ) : ℤ) else ((bitsVal (int_to_twos_complement n 1) : ℕ) : ℤ) - 2 ^ n), j + 1⟩ ⟨2, 0⟩ ⟨0, j⟩] else [])) ++ [Gate.iqft 0]))) ++ [Gate.cx ⟨1, n - 1⟩ ⟨3, 0⟩]) ++ ((List.range n).map (fun i => Gate.cx ⟨3, 0⟩ ⟨1, i⟩))) ++ (Gate.qft 1 :: (((List.range n).flatMap (fun j => if (if (0 : ℤ) ≤ 1 then ((bitsVal (int_to_twos_complement n 1) : ℕ) : ℤ) else ((bitsVal (int_to_twos_complement n 1) : ℕ) : ℤ) - 2 ^ n) ≠ 0 then [Gate.cp ⟨(if (0 : ℤ) ≤ 1 then ((bitsVal (int_to_twos_complement n 1) : ℕ) : ℤ) else ((bitsVal (int_to_twos_complement n 1) : ℕ) : ℤ) - 2 ^ n), j + 1⟩ ⟨3, 0⟩ ⟨1, j⟩] else [])) ++ [Gate.iqft 1]))) ++ ((List.range n).reverse.flatMap (divuIterG n 0 1 4 5 6))) ++ [Gate.cx ⟨2, 0⟩ ⟨7, 0⟩, Gate.cx ⟨3, 0⟩ ⟨7, 0⟩]) ++ ((List.range n).map (fun i => Gate.cx ⟨7, 0⟩ ⟨4, i⟩))) ++ (Gate.qft 4 :: (((List.range n).flatMap (fun j => if (if (0 : ℤ) ≤ 1 then ((bitsVal (int_to_twos_complement n 1) : ℕ) : ℤ) else ((bitsVal (int_to_twos_complement n 1) : ℕ) : ℤ) - 2 ^ n) ≠ 0 then [Gate.cp ⟨(if (0 : ℤ) ≤ 1 then ((bitsVal (int_to_twos_complement n 1) : ℕ) : ℤ) else ((bitsVal (int_to_twos_complement n 1) : ℕ) : ℤ) - 2 ^ n), j + 1⟩ ⟨7, 0⟩ ⟨4, j⟩] else [])) ++ [Gate.iqft 4]))) ++ [Gate.cx ⟨4, n - 1⟩ ⟨7, 0⟩]) ++ ((List.range n).map (fun i => Gate.cx ⟨2, 0⟩ ⟨5, i⟩))) ++ (Gate.qft 5 :: (((List.range n).flatMap (fun j => if (if (0 : ℤ) ≤ 1 then ((bitsVal (int_to_twos_complement n 1) : ℕ) : ℤ) else ((bitsVal (int_to_twos_complement n 1) : ℕ) : ℤ) - 2 ^ n) ≠ 0 then [Gate.cp ⟨(if (0 : ℤ) ≤ 1 then ((bitsVal (int_to_twos_complement n 1) : ℕ) : ℤ) else ((bitsVal (int_to_twos_complement n 1) : ℕ) : ℤ) - 2 ^ n), j + 1⟩ ⟨2, 0⟩ ⟨5, j⟩] else [])) ++ [Gate.iqft 5]))) ++ ((List.range n).map (fun i => Gate.cx ⟨2, 0⟩ ⟨0, i⟩))) ++ (Gate.qft 0 :: (((List.range n).flatMap (fun j => if (if (0 : ℤ) ≤ 1 then ((bitsVal (int_to_twos_complement n 1) : ℕ) : ℤ) else ((bitsVal (int_to_twos_complement n 1) : ℕ) : ℤ) - 2 ^ n) ≠ 0 then [Gate.cp ⟨(if (0 : ℤ) ≤ 1 then ((bitsVal (int_to_twos_complement n 1) : ℕ) : ℤ) else ((bitsVal (int_to_twos_complement n 1) : ℕ) : ℤ) - 2 ^ n), j + 1⟩ ⟨2, 0⟩ ⟨0, j⟩] else [])) ++ [Gate.iqft 0]))) ++ [Gate.cx ⟨0, n - 1⟩ ⟨2, 0⟩]) ++ ((List.range n).map (fun i => Gate.cx ⟨3, 0⟩ ⟨1, i⟩))) ++ (Gate.qft 1 :: (((List.range n).flatMap (fun j => if (if (0 : ℤ) ≤ 1 then ((bitsVal (int_to_twos_complement n 1) : ℕ) : ℤ) else ((bitsVal (int_to_twos_complement n 1) : ℕ) : ℤ) - 2 ^ n) ≠ 0 then [Gate.cp ⟨(if (0 : ℤ) ≤ 1 then ((bitsVal (int_to_twos_complement n 1) : ℕ) : ℤ) else ((bitsVal (int_to_twos_complement n 1) : ℕ) : ℤ) - 2 ^ n), j + 1⟩ ⟨3, 0⟩ ⟨1, j⟩] else [])) ++ [Gate.iqft 1]))) ++ [Gate.cx ⟨1, n - 1⟩ ⟨3, 0⟩]) ([RegSt.basis (List.replicate n false),
      RegSt.basis (List.replicate n false),
      RegSt.basis [false],
      RegSt.basis [false],
      RegSt.basis (List.replicate n false),
      RegSt.basis (List.replicate n false),
      RegSt.basis [false],
      RegSt.basis [false]] : QState) = some ([RegSt.basis (List.replicate n false),
      RegSt.basis (if decide (b < 0) then natToBits n ((2 ^ n - bitsVal (if decide (b < 0) then natToBits n ((2 ^ n - bitsVal (int_to_twos_complement n b)) % 2 ^ n) else int_to_twos_complement n b)) % 2 ^ n) else (if decide (b < 0) then natToBits n ((2 ^ n - bitsVal (int_to_twos_complement n b)) % 2 ^ n) else int_to_twos_complement n b)),
      RegSt.basis [false],
      RegSt.basis [(xor ((if decide (b < 0) then natToBits n ((2 ^ n - bitsVal (if decide (b < 0) then natToBits n ((2 ^ n - bitsVal (int_to_twos_complement n b)) % 2 ^ n) else int_to_twos_complement n b)) % 2 ^ n) else (if decide (b < 0) then natToBits n ((2 ^ n - bitsVal (int_to_twos_complement n b)) % 2 ^ n) else int_to_twos_complement n b)).getD (n - 1) false) (decide (b < 0)))],
      RegSt.basis (if decide (b < 0) then natToBits n ((2 ^ n - a.toNat / b.natAbs) % 2 ^ n) else natToBits n (a.toNat / b.natAbs)),
      RegSt.basis (natToBits n (a.toNat % b.natAbs)),
      RegSt.basis [false],
      RegSt.basis [(xor ((if decide (b < 0) then natToBits n ((2 ^ n - a.toNat / b.natAbs) % 2 ^ n) else natToBits n (a.toNat / b.natAbs)).getD (n - 1) false) (decide (b < 0)))]] : QState)
    simp only [run_append]
    rw [run_init_xwave ([RegSt.basis (List.replicate n false),
      RegSt.basis (List.replicate n false),
      RegSt.basis [false],
      RegSt.basis [false],
      RegSt.basis (List.replicate n false),
      RegSt.basis (List.replicate n false),
      RegSt.basis [false],
      RegSt.basis [false]] : QState) 0 n (int_to_twos_complement n a) rfl
      (length_int_to_twos n a), Option.some_bind]
    rw [show ([RegSt.basis (List.replicate n false),
      RegSt.basis (List.replicate n false),
      RegSt.basis [false],
      RegSt.basis [false],
      RegSt.basis (List.replicate n false),
      RegSt.basis (List.replicate n false),
      RegSt.basis [false],
      RegSt.basis [false]] : QState).set 0 (RegSt.basis (int_to_twos_complement n a)) = ([RegSt.basis (int_to_twos_complement n a),
      RegSt.basis (List.replicate n false),
      RegSt.basis [false],
      RegSt.basis [false],
      RegSt.basis (List.replicate n false),
      RegSt.basis (List.replicate n false),
      RegSt.basis [false],
      RegSt.basis [false]] : QState) from rfl]
    rw [run_init_xwave ([RegSt.basis (int_to_twos_complement n a),
      RegSt.basis (List.replicate n false),
      RegSt.basis [false],
      RegSt.basis [false],
      RegSt.basis (List.replicate n false),
      RegSt.basis (List.replicate n false),
      RegSt.basis [false],
      RegSt.basis [false]] : QState) 1 n (int_to_twos_complement n b) rfl
      (length_int_to_twos n b), Option.some_bind]
    rw [show ([RegSt.basis (int_to_twos_complement n a),
      RegSt.basis (List.replicate n false),
      RegSt.basis [false],
      RegSt.basis [false],
      RegSt.basis (List.replicate n false),
      RegSt.basis (List.replicate n false),
      RegSt.basis [false],
      RegSt.basis [false]] : QState).set 1 (RegSt.basis (int_to_twos_complement n b)) = ([RegSt.basis (int_to_twos_complement n a),
      RegSt.basis (int_to_twos_complement n b),
      RegSt.basis [false],
      RegSt.basis [false],
      RegSt.basis (List.replicate n false),
      RegSt.basis (List.replicate n false),
      RegSt.basis [false],
      RegSt.basis [false]] : QState) from rfl]
    rw [haA]
    rw [run_single_cx ([RegSt.basis (natToBits n a.toNat),
      RegSt.basis (int_to_twos_complement n b),
      RegSt.basis [false],
      RegSt.basis [false],
      RegSt.basis (List.replicate n false),
      RegSt.basis (List.replicate n false),
      RegSt.basis [false],
      RegSt.basis [false]] : QState) 0 2 (n - 1) (natToBits n a.toNat) rfl rfl
      (by rw [length_natToBits]; omega) (by omega), Option.some_bind]
    rw [hmsbA]
    rw [show ([RegSt.basis (natToBits n a.toNat),
      RegSt.basis (int_to_twos_complement n b),
      RegSt.basis [false],
      RegSt.basis [false],
      RegSt.basis (List.replicate n false),
      RegSt.basis (List.replicate n false),
      RegSt.basis [false],
      RegSt.basis [false]] : QState).set 2 (RegSt.basis [false]) = ([RegSt.basis (natToBits n a.toNat),
      RegSt.basis (int_to_twos_complement n b),
      RegSt.basis [false],
      RegSt.basis [false],
      RegSt.basis (List.replicate n false),
      RegSt.basis (List.replicate n false),
      RegSt.basis [false],
      RegSt.basis [false]] : QState) from rfl]
    rw [run_ctrl_invert_chunks ([RegSt.basis (natToBits n a.toNat),
      RegSt.basis (int_to_twos_complement n b),
      RegSt.basis [false],
      RegSt.basis [false],
      RegSt.basis (List.replicate n false),
      RegSt.basis (List.replicate n false),
      RegSt.basis [false],
      RegSt.basis [false]] : QState) 0 n (natToBits n a.toNat) ⟨2, 0⟩ false
      rfl rfl (by decide) (length_natToBits n _) hn, Option.some_bind]
    rw [show ([RegSt.basis (natToBits n a.toNat),
      RegSt.basis (int_to_twos_complement n b),
      RegSt.basis [false],
      RegSt.basis [false],
      RegSt.basis (List.replicate n false),
      RegSt.basis (List.replicate n false),
      RegSt.basis [false],
      RegSt.basis [false]] : QState).set 0 (RegSt.basis (if false then
      natToBits n ((2 ^ n - bitsVal (natToBits n a.toNat)) % 2 ^ n)
      else natToBits n a.toNat)) = ([RegSt.basis (natToBits n a.toNat),
      RegSt.basis (int_to_twos_complement n b),
      RegSt.basis [false],
      RegSt.basis [false],
      RegSt.basis (List.replicate n false),
      RegSt.basis (List.replicate n false),
      RegSt.basis [false],
      RegSt.basis [false]] : QState) from rfl]
    rw [run_single_cx ([RegSt.basis (natToBits n a.toNat),
      RegSt.basis (int_to_twos_complement n b),
      RegSt.basis [false],
      RegSt.basis [false],
      RegSt.basis (List.replicate n false),
      RegSt.basis (List.replicate n false),
      RegSt.basis [false],
      RegSt.basis [false]] : QState) 1 3 (n - 1) (int_to_twos_complement n b) rfl rfl
      (by rw [length_int_to_twos]; omega) (by omega), Option.some_bind]
    rw [msb_twos n b hn hblo hbhi]
    rw [show ([RegSt.basis (natToBits n a.toNat),
      RegSt.basis (int_to_twos_complement n b),
      RegSt.basis [false],
      RegSt.basis [false],
      RegSt.basis (List.replicate n false),
      RegSt.basis (List.replicate n false),
      RegSt.basis [false],
      RegSt.basis [false]] : QState).set 3 (RegSt.basis [decide (b < 0)]) = ([RegSt.basis (natToBits n a.toNat),
      RegSt.basis (int_to_twos_complement n b),
      RegSt.basis [false],
      RegSt.basis [decide (b < 0)],
      RegSt.basis (List.replicate n false),
      RegSt.basis (List.replicate n false),
      RegSt.basis [false],
      RegSt.basis [false]] : QState) from rfl]
    rw [run_ctrl_invert_chunks ([RegSt.basis (natToBits n a.toNat),
      RegSt.basis (int_to_twos_complement n b),
      RegSt.basis [false],
      RegSt.basis [decide (b < 0)],
      RegSt.basis (List.replicate n false),
      RegSt.basis (List.replicate n false),
      RegSt.basis [false],
      RegSt.basis [false]] : QState) 1 n (int_to_twos_complement n b) ⟨3, 0⟩
      (decide (b < 0)) rfl rfl (by decide) (length_int_to_twos n b) hn,
      Option.some_bind]
    rw [show ([RegSt.basis (natToBits n a.toNat),
      RegSt.basis (int_to_twos_complement n b),
      RegSt.basis [false],
      RegSt.basis [decide (b < 0)],
      RegSt.basis (List.replicate n false),
      RegSt.basis (List.replicate n false),
      RegSt.basis [false],
      RegSt.basis [false]] : QState).set 1 (RegSt.basis (if decide (b < 0) then natToBits n ((2 ^ n - bitsVal (int_to_twos_complement n b)) % 2 ^ n) else int_to_twos_complement n b)) = ([RegSt.basis (natToBits n a.toNat),
      RegSt.basis (if decide (b < 0) then natToBits n ((2 ^ n - bitsVal (int_to_twos_complement n b)) % 2 ^ n) else int_to_twos_complement n b),
      RegSt.basis [false],
      RegSt.basis [decide (b < 0)],
      RegSt.basis (List.replicate n false),
      RegSt.basis (List.replicate n false),
      RegSt.basis [false],
      RegSt.basis [false]] : QState) from rfl]
    rw [show ([RegSt.basis (natToBits n a.toNat),
      RegSt.basis (if decide (b < 0) then natToBits n ((2 ^ n - bitsVal (int_to_twos_complement n b)) % 2 ^ n) else int_to_twos_complement n b),
      RegSt.basis [false],
      RegSt.basis [decide (b < 0)],
      RegSt.basis (List.replicate n false),
      RegSt.basis (List.replicate n false),
      RegSt.basis [false],
      RegSt.basis [false]] : QState) = ([RegSt.basis (natToBits n a.toNat),
      RegSt.basis (if decide (b < 0) then natToBits n ((2 ^ n - bitsVal (int_to_twos_complement n b)) % 2 ^ n) else int_to_twos_complement n b),
      RegSt.basis [false],
      RegSt.basis [decide (b < 0)],
      RegSt.basis (List.replicate n false),
      RegSt.basis (List.replicate n false),
      RegSt.basis [false]] ++ [RegSt.basis [false]] : QState) from rfl]
    rw [hloop, Option.some_bind]
    rw [show ([RegSt.basis (List.replicate n false),
      RegSt.basis (if decide (b < 0) then natToBits n ((2 ^ n - bitsVal (int_to_twos_complement n b)) % 2 ^ n) else int_to_twos_complement n b),
      RegSt.basis [false],
      RegSt.basis [decide (b < 0)],
      RegSt.basis (natToBits n (a.toNat / b.natAbs)),
      RegSt.basis (natToBits n (a.toNat % b.natAbs)),
      RegSt.basis [false]] ++ [RegSt.basis [false]] : QState) = ([RegSt.basis (List.replicate n false),
      RegSt.basis (if decide (b < 0) then natToBits n ((2 ^ n - bitsVal (int_to_twos_complement n b)) % 2 ^ n) else int_to_twos_complement n b),
      RegSt.basis [false],
      RegSt.basis [decide (b < 0)],
      RegSt.basis (natToBits n (a.toNat / b.natAbs)),
      RegSt.basis (natToBits n (a.toNat % b.natAbs)),
      RegSt.basis [false],
      RegSt.basis [false]] : QState) from rfl]
    rw [run_pair, run_single_cx' ([RegSt.basis (List.replicate n false),
      RegSt.basis (if decide (b < 0) then natToBits n ((2 ^ n - bitsVal (int_to_twos_complement n b)) % 2 ^ n) else int_to_twos_complement n b),
      RegSt.basis [false],
      RegSt.basis [decide (b < 0)],
      RegSt.basis (natToBits n (a.toNat / b.natAbs)),
      RegSt.basis (natToBits n (a.toNat % b.natAbs)),
      RegSt.basis [false],
      RegSt.basis [false]] : QState) 2 7 0 [false] false rfl rfl
      (by norm_num) (by omega), Option.some_bind]
    rw [show ([RegSt.basis (List.replicate n false),
      RegSt.basis (if decide (b < 0) then natToBits n ((2 ^ n - bitsVal (int_to_twos_complement n b)) % 2 ^ n) else int_to_twos_complement n b),
      RegSt.basis [false],
      RegSt.basis [decide (b < 0)],
      RegSt.basis (natToBits n (a.toNat / b.natAbs)),
      RegSt.basis (natToBits n (a.toNat % b.natAbs)),
      RegSt.basis [false],
      RegSt.basis [false]] : QState).set 7 (RegSt.basis [xor (([false] : List Bool).getD 0 false) false])
      = ([RegSt.basis (List.replicate n false),
      RegSt.basis (if decide (b < 0) then natToBits n ((2 ^ n - bitsVal (int_to_twos_complement n b)) % 2 ^ n) else int_to_twos_complement n b),
      RegSt.basis [false],
      RegSt.basis [decide (b < 0)],
      RegSt.basis (natToBits n (a.toNat / b.natAbs)),
      RegSt.basis (natToBits n (a.toNat % b.natAbs)),
      RegSt.basis [false],
      RegSt.basis [false]] : QState) from rfl]
    rw [run_single_cx' ([RegSt.basis (List.replicate n false),
      RegSt.basis (if decide (b < 0) then natToBits n ((2 ^ n - bitsVal (int_to_twos_complement n b)) % 2 ^ n) else int_to_twos_complement n b),
      RegSt.basis [false],
      RegSt.basis [decide (b < 0)],
      RegSt.basis (natToBits n (a.toNat / b.natAbs)),
      RegSt.basis (natToBits n (a.toNat % b.natAbs)),
      RegSt.basis [false],
      RegSt.basis [false]] : QState) 3 7 0 [decide (b < 0)] false rfl rfl
      (by norm_num) (by omega), Option.some_bind]
    rw [show (([decide (b < 0)] : List Bool).getD 0 false) = decide (b < 0) from rfl,
      Bool.xor_false]
    rw [show ([RegSt.basis (List.replicate n false),
      RegSt.basis (if decide (b < 0) then natToBits n ((2 ^ n - bitsVal (int_to_twos_complement n b)) % 2 ^ n) else int_to_twos_complement n b),
      RegSt.basis [false],
      RegSt.basis [decide (b < 0)],
      RegSt.basis (natToBits n (a.toNat / b.natAbs)),
      RegSt.basis (natToBits n (a.toNat % b.natAbs)),
      RegSt.basis [false],
      RegSt.basis [false]] : QState).set 7 (RegSt.basis [decide (b < 0)]) = ([RegSt.basis (List.replicate n false),
      RegSt.basis (if decide (b < 0) then natToBits n ((2 ^ n - bitsVal (int_to_twos_complement n b)) % 2 ^ n) else int_to_twos_complement n b),
      RegSt.basis [false],
      RegSt.basis [decide (b < 0)],
      RegSt.basis (natToBits n (a.toNat / b.natAbs)),
      RegSt.basis (natToBits n (a.toNat % b.natAbs)),
      RegSt.basis [false],
      RegSt.basis [decide (b < 0)]] : QState) from rfl]
    rw [run_ctrl_invert_chunks ([RegSt.basis (List.replicate n false),
      RegSt.basis (if decide (b < 0) then natToBits n ((2 ^ n - bitsVal (int_to_twos_complement n b)) % 2 ^ n) else int_to_twos_complement n b),
      RegSt.basis [false],
      RegSt.basis [decide (b < 0)],
      RegSt.basis (natToBits n (a.toNat / b.natAbs)),
      RegSt.basis (natToBits n (a.toNat % b.natAbs)),
      RegSt.basis [false],
      RegSt.basis [decide (b < 0)]] : QState) 4 n (natToBits n (a.toNat / b.natAbs))
      ⟨7, 0⟩ (decide (b < 0)) rfl rfl (by decide) (length_natToBits n _) hn,
      Option.some_bind]
    rw [hbvQ]
    rw [show ([RegSt.basis (List.replicate n false),
      RegSt.basis (if decide (b < 0) then natToBits n ((2 ^ n - bitsVal (int_to_twos_complement n b)) % 2 ^ n) else int_to_twos_complement n b),
      RegSt.basis [false],
      RegSt.basis [decide (b < 0)],
      RegSt.basis (natToBits n (a.toNat / b.natAbs)),
      RegSt.basis (natToBits n (a.toNat % b.natAbs)),
      RegSt.basis [false],
      RegSt.basis [decide (b < 0)]] : QState).set 4 (RegSt.basis (if decide (b < 0) then natToBits n ((2 ^ n - a.toNat / b.natAbs) % 2 ^ n) else natToBits n (a.toNat / b.natAbs))) = ([RegSt.basis (List.replicate n false),
      RegSt.basis (if decide (b < 0) then natToBits n ((2 ^ n - bitsVal (int_to_twos_complement n b)) % 2 ^ n) else int_to_twos_complement n b),
      RegSt.basis [false],
      RegSt.basis [decide (b < 0)],
      RegSt.basis (if decide (b < 0) then natToBits n ((2 ^ n - a.toNat / b.natAbs) % 2 ^ n) else natToBits n (a.toNat / b.natAbs)),
      RegSt.basis (natToBits n (a.toNat % b.natAbs)),
      RegSt.basis [false],
      RegSt.basis [decide (b < 0)]] : QState) from rfl]
    rw [run_single_cx' ([RegSt.basis (List.replicate n false),
      RegSt.basis (if decide (b < 0) then natToBits n ((2 ^ n - bitsVal (int_to_twos_complement n b)) % 2 ^ n) else int_to_twos_complement n b),
      RegSt.basis [false],
      RegSt.basis [decide (b < 0)],
      RegSt.basis (if decide (b < 0) then natToBits n ((2 ^ n - a.toNat / b.natAbs) % 2 ^ n) else natToBits n (a.toNat / b.natAbs)),
      RegSt.basis (natToBits n (a.toNat % b.natAbs)),
      RegSt.basis [false],
      RegSt.basis [decide (b < 0)]] : QState) 4 7 (n - 1) (if decide (b < 0) then natToBits n ((2 ^ n - a.toNat / b.natAbs) % 2 ^ n) else natToBits n (a.toNat / b.natAbs)) (decide (b < 0)) rfl rfl
      (by rw [hlenQB]; omega) (by omega), Option.some_bind]
    rw [show ([RegSt.basis (List.replicate n false),
      RegSt.basis (if decide (b < 0) then natToBits n ((2 ^ n - bitsVal (int_to_twos_complement n b)) % 2 ^ n) else int_to_twos_complement n b),
      RegSt.basis [false],
      RegSt.basis [decide (b < 0)],
      RegSt.basis (if decide (b < 0) then natToBits n ((2 ^ n - a.toNat / b.natAbs) % 2 ^ n) else natToBits n (a.toNat / b.natAbs)),
      RegSt.basis (natToBits n (a.toNat % b.natAbs)),
      RegSt.basis [false],
      RegSt.basis [decide (b < 0)]] : QState).set 7 (RegSt.basis [(xor ((if decide (b < 0) then natToBits n ((2 ^ n - a.toNat / b.natAbs) % 2 ^ n) else natToBits n (a.toNat / b.natAbs)).getD (n - 1) false) (decide (b < 0)))]) = ([RegSt.basis (List.replicate n false),
      RegSt.basis (if decide (b < 0) then natToBits n ((2 ^ n - bitsVal (int_to_twos_complement n b)) % 2 ^ n) else int_to_twos_complement n b),
      RegSt.basis [false],
      RegSt.basis [decide (b < 0)],
      RegSt.basis (if decide (b < 0) then natToBits n ((2 ^ n - a.toNat / b.natAbs) % 2 ^ n) else natToBits n (a.toNat / b.natAbs)),
      RegSt.basis (natToBits n (a.toNat % b.natAbs)),
      RegSt.basis [false],
      RegSt.basis [(xor ((if decide (b < 0) then natToBits n ((2 ^ n - a.toNat / b.natAbs) % 2 ^ n) else natToBits n (a.toNat / b.natAbs)).getD (n - 1) false) (decide (b < 0)))]] : QState) from rfl]
    rw [run_ctrl_invert_chunks ([RegSt.basis (List.replicate n false),
      RegSt.basis (if decide (b < 0) then natToBits n ((2 ^ n - bitsVal (int_to_twos_complement n b)) % 2 ^ n) else int_to_twos_complement n b),
      RegSt.basis [false],
      RegSt.basis [decide (b < 0)],
      RegSt.basis (if decide (b < 0) then natToBits n ((2 ^ n - a.toNat / b.natAbs) % 2 ^ n) else natToBits n (a.toNat / b.natAbs)),
      RegSt.basis (natToBits n (a.toNat % b.natAbs)),
      RegSt.basis [false],
      RegSt.basis [(xor ((if decide (b < 0) then natToBits n ((2 ^ n - a.toNat / b.natAbs) % 2 ^ n) else natToBits n (a.toNat / b.natAbs)).getD (n - 1) false) (decide (b < 0)))]] : QState) 5 n (natToBits n (a.toNat % b.natAbs))
      ⟨2, 0⟩ false rfl rfl (by decide) (length_natToBits n _) hn,
      Option.some_bind]
    rw [show ([RegSt.basis (List.replicate n false),
      RegSt.basis (if decide (b < 0) then natToBits n ((2 ^ n - bitsVal (int_to_twos_complement n b)) % 2 ^ n) else int_to_twos_complement n b),
      RegSt.basis [false],
      RegSt.basis [decide (b < 0)],
      RegSt.basis (if decide (b < 0) then natToBits n ((2 ^ n - a.toNat / b.natAbs) % 2 ^ n) else natToBits n (a.toNat / b.natAbs)),
      RegSt.basis (natToBits n (a.toNat % b.natAbs)),
      RegSt.basis [false],
      RegSt.basis [(xor ((if decide (b < 0) then natToBits n ((2 ^ n - a.toNat / b.natAbs) % 2 ^ n) else natToBits n (a.toNat / b.natAbs)).getD (n - 1) false) (decide (b < 0)))]] : QState).set 5 (RegSt.basis (if false then
      natToBits n ((2 ^ n - bitsVal (natToBits n (a.toNat % b.natAbs))) % 2 ^ n)
      else natToBits n (a.toNat % b.natAbs))) = ([RegSt.basis (List.replicate n false),
      RegSt.basis (if decide (b < 0) then natToBits n ((2 ^ n - bitsVal (int_to_twos_complement n b)) % 2 ^ n) else int_to_twos_complement n b),
      RegSt.basis [false],
      RegSt.basis [decide (b < 0)],
      RegSt.basis (if decide (b < 0) then natToBits n ((2 ^ n - a.toNat / b.natAbs) % 2 ^ n) else natToBits n (a.toNat / b.natAbs)),
      RegSt.basis (natToBits n (a.toNat % b.natAbs)),
      RegSt.basis [false],
      RegSt.basis [(xor ((if decide (b < 0) then natToBits n ((2 ^ n - a.toNat / b.natAbs) % 2 ^ n) else natToBits n (a.toNat / b.natAbs)).getD (n - 1) false) (decide (b < 0)))]] : QState) from rfl]
    rw [run_ctrl_invert_chunks ([RegSt.basis (List.replicate n false),
      RegSt.basis (if decide (b < 0) then natToBits n ((2 ^ n - bitsVal (int_to_twos_complement n b)) % 2 ^ n) else int_to_twos_complement n b),
      RegSt.basis [false],
      RegSt.basis [decide (b < 0)],
      RegSt.basis (if decide (b < 0) then natToBits n ((2 ^ n - a.toNat / b.natAbs) % 2 ^ n) else natToBits n (a.toNat / b.natAbs)),
      RegSt.basis (natToBits n (a.toNat % b.natAbs)),
      RegSt.basis [false],
      RegSt.basis [(xor ((if decide (b < 0) then natToBits n ((2 ^ n - a.toNat / b.natAbs) % 2 ^ n) else natToBits n (a.toNat / b.natAbs)).getD (n - 1) false) (decide (b < 0)))]] : QState) 0 n (List.replicate n false)
      ⟨2, 0⟩ false rfl rfl (by decide) (List.length_replicate n false) hn,
      Option.some_bind]
    rw [show ([RegSt.basis (List.replicate n false),
      RegSt.basis (if decide (b < 0) then natToBits n ((2 ^ n - bitsVal (int_to_twos_complement n b)) % 2 ^ n) else int_to_twos_complement n b),
      RegSt.basis [false],
      RegSt.basis [decide (b < 0)],
      RegSt.basis (if decide (b < 0) then natToBits n ((2 ^ n - a.toNat / b.natAbs) % 2 ^ n) else natToBits n (a.toNat / b.natAbs)),
      RegSt.basis (natToBits n (a.toNat % b.natAbs)),
      RegSt.basis [false],
      RegSt.basis [(xor ((if decide (b < 0) then natToBits n ((2 ^ n - a.toNat / b.natAbs) % 2 ^ n) else natToBits n (a.toNat / b.natAbs)).getD (n - 1) false) (decide (b < 0)))]] : QState).set 0 (RegSt.basis (if false then
      natToBits n ((2 ^ n - bitsVal (List.replicate n false)) % 2 ^ n)
      else List.replicate n false)) = ([RegSt.basis (List.replicate n false),
      RegSt.basis (if decide (b < 0) then natToBits n ((2 ^ n - bitsVal (int_to_twos_complement n b)) % 2 ^ n) else int_to_twos_complement n b),
      RegSt.basis [false],
      RegSt.basis [decide (b < 0)],
      RegSt.basis (if decide (b < 0) then natToBits n ((2 ^ n - a.toNat / b.natAbs) % 2 ^ n) else natToBits n (a.toNat / b.natAbs)),
      RegSt.basis (natToBits n (a.toNat % b.natAbs)),
      RegSt.basis [false],
      RegSt.basis [(xor ((if decide (b < 0) then natToBits n ((2 ^ n - a.toNat / b.natAbs) % 2 ^ n) else natToBits n (a.toNat / b.natAbs)).getD (n - 1) false) (decide (b < 0)))]] : QState) from rfl]
    rw [run_single_cx' ([RegSt.basis (List.replicate n false),
      RegSt.basis (if decide (b < 0) then natToBits n ((2 ^ n - bitsVal (int_to_twos_complement n b)) % 2 ^ n) else int_to_twos_complement n b),
      RegSt.basis [false],
      RegSt.basis [decide (b < 0)],
      RegSt.basis (if decide (b < 0) then natToBits n ((2 ^ n - a.toNat / b.natAbs) % 2 ^ n) else natToBits n (a.toNat / b.natAbs)),
      RegSt.basis (natToBits n (a.toNat % b.natAbs)),
      RegSt.basis [false],
      RegSt.basis [(xor ((if decide (b < 0) then natToBits n ((2 ^ n - a.toNat / b.natAbs) % 2 ^ n) else natToBits n (a.toNat / b.natAbs)).getD (n - 1) false) (decide (b < 0)))]] : QState) 0 2 (n - 1) (List.replicate n false) false rfl rfl
      (by rw [List.length_replicate]; omega) (by omega), Option.some_bind]
    rw [getD_replicate_false n (n - 1)]
    rw [show ([RegSt.basis (List.replicate n false),
      RegSt.basis (if decide (b < 0) then natToBits n ((2 ^ n - bitsVal (int_to_twos_complement n b)) % 2 ^ n) else int_to_twos_complement n b),
      RegSt.basis [false],
      RegSt.basis [decide (b < 0)],
      RegSt.basis (if decide (b < 0) then natToBits n ((2 ^ n - a.toNat / b.natAbs) % 2 ^ n) else natToBits n (a.toNat / b.natAbs)),
      RegSt.basis (natToBits n (a.toNat % b.natAbs)),
      RegSt.basis [false],
      RegSt.basis [(xor ((if decide (b < 0) then natToBits n ((2 ^ n - a.toNat / b.natAbs) % 2 ^ n) else natToBits n (a.toNat / b.natAbs)).getD (n - 1) false) (decide (b < 0)))]] : QState).set 2 (RegSt.basis [xor false false]) = ([RegSt.basis (List.replicate n false),
      RegSt.basis (if decide (b < 0) then natToBits n ((2 ^ n - bitsVal (int_to_twos_complement n b)) % 2 ^ n) else int_to_twos_complement n b),
      RegSt.basis [false],
      RegSt.basis [decide (b < 0)],
      RegSt.basis (if decide (b < 0) then natToBits n ((2 ^ n - a.toNat / b.natAbs) % 2 ^ n) else natToBits n (a.toNat / b.natAbs)),
      RegSt.basis (natToBits n (a.toNat % b.natAbs)),
      RegSt.basis [false],
      RegSt.basis [(xor ((if decide (b < 0) then natToBits n ((2 ^ n - a.toNat / b.natAbs) % 2 ^ n) else natToBits n (a.toNat / b.natAbs)).getD (n - 1) false) (decide (b < 0)))]] : QState) from rfl]
    rw [run_ctrl_invert_chunks ([RegSt.basis (List.replicate n false),
      RegSt.basis (if decide (b < 0) then natToBits n ((2 ^ n - bitsVal (int_to_twos_complement n b)) % 2 ^ n) else int_to_twos_complement n b),
      RegSt.basis [false],
      RegSt.basis [decide (b < 0)],
      RegSt.basis (if decide (b < 0) then natToBits n ((2 ^ n - a.toNat / b.natAbs) % 2 ^ n) else natToBits n (a.toNat / b.natAbs)),
      RegSt.basis (natToBits n (a.toNat % b.natAbs)),
      RegSt.basis [false],
      RegSt.basis [(xor ((if decide (b < 0) then natToBits n ((2 ^ n - a.toNat / b.natAbs) % 2 ^ n) else natToBits n (a.toNat / b.natAbs)).getD (n - 1) false) (decide (b < 0)))]] : QState) 1 n (if decide (b < 0) then natToBits n ((2 ^ n - bitsVal (int_to_twos_complement n b)) % 2 ^ n) else int_to_twos_complement n b) ⟨3, 0⟩ (decide (b < 0))
      rfl rfl (by decide) hb'len hn, Option.some_bind]
    rw [show ([RegSt.basis (List.replicate n false),
      RegSt.basis (if decide (b < 0) then natToBits n ((2 ^ n - bitsVal (int_to_twos_complement n b)) % 2 ^ n) else int_to_twos_complement n b),
      RegSt.basis [false],
      RegSt.basis [decide (b < 0)],
      RegSt.basis (if decide (b < 0) then natToBits n ((2 ^ n - a.toNat / b.natAbs) % 2 ^ n) else natToBits n (a.toNat / b.natAbs)),
      RegSt.basis (natToBits n (a.toNat % b.natAbs)),
      RegSt.basis [false],
      RegSt.basis [(xor ((if decide (b < 0) then natToBits n ((2 ^ n - a.toNat / b.natAbs) % 2 ^ n) else natToBits n (a.toNat / b.natAbs)).getD (n - 1) false) (decide (b < 0)))]] : QState).set 1 (RegSt.basis (if decide (b < 0) then natToBits n ((2 ^ n - bitsVal (if decide (b < 0) then natToBits n ((2 ^ n - bitsVal (int_to_twos_complement n b)) % 2 ^ n) else int_to_twos_complement n b)) % 2 ^ n) else (if decide (b < 0) then natToBits n ((2 ^ n - bitsVal (int_to_twos_complement n b)) % 2 ^ n) else int_to_twos_complement n b))) = ([RegSt.basis (List.replicate n false),
      RegSt.basis (if decide (b < 0) then natToBits n ((2 ^ n - bitsVal (if decide (b < 0) then natToBits n ((2 ^ n - bitsVal (int_to_twos_complement n b)) % 2 ^ n) else int_to_twos_complement n b)) % 2 ^ n) else (if decide (b < 0) then natToBits n ((2 ^ n - bitsVal (int_to_twos_complement n b)) % 2 ^ n) else int_to_twos_complement n b)),
      RegSt.basis [false],
      RegSt.basis [decide (b < 0)],
      RegSt.basis (if decide (b < 0) then natToBits n ((2 ^ n - a.toNat / b.natAbs) % 2 ^ n) else natToBits n (a.toNat / b.natAbs)),
      RegSt.basis (natToBits n (a.toNat % b.natAbs)),
      RegSt.basis [false],
      RegSt.basis [(xor ((if decide (b < 0) then natToBits n ((2 ^ n - a.toNat / b.natAbs) % 2 ^ n) else natToBits n (a.toNat / b.natAbs)).getD (n - 1) false) (decide (b < 0)))]] : QState) from rfl]
    rw [run_single_cx' ([RegSt.basis (List.replicate n false),
      RegSt.basis (if decide (b < 0) then natToBits n ((2 ^ n - bitsVal (if decide (b < 0) then natToBits n ((2 ^ n - bitsVal (int_to_twos_complement n b)) % 2 ^ n) else int_to_twos_complement n b)) % 2 ^ n) else (if decide (b < 0) then natToBits n ((2 ^ n - bitsVal (int_to_twos_complement n b)) % 2 ^ n) else int_to_twos_complement n b)),
      RegSt.basis [false],
      RegSt.basis [decide (b < 0)],
      RegSt.basis (if decide (b < 0) then natToBits n ((2 ^ n - a.toNat / b.natAbs) % 2 ^ n) else natToBits n (a.toNat / b.natAbs)),
      RegSt.basis (natToBits n (a.toNat % b.natAbs)),
      RegSt.basis [false],
      RegSt.basis [(xor ((if decide (b < 0) then natToBits n ((2 ^ n - a.toNat / b.natAbs) % 2 ^ n) else natToBits n (a.toNat / b.natAbs)).getD (n - 1) false) (decide (b < 0)))]] : QState) 1 3 (n - 1) (if decide (b < 0) then natToBits n ((2 ^ n - bitsVal (if decide (b < 0) then natToBits n ((2 ^ n - bitsVal (int_to_twos_complement n b)) % 2 ^ n) else int_to_twos_complement n b)) % 2 ^ n) else (if decide (b < 0) then natToBits n ((2 ^ n - bitsVal (int_to_twos_complement n b)) % 2 ^ n) else int_to_twos_complement n b)) (decide (b < 0)) rfl rfl
      (by rw [hlenJB]; omega) (by omega)]
    rw [show ([RegSt.basis (List.replicate n false),
      RegSt.basis (if decide (b < 0) then natToBits n ((2 ^ n - bitsVal (if decide (b < 0) then natToBits n ((2 ^ n - bitsVal (int_to_twos_complement n b)) % 2 ^ n) else int_to_twos_complement n b)) % 2 ^ n) else (if decide (b < 0) then natToBits n ((2 ^ n - bitsVal (int_to_twos_complement n b)) % 2 ^ n) else int_to_twos_complement n b)),
      RegSt.basis [false],
      RegSt.basis [decide (b < 0)],
      RegSt.basis (if decide (b < 0) then natToBits n ((2 ^ n - a.toNat / b.natAbs) % 2 ^ n) else natToBits n (a.toNat / b.natAbs)),
      RegSt.basis (natToBits n (a.toNat % b.natAbs)),
      RegSt.basis [false],
      RegSt.basis [(xor ((if decide (b < 0) then natToBits n ((2 ^ n - a.toNat / b.natAbs) % 2 ^ n) else natToBits n (a.toNat / b.natAbs)).getD (n - 1) false) (decide (b < 0)))]] : QState).set 3 (RegSt.basis [(xor ((if decide (b < 0) then natToBits n ((2 ^ n - bitsVal (if decide (b < 0) then natToBits n ((2 ^ n - bitsVal (int_to_twos_complement n b)) % 2 ^ n) else int_to_twos_complement n b)) % 2 ^ n) else (if decide (b < 0) then natToBits n ((2 ^ n - bitsVal (int_to_twos_complement n b)) % 2 ^ n) else int_to_twos_complement n b)).getD (n - 1) false) (decide (b < 0)))]) = ([RegSt.basis (List.replicate n false),
      RegSt.basis (if decide (b < 0) then natToBits n ((2 ^ n - bitsVal (if decide (b < 0) then natToBits n ((2 ^ n - bitsVal (int_to_twos_complement n b)) % 2 ^ n) else int_to_twos_complement n b)) % 2 ^ n) else (if decide (b < 0) then natToBits n ((2 ^ n - bitsVal (int_to_twos_complement n b)) % 2 ^ n) else int_to_twos_complement n b)),
      RegSt.basis [false],
      RegSt.basis [(xor ((if decide (b < 0) then natToBits n ((2 ^ n - bitsVal (if decide (b < 0) then natToBits n ((2 ^ n - bitsVal (int_to_twos_complement n b)) % 2 ^ n) else int_to_twos_complement n b)) % 2 ^ n) else (if decide (b < 0) then natToBits n ((2 ^ n - bitsVal (int_to_twos_complement n b)) % 2 ^ n) else int_to_twos_complement n b)).getD (n - 1) false) (decide (b < 0)))],
      RegSt.basis (if decide (b < 0) then natToBits n ((2 ^ n - a.toNat / b.natAbs) % 2 ^ n) else natToBits n (a.toNat / b.natAbs)),
      RegSt.basis (natToBits n (a.toNat % b.natAbs)),
      RegSt.basis [false],
      RegSt.basis [(xor ((if decide (b < 0) then natToBits n ((2 ^ n - a.toNat / b.natAbs) % 2 ^ n) else natToBits n (a.toNat / b.natAbs)).getD (n - 1) false) (decide (b < 0)))]] : QState) from rfl]
  · rw [show QState.decodeReg ([RegSt.basis (List.replicate n false),
      RegSt.basis (if decide (b < 0) then natToBits n ((2 ^ n - bitsVal (if decide (b < 0) then natToBits n ((2 ^ n - bitsVal (int_to_twos_complement n b)) % 2 ^ n) else int_to_twos_complement n b)) % 2 ^ n) else (if decide (b < 0) then natToBits n ((2 ^ n - bitsVal (int_to_twos_complement n b)) % 2 ^ n) else int_to_twos_complement n b)),
      RegSt.basis [false],
      RegSt.basis [(xor ((if decide (b < 0) then natToBits n ((2 ^ n - bitsVal (if decide (b < 0) then natToBits n ((2 ^ n - bitsVal (int_to_twos_complement n b)) % 2 ^ n) else int_to_twos_complement n b)) % 2 ^ n) else (if decide (b < 0) then natToBits n ((2 ^ n - bitsVal (int_to_twos_complement n b)) % 2 ^ n) else int_to_twos_complement n b)).getD (n - 1) false) (decide (b < 0)))],
      RegSt.basis (if decide (b < 0) then natToBits n ((2 ^ n - a.toNat / b.natAbs) % 2 ^ n) else natToBits n (a.toNat / b.natAbs)),
      RegSt.basis (natToBits n (a.toNat % b.natAbs)),
      RegSt.basis [false],
      RegSt.basis [(xor ((if decide (b < 0) then natToBits n ((2 ^ n - a.toNat / b.natAbs) % 2 ^ n) else natToBits n (a.toNat / b.natAbs)).getD (n - 1) false) (decide (b < 0)))]] : QState) 4
      = some (decode_twos_complement (if decide (b < 0) then natToBits n ((2 ^ n - a.toNat / b.natAbs) % 2 ^ n) else natToBits n (a.toNat / b.natAbs))) from rfl]
    rw [c2_quot_decode n (a.toNat / b.natAbs) b hn2
      (by have := Nat.div_le_self a.toNat b.natAbs; omega),
      tdiv_pos_abs a b (by omega) hb]
  · rw [show QState.decodeReg ([RegSt.basis (List.replicate n false),
      RegSt.basis (if decide (b < 0) then natToBits n ((2 ^ n - bitsVal (if decide (b < 0) then natToBits n ((2 ^ n - bitsVal (int_to_twos_complement n b)) % 2 ^ n) else int_to_twos_complement n b)) % 2 ^ n) else (if decide (b < 0) then natToBits n ((2 ^ n - bitsVal (int_to_twos_complement n b)) % 2 ^ n) else int_to_twos_complement n b)),
      RegSt.basis [false],
      RegSt.basis [(xor ((if decide (b < 0) then natToBits n ((2 ^ n - bitsVal (if decide (b < 0) then natToBits n ((2 ^ n - bitsVal (int_to_twos_complement n b)) % 2 ^ n) else int_to_twos_complement n b)) % 2 ^ n) else (if decide (b < 0) then natToBits n ((2 ^ n - bitsVal (int_to_twos_complement n b)) % 2 ^ n) else int_to_twos_complement n b)).getD (n - 1) false) (decide (b < 0)))],
      RegSt.basis (if decide (b < 0) then natToBits n ((2 ^ n - a.toNat / b.natAbs) % 2 ^ n) else natToBits n (a.toNat / b.natAbs)),
      RegSt.basis (natToBits n (a.toNat % b.natAbs)),
      RegSt.basis [false],
      RegSt.basis [(xor ((if decide (b < 0) then natToBits n ((2 ^ n - a.toNat / b.natAbs) % 2 ^ n) else natToBits n (a.toNat / b.natAbs)).getD (n - 1) false) (decide (b < 0)))]] : QState) 5
      = some (decode_twos_complement (natToBits n (a.toNat % b.natAbs))) from rfl]
    have hR : a.toNat % b.natAbs < b.natAbs := Nat.mod_lt _ (by omega)
    rw [decode_natToBits n _ hn2 (by omega), if_pos (by omega),
      tdiv_mul_sub a b (by omega) hb]


/-- C2: for every positive dividend `a` and nonzero divisor `b`
representable in the configured bit width, the signed division circuit
built by `div` produces a quotient register decoding to `a / b`
truncated toward zero (`Int.tdiv`) and a remainder register decoding to
`a - quotient * b`; in particular the decoded quotient carries the sign
`sign(a) XOR sign(b)` and the decoded remainder the (positive) sign of
`a`. -/
theorem C2_div_quotient_remainder (n : ℕ) (a b : ℤ) (hn : 0 < n)
    (ha_pos : 0 < a) (hahi : a ≤ 2 ^ (n - 1) - 1)
    (hb : b ≠ 0) (hblo : -2 ^ (n - 1) ≤ b) (hbhi : b ≤ 2 ^ (n - 1) - 1) :
    ∃ qc qout rem st, c2Build n a b = some (qc, qout, rem)
      ∧ qc.exec = some st
      ∧ st.decodeReg qout = some (a.tdiv b)
      ∧ st.decodeReg rem = some (a - a.tdiv b * b) := by
  have halo : -2 ^ (n - 1) ≤ a := by
    have hP : (0 : ℤ) < 2 ^ (n - 1) := by positivity
    omega
  obtain ⟨st, hexec, hq, hr⟩ := c2_pipeline n a b hn ha_pos hahi hb hblo hbhi
  exact ⟨_, 4, 5, st, c2Build_eq n a b halo hahi hblo hbhi, hexec, hq, hr⟩

theorem C2_div_quotient_remainder_witness :
    ((0 : ℕ) < 4 ∧ (0 : ℤ) < 7 ∧ (7 : ℤ) ≤ 2 ^ (4 - 1) - 1 ∧ (-3 : ℤ) ≠ 0
      ∧ -2 ^ (4 - 1) ≤ (-3 : ℤ) ∧ (-3 : ℤ) ≤ 2 ^ (4 - 1) - 1)
    ∧ ∃ qc qout rem st, c2Build 4 7 (-3) = some (qc, qout, rem)
      ∧ qc.exec = some st
      ∧ st.decodeReg qout = some ((7 : ℤ).tdiv (-3))
      ∧ st.decodeReg rem = some (7 - (7 : ℤ).tdiv (-3) * (-3)) :=
  ⟨⟨by norm_num, by norm_num, by norm_num, by norm_num, by norm_num,
    by norm_num⟩,
   C2_div_quotient_remainder 4 7 (-3) (by norm_num) (by norm_num)
     (by norm_num) (by norm_num) (by norm_num) (by norm_num)⟩

end QuantumC
